import Mathlib

/-!
# NDN forwarding plane: LRU cache policy and forwarder pipelines

A shallow embedding of

* `NFD/daemon/table/cs-policy-lru.cpp` (the LRU eviction policy of the content store),
* `NFD/daemon/fw/forwarder.cpp` (the Interest / Data / Nack pipelines and the PIT timers),
* `apps/ndn-producer.cpp` (the Data a producer builds for an Interest), and
* `ndn-cxx/src/data.cpp` (the head of the function string and the wire format of a Data),

followed by theorems about the embedded definitions.

Conventions: a `BOOST_ASSERT` that fails is the result `none`; containers of the
source are lists in the container's iteration order; every object that the source
reaches through a pointer or iterator carries a numeric identity.
-/

set_option linter.unusedVariables false

/-! ## Part 1. Definitions -/

/-! ### The LRU policy (`cs-policy-lru.cpp`) -/

namespace LruPolicy

/-- The policy together with the cache it is attached to: `table` lists the entries
of the cache table (`getCs()->size()` is its length), `m_queue` is the recency
queue of table iterators (front = first element), `limit` is `getLimit()`. -/
structure State where
  table : List Nat
  m_queue : List Nat
  limit : Nat
deriving DecidableEq, Repr

/-- Modelled from the spec: the cache-side handler of the `beforeEvict` signal, which
is not in `cs-policy-lru.cpp`; the spec says a cache entry is "destroyed by the
eviction policy when capacity is exceeded", so the handler removes the entry from
the table. -/
def onBeforeEvict (table : List Nat) (i : Nat) : List Nat :=
  table.erase i

/-- The `while` loop of `LruPolicy::evictEntries`, by recursion on the queue (every
iteration pops the queue front). Result: the table, the queue, and the entries for
which `beforeEvict` was emitted, in emission order. `none`: the assertion
`!m_queue.empty()` failed. -/
def evictLoop (limit : Nat) : List Nat → List Nat → Option (List Nat × List Nat × List Nat)
  | table, [] =>
    if table.length > limit then none else some (table, [], [])
  | table, i :: rest =>
    if table.length > limit then
      match evictLoop limit (onBeforeEvict table i) rest with
      | none => none
      | some (t, q, ev) => some (t, q, i :: ev)
    else some (table, i :: rest, [])

/-- `LruPolicy::evictEntries`: the new state and the evicted entries in order. -/
def evictEntries (s : State) : Option (State × List Nat) :=
  match evictLoop s.limit s.table s.m_queue with
  | none => none
  | some (t, q, ev) => some ({ s with table := t, m_queue := q }, ev)

/-- `LruPolicy::insertToQueue`: `push_back` appends `i` only if the queue does not
hold it (the queue has a unique index on the iterator); the assertion compares
`isNew` with `isNewEntry`; an entry that is not new is relocated to the end. -/
def insertToQueue (s : State) (i : Nat) (isNewEntry : Bool) : Option State :=
  let isNew : Bool := !(s.m_queue.contains i)
  let pushed : List Nat := if isNew then s.m_queue ++ [i] else s.m_queue
  if isNew != isNewEntry then none
  else if !isNewEntry then some { s with m_queue := pushed.erase i ++ [i] }
  else some { s with m_queue := pushed }

/-- `LruPolicy::doAfterInsert`. -/
def doAfterInsert (s : State) (i : Nat) : Option (State × List Nat) :=
  match insertToQueue s i true with
  | none => none
  | some s1 => evictEntries s1

/-- `LruPolicy::doAfterRefresh`. -/
def doAfterRefresh (s : State) (i : Nat) : Option State :=
  insertToQueue s i false

/-- `LruPolicy::doBeforeErase`: erase by key from the unique index of the queue. -/
def doBeforeErase (s : State) (i : Nat) : State :=
  { s with m_queue := s.m_queue.erase i }

/-- `LruPolicy::doBeforeUse`. -/
def doBeforeUse (s : State) (i : Nat) : Option State :=
  insertToQueue s i false

/-- An operation of the cache on its table, as seen by the policy. -/
inductive CsOp where
  | insert (i : Nat)
  | find (i : Nat)
  | erase (i : Nat)
deriving DecidableEq, Repr

/-- Modelled from the spec: the cache that drives the policy is not in
`cs-policy-lru.cpp`. Following the spec ("created on Data arrival", "replaced on refresh
of the same name", "a strategy object invoked on insert/refresh/use/erase"): an insert
of an entry that is not cached adds it to the table and notifies `doAfterInsert`, an
insert of a cached entry notifies `doAfterRefresh`, a lookup hit notifies
`doBeforeUse`, an erase of a cached entry notifies `doBeforeErase` and then removes the
entry. The second component lists the entries evicted by the operation. -/
def applyOp (s : State) : CsOp → Option (State × List Nat)
  | .insert i =>
    if s.table.contains i then (doAfterRefresh s i).map (fun s1 => (s1, []))
    else doAfterInsert { s with table := s.table ++ [i] } i
  | .find i =>
    if s.table.contains i then (doBeforeUse s i).map (fun s1 => (s1, []))
    else some (s, [])
  | .erase i =>
    if s.table.contains i then
      let s1 := doBeforeErase s i
      some ({ s1 with table := s1.table.erase i }, [])
    else some (s, [])

/-- A sequence of cache operations, left to right; stops at a failed assertion. -/
def run (s : State) : List CsOp → Option State
  | [] => some s
  | op :: ops =>
    match applyOp s op with
    | none => none
    | some (s1, _) => run s1 ops

/-- The queue holds exactly the cached entries, each once. -/
def Consistent (s : State) : Prop :=
  s.table.Nodup ∧ s.m_queue.Perm s.table

/-- The empty cache with the given limit. -/
def empty (limit : Nat) : State :=
  { table := [], m_queue := [], limit := limit }

/-- Whether the operation touches entry `i` (insert, refresh or use of `i`). -/
def touches (i : Nat) : CsOp → Bool
  | .insert j => j == i
  | .find j => j == i
  | .erase _ => false

/-- Recency stamp over a history given newest first: the 1-based position, counted from
the oldest operation, of the newest operation that touches `i`; `0` if there is none. -/
def lastTouchRev (i : Nat) : List CsOp → Nat
  | [] => 0
  | op :: older => if touches i op then older.length + 1 else lastTouchRev i older

/-- Recency stamp of entry `i` after the history `h` (oldest operation first). -/
def lastTouch (h : List CsOp) (i : Nat) : Nat :=
  lastTouchRev i h.reverse

/-- The queue is in recency order for the history `h`: an entry nearer the front has an
older last touch. -/
def Recent (h : List CsOp) (q : List Nat) : Prop :=
  q.Pairwise (fun a b => lastTouch h a < lastTouch h b)

end LruPolicy

/-! ### The forwarder (`forwarder.cpp`): data model -/

namespace Forwarder

/-- A name: the list of its components; the empty list is the name with URI `/`. -/
abbrev Name := List String

/-- The reserved prefix `scope_prefix::LOCALHOST`: `/localhost`, as the drop messages
of the source name it ("violates /localhost"). -/
def LOCALHOST : Name := ["localhost"]

/-- Face scope (`ndn::nfd::FaceScope`). -/
inductive FaceScope where
  | FACE_SCOPE_NON_LOCAL
  | FACE_SCOPE_LOCAL
deriving DecidableEq, Repr

/-- Face link type (`ndn::nfd::LinkType`). -/
inductive LinkType where
  | LINK_TYPE_POINT_TO_POINT
  | LINK_TYPE_MULTI_ACCESS
deriving DecidableEq, Repr

/-- A face as the forwarder sees it: its id, scope and link type. A `Face&` or `Face*`
of the source is the value of this record. -/
structure Face where
  id : Nat
  scope : FaceScope
  linkType : LinkType
deriving DecidableEq, Repr

/-- The fields of an Interest that the pipelines read: name, selectors (`mustBeFresh`
and an encoding of the others), nonce, lifetime, the function-chain name of the
service-chaining overlay, its service time, and the tags `NextHopFaceIdTag` and
`IncomingFaceIdTag`. -/
structure Interest where
  name : Name
  mustBeFresh : Bool
  otherSelectors : Nat
  nonce : Nat
  lifetime : Int
  function : Name
  serviceTime : Int
  nextHopFaceIdTag : Option Nat
  incomingFaceIdTag : Option Nat
deriving DecidableEq, Repr

/-- The fields of a Data that the pipelines read or write: name, freshness period in
milliseconds (negative: no FreshnessPeriod field), service time, content, and the tags
(`IncomingFaceIdTag`, `HopCountTag`, `FunctionNameTag`, the hop tag and `CountTag` of the
overlay). -/
structure Data where
  name : Name
  freshnessPeriod : Int
  serviceTime : Int
  content : Nat
  incomingFaceIdTag : Option Nat
  hopCountTag : Option Nat
  functionNameTag : Option Name
  hopTag : Option Nat
  countTag : Option Nat
deriving DecidableEq, Repr

/-- Nack reasons (`lp::NackReason`). -/
inductive NackReason where
  | NONE
  | CONGESTION
  | DUPLICATE
  | NO_ROUTE
deriving DecidableEq, Repr

/-- A Nack: the Interest it refers to and its reason (`lp::Nack`). -/
structure Nack where
  interest : Interest
  reason : NackReason
deriving DecidableEq, Repr

/-- An in-record of a PIT entry. -/
structure InRecord where
  face : Face
  lastNonce : Nat
  expiry : Int
  sequenceNumber : Nat
  interest : Interest
deriving DecidableEq, Repr

/-- An out-record of a PIT entry. -/
structure OutRecord where
  face : Face
  lastNonce : Nat
  lastRenewed : Int
  incomingNack : Option Nack
deriving DecidableEq, Repr

/-- A PIT entry object. `id` is the identity of the object behind
`shared_ptr<pit::Entry>`; the two timer fields are scheduler event ids (`none`: a
default-constructed `EventId`). Cancelling a timer removes the event from the scheduler
and leaves the field as it is, as `scheduler::cancel` takes the id by value. -/
structure PitEntry where
  id : Nat
  interest : Interest
  inRecords : List InRecord
  outRecords : List OutRecord
  m_unsatisfyTimer : Option Nat
  m_stragglerTimer : Option Nat
deriving DecidableEq, Repr

/-- The callback bound into a scheduled event: `onInterestUnsatisfied(pitEntry)` or
`onInterestFinalize(pitEntry, isSatisfied, dataFreshnessPeriod)`; `entry` is the
identity of the bound `shared_ptr<pit::Entry>`. -/
inductive Callback where
  | unsatisfied (entry : Nat)
  | finalize (entry : Nat) (isSatisfied : Bool) (dataFreshnessPeriod : Int)
deriving DecidableEq, Repr

/-- The PIT entry object a callback is bound to. -/
def Callback.entry : Callback → Nat
  | .unsatisfied e => e
  | .finalize e _ _ => e

/-- A pending scheduler event. -/
structure Event where
  id : Nat
  delay : Int
  callback : Callback
deriving DecidableEq, Repr

/-- The extension points of the strategy. -/
inductive ExtensionPoint where
  | afterReceiveInterest
  | beforeSatisfyInterest
  | beforeExpirePendingInterest
  | afterReceiveNack
deriving DecidableEq, Repr

/-- What leaves the forwarder or reaches a collaborator, in the order it happens. -/
inductive Effect where
  | sendInterest (face : Face) (interest : Interest)
  | sendData (face : Face) (data : Data)
  | sendNack (face : Face) (nack : Nack)
  | csLookup (interest : Interest)
  | csInsert (data : Data) (latency : Option Int) (now : Option Int)
  | csInsertUnsolicited (data : Data)
  | strategy (point : ExtensionPoint) (entry : Nat)
deriving DecidableEq, Repr

/-- The forwarder counters. -/
structure Counters where
  nInInterests : Nat
  nOutInterests : Nat
  nInData : Nat
  nOutData : Nat
  nInNacks : Nat
  nOutNacks : Nat
deriving DecidableEq, Repr

/-- The forwarder state: the PIT (`m_pit`) with the identity the next created entry
gets, the scheduler queue with the id the next scheduled event gets, the dead nonce
list, the counters, and the log of effects. -/
structure State where
  m_pit : List PitEntry
  nextEntryId : Nat
  events : List Event
  nextEventId : Nat
  m_deadNonceList : List (Name × Nat)
  m_counters : Counters
  effects : List Effect
deriving DecidableEq, Repr

/-- A call a strategy makes back into the forwarder for the PIT entry it was given:
`sendInterest` (to `onOutgoingInterest`), `rejectPendingInterest` (to
`onInterestReject`), `sendNack` (to `onOutgoingNack`). -/
inductive StrategyAction where
  | sendInterest (outFace : Face) (interest : Interest)
  | rejectPendingInterest
  | sendNack (outFace : Face) (reason : NackReason)
deriving DecidableEq, Repr

/-- The answers of the collaborators during one event. None of them is in
`forwarder.cpp`; each is an arbitrary function here.
* `now`: `time::steady_clock::now()`.
* `csMatch`: the result of the cache lookup for an Interest.
* `faceTable`: `m_faceTable.get`.
* `functionChaining`: the service-chaining overlay of `onContentStoreMiss`
  (lines 237-1155): the Interest with its function fields rewritten and the result of
  the function FIB lookup (`none`: `nullptr`), or `none` when that code does not
  return a defined result.
* `dataOverlay`: the overlay of `onIncomingData` (lines 1403-2093) rewriting the
  Data, or `none` when that code does not return.
* `matchesData`: whether a PIT entry is a match of `findAllDataMatches`.
* `hasPendingOutRecords`: `fw::hasPendingOutRecords`.
* `unsolicitedCache`: whether the unsolicited-data policy decides `CACHE`.
* `lifetimeDnl`: `m_deadNonceList.getLifetime()` in milliseconds.
* `sequenceNumber`: the sequence number an in-record takes from this Interest.
* `choiceType`, `currentNode`, `fibFcc`: `ns3::getChoiceType()`, `getNode()->GetId()`
  and `m_fib.getFcc()`.
* `faceidContentStore`, `INVALID_FACEID`: the constants `face::FACEID_CONTENT_STORE` and
  `face::INVALID_FACEID`.
* `defaultFreshnessPeriod`: the default argument `dataFreshnessPeriod` of
  `setStragglerTimer` and `onInterestFinalize`, declared in the header; it is only ever
  passed together with `isSatisfied = false`, where `insertDeadNonceList` does not read
  it.
* `strategy`: the calls the strategy makes at an extension point for an entry. -/
structure Env where
  now : Int
  csMatch : Interest → Option Data
  faceTable : Nat → Option Face
  functionChaining : Interest → Option (Interest × Option (List Face))
  dataOverlay : Data → Option Data
  matchesData : PitEntry → Data → Bool
  hasPendingOutRecords : PitEntry → Bool
  unsolicitedCache : Face → Data → Bool
  lifetimeDnl : Int
  sequenceNumber : Interest → Nat
  choiceType : Nat
  currentNode : Nat
  fibFcc : Nat
  faceidContentStore : Nat
  INVALID_FACEID : Nat
  defaultFreshnessPeriod : Int
  strategy : ExtensionPoint → PitEntry → List StrategyAction

/-! ### The forwarder: PIT, scheduler and dead nonce list primitives -/

/-- The PIT entry object with the given identity, if it is in the table. -/
def findEntry (s : State) (id : Nat) : Option PitEntry :=
  s.m_pit.find? (fun e => e.id == id)

/-- Apply `f` to the PIT entry object with the given identity. -/
def modifyEntry (s : State) (id : Nat) (f : PitEntry → PitEntry) : State :=
  { s with m_pit := s.m_pit.map (fun e => if e.id = id then f e else e) }

/-- Append an effect to the log. -/
def emit (s : State) (e : Effect) : State :=
  { s with effects := s.effects ++ [e] }

/-- Whether two Interests are the same request: same name and selectors. -/
def sameRequest (a b : Interest) : Bool :=
  a.name == b.name && a.mustBeFresh == b.mustBeFresh && a.otherSelectors == b.otherSelectors

/-- Modelled from the spec: `Pit::insert` is not in the sources. Spec 4.1 step 2: "locate
or create the PIT entry for (name, selectors)". The result is the state and the identity
of the located or created entry object. -/
def Pit.insert (s : State) (interest : Interest) : State × Nat :=
  match s.m_pit.find? (fun e => sameRequest e.interest interest) with
  | some e => (s, e.id)
  | none =>
    ({ s with
        m_pit := s.m_pit ++ [PitEntry.mk s.nextEntryId interest [] [] none none],
        nextEntryId := s.nextEntryId + 1 },
      s.nextEntryId)

/-- Modelled from the spec: `Pit::erase` is not in the sources. Spec 4.1 step 11: "delete
the PIT entry". -/
def Pit.erase (s : State) (id : Nat) : State :=
  { s with m_pit := s.m_pit.filter (fun e => e.id != id) }

/-- Modelled from the spec: `scheduler::cancel` is not in the sources. Spec 5:
"cancellation is synchronous and idempotent (cancelling an already-fired or never-armed
timer is a no-op)". -/
def scheduler.cancel (events : List Event) (timer : Option Nat) : List Event :=
  match timer with
  | none => events
  | some id => events.filter (fun ev => ev.id != id)

/-- Modelled from the spec: `scheduler::schedule` is not in the sources. It queues the
callback and returns a handle (spec 9: "an explicit scheduler that returns a
cancellable handle"); handles are never reused. -/
def scheduler.schedule (s : State) (delay : Int) (cb : Callback) : State × Nat :=
  ({ s with events := s.events ++ [Event.mk s.nextEventId delay cb],
            nextEventId := s.nextEventId + 1 },
    s.nextEventId)

/-- Whether the timer handle refers to a pending event. -/
def armed (s : State) (timer : Option Nat) : Bool :=
  match timer with
  | none => false
  | some id => s.events.any (fun ev => ev.id == id)

/-- Modelled from the spec: `pit::Entry::insertOrUpdateInRecord` is not in the sources.
Spec 3: in-records map a face to "last nonce seen, expiry time, monotonically increasing
sequence number"; an existing record of the face is refreshed in place, a new one is put
at the front. The expiry is `now` plus the Interest lifetime. -/
def insertOrUpdateInRecord (env : Env) (e : PitEntry) (face : Face) (interest : Interest) :
    PitEntry :=
  let r : InRecord :=
    InRecord.mk face interest.nonce (env.now + interest.lifetime) (env.sequenceNumber interest)
      interest
  if e.inRecords.any (fun x => x.face == face) then
    { e with inRecords := e.inRecords.map (fun x => if x.face = face then r else x) }
  else { e with inRecords := r :: e.inRecords }

/-- Modelled from the spec: `pit::Entry::insertOrUpdateOutRecord` is not in the sources.
Spec 4.1 step 8: "record an out-record (face, nonce, timestamp) on the entry". -/
def insertOrUpdateOutRecord (env : Env) (e : PitEntry) (face : Face) (interest : Interest) :
    PitEntry :=
  let r : OutRecord := OutRecord.mk face interest.nonce env.now none
  if e.outRecords.any (fun x => x.face == face) then
    { e with outRecords := e.outRecords.map (fun x => if x.face = face then r else x) }
  else { e with outRecords := e.outRecords ++ [r] }

/-- Modelled from the spec: `pit::Entry::deleteInRecord` is not in the sources; it removes
the in-record of the face. -/
def deleteInRecord (e : PitEntry) (face : Face) : PitEntry :=
  { e with inRecords := e.inRecords.filter (fun x => x.face != face) }

/-- Modelled from the spec: `pit::Entry::clearInRecords` is not in the sources; it removes
all in-records. -/
def clearInRecords (e : PitEntry) : PitEntry :=
  { e with inRecords := [] }

/-- Modelled from the spec: `pit::Entry::deleteOutRecord` is not in the sources; it
removes the out-record of the face. -/
def deleteOutRecord (e : PitEntry) (face : Face) : PitEntry :=
  { e with outRecords := e.outRecords.filter (fun x => x.face != face) }

/-- Modelled from the spec: `DeadNonceList::has` is not in the sources. Spec 3: the log
holds "(name, nonce)" pairs and is "consulted, never mutated, on new-request admission". -/
def DeadNonceList.has (s : State) (name : Name) (nonce : Nat) : Bool :=
  s.m_deadNonceList.contains (name, nonce)

/-- Modelled from the spec: `DeadNonceList::add` is not in the sources; it records the
pair. -/
def DeadNonceList.add (s : State) (name : Name) (nonce : Nat) : State :=
  { s with m_deadNonceList := s.m_deadNonceList ++ [(name, nonce)] }

/-- Modelled from the spec: `fw::findDuplicateNonce` is not in the sources. Spec 4.1
step 3: "the nonce matches one already recorded in an in-record from a different face".
The result is whether the return value differs from `DUPLICATE_NONCE_NONE`. -/
def findDuplicateNonce (e : PitEntry) (nonce : Nat) (face : Face) : Bool :=
  e.inRecords.any (fun r => r.lastNonce == nonce && r.face != face)

/-- `scope_prefix::LOCALHOST.isPrefixOf(name)`. -/
def underLocalhost (name : Name) : Bool :=
  LOCALHOST.isPrefixOf name

/-! ### The forwarder: timers and the dead nonce list policy -/

/-- `Forwarder::cancelUnsatisfyAndStragglerTimer`. `none`: the entry object is not in
the table. -/
def cancelUnsatisfyAndStragglerTimer (s : State) (id : Nat) : Option State :=
  match findEntry s id with
  | none => none
  | some e =>
    let events1 := scheduler.cancel s.events e.m_unsatisfyTimer
    some { s with events := scheduler.cancel events1 e.m_stragglerTimer }

/-- `std::max_element` with `compare_InRecord_expiry`: the first in-record with the
largest expiry; `none` for an empty collection (the end iterator). -/
def lastExpiring : List InRecord → Option InRecord
  | [] => none
  | r :: rs => some (rs.foldl (fun best x => if best.expiry < x.expiry then x else best) r)

/-- `Forwarder::setUnsatisfyTimer`. `none`: the end iterator is dereferenced, or the
entry object is not in the table. -/
def setUnsatisfyTimer (env : Env) (s : State) (id : Nat) : Option State :=
  match findEntry s id with
  | none => none
  | some e =>
    match lastExpiring e.inRecords with
    | none => none
    | some r =>
      let lastExpiryFromNow := r.expiry - env.now
      let s1 := { s with events := scheduler.cancel s.events e.m_unsatisfyTimer }
      let sh := scheduler.schedule s1 lastExpiryFromNow (.unsatisfied id)
      some (modifyEntry sh.1 id (fun x => { x with m_unsatisfyTimer := some sh.2 }))

/-- The straggler time of `setStragglerTimer`, `time::milliseconds(500000)`, in
nanoseconds. -/
def stragglerTime : Int := 500000 * 1000000

/-- `Forwarder::setStragglerTimer`. -/
def setStragglerTimer (s : State) (id : Nat) (isSatisfied : Bool)
    (dataFreshnessPeriod : Int) : Option State :=
  match findEntry s id with
  | none => none
  | some e =>
    let s1 := { s with events := scheduler.cancel s.events e.m_stragglerTimer }
    let sh := scheduler.schedule s1 stragglerTime (.finalize id isSatisfied dataFreshnessPeriod)
    some (modifyEntry sh.1 id (fun x => { x with m_stragglerTimer := some sh.2 }))

/-- The decision `needDnl` of `Forwarder::insertDeadNonceList`. -/
def needDnl (env : Env) (e : PitEntry) (isSatisfied : Bool) (dataFreshnessPeriod : Int) :
    Bool :=
  if isSatisfied then
    let hasFreshnessPeriod : Bool := decide (dataFreshnessPeriod ≥ 0)
    e.interest.mustBeFresh &&
      (hasFreshnessPeriod && decide (dataFreshnessPeriod < env.lifetimeDnl))
  else true

/-- The `static` helper `insertNonceToDnl`. -/
def insertNonceToDnl (s : State) (e : PitEntry) (outRecord : OutRecord) : State :=
  DeadNonceList.add s e.interest.name outRecord.lastNonce

/-- `Forwarder::insertDeadNonceList`; `upstream = none` is the null pointer. -/
def insertDeadNonceList (env : Env) (s : State) (id : Nat) (isSatisfied : Bool)
    (dataFreshnessPeriod : Int) (upstream : Option Face) : Option State :=
  match findEntry s id with
  | none => none
  | some e =>
    if !(needDnl env e isSatisfied dataFreshnessPeriod) then some s
    else
      match upstream with
      | none => some (e.outRecords.foldl (fun st r => insertNonceToDnl st e r) s)
      | some face =>
        match e.outRecords.find? (fun r => r.face == face) with
        | some outRecord => some (DeadNonceList.add s e.interest.name outRecord.lastNonce)
        | none => some s

/-! ### The forwarder: pipelines -/

/-- `Forwarder::onOutgoingInterest`. -/
def onOutgoingInterest (env : Env) (s : State) (id : Nat) (outFace : Face)
    (interest : Interest) : Option State :=
  match findEntry s id with
  | none => none
  | some _ =>
    let s1 := modifyEntry s id (fun e => insertOrUpdateOutRecord env e outFace interest)
    let s2 := emit s1 (.sendInterest outFace interest)
    some { s2 with
      m_counters := { s2.m_counters with nOutInterests := s2.m_counters.nOutInterests + 1 } }

/-- `Forwarder::onInterestReject`. -/
def onInterestReject (env : Env) (s : State) (id : Nat) : Option State :=
  match findEntry s id with
  | none => none
  | some e =>
    if env.hasPendingOutRecords e then some s
    else
      match cancelUnsatisfyAndStragglerTimer s id with
      | none => none
      | some s1 => setStragglerTimer s1 id false env.defaultFreshnessPeriod

/-- `Forwarder::onOutgoingNack`. -/
def onOutgoingNack (env : Env) (s : State) (id : Nat) (outFace : Face)
    (reason : NackReason) : Option State :=
  match findEntry s id with
  | none => none
  | some e =>
    if outFace.id = env.INVALID_FACEID then some s
    else
      match e.inRecords.find? (fun r => r.face == outFace) with
      | none => some s
      | some inRecord =>
        if outFace.linkType = .LINK_TYPE_MULTI_ACCESS then some s
        else
          let nackPkt := Nack.mk inRecord.interest reason
          let s1 := modifyEntry s id (fun x => deleteInRecord x outFace)
          let s2 := emit s1 (.sendNack outFace nackPkt)
          some { s2 with
            m_counters := { s2.m_counters with nOutNacks := s2.m_counters.nOutNacks + 1 } }

/-- One call of the strategy back into the forwarder, for the entry `id`. -/
def applyStrategyAction (env : Env) (s : State) (id : Nat) : StrategyAction → Option State
  | .sendInterest outFace interest => onOutgoingInterest env s id outFace interest
  | .rejectPendingInterest => onInterestReject env s id
  | .sendNack outFace reason => onOutgoingNack env s id outFace reason

/-- The calls of the strategy, in order. -/
def runStrategyActions (env : Env) (id : Nat) : State → List StrategyAction → Option State
  | s, [] => some s
  | s, a :: rest =>
    match applyStrategyAction env s id a with
    | none => none
    | some s1 => runStrategyActions env id s1 rest

/-- `Forwarder::dispatchToStrategy` at an extension point: the invocation is logged and
the strategy makes its calls. -/
def dispatchToStrategy (env : Env) (s : State) (point : ExtensionPoint) (id : Nat) :
    Option State :=
  match findEntry s id with
  | none => none
  | some e => runStrategyActions env id (emit s (.strategy point id)) (env.strategy point e)

/-- `Forwarder::onInterestFinalize`. -/
def onInterestFinalize (env : Env) (s : State) (id : Nat) (isSatisfied : Bool)
    (dataFreshnessPeriod : Int) : Option State :=
  match insertDeadNonceList env s id isSatisfied dataFreshnessPeriod none with
  | none => none
  | some s1 =>
    match cancelUnsatisfyAndStragglerTimer s1 id with
    | none => none
    | some s2 => some (Pit.erase s2 id)

/-- `Forwarder::onInterestUnsatisfied`. -/
def onInterestUnsatisfied (env : Env) (s : State) (id : Nat) : Option State :=
  match dispatchToStrategy env s .beforeExpirePendingInterest id with
  | none => none
  | some s1 => onInterestFinalize env s1 id false env.defaultFreshnessPeriod

/-- `Forwarder::onOutgoingData`. -/
def onOutgoingData (env : Env) (s : State) (data : Data) (outFace : Face) : State :=
  if outFace.id = env.INVALID_FACEID then s
  else if outFace.scope = .FACE_SCOPE_NON_LOCAL ∧ underLocalhost data.name = true then s
  else
    let s1 := emit s (.sendData outFace data)
    { s1 with m_counters := { s1.m_counters with nOutData := s1.m_counters.nOutData + 1 } }

/-- `Forwarder::onInterestLoop`. No pipeline of `forwarder.cpp` calls it: both calls in
`onIncomingInterest` are commented out. -/
def onInterestLoop (s : State) (inFace : Face) (interest : Interest) : State :=
  if inFace.linkType = .LINK_TYPE_MULTI_ACCESS then s
  else emit s (.sendNack inFace (Nack.mk interest .DUPLICATE))

/-- `Forwarder::onContentStoreHit`. -/
def onContentStoreHit (env : Env) (s : State) (inFace : Face) (id : Nat)
    (interest : Interest) (data : Data) : Option State :=
  let data1 : Data :=
    { data with serviceTime := interest.serviceTime, functionNameTag := none,
                hopTag := none, countTag := none }
  match dispatchToStrategy env s .beforeSatisfyInterest id with
  | none => none
  | some s1 =>
    let data2 : Data := { data1 with incomingFaceIdTag := some env.faceidContentStore }
    match setStragglerTimer s1 id true data2.freshnessPeriod with
    | none => none
    | some s2 => some (onOutgoingData env s2 data2 inFace)

/-- The loop of `onContentStoreMiss` over the next hops of the function FIB entry. -/
def forwardToNextHops (env : Env) (id : Nat) (interest : Interest) :
    State → List Face → Option State
  | s, [] => some s
  | s, face :: rest =>
    match onOutgoingInterest env s id face interest with
    | none => none
    | some s1 => forwardToNextHops env id interest s1 rest

/-- The part of `Forwarder::onContentStoreMiss` after the unsatisfy timer is set
(lines 237-1282): function-chaining overlay and function FIB lookup first, then the
`NextHopFaceIdTag`, then the strategy. -/
def resolveNextHop (env : Env) (s : State) (inFace : Face) (id : Nat)
    (interest : Interest) : Option State :=
  match env.functionChaining interest with
  | none => none
  | some (interest2, fibEntry) =>
    match (if interest2.function ≠ [] then fibEntry else none) with
    | some nextHops => forwardToNextHops env id interest2 s nextHops
    | none =>
      match interest2.nextHopFaceIdTag with
      | some tag =>
        match env.faceTable tag with
        | some nextHopFace => onOutgoingInterest env s id nextHopFace interest2
        | none => some s
      | none => dispatchToStrategy env s .afterReceiveInterest id

/-- The first part of `Forwarder::onContentStoreMiss` (lines 222-235): insert the
in-record and set the unsatisfy timer. -/
def recordPending (env : Env) (s : State) (inFace : Face) (id : Nat)
    (interest : Interest) : Option State :=
  match findEntry s id with
  | none => none
  | some _ =>
    setUnsatisfyTimer env
      (modifyEntry s id (fun e => insertOrUpdateInRecord env e inFace interest)) id

/-- `Forwarder::onContentStoreMiss`. -/
def onContentStoreMiss (env : Env) (s : State) (inFace : Face) (id : Nat)
    (interest : Interest) : Option State :=
  match recordPending env s inFace id interest with
  | none => none
  | some s1 => resolveNextHop env s1 inFace id interest

/-- `Forwarder::onIncomingInterest`. The two duplicate-nonce results are computed and
not used, as in the source, where the calls of `onInterestLoop` are commented out. -/
def onIncomingInterest (env : Env) (s : State) (inFace : Face) (interest0 : Interest) :
    Option State :=
  let interest : Interest := { interest0 with incomingFaceIdTag := some inFace.id }
  let s0 : State :=
    { s with m_counters := { s.m_counters with nInInterests := s.m_counters.nInInterests + 1 } }
  let isViolatingLocalhost : Bool :=
    decide (inFace.scope = .FACE_SCOPE_NON_LOCAL) && underLocalhost interest.name
  if isViolatingLocalhost then some s0
  else
    let hasDuplicateNonceInDnl : Bool := DeadNonceList.has s0 interest.name interest.nonce
    let ins := Pit.insert s0 interest
    match findEntry ins.1 ins.2 with
    | none => none
    | some pitEntry =>
      let hasDuplicateNonceInPit : Bool := findDuplicateNonce pitEntry interest.nonce inFace
      match cancelUnsatisfyAndStragglerTimer ins.1 ins.2 with
      | none => none
      | some s2 =>
        let isPending : Bool := !pitEntry.inRecords.isEmpty
        if !isPending then
          let s3 := emit s2 (.csLookup interest)
          match env.csMatch interest with
          | some data => onContentStoreHit env s3 inFace ins.2 interest data
          | none => onContentStoreMiss env s3 inFace ins.2 interest
        else onContentStoreMiss env s2 inFace ins.2 interest

/-- `Forwarder::onDataUnsolicited`. -/
def onDataUnsolicited (env : Env) (s : State) (inFace : Face) (data : Data) : State :=
  if env.unsolicitedCache inFace data then emit s (.csInsertUnsolicited data) else s

/-- Insertion into the `std::set<Face*>` of pending downstreams (kept in insertion
order; the set's own order is by address). -/
def insertFace (faces : List Face) (face : Face) : List Face :=
  if faces.contains face then faces else faces ++ [face]

/-- The scan of `onIncomingData` for the largest sequence number above 1 and the face
of the in-record that holds it (`max`, `savedFace`; `none`: `savedFace` not assigned). -/
def maxSequence (inRecords : List InRecord) : Nat × Option Face :=
  inRecords.foldl
    (fun acc r => if r.sequenceNumber > acc.1 then (r.sequenceNumber, some r.face) else acc)
    (1, none)

/-- The variables carried through the loop of `onIncomingData` over the matches. -/
structure DataLoop where
  state : State
  data : Data
  pendingDownstreams : List Face
  pitSatisfyFlag : Bool
  updateControlFlag : Bool

/-- The overlay block at the head of the loop body of `onIncomingData` (lines 2168-2194),
as far as it changes the Data. -/
def updateControl (env : Env) (data : Data) : Data :=
  if 39 ≤ env.currentNode ∧ env.currentNode ≤ 53 then
    { data with countTag := some env.fibFcc, hopTag := some 0 }
  else
    match data.hopTag with
    | some h => { data with hopTag := some (h + 1) }
    | none => data

/-- One iteration of the loop of `onIncomingData` over the matched PIT entries
(lines 2166-2247). -/
def satisfyEntry (env : Env) (inFace : Face) (l : DataLoop) (id : Nat) : Option DataLoop :=
  let control : Bool := decide (env.choiceType = 4) && l.updateControlFlag
  let data : Data := if control then updateControl env l.data else l.data
  let updateControlFlag : Bool := if control then false else l.updateControlFlag
  match cancelUnsatisfyAndStragglerTimer l.state id with
  | none => none
  | some s1 =>
    match findEntry s1 id with
    | none => none
    | some e =>
      let ms := maxSequence e.inRecords
      let chosen : Option (State × List Face × Bool) :=
        if ms.1 > 1 then
          match ms.2 with
          | none => none
          | some savedFace =>
            some (modifyEntry s1 id (fun x => deleteInRecord x savedFace),
              insertFace l.pendingDownstreams savedFace, false)
        else
          some (s1,
            (e.inRecords.filter (fun r => decide (r.expiry > env.now))).foldl
              (fun acc r => insertFace acc r.face) l.pendingDownstreams,
            l.pitSatisfyFlag)
      match chosen with
      | none => none
      | some (s2, pending, pitSatisfyFlag) =>
        match dispatchToStrategy env s2 .beforeSatisfyInterest id with
        | none => none
        | some s3 =>
          match insertDeadNonceList env s3 id true data.freshnessPeriod (some inFace) with
          | none => none
          | some s4 =>
            let s5 : State :=
              if pitSatisfyFlag then
                modifyEntry s4 id (fun x => deleteOutRecord (clearInRecords x) inFace)
              else s4
            match setStragglerTimer s5 id true data.freshnessPeriod with
            | none => none
            | some s6 => some (DataLoop.mk s6 data pending pitSatisfyFlag updateControlFlag)

/-- The loop of `onIncomingData` over the matches. -/
def satisfyEntries (env : Env) (inFace : Face) : DataLoop → List Nat → Option DataLoop
  | l, [] => some l
  | l, id :: rest =>
    match satisfyEntry env inFace l id with
    | none => none
    | some l1 => satisfyEntries env inFace l1 rest

/-- `Forwarder::onIncomingData`. The latency and the timestamp handed to the cache are
the ones left by the scan over the out-records of the matches (`none`: never
assigned). -/
def onIncomingData (env : Env) (s : State) (inFace : Face) (data0 : Data) : Option State :=
  let dataIn : Data := { data0 with incomingFaceIdTag := some inFace.id }
  let s0 : State :=
    { s with m_counters := { s.m_counters with nInData := s.m_counters.nInData + 1 } }
  let isViolatingLocalhost : Bool :=
    decide (inFace.scope = .FACE_SCOPE_NON_LOCAL) && underLocalhost dataIn.name
  if isViolatingLocalhost then some s0
  else
    match env.dataOverlay dataIn with
    | none => none
    | some data =>
      let pitMatches : List PitEntry := s0.m_pit.filter (fun e => env.matchesData e data)
      if pitMatches.isEmpty then some (onDataUnsolicited env s0 inFace data)
      else
        let outRecords : List OutRecord := pitMatches.flatMap (fun e => e.outRecords)
        let time2 : Option Int :=
          outRecords.getLast?.map (fun r => Int.tdiv (env.now - r.lastRenewed) 2)
        let nowStamp : Option Int := outRecords.getLast?.map (fun _ => env.now)
        let dataCopyWithoutTag : Data := { data with hopCountTag := none }
        let s1 := emit s0 (.csInsert dataCopyWithoutTag time2 nowStamp)
        match satisfyEntries env inFace (DataLoop.mk s1 data [] true true)
            (pitMatches.map (fun e => e.id)) with
        | none => none
        | some l =>
          some (l.pendingDownstreams.foldl (fun st face => onOutgoingData env st l.data face)
            l.state)

/-- `Forwarder::onIncomingNack`. -/
def onIncomingNack (env : Env) (s : State) (inFace : Face) (nack : Nack) : Option State :=
  let s0 : State :=
    { s with m_counters := { s.m_counters with nInNacks := s.m_counters.nInNacks + 1 } }
  if inFace.linkType = .LINK_TYPE_MULTI_ACCESS then some s0
  else
    match s0.m_pit.find? (fun e => sameRequest e.interest nack.interest) with
    | none => some s0
    | some pitEntry =>
      match pitEntry.outRecords.find? (fun r => r.face == inFace) with
      | none => some s0
      | some outRecord =>
        if nack.interest.nonce ≠ outRecord.lastNonce then some s0
        else
          let s1 := modifyEntry s0 pitEntry.id (fun x =>
            { x with outRecords := x.outRecords.map (fun r =>
                if r.face = inFace then { r with incomingNack := some nack } else r) })
          dispatchToStrategy env s1 .afterReceiveNack pitEntry.id

/-- The scheduler runs a pending event: the event leaves the queue and its callback is
called. An id that is not pending fires nothing. -/
def fire (env : Env) (s : State) (eventId : Nat) : Option State :=
  match s.events.find? (fun ev => ev.id == eventId) with
  | none => some s
  | some ev =>
    let s1 : State := { s with events := s.events.filter (fun x => x.id != eventId) }
    match ev.callback with
    | .unsatisfied e => onInterestUnsatisfied env s1 e
    | .finalize e isSatisfied dataFreshnessPeriod =>
      onInterestFinalize env s1 e isSatisfied dataFreshnessPeriod

/-- What can happen to the forwarder: a packet arrives on a face, the scheduler fires
an event, or the strategy calls back for a PIT entry outside an extension point. -/
inductive Input where
  | interest (inFace : Face) (interest : Interest)
  | data (inFace : Face) (data : Data)
  | nack (inFace : Face) (nack : Nack)
  | timer (eventId : Nat)
  | strategyCall (entry : Nat) (action : StrategyAction)
deriving DecidableEq, Repr

/-- One event, run to completion. `none`: the source has no defined result there. -/
def step (env : Env) (s : State) : Input → Option State
  | .interest inFace interest => onIncomingInterest env s inFace interest
  | .data inFace data => onIncomingData env s inFace data
  | .nack inFace nack => onIncomingNack env s inFace nack
  | .timer eventId => fire env s eventId
  | .strategyCall entry action => applyStrategyAction env s entry action

/-- The forwarder after construction: empty tables, no pending event. -/
def initial : State :=
  { m_pit := [], nextEntryId := 0, events := [], nextEventId := 0, m_deadNonceList := [],
    m_counters := Counters.mk 0 0 0 0 0 0, effects := [] }

/-- A sequence of events, each with the collaborator answers during it. -/
def runEvents : State → List (Env × Input) → Option State
  | s, [] => some s
  | s, (env, input) :: rest =>
    match step env s input with
    | none => none
    | some s1 => runEvents s1 rest

/-- The states the forwarder can be in: those a sequence of events leads to from the
initial state. -/
def Reachable (s : State) : Prop :=
  ∃ trace : List (Env × Input), runEvents initial trace = some s

/-! ### The forwarder: invariants -/

/-- What the table and timer invariants read of a PIT entry: its identity, its request,
and its two timer handles. -/
structure Skeleton where
  id : Nat
  interest : Interest
  unsat : Option Nat
  strag : Option Nat
deriving DecidableEq, Repr

/-- The skeleton of a PIT entry. -/
def PitEntry.skel (e : PitEntry) : Skeleton :=
  Skeleton.mk e.id e.interest e.m_unsatisfyTimer e.m_stragglerTimer

/-- What the table and timer invariants read of the forwarder state. -/
structure View where
  skels : List Skeleton
  events : List Event
  nextEntryId : Nat
  nextEventId : Nat

/-- The view of a state. -/
def State.view (s : State) : View :=
  View.mk (s.m_pit.map PitEntry.skel) s.events s.nextEntryId s.nextEventId

/-- The timer handle refers to a pending event. -/
def Pending (events : List Event) (timer : Option Nat) : Prop :=
  ∃ ev ∈ events, timer = some ev.id

/-- The table and timer invariant: entry identities are distinct and already handed out;
no two entries are the same request; event ids and timer handles are already handed
out; every pending event is bound to an entry of the table that holds its id in the
timer field of its kind; no entry has both timers pending. -/
structure InvV (v : View) : Prop where
  idsNodup : (v.skels.map (fun k => k.id)).Nodup
  idsLt : ∀ k ∈ v.skels, k.id < v.nextEntryId
  keys : v.skels.Pairwise (fun a b => sameRequest a.interest b.interest = false)
  evLt : ∀ ev ∈ v.events, ev.id < v.nextEventId
  handlesLt : ∀ k ∈ v.skels, ∀ h, (k.unsat = some h ∨ k.strag = some h) → h < v.nextEventId
  tracked : ∀ ev ∈ v.events, ∃ k ∈ v.skels, k.id = ev.callback.entry ∧
    match ev.callback with
    | .unsatisfied _ => k.unsat = some ev.id
    | .finalize _ _ _ => k.strag = some ev.id
  exclusive : ∀ k ∈ v.skels, ¬ (Pending v.events k.unsat ∧ Pending v.events k.strag)

/-- The invariant of a forwarder state. -/
def Inv (s : State) : Prop :=
  InvV s.view

/-- The unsatisfy timer of the entry `id` is not pending. -/
def UnsatIdle (v : View) (id : Nat) : Prop :=
  ∀ k ∈ v.skels, k.id = id → ¬ Pending v.events k.unsat

/-- The straggler timer of the entry `id` is not pending. -/
def StragIdle (v : View) (id : Nat) : Prop :=
  ∀ k ∈ v.skels, k.id = id → ¬ Pending v.events k.strag

/-- The identities and requests of the table, in table order. -/
def keysOf (s : State) : List (Nat × Interest) :=
  s.m_pit.map (fun e => (e.id, e.interest))

/-- What a step that works on the entry `id` without creating or deleting entries
keeps: the invariant, the identities and requests of the table, and an idle unsatisfy
timer of `id`. -/
def Keeps (id : Nat) (s s1 : State) : Prop :=
  (Inv s → Inv s1) ∧ (keysOf s1 = keysOf s ∧ s1.nextEntryId = s.nextEntryId) ∧
    (Inv s → UnsatIdle s.view id → UnsatIdle s1.view id)

/-- The table of `s1` has the entries of `s`, up to their records and timers. -/
def Static (s s1 : State) : Prop :=
  keysOf s1 = keysOf s ∧ s1.nextEntryId = s.nextEntryId

/-- The table of `s1` has entries of `s` and entries created since. -/
def Grows (s s1 : State) : Prop :=
  s.nextEntryId ≤ s1.nextEntryId ∧
    ∀ k ∈ keysOf s1, k ∈ keysOf s ∨ s.nextEntryId ≤ k.1

/-! ### The forwarder: logs and frames -/

/-- Whether an effect is a call of the content store. -/
def Effect.isCache : Effect → Bool
  | .csLookup _ => true
  | .csInsert _ _ _ => true
  | .csInsertUnsolicited _ => true
  | _ => false

/-- Whether an effect is the invocation of an extension point of the strategy. -/
def Effect.isStrategy : Effect → Bool
  | .strategy _ _ => true
  | _ => false

/-- Whether an effect is a Data handed to a face. -/
def Effect.isData : Effect → Bool
  | .sendData _ _ => true
  | _ => false

/-- What a call of the strategy for the entry `id` leaves as it is: the other entry
objects, the effects other than Interests and Nacks handed to a face, the dead nonce
list, the pending events (new ones finalize `id` as unsatisfied), and, of the entry
`id`, its unsatisfy handle and its in-records up to removals. -/
structure ActionFrame (id : Nat) (s s1 : State) : Prop where
  others : ∀ j, j ≠ id → findEntry s1 j = findEntry s j
  log : ∀ P : Effect → Bool, (∀ f i, P (.sendInterest f i) = false) →
    (∀ f n, P (.sendNack f n) = false) → s1.effects.filter P = s.effects.filter P
  dnl : s1.m_deadNonceList = s.m_deadNonceList
  events : ∀ ev ∈ s1.events, ev ∈ s.events ∨
    (s.nextEventId ≤ ev.id ∧ ∃ fr, ev.callback = .finalize id false fr)
  next : s.nextEventId ≤ s1.nextEventId
  entry : ∀ e, findEntry s id = some e → ∃ e1, findEntry s1 id = some e1 ∧
    e1.inRecords.Sublist e.inRecords ∧ e1.m_unsatisfyTimer = e.m_unsatisfyTimer

/-- The state with another dead nonce list. -/
def withDeadNonceList (d : List (Name × Nat)) (s : State) : State :=
  { s with m_deadNonceList := d }

/-- Whether the loop body of `onIncomingData` inserts the face into `pendingDownstreams`
for a matched entry (lines 2203-2224): the saved face when the largest sequence number
is above 1, otherwise every face with an unexpired in-record. -/
def selectsDownstream (env : Env) (e : PitEntry) (face : Face) : Bool :=
  if (maxSequence e.inRecords).1 > 1 then (maxSequence e.inRecords).2 == some face
  else e.inRecords.any (fun r => decide (r.expiry > env.now) && r.face == face)

/-! ### The forwarder: a sample node -/

/-- The non-local point-to-point face with the given id. -/
def sampleFace (id : Nat) : Face :=
  Face.mk id .FACE_SCOPE_NON_LOCAL .LINK_TYPE_POINT_TO_POINT

/-- An Interest for `/x` with the given nonce, no selectors, no function chain, no
next-hop override. -/
def sampleInterest (nonce : Nat) : Interest :=
  Interest.mk ["x"] false 0 nonce 4000 [] 0 none none

/-- A Data for `/x` with freshness period 0. -/
def sampleData : Data :=
  Data.mk ["x"] 0 0 0 none none none none none

/-- Collaborators of a sample node at time `now`: empty cache, no function chaining,
exact-name matching of Data, a strategy that forwards every new Interest to face 3 and
does nothing at the other extension points. -/
def sampleEnv (now : Int) : Env :=
  { now := now
    csMatch := fun _ => none
    faceTable := fun id => if id = 3 then some (sampleFace 3) else none
    functionChaining := fun i => some (i, none)
    dataOverlay := fun d => some d
    matchesData := fun e d => e.interest.name == d.name
    hasPendingOutRecords := fun _ => false
    unsolicitedCache := fun _ _ => false
    lifetimeDnl := 6000
    sequenceNumber := fun _ => 0
    choiceType := 0
    currentNode := 0
    fibFcc := 0
    faceidContentStore := 254
    INVALID_FACEID := 0
    defaultFreshnessPeriod := -1
    strategy := fun point e =>
      match point with
      | .afterReceiveInterest => [.sendInterest (sampleFace 3) e.interest]
      | _ => [] }

/-- A sample run: Interests for `/x` arrive on faces 1 and 2 with different nonces, then
Data for `/x` arrives on face 3. -/
def sampleTrace : List (Env × Input) :=
  [(sampleEnv 0, .interest (sampleFace 1) (sampleInterest 77)),
   (sampleEnv 1, .interest (sampleFace 2) (sampleInterest 78)),
   (sampleEnv 2, .data (sampleFace 3) sampleData)]

/-- The state after the sample run. -/
def sampleState : State :=
  (runEvents initial sampleTrace).getD initial

/-- The state after the first Interest of the sample run. -/
def sampleAfterFirst : State :=
  (runEvents initial (sampleTrace.take 1)).getD initial

/-- The state after the straggler timer of the sample run (event 2) has fired. -/
def sampleFinalized : State :=
  (fire (sampleEnv 3) sampleState 2).getD initial

/-- The state after one more Interest for `/x` has arrived. -/
def sampleLater : State :=
  (runEvents sampleFinalized
    [(sampleEnv 4, .interest (sampleFace 1) (sampleInterest 79))]).getD initial

/-- The state after the Interest of the sample run is received a second time, with the
same nonce 77, on face 2. -/
def sampleDuplicate : State :=
  (onIncomingInterest (sampleEnv 1) sampleAfterFirst (sampleFace 2)
    (sampleInterest 77)).getD initial

/-- An Interest for `/x` with function chain `/F1` and a next-hop override naming
face 3. -/
def chainInterest : Interest :=
  Interest.mk ["x"] false 0 77 4000 ["F1"] 0 (some 3) none

/-- Collaborators as in `sampleEnv`, where the function FIB has an entry for the
chain with next hop face 7. -/
def chainEnv : Env :=
  { sampleEnv 0 with functionChaining := fun i => some (i, some [sampleFace 7]) }

/-- The pairs `insertDeadNonceList` is to record once it has decided to record: with
no upstream, the entry name with the last nonce of every out-record; with an upstream,
the entry name with the last nonce of the out-record of that face, if there is one. -/
def recordedNonces (e : PitEntry) (upstream : Option Face) : List (Name × Nat) :=
  match upstream with
  | none => e.outRecords.map (fun r => (e.interest.name, r.lastNonce))
  | some face =>
    match e.outRecords.find? (fun r => r.face == face) with
    | some r => [(e.interest.name, r.lastNonce)]
    | none => []

/-- The entry of the sample run after the first Interest. -/
def sampleEntry : PitEntry :=
  (findEntry sampleAfterFirst 0).getD (PitEntry.mk 0 (sampleInterest 0) [] [] none none)

/-- Whether an effect is a Nack handed to a face. -/
def Effect.isNack : Effect → Bool
  | .sendNack _ _ => true
  | _ => false

/-- Collaborators as in `sampleEnv`, where an entry with an out-record counts as having
a pending out-record. -/
def pendingEnv (now : Int) : Env :=
  { sampleEnv now with hasPendingOutRecords := fun e => !e.outRecords.isEmpty }

/-- Collaborators as in `sampleEnv`, where the strategy rejects every new Interest. -/
def rejectEnv (now : Int) : Env :=
  { sampleEnv now with
    strategy := fun point _ =>
      match point with
      | .afterReceiveInterest => [.rejectPendingInterest]
      | _ => [] }

/-- The state after the Interest `/x` with lifetime 4000 has arrived on face 1 at time 0
and the strategy has rejected it: the entry holds the in-record of face 1, which expires
at 4000, and its straggler timer is armed. -/
def rejectedState : State :=
  (runEvents initial [(rejectEnv 0, .interest (sampleFace 1) (sampleInterest 77))]).getD initial

/-- The state after one more Interest for `/x` has arrived on face 2 at time 5000. -/
def rejectedAgain : State :=
  (onIncomingInterest (rejectEnv 5000) rejectedState (sampleFace 2)
    (sampleInterest 78)).getD initial

/-- An Interest for `/x` with function chain `/F1` and no next-hop override. -/
def functionInterest : Interest :=
  Interest.mk ["x"] false 0 77 4000 ["F1"] 0 none none

/-- Collaborators as in `sampleEnv`, where the function FIB has an entry for the chain
with an empty list of next hops. -/
def emptyRouteEnv : Env :=
  { sampleEnv 0 with functionChaining := fun i => some (i, some []) }

/-- The PIT entry `Pit::insert` creates for the first Interest of the sample run. -/
def freshEntry : PitEntry :=
  PitEntry.mk 0 (sampleInterest 77) [] [] none none

/-- A run in which the Interest `/x` with nonce 77 is forwarded and its unsatisfy timer
(event 0) fires at time 4000: the entry is finalized as unsatisfied. -/
def expiredTrace : List (Env × Input) :=
  [(sampleEnv 0, .interest (sampleFace 1) (sampleInterest 77)),
   (sampleEnv 4000, .timer 0)]

/-- The state after `expiredTrace`: the PIT is empty and the dead nonce list holds
`/x` with nonce 77. -/
def expiredState : State :=
  (runEvents initial expiredTrace).getD initial

/-- The state after the Interest `/x` with nonce 77 has arrived once more, at time
4001 on face 1. -/
def loopedState : State :=
  (onIncomingInterest (sampleEnv 4001) expiredState (sampleFace 1)
    (sampleInterest 77)).getD initial

/-- Collaborators as in `sampleEnv`, where the in-record of an Interest with nonce 77
takes sequence number 2 and every other one sequence number 0. -/
def sequenceEnv (now : Int) : Env :=
  { sampleEnv now with sequenceNumber := fun i => if i.nonce = 77 then 2 else 0 }

/-- An Interest for `/x` with another selector set than `sampleInterest`. -/
def variantInterest (nonce : Nat) : Interest :=
  Interest.mk ["x"] false 1 nonce 4000 [] 0 none none

/-- A run that leaves two entries matched by Data `/x`: the entry of `sampleInterest`
with in-records of face 1 (sequence number 2) and face 2, and the entry of
`variantInterest` with an in-record of face 2. Both were forwarded on face 3. -/
def sequenceTrace : List (Env × Input) :=
  [(sequenceEnv 0, .interest (sampleFace 1) (sampleInterest 77)),
   (sequenceEnv 1, .interest (sampleFace 2) (sampleInterest 78)),
   (sequenceEnv 1, .interest (sampleFace 2) (variantInterest 79))]

/-- The state after `sequenceTrace`. -/
def sequenceState : State :=
  (runEvents initial sequenceTrace).getD initial

/-- The first entry of `sequenceState`. -/
def sequenceEntry : PitEntry :=
  (findEntry sequenceState 0).getD freshEntry

/-- The state after the two Interests of the sample run. -/
def samplePending : State :=
  (runEvents initial (sampleTrace.take 2)).getD initial

/-- The entry of `samplePending`: in-records of faces 2 and 1, one out-record of face 3
with last nonce 77. -/
def pendingEntry : PitEntry :=
  (findEntry samplePending 0).getD freshEntry

/-- A Data for `/y`. -/
def otherData : Data :=
  Data.mk ["y"] 0 0 0 none none none none none

/-- An Interest for `/x` with the selector `MustBeFresh`. -/
def freshInterest (nonce : Nat) : Interest :=
  Interest.mk ["x"] true 0 nonce 4000 [] 0 none none

/-- The state after the must-be-fresh Interest `/x` with nonce 77 has arrived on face 1
at time 0: no cache entry, and the Interest was forwarded on face 3. -/
def freshPending : State :=
  (runEvents initial [(sampleEnv 0, .interest (sampleFace 1) (freshInterest 77))]).getD initial

/-- The entry of `freshPending`: one in-record of face 1, one out-record of face 3 with
last nonce 77. -/
def freshEntryPending : PitEntry :=
  (findEntry freshPending 0).getD freshEntry

/-- The state after the first two Interests of `sequenceTrace`: one entry with in-records
of face 2 (sequence number 0) and face 1 (sequence number 2), forwarded on face 3. -/
def sequencePair : State :=
  (runEvents initial (sequenceTrace.take 2)).getD initial

/-- The entry of `sequencePair`. -/
def sequencePairEntry : PitEntry :=
  (findEntry sequencePair 0).getD freshEntry

/-- An Interest for `/x` with a next-hop override naming face 9, which the face table of
`sampleEnv` does not hold. -/
def strayInterest : Interest :=
  Interest.mk ["x"] false 0 77 4000 [] 0 (some 9) none

/-! ### The forwarder: ownership of timer handles and pending timers -/

/-- The skeleton holds the handle `h` in one of its timer fields. -/
def Skeleton.holds (k : Skeleton) (h : Nat) : Prop :=
  k.unsat = some h ∨ k.strag = some h

/-- No event handle is held by two entries. -/
def OwnHandles (v : View) : Prop :=
  ∀ k1 ∈ v.skels, ∀ k2 ∈ v.skels, ∀ h, k1.holds h → k2.holds h → k1.id = k2.id

/-- One of the two timers of the skeleton is pending. -/
def LiveAt (events : List Event) (k : Skeleton) : Prop :=
  Pending events k.unsat ∨ Pending events k.strag

/-- Every entry other than `id` has a pending timer. -/
def LiveExcept (v : View) (id : Nat) : Prop :=
  ∀ k ∈ v.skels, k.id ≠ id → LiveAt v.events k

/-- Every entry has a pending timer. -/
def Live (v : View) : Prop :=
  ∀ k ∈ v.skels, LiveAt v.events k

/-- A step for the entry `id` keeps the ownership of handles, the pending timers of the
other entries, and the pending timers of all entries. -/
def KeepsLive (id : Nat) (s s1 : State) : Prop :=
  OwnHandles s1.view ∧ (LiveExcept s.view id → LiveExcept s1.view id) ∧
    (Live s.view → Live s1.view)

/-- A step for the entry `id` keeps the ownership of handles and leaves every entry with
a pending timer when the other entries had one. -/
def Arms (id : Nat) (s s1 : State) : Prop :=
  OwnHandles s1.view ∧ (LiveExcept s.view id → Live s1.view)

/-! ### The forwarder: the replica selection of choice type 2 -/

end Forwarder

/-! ### The producer application (`ndn-producer.cpp`) -/

namespace Producer

/-- The members of `ns3::ndn::Producer` that `OnInterest` reads: `m_active` of the base
class `App`, and the attributes `PayloadSize`, `Freshness` (in milliseconds, the value of
`m_freshness.GetMilliSeconds()`), `Signature` and `KeyLocator`. -/
structure State where
  m_active : Bool
  m_virtualPayloadSize : Nat
  m_freshness : Int
  m_signature : Nat
  m_keyLocator : Forwarder.Name
deriving DecidableEq, Repr

/-- The Data packet `OnInterest` builds: the fields the forwarder reads (`data`, whose
content is the payload size), and the function name, the `PreviousFunctionTag` and the
signature (type, key locator, value) of the packet. -/
structure Packet where
  data : Forwarder.Data
  function : Forwarder.Name
  previousFunctionTag : Option Forwarder.Name
  signatureType : Nat
  keyLocator : Option Forwarder.Name
  signatureValue : Nat
deriving DecidableEq, Repr

/-- Modelled from the spec: `MetaInfo`, to which `Data::setFreshnessPeriod` of `data.cpp`
hands its argument, is not among the sources. The spec speaks of "Data for `/x` with
freshness 0" and "Data with freshness 10000ms": the meta-information keeps the period it
is given, and `getFreshnessPeriod` returns it. -/
def setFreshnessPeriod (data : Forwarder.Data) (freshnessPeriod : Int) : Forwarder.Data :=
  { data with freshnessPeriod := freshnessPeriod }

/-- Modelled from the spec: the Data of `make_shared<Data>()`, whose `MetaInfo` and tag
store are not among the sources: the empty name, no tag, and no FreshnessPeriod field
(a negative period, as `hasFreshnessPeriod` of `insertDeadNonceList` reads it). -/
def emptyPacket : Packet :=
  { data := Forwarder.Data.mk [] (-1) 0 0 none none none none none
    function := []
    previousFunctionTag := none
    signatureType := 0
    keyLocator := none
    signatureValue := 0 }

/-- `Producer::OnInterest`: the Data handed to the application link, or `none` when the
application is not active and hands over nothing. `choiceType` is `getChoiceType()` and
`functionFullName` is `interest->getFunctionFullName()`. The counter of
`increaseDataNum` and the trace source are left out. -/
def OnInterest (p : State) (choiceType : Nat) (functionFullName : Forwarder.Name)
    (interest : Forwarder.Interest) : Option Packet :=
  if !p.m_active then none
  else
    let d0 : Packet := { emptyPacket with data := { emptyPacket.data with name := interest.name } }
    let d1 : Packet :=
      if choiceType = 2 then
        { d0 with
          data := { d0.data with
            functionNameTag := some functionFullName, hopTag := none, countTag := none }
          previousFunctionTag := some [] }
      else if choiceType = 4 then
        { d0 with
          function := functionFullName
          data := { d0.data with functionNameTag := none, hopTag := none, countTag := none } }
      else d0
    let d2 : Packet := { d1 with data := setFreshnessPeriod d1.data p.m_freshness }
    let d3 : Packet :=
      { d2 with data := { d2.data with
          serviceTime := interest.serviceTime, content := p.m_virtualPayloadSize } }
    some { d3 with
      signatureType := 255
      keyLocator := if p.m_keyLocator.length > 0 then some p.m_keyLocator else none
      signatureValue := p.m_signature }

/-- A running producer with the default value of every attribute: payload size 1024,
`Freshness` 0, signature 0, no key locator. -/
def sampleProducer : State :=
  { m_active := true, m_virtualPayloadSize := 1024, m_freshness := 0, m_signature := 0,
    m_keyLocator := [] }

end Producer

/-! ### The Data packet (`data.cpp`) -/

namespace Data

/-- `std::string::find` for a one-character pattern: the index of the first occurrence
of `c` at index `pos` or later; `none` is `std::string::npos`. -/
def find : List Char → Char → Nat → Option Nat
  | [], _, _ => none
  | x :: xs, c, 0 => if x = c then some 0 else (find xs c 0).map (fun i => i + 1)
  | _ :: xs, c, pos + 1 => (find xs c pos).map (fun i => i + 1)

/-- `std::string::erase(index, count)`: removes `min(count, size - index)` characters
from `index` on; `none`: `index > size`, where it throws `std::out_of_range`. -/
def erase (s : List Char) (index count : Nat) : Option (List Char) :=
  if index > s.length then none else some (s.take index ++ s.drop (index + count))

/-- `std::string::npos` as a 64-bit `size_t`. -/
def npos : Nat := 2 ^ 64 - 1

/-- A `size_t` converted to `int` (32 bits, two's complement). -/
def toInt (n : Nat) : Int :=
  if n % 2 ^ 32 < 2 ^ 31 then ((n % 2 ^ 32 : Nat) : Int) else ((n % 2 ^ 32 : Nat) : Int) - 2 ^ 32

/-- An `int` converted to a 64-bit `size_t`. -/
def toSize (i : Int) : Nat :=
  (i % 2 ^ 64).toNat

/-- The segments of a string between the occurrences of `c`. -/
def splitOn (c : Char) : List Char → List (List Char)
  | [] => [[]]
  | x :: xs =>
    if x = c then [] :: splitOn c xs
    else
      match splitOn c xs with
      | seg :: segs => (x :: seg) :: segs
      | [] => [[x]]

/-- Modelled from the spec: `Name(const std::string&)` is not among the sources. The name
of a URI is the list of its non-empty segments between slashes; a scheme prefix and
percent-escapes are not modelled. -/
def nameOfUri (uri : List Char) : Forwarder.Name :=
  ((splitOn '/' uri).filter (fun seg => !seg.isEmpty)).map String.mk

/-- `Data::removeHeadFunction`: the returned `Name` and the string left in `funcStr`.
`none`: control reaches the end of the function without a `return` statement (or
`erase` throws). -/
def removeHeadFunction (funcStr : List Char) : Option (Forwarder.Name × List Char) :=
  let pos : Int := toInt ((find funcStr '/' 1).getD npos)
  if pos = -1 ∧ funcStr.length > 1 then
    (erase funcStr 1 (funcStr.length - 1)).map (fun s => (nameOfUri s, s))
  else if pos ≠ -1 then
    (erase funcStr 1 (toSize pos)).map (fun s => (nameOfUri s, s))
  else none

/-- The string `/c1/c2/.../cn` of the components `c1, ..., cn`; `/` for no component. -/
def uriOf (components : List (List Char)) : List Char :=
  if components.isEmpty then ['/'] else components.flatMap (fun c => '/' :: c)

/-- The TLV types of the elements of a Data packet. Modelled from the spec: `tlv.hpp` is
not among the sources; the type numbers are distinct. -/
inductive TlvType where
  | Name
  | FunctionName
  | ServiceTime
  | MetaInfo
  | Content
  | SignatureInfo
  | SignatureValue
deriving DecidableEq, Repr

/-- The meta-information of a Data: content type, freshness period in milliseconds and
final block id. -/
structure MetaInfo where
  type : Nat
  freshnessPeriod : Int
  finalBlockId : Option String
deriving DecidableEq, Repr

/-- Modelled from the spec: the encodings of a name, of a non-negative integer, of the
meta-information and of an opaque value are owned by the wire codec ("binary
encode/decode of packet fields"), which is not among the sources: the value of an
element is the object it encodes. -/
inductive Value where
  | name (n : Forwarder.Name)
  | integer (n : Nat)
  | metaInfo (m : MetaInfo)
  | bytes (b : List Nat)
deriving DecidableEq, Repr

/-- An element of a packet (`Block`): its TLV type and its value. -/
structure Block where
  type : TlvType
  value : Value
deriving DecidableEq, Repr

/-- A signature: the `SignatureInfo` element and the `SignatureValue` element, each
`none` until it is set. -/
structure Signature where
  info : Option (List Nat)
  value : Option (List Nat)
deriving DecidableEq, Repr

/-- The members of `ndn::Data` that `wireEncode` and `wireDecode` read and write.
`m_content` is the value of the Content element. -/
structure Packet where
  m_name : Forwarder.Name
  m_functionName : Forwarder.Name
  m_serviceTime : Int
  m_metaInfo : MetaInfo
  m_content : List Nat
  m_signature : Signature
deriving DecidableEq, Repr

/-- Modelled from the spec: the Data of the default constructor, whose member
initialisers are in `data.hpp`: empty names, service time 0, default meta-information (no
freshness period), empty content, no signature. -/
def freshData : Packet :=
  { m_name := []
    m_functionName := []
    m_serviceTime := 0
    m_metaInfo := MetaInfo.mk 0 (-1) none
    m_content := []
    m_signature := Signature.mk none none }

/-- Modelled from the spec: `EncodingImpl::prependBlock`; `none`: the block given is
empty (not set). -/
def prependBlock (buffer : List Block) (type : TlvType) (value : Option Value) :
    Option (List Block) :=
  match value with
  | none => none
  | some v => some (Block.mk type v :: buffer)

/-- `Data::wireEncode(encoder, unsignedPortion)`: the elements left in the encoder, first
to last. Every element is prepended, so the last one written comes first. `none`: an
exception (the Data is not signed). The byte lengths are not modelled. -/
def wireEncode (d : Packet) (unsignedPortion : Bool) : Option (List Block) :=
  if !unsignedPortion && d.m_signature.info.isNone then none
  else
    let b0 : Option (List Block) :=
      if !unsignedPortion then
        prependBlock [] .SignatureValue (d.m_signature.value.map Value.bytes)
      else some []
    match b0 with
    | none => none
    | some b0 =>
      match prependBlock b0 .SignatureInfo (d.m_signature.info.map Value.bytes) with
      | none => none
      | some b1 =>
        let b2 := Block.mk .Content (.bytes d.m_content) :: b1
        let b3 := Block.mk .MetaInfo (.metaInfo d.m_metaInfo) :: b2
        let b4 :=
          if d.m_serviceTime ≥ 0 ∧ d.m_serviceTime ≠ 0 then
            Block.mk .ServiceTime (.integer d.m_serviceTime.toNat) :: b3
          else b3
        let b5 :=
          if !d.m_functionName.isEmpty then
            Block.mk .FunctionName (.name d.m_functionName) :: b4
          else b4
        some (Block.mk .Name (.name d.m_name) :: b5)

/-- Modelled from the spec: `Block::find`: the first element of the type. -/
def Block.find (wire : List Block) (type : TlvType) : Option Block :=
  wire.find? (fun b => b.type == type)

/-- Modelled from the spec: `Block::get`: the first element of the type; `none`: there is
none and it throws. -/
def Block.get (wire : List Block) (type : TlvType) : Option Block :=
  Block.find wire type

/-- Modelled from the spec: `Name::wireDecode` and `Name::wireDecodeFunc`; `none`: the
value is not a name and it throws. -/
def Value.asName : Value → Option Forwarder.Name
  | .name n => some n
  | _ => none

/-- Modelled from the spec: `readNonNegativeInteger`; `none`: the value is not an
integer and it throws. -/
def Value.asInteger : Value → Option Nat
  | .integer n => some n
  | _ => none

/-- Modelled from the spec: `MetaInfo::wireDecode`; `none`: the value is not a
meta-information and it throws. -/
def Value.asMetaInfo : Value → Option MetaInfo
  | .metaInfo m => some m
  | _ => none

/-- Modelled from the spec: the value of an opaque element; `none`: the value is of
another kind. -/
def Value.asBytes : Value → Option (List Nat)
  | .bytes b => some b
  | _ => none

/-- `Data::wireDecode` into the Data `d`, from the parsed elements of the wire. `none`: an
exception. -/
def wireDecode (d : Packet) (wire : List Block) : Option Packet :=
  match (Block.get wire .Name).bind (fun b => b.value.asName) with
  | none => none
  | some name =>
    let functionName : Option Forwarder.Name :=
      match Block.find wire .FunctionName with
      | some val1 => val1.value.asName
      | none => some d.m_functionName
    match functionName with
    | none => none
    | some functionName =>
      let serviceTime : Option Int :=
        match Block.find wire .ServiceTime with
        | some val => val.value.asInteger.map (fun n => (n : Int))
        | none => some 0
      match serviceTime with
      | none => none
      | some serviceTime =>
        match (Block.get wire .MetaInfo).bind (fun b => b.value.asMetaInfo) with
        | none => none
        | some metaInfo =>
          match (Block.get wire .Content).bind (fun b => b.value.asBytes) with
          | none => none
          | some content =>
            match (Block.get wire .SignatureInfo).bind (fun b => b.value.asBytes) with
            | none => none
            | some info =>
              let value : Option (Option (List Nat)) :=
                match Block.find wire .SignatureValue with
                | some val => val.value.asBytes.map some
                | none => some d.m_signature.value
              match value with
              | none => none
              | some value =>
                some { m_name := name
                       m_functionName := functionName
                       m_serviceTime := serviceTime
                       m_metaInfo := metaInfo
                       m_content := content
                       m_signature := Signature.mk (some info) value }

/-- A signed Data with a function name and a service time. -/
def samplePacket : Packet :=
  { m_name := ["x"]
    m_functionName := ["F1a"]
    m_serviceTime := 5
    m_metaInfo := MetaInfo.mk 0 0 none
    m_content := [1, 2, 3]
    m_signature := Signature.mk (some [255]) (some [0]) }

end Data

/-! ## Part 2. Theorems -/

namespace LruPolicy

/-- The eviction loop on a queue that holds exactly the table entries: it succeeds,
pops a front segment of the queue, and stops at the first re-check that finds the
occupancy within the limit. -/
theorem evictLoop_spec (limit : Nat) :
    ∀ (q table : List Nat), table.Nodup → q.Perm table →
      ∃ t q1 ev, evictLoop limit table q = some (t, q1, ev) ∧ ev ++ q1 = q ∧
        t.Nodup ∧ q1.Perm t ∧ ev.length = table.length - limit ∧
        t.length = min table.length limit ∧ t = ev.foldl onBeforeEvict table := by
  intro q
  induction q with
  | nil =>
    intro table hnd hp
    have ht : table = [] := List.Perm.eq_nil hp.symm
    subst ht
    exact ⟨[], [], [], by simp [evictLoop], by simp, by simp, by simp, by simp, by simp, by simp⟩
  | cons i rest ih =>
    intro table hnd hp
    by_cases hgt : table.length > limit
    · have hi : i ∈ table := hp.subset (List.mem_cons_self i rest)
      have hnd1 : (table.erase i).Nodup := hnd.erase i
      have hp1 : rest.Perm (table.erase i) := by
        have := hp.erase i
        simpa using this
      obtain ⟨t, q1, ev, he, hq, htn, hqp, hlen, htl, hsub⟩ := ih (table.erase i) hnd1 hp1
      have hl1 : (table.erase i).length = table.length - 1 := List.length_erase_of_mem hi
      refine ⟨t, q1, i :: ev, ?_, by simp [hq], htn, hqp, ?_, ?_, ?_⟩
      · simp [evictLoop, hgt, onBeforeEvict, he]
      · simp only [List.length_cons, hlen, hl1]; omega
      · rw [htl, hl1]; omega
      · simpa [onBeforeEvict] using hsub
    · refine ⟨table, i :: rest, [], ?_, by simp, hnd, hp, ?_, ?_, rfl⟩
      · simp [evictLoop, hgt]
      · simp; omega
      · omega

/-- The relocation done by `insertToQueue` for a queued entry keeps the queue a
permutation of itself. -/
theorem erase_append_perm (q : List Nat) (i : Nat) (hi : i ∈ q) :
    (q.erase i ++ [i]).Perm q := by
  have h1 : (q.erase i ++ [i]).Perm (i :: q.erase i) := by
    exact (List.perm_append_comm : (q.erase i ++ [i]).Perm ([i] ++ q.erase i))
  exact h1.trans (List.perm_cons_erase hi).symm

/-- `insertToQueue` for an entry that is already queued (refresh or use). -/
theorem insertToQueue_old (s : State) (i : Nat) (hi : i ∈ s.m_queue) :
    insertToQueue s i false = some { s with m_queue := s.m_queue.erase i ++ [i] } := by
  simp [insertToQueue, hi]

/-- `insertToQueue` for an entry that is not queued yet (insert). -/
theorem insertToQueue_new (s : State) (i : Nat) (hi : i ∉ s.m_queue) :
    insertToQueue s i true = some { s with m_queue := s.m_queue ++ [i] } := by
  simp [insertToQueue, hi]

/-- `evictEntries` on a consistent state, from `evictLoop_spec`. -/
theorem evictEntries_spec (s : State) (hc : Consistent s) :
    ∃ s1 ev, evictEntries s = some (s1, ev) ∧ ev ++ s1.m_queue = s.m_queue ∧
      Consistent s1 ∧ s1.limit = s.limit ∧ ev.length = s.table.length - s.limit ∧
      s1.table.length = min s.table.length s.limit ∧
      s1.table = ev.foldl onBeforeEvict s.table := by
  obtain ⟨t, q1, ev, he, hq, htn, hqp, hlen, htl, hf⟩ :=
    evictLoop_spec s.limit s.m_queue s.table hc.1 hc.2
  exact ⟨{ s with table := t, m_queue := q1 }, ev, by simp [evictEntries, he], hq,
    ⟨htn, hqp⟩, rfl, hlen, htl, hf⟩

/-- One cache operation on a consistent state succeeds and gives the queue explicitly:
the evicted entries followed by the new queue are the old queue with the touched entry
moved (or added) to the end, or with the erased entry removed. -/
theorem applyOp_spec (s : State) (op : CsOp) (hc : Consistent s) :
    ∃ s1 ev, applyOp s op = some (s1, ev) ∧ Consistent s1 ∧ s1.limit = s.limit ∧
      s1.table.length ≤ max s.table.length s.limit ∧
      (ev ++ s1.m_queue =
        match op with
        | .insert i => s.m_queue.erase i ++ [i]
        | .find i => if i ∈ s.table then s.m_queue.erase i ++ [i] else s.m_queue
        | .erase i => s.m_queue.erase i) := by
  obtain ⟨hnd, hp⟩ := hc
  cases op with
  | insert i =>
    by_cases hi : i ∈ s.table
    · have hq : i ∈ s.m_queue := hp.symm.subset hi
      refine ⟨{ s with m_queue := s.m_queue.erase i ++ [i] }, [], ?_, ⟨hnd, ?_⟩, rfl, ?_, ?_⟩
      · simp [applyOp, hi, doAfterRefresh, insertToQueue_old s i hq]
      · exact (erase_append_perm _ _ hq).trans hp
      · simp
      · simp
    · have hq : i ∉ s.m_queue := fun h => hi (hp.subset h)
      have hc1 : Consistent (State.mk (s.table ++ [i]) (s.m_queue ++ [i]) s.limit) := by
        refine ⟨?_, ?_⟩
        · exact List.Nodup.append hnd (List.nodup_singleton i) (by simpa using hi)
        · exact hp.append_right [i]
      obtain ⟨s1, ev, he, hq1, hc2, hl, hlen, htl, _⟩ := evictEntries_spec _ hc1
      refine ⟨s1, ev, ?_, hc2, hl, ?_, ?_⟩
      · have h0 : insertToQueue { s with table := s.table ++ [i] } i true =
            some (State.mk (s.table ++ [i]) (s.m_queue ++ [i]) s.limit) :=
          insertToQueue_new _ i hq
        simp [applyOp, hi, doAfterInsert, h0, he]
      · simp only [List.length_append, List.length_singleton] at htl
        rw [htl]; omega
      · simp only [hq1, List.erase_of_not_mem hq]
  | find i =>
    by_cases hi : i ∈ s.table
    · have hq : i ∈ s.m_queue := hp.symm.subset hi
      refine ⟨{ s with m_queue := s.m_queue.erase i ++ [i] }, [], ?_, ⟨hnd, ?_⟩, rfl, ?_, ?_⟩
      · simp [applyOp, hi, doBeforeUse, insertToQueue_old s i hq]
      · exact (erase_append_perm _ _ hq).trans hp
      · simp
      · simp [hi]
    · exact ⟨s, [], by simp [applyOp, hi], ⟨hnd, hp⟩, rfl, by simp, by simp [hi]⟩
  | erase i =>
    by_cases hi : i ∈ s.table
    · refine ⟨{ s with table := s.table.erase i, m_queue := s.m_queue.erase i }, [], ?_,
        ⟨hnd.erase i, hp.erase i⟩, rfl, ?_, ?_⟩
      · simp [applyOp, hi, doBeforeErase]
      · simp only [List.length_erase_of_mem hi]; omega
      · simp
    · have hq : i ∉ s.m_queue := fun h => hi (hp.subset h)
      exact ⟨s, [], by simp [applyOp, hi], ⟨hnd, hp⟩, rfl, by simp,
        by simp [List.erase_of_not_mem hq]⟩

/-- Any sequence of cache operations from a consistent state within its limit succeeds
and ends in a consistent state within the same limit. -/
theorem run_spec (ops : List CsOp) :
    ∀ s : State, Consistent s → s.table.length ≤ s.limit →
      ∃ s1, run s ops = some s1 ∧ Consistent s1 ∧ s1.limit = s.limit ∧
        s1.table.length ≤ s1.limit := by
  induction ops with
  | nil => intro s hc hl; exact ⟨s, rfl, hc, rfl, hl⟩
  | cons op ops ih =>
    intro s hc hl
    obtain ⟨s1, ev, he, hc1, hlim, hlen, _⟩ := applyOp_spec s op hc
    have hl1 : s1.table.length ≤ s1.limit := by rw [hlim]; omega
    obtain ⟨s2, hr, hc2, hlim2, hl2⟩ := ih s1 hc1 hl1
    exact ⟨s2, by simp [run, he, hr], hc2, by rw [hlim2, hlim], hl2⟩

/-- Running a history extended by one operation. -/
theorem run_append_singleton (h : List CsOp) (op : CsOp) :
    ∀ s : State, run s (h ++ [op]) =
      match run s h with
      | none => none
      | some s1 => (applyOp s1 op).map Prod.fst := by
  induction h with
  | nil =>
    intro s
    cases hop : applyOp s op with
    | none => simp [run, hop]
    | some r => obtain ⟨s1, ev⟩ := r; simp [run, hop]
  | cons o h ih =>
    intro s
    cases ho : applyOp s o with
    | none => simp [run, ho]
    | some r => obtain ⟨s1, ev⟩ := r; simp [run, ho, ih s1]

/-- The stamp after one more operation. -/
theorem lastTouch_append_singleton (h : List CsOp) (op : CsOp) (i : Nat) :
    lastTouch (h ++ [op]) i = if touches i op then h.length + 1 else lastTouch h i := by
  simp [lastTouch, lastTouchRev]

/-- A stamp is at most the length of the history. -/
theorem lastTouchRev_le (i : Nat) (l : List CsOp) : lastTouchRev i l ≤ l.length := by
  induction l with
  | nil => simp [lastTouchRev]
  | cons op older ih =>
    simp only [lastTouchRev, List.length_cons]
    split <;> omega

/-- A stamp is at most the length of the history. -/
theorem lastTouch_le (h : List CsOp) (i : Nat) : lastTouch h i ≤ h.length := by
  have := lastTouchRev_le i h.reverse
  simpa [lastTouch] using this

/-- Moving the touched entry to the end keeps the queue in recency order. -/
theorem recent_touch (h : List CsOp) (op : CsOp) (q : List Nat) (i : Nat)
    (hq : q.Nodup) (hr : Recent h q) (ht : touches i op = true)
    (hother : ∀ a, a ≠ i → touches a op = false) :
    Recent (h ++ [op]) (q.erase i ++ [i]) := by
  unfold Recent
  rw [List.pairwise_append]
  refine ⟨?_, List.pairwise_singleton _ _, ?_⟩
  · have hsub : (q.erase i).Pairwise (fun a b => lastTouch h a < lastTouch h b) :=
      List.Pairwise.sublist (List.erase_sublist i q) hr
    refine List.Pairwise.imp_of_mem ?_ hsub
    intro a b ha hb hab
    have hai : a ≠ i := fun e => by subst e; exact (hq.mem_erase_iff.mp ha).1 rfl
    have hbi : b ≠ i := fun e => by subst e; exact (hq.mem_erase_iff.mp hb).1 rfl
    simpa [lastTouch_append_singleton, hother a hai, hother b hbi] using hab
  · intro a ha b hb
    have hbi : b = i := by simpa using hb
    subst hbi
    have hai : a ≠ b := fun e => by subst e; exact (hq.mem_erase_iff.mp ha).1 rfl
    have hle := lastTouch_le h a
    simp only [lastTouch_append_singleton, hother a hai, ht, if_true]
    simp only [Bool.false_eq_true, if_false]
    omega

/-- An operation that touches no queued entry keeps every sublist of the queue in
recency order. -/
theorem recent_untouched (h : List CsOp) (op : CsOp) (q q1 : List Nat)
    (hr : Recent h q) (hsub : q1.Sublist q) (hother : ∀ a, a ∈ q1 → touches a op = false) :
    Recent (h ++ [op]) q1 := by
  unfold Recent
  have hs : q1.Pairwise (fun a b => lastTouch h a < lastTouch h b) :=
    List.Pairwise.sublist hsub hr
  refine List.Pairwise.imp_of_mem ?_ hs
  intro a b ha hb hab
  simpa [lastTouch_append_singleton, hother a ha, hother b hb] using hab

/-- One operation keeps recency order; the entries it evicts are a front segment of
the re-ordered queue. -/
theorem applyOp_recent (h : List CsOp) (s s1 : State) (op : CsOp) (ev : List Nat)
    (hc : Consistent s) (hr : Recent h s.m_queue) (he : applyOp s op = some (s1, ev)) :
    Recent (h ++ [op]) (ev ++ s1.m_queue) := by
  obtain ⟨s2, ev2, he2, _, _, _, hq⟩ := applyOp_spec s op hc
  rw [he] at he2
  obtain ⟨rfl, rfl⟩ : s1 = s2 ∧ ev = ev2 := by simpa using he2
  have hqn : s.m_queue.Nodup := hc.2.nodup_iff.mpr hc.1
  rw [hq]
  cases op with
  | insert i =>
    refine recent_touch h _ _ i hqn hr (by simp [touches]) ?_
    intro a ha; simpa [touches] using fun e => ha e.symm
  | find i =>
    by_cases hi : i ∈ s.table
    · simp only [hi, if_true]
      refine recent_touch h _ _ i hqn hr (by simp [touches]) ?_
      intro a ha; simpa [touches] using fun e => ha e.symm
    · simp only [hi, if_false]
      refine recent_untouched h _ _ _ hr (List.Sublist.refl _) ?_
      intro a ha
      have : a ≠ i := fun e => by subst e; exact hi (hc.2.subset ha)
      simpa [touches] using fun e => this e.symm
  | erase i =>
    exact recent_untouched h _ _ _ hr (List.erase_sublist i _) (fun a _ => by simp [touches])

/-- Every history from the empty cache succeeds and ends in a consistent state within
the limit whose queue is in recency order. -/
theorem run_empty_spec (limit : Nat) (h : List CsOp) :
    ∃ s, run (empty limit) h = some s ∧ Consistent s ∧ s.limit = limit ∧
      s.table.length ≤ s.limit ∧ Recent h s.m_queue := by
  induction h using List.reverseRecOn with
  | nil =>
    exact ⟨empty limit, rfl, ⟨List.nodup_nil, List.Perm.refl _⟩, rfl, by simp [empty],
      List.Pairwise.nil⟩
  | append_singleton h op ih =>
    obtain ⟨s, hrun, hc, hlim, hl, hr⟩ := ih
    obtain ⟨s1, ev, he, hc1, hlim1, hlen, _⟩ := applyOp_spec s op hc
    refine ⟨s1, ?_, hc1, by rw [hlim1, hlim], by rw [hlim1]; omega, ?_⟩
    · simp [run_append_singleton, hrun, he]
    · have := applyOp_recent h s s1 op ev hc hr he
      exact List.Pairwise.sublist (List.sublist_append_right ev s1.m_queue) this

/-- The entries evicted by the loop are a front segment of the queue, whatever the
table holds. -/
theorem evictLoop_front (limit : Nat) :
    ∀ (q table t q1 ev : List Nat), evictLoop limit table q = some (t, q1, ev) →
      ev ++ q1 = q := by
  intro q
  induction q with
  | nil =>
    intro table t q1 ev h
    by_cases hgt : table.length > limit
    · simp [evictLoop, hgt] at h
    · simp [evictLoop, hgt] at h
      obtain ⟨_, rfl, rfl⟩ := h
      rfl
  | cons i rest ih =>
    intro table t q1 ev h
    by_cases hgt : table.length > limit
    · cases hrec : evictLoop limit (onBeforeEvict table i) rest with
      | none => simp [evictLoop, hgt, hrec] at h
      | some r =>
        obtain ⟨t2, q2, ev2⟩ := r
        simp [evictLoop, hgt, hrec] at h
        obtain ⟨_, rfl, rfl⟩ := h
        simp [ih _ _ _ _ hrec]
    · simp [evictLoop, hgt] at h
      obtain ⟨_, rfl, rfl⟩ := h
      rfl

/-- One iteration of the loop of `evictEntries`: over the limit, the queue front is
popped and evicted and the loop condition is evaluated again on the new state. -/
theorem evictEntries_step (s : State) (i : Nat) (rest : List Nat)
    (hq : s.m_queue = i :: rest) (hgt : s.limit < s.table.length) :
    evictEntries s =
      (evictEntries { s with table := onBeforeEvict s.table i, m_queue := rest }).map
        (fun r => (r.1, i :: r.2)) := by
  simp only [evictEntries, hq, evictLoop, gt_iff_lt, hgt, if_true]
  cases evictLoop s.limit (onBeforeEvict s.table i) rest with
  | none => rfl
  | some r => obtain ⟨t, q, ev⟩ := r; rfl

/-- Within the limit `evictEntries` evicts nothing. -/
theorem evictEntries_within (s : State) (hle : s.table.length ≤ s.limit) :
    evictEntries s = some (s, []) := by
  have hgt : ¬ s.table.length > s.limit := by omega
  cases hq : s.m_queue with
  | nil =>
    simp only [evictEntries, hq, evictLoop, hgt, if_false]
    cases s; simp_all
  | cons i rest =>
    simp only [evictEntries, hq, evictLoop, hgt, if_false]
    cases s; simp_all

/-- When the eviction loop returns, the occupancy is within the limit, whatever the
table and the queue held. -/
theorem evictLoop_le (limit : Nat) :
    ∀ (q table t q1 ev : List Nat), evictLoop limit table q = some (t, q1, ev) →
      t.length ≤ limit := by
  intro q
  induction q with
  | nil =>
    intro table t q1 ev h
    by_cases hgt : table.length > limit
    · simp [evictLoop, hgt] at h
    · simp [evictLoop, hgt] at h
      obtain ⟨rfl, _, _⟩ := h
      omega
  | cons i rest ih =>
    intro table t q1 ev h
    by_cases hgt : table.length > limit
    · cases hrec : evictLoop limit (onBeforeEvict table i) rest with
      | none => simp [evictLoop, hgt, hrec] at h
      | some r =>
        obtain ⟨t2, q2, ev2⟩ := r
        simp [evictLoop, hgt, hrec] at h
        obtain ⟨rfl, _, _⟩ := h
        exact ih _ _ _ _ hrec
    · simp [evictLoop, hgt] at h
      obtain ⟨rfl, _, _⟩ := h
      omega

/-- `insertToQueue` changes the queue only. -/
theorem insertToQueue_table {s s1 : State} {i : Nat} {b : Bool}
    (h : insertToQueue s i b = some s1) : s1.table = s.table ∧ s1.limit = s.limit := by
  unfold insertToQueue at h
  simp only at h
  split at h
  · simp at h
  · split at h <;> (simp only [Option.some.injEq] at h; subst h; exact ⟨rfl, rfl⟩)

/-- One cache operation that returns keeps the occupancy within the limit, whatever the
queue held. -/
theorem applyOp_le {s s1 : State} {op : CsOp} {ev : List Nat}
    (h : applyOp s op = some (s1, ev)) (hl : s.table.length ≤ s.limit) :
    s1.table.length ≤ s1.limit ∧ s1.limit = s.limit := by
  cases op with
  | insert i =>
    simp only [applyOp] at h
    split at h
    · cases hr : doAfterRefresh s i with
      | none => simp [hr] at h
      | some s2 =>
        simp [hr] at h
        obtain ⟨rfl, _⟩ := h
        obtain ⟨h1, h2⟩ := insertToQueue_table hr
        rw [h1, h2]; exact ⟨hl, rfl⟩
    · unfold doAfterInsert at h
      cases hq : insertToQueue { s with table := s.table ++ [i] } i true with
      | none => simp [hq] at h
      | some s2 =>
        simp only [hq] at h
        obtain ⟨_, h2⟩ := insertToQueue_table hq
        unfold evictEntries at h
        cases hloop : evictLoop s2.limit s2.table s2.m_queue with
        | none => simp [hloop] at h
        | some r =>
          obtain ⟨t, q, ev2⟩ := r
          simp [hloop] at h
          obtain ⟨rfl, _⟩ := h
          exact ⟨evictLoop_le _ _ _ _ _ _ hloop, h2⟩
  | find i =>
    simp only [applyOp] at h
    split at h
    · cases hr : doBeforeUse s i with
      | none => simp [hr] at h
      | some s2 =>
        simp [hr] at h
        obtain ⟨rfl, _⟩ := h
        obtain ⟨h1, h2⟩ := insertToQueue_table hr
        rw [h1, h2]; exact ⟨hl, rfl⟩
    · simp at h
      obtain ⟨rfl, _⟩ := h
      exact ⟨hl, rfl⟩
  | erase i =>
    simp only [applyOp] at h
    split at h
    · simp [doBeforeErase] at h
      obtain ⟨rfl, _⟩ := h
      refine ⟨?_, rfl⟩
      have := List.length_erase_le i s.table
      simp only
      omega
    · simp at h
      obtain ⟨rfl, _⟩ := h
      exact ⟨hl, rfl⟩

/-- A sequence of cache operations that returns keeps the occupancy within the limit,
whatever the queue held. -/
theorem run_le (ops : List CsOp) :
    ∀ {s s1 : State}, run s ops = some s1 → s.table.length ≤ s.limit →
      s1.table.length ≤ s1.limit ∧ s1.limit = s.limit := by
  induction ops with
  | nil =>
    intro s s1 h hl
    simp [run] at h
    subst h
    exact ⟨hl, rfl⟩
  | cons op ops ih =>
    intro s s1 h hl
    cases ho : applyOp s op with
    | none => simp [run, ho] at h
    | some r =>
      obtain ⟨s2, ev⟩ := r
      simp only [run, ho] at h
      obtain ⟨h1, h2⟩ := applyOp_le ho hl
      obtain ⟨h3, h4⟩ := ih h h1
      exact ⟨h3, h4.trans h2⟩

/-- C2 (cache capacity invariant). Starting from an LRU cache whose occupancy is at
most its limit, after any sequence of cache operations (each one notifying
`doAfterInsert`, `doAfterRefresh`, `doBeforeUse` or `doBeforeErase`) the number of
cached entries is at most the limit, which is unchanged. When the queue holds exactly
the cached entries at the start, no assertion fails and the sequence runs to its end. -/
theorem lru_occupancy_within_limit (s : State) (ops : List CsOp)
    (hl : s.table.length ≤ s.limit) :
    (∀ s1, run s ops = some s1 → s1.table.length ≤ s1.limit ∧ s1.limit = s.limit) ∧
    (Consistent s → ∃ s1, run s ops = some s1) := by
  refine ⟨fun s1 h => run_le ops h hl, ?_⟩
  intro hc
  obtain ⟨s1, hr, _⟩ := run_spec ops s hc hl
  exact ⟨s1, hr⟩

/-- Witness for `lru_occupancy_within_limit`: a full cache of limit 2 that sees an
insert, a use, a refresh, an erase and two more inserts. -/
theorem lru_occupancy_within_limit_witness :
    (State.mk [1, 2] [2, 1] 2).table.length ≤ 2 ∧
    run (State.mk [1, 2] [2, 1] 2)
        [.insert 3, .find 1, .insert 3, .erase 1, .insert 4, .insert 5] =
      some (State.mk [4, 5] [4, 5] 2) ∧
    (State.mk [4, 5] [4, 5] 2).table.length ≤ 2 :=
  ⟨by decide, by decide,
    ((lru_occupancy_within_limit (State.mk [1, 2] [2, 1] 2)
      [.insert 3, .find 1, .insert 3, .erase 1, .insert 4, .insert 5] (by decide)).1
      (State.mk [4, 5] [4, 5] 2) (by decide)).1⟩

/-- C3 (the victim is the least recently touched entry). (1) Whatever the state, the
entries evicted by `evictEntries` are, in order, the successive fronts of the recency
queue. (2) After any history of cache operations from the empty cache, an entry `v`
evicted by the next operation has, at the moment of its eviction, a strictly older last
insert, refresh or use than every entry that is still cached then (the ones evicted after
it and the ones that stay). (3) With limit 1, inserting `a` and then a distinct `b`
evicts `a` and keeps only `b`. -/
theorem lru_evicts_least_recently_touched :
    (∀ s s1 ev, evictEntries s = some (s1, ev) → ev ++ s1.m_queue = s.m_queue) ∧
    (∀ (limit : Nat) (h : List CsOp) (op : CsOp),
      ∃ s s1 ev, run (empty limit) h = some s ∧ applyOp s op = some (s1, ev) ∧
        ∀ pre v post, ev = pre ++ v :: post → ∀ w, (w ∈ post ∨ w ∈ s1.table) →
          lastTouch (h ++ [op]) v < lastTouch (h ++ [op]) w) ∧
    (∀ a b : Nat, a ≠ b →
      applyOp (empty 1) (.insert a) = some (State.mk [a] [a] 1, []) ∧
      applyOp (State.mk [a] [a] 1) (.insert b) = some (State.mk [b] [b] 1, [a])) := by
  refine ⟨?_, ?_, ?_⟩
  · intro s s1 ev h
    cases hl : evictLoop s.limit s.table s.m_queue with
    | none => simp [evictEntries, hl] at h
    | some r =>
      obtain ⟨t, q, ev2⟩ := r
      simp [evictEntries, hl] at h
      obtain ⟨rfl, rfl⟩ := h
      exact evictLoop_front _ _ _ _ _ _ hl
  · intro limit h op
    obtain ⟨s, hrun, hc, _, _, hr⟩ := run_empty_spec limit h
    obtain ⟨s1, ev, he, hc1, _, _, _⟩ := applyOp_spec s op hc
    refine ⟨s, s1, ev, hrun, he, ?_⟩
    intro pre v post hev w hw
    have hrec := applyOp_recent h s s1 op ev hc hr he
    unfold Recent at hrec
    rw [hev, List.append_assoc, List.pairwise_append] at hrec
    have hcons := hrec.2.1
    rw [List.cons_append, List.pairwise_cons] at hcons
    apply hcons.1 w
    rcases hw with hw | hw
    · exact List.mem_append_left _ hw
    · exact List.mem_append_right _ (hc1.2.symm.subset hw)
  · intro a b hab
    have hba : ¬ b = a := fun e => hab e.symm
    constructor
    · simp [applyOp, empty, doAfterInsert, insertToQueue, evictEntries, evictLoop]
    · simp [applyOp, doAfterInsert, insertToQueue, evictEntries, evictLoop, onBeforeEvict,
        hab, hba]

/-- Witness for `lru_evicts_least_recently_touched`: limit 2, history insert 1,
insert 2, use 1, then insert 3 evicts entry 2; and the limit-1 scenario with A = 7,
B = 9. -/
theorem lru_evicts_least_recently_touched_witness :
    (∃ s s1 ev, run (empty 2) [.insert 1, .insert 2, .find 1] = some s ∧
        applyOp s (.insert 3) = some (s1, ev) ∧
        ∀ pre v post, ev = pre ++ v :: post → ∀ w, (w ∈ post ∨ w ∈ s1.table) →
          lastTouch ([.insert 1, .insert 2, .find 1] ++ [.insert 3]) v <
            lastTouch ([.insert 1, .insert 2, .find 1] ++ [.insert 3]) w) ∧
    (applyOp (empty 1) (.insert 7) = some (State.mk [7] [7] 1, []) ∧
      applyOp (State.mk [7] [7] 1) (.insert 9) = some (State.mk [9] [9] 1, [7])) :=
  ⟨lru_evicts_least_recently_touched.2.1 2 [.insert 1, .insert 2, .find 1] (.insert 3),
    lru_evicts_least_recently_touched.2.2 7 9 (by decide)⟩

/-- C4 (eviction loop). Called with occupancy `s` and limit `l` on a queue that holds
exactly the cached entries, `evictEntries` returns (the recursion is on the queue, so
it terminates) without failing its non-empty-queue assertion; it evicts exactly
`max 0 (s - l)` entries, removing them from the table one by one, and leaves
`min s l` cached entries; within the limit it does nothing, and over the limit it pops
and evicts the queue front and then evaluates the loop condition again on the
resulting state. -/
theorem evictEntries_evicts_excess (s : State) (hc : Consistent s) :
    ∃ s1 ev, evictEntries s = some (s1, ev) ∧
      (ev.length : Int) = max 0 ((s.table.length : Int) - (s.limit : Int)) ∧
      s1.table = ev.foldl onBeforeEvict s.table ∧
      s1.table.length = min s.table.length s.limit ∧
      ev ++ s1.m_queue = s.m_queue ∧
      (s.table.length ≤ s.limit → s1 = s ∧ ev = []) ∧
      (s.limit < s.table.length → ∃ i rest, s.m_queue = i :: rest ∧
        evictEntries s =
          (evictEntries { s with table := onBeforeEvict s.table i, m_queue := rest }).map
            (fun r => (r.1, i :: r.2))) := by
  obtain ⟨s1, ev, he, hq, _, _, hlen, htl, hf⟩ := evictEntries_spec s hc
  refine ⟨s1, ev, he, ?_, hf, htl, hq, ?_, ?_⟩
  · rw [hlen]; omega
  · intro hle
    have := evictEntries_within s hle
    rw [he] at this
    simpa using this
  · intro hgt
    cases hqs : s.m_queue with
    | nil =>
      have : s.table.length = 0 := by
        have := hc.2.length_eq
        rw [hqs] at this
        simpa using this.symm
      omega
    | cons i rest => exact ⟨i, rest, rfl, evictEntries_step s i rest hqs hgt⟩

/-- Witness for `evictEntries_evicts_excess`: occupancy 4 and limit 2. -/
theorem evictEntries_evicts_excess_witness :
    evictEntries (State.mk [1, 2, 3, 4] [1, 2, 3, 4] 2) =
      some (State.mk [3, 4] [3, 4] 2, [1, 2]) ∧
    ∃ s1 ev, evictEntries (State.mk [1, 2, 3, 4] [1, 2, 3, 4] 2) = some (s1, ev) ∧
      (ev.length : Int) = max 0 (((State.mk [1, 2, 3, 4] [1, 2, 3, 4] 2).table.length : Int) - 2) :=
  ⟨by decide,
    (evictEntries_evicts_excess (State.mk [1, 2, 3, 4] [1, 2, 3, 4] 2)
      ⟨by decide, List.Perm.refl _⟩).imp
      (fun s1 h => h.imp (fun ev h2 => ⟨h2.1, h2.2.1⟩))⟩

/-! ### The LRU policy: the recency end of the queue -/

/-- Moving an entry to the end of a list keeps the other entries in their order. -/
theorem filter_erase_append (q : List Nat) (i : Nat) :
    (q.erase i ++ [i]).filter (fun x => x != i) = q.filter (fun x => x != i) := by
  induction q with
  | nil => simp
  | cons a rest ih =>
    by_cases ha : a = i
    · subst ha
      simp [List.filter_append, List.filter_cons]
    · have hb : (a == i) = false := by simpa using ha
      rw [List.erase_cons, hb]
      simp only [Bool.false_eq_true, if_false, List.cons_append, List.filter_cons, bne_iff_ne,
        ne_eq, ha, not_false_eq_true, decide_True, if_true]
      rw [← ih]

/-- C29: for an entry `i` of the queue, `doBeforeUse` and `doAfterRefresh` return the
queue with `i` moved to its most-recently-used end (the back): `i` is last and the other
entries keep their relative order; for an entry that is not in the queue,
`doAfterInsert` appends `i` at that end and runs the eviction on the queue so
extended. -/
theorem touch_moves_to_recent_end (s : State) (i : Nat) :
    (i ∈ s.m_queue →
      doBeforeUse s i = some { s with m_queue := s.m_queue.erase i ++ [i] } ∧
      doAfterRefresh s i = some { s with m_queue := s.m_queue.erase i ++ [i] } ∧
      (s.m_queue.erase i ++ [i]).getLast? = some i ∧
      (s.m_queue.erase i ++ [i]).filter (fun x => x != i) =
        s.m_queue.filter (fun x => x != i) ∧
      (s.m_queue.Nodup →
        s.m_queue.erase i ++ [i] = s.m_queue.filter (fun x => x != i) ++ [i])) ∧
    (i ∉ s.m_queue →
      insertToQueue s i true = some { s with m_queue := s.m_queue ++ [i] } ∧
      doAfterInsert s i = evictEntries { s with m_queue := s.m_queue ++ [i] } ∧
      (s.m_queue ++ [i]).getLast? = some i ∧
      (s.m_queue ++ [i]).filter (fun x => x != i) = s.m_queue) := by
  constructor
  · intro hi
    have hc : s.m_queue.contains i = true := by simpa using hi
    have h1 : insertToQueue s i false = some { s with m_queue := s.m_queue.erase i ++ [i] } := by
      simp [insertToQueue, hi]
    refine ⟨h1, h1, by simp, filter_erase_append _ _, ?_⟩
    intro hn
    rw [List.Nodup.erase_eq_filter hn]
  · intro hi
    have hc : s.m_queue.contains i = false := by simpa using hi
    have h1 : insertToQueue s i true = some { s with m_queue := s.m_queue ++ [i] } := by
      simp [insertToQueue, hi]
    refine ⟨h1, by simp [doAfterInsert, h1], by simp, ?_⟩
    rw [List.filter_append]
    simp only [List.filter_cons, bne_self_eq_false, Bool.false_eq_true, if_false,
      List.filter_nil, List.append_nil]
    apply List.filter_eq_self.mpr
    intro x hx
    simp only [bne_iff_ne, ne_eq]
    intro hxi
    exact hi (hxi ▸ hx)

/-- Witness for `touch_moves_to_recent_end`: the queue `1, 2, 3` with entry 2 used and
entry 4 inserted. -/
theorem touch_moves_to_recent_end_witness :
    (doBeforeUse (State.mk [1, 2, 3] [1, 2, 3] 3) 2 = some (State.mk [1, 2, 3] [1, 3, 2] 3) ∧
      doAfterRefresh (State.mk [1, 2, 3] [1, 2, 3] 3) 2 =
        some (State.mk [1, 2, 3] [1, 3, 2] 3) ∧
      ([1, 2, 3].erase 2 ++ [2]).getLast? = some 2 ∧
      ([1, 2, 3].erase 2 ++ [2]).filter (fun x => x != 2) =
        [1, 2, 3].filter (fun x => x != 2) ∧
      ([1, 2, 3].Nodup →
        [1, 2, 3].erase 2 ++ [2] = [1, 2, 3].filter (fun x => x != 2) ++ [2])) ∧
    (insertToQueue (State.mk [1, 2, 3, 4] [1, 2, 3] 3) 4 true =
        some (State.mk [1, 2, 3, 4] [1, 2, 3, 4] 3) ∧
      doAfterInsert (State.mk [1, 2, 3, 4] [1, 2, 3] 3) 4 =
        evictEntries (State.mk [1, 2, 3, 4] [1, 2, 3, 4] 3) ∧
      ([1, 2, 3] ++ [4]).getLast? = some 4 ∧
      ([1, 2, 3] ++ [4]).filter (fun x => x != 4) = [1, 2, 3]) :=
  ⟨(touch_moves_to_recent_end (State.mk [1, 2, 3] [1, 2, 3] 3) 2).1 (by decide),
    (touch_moves_to_recent_end (State.mk [1, 2, 3, 4] [1, 2, 3] 3) 4).2 (by decide)⟩

/-! ### The LRU policy: the queue in step with the cache -/

/-- Any sequence of cache operations from a state whose queue holds exactly the cached
entries runs to its end, in such a state. -/
theorem run_consistent (ops : List CsOp) :
    ∀ s : State, Consistent s → ∃ s1, run s ops = some s1 ∧ Consistent s1 := by
  induction ops with
  | nil => intro s hc; exact ⟨s, rfl, hc⟩
  | cons op ops ih =>
    intro s hc
    obtain ⟨s1, ev, he, hc1, _⟩ := applyOp_spec s op hc
    obtain ⟨s2, hr, hc2⟩ := ih s1 hc1
    exact ⟨s2, by simp [run, he, hr], hc2⟩

/-- C40: from a state in which the recency queue holds each cached entry exactly once
and nothing else, every policy operation leaves such a state and no assertion fails:
`doAfterInsert` for an entry the cache has just added, `doAfterRefresh` and
`doBeforeUse` for a cached entry, `doBeforeErase` followed by the removal of the entry
from the cache, `evictEntries`, and any sequence of cache operations. In such a state an
entry is new to the queue exactly when it is new to the cache, which is what the
assertion of `insertToQueue` compares. -/
theorem queue_in_step_with_cache (s : State) (hc : Consistent s) :
    ((∀ i, i ∈ s.m_queue ↔ i ∈ s.table) ∧ s.m_queue.Nodup) ∧
    (∀ i, i ∉ s.table →
      ∃ s1 ev, doAfterInsert { s with table := s.table ++ [i] } i = some (s1, ev) ∧
        Consistent s1) ∧
    (∀ i, i ∈ s.table → ∃ s1, doAfterRefresh s i = some s1 ∧ Consistent s1) ∧
    (∀ i, i ∈ s.table → ∃ s1, doBeforeUse s i = some s1 ∧ Consistent s1) ∧
    (∀ i, i ∈ s.table → Consistent { doBeforeErase s i with table := s.table.erase i }) ∧
    (∃ s1 ev, evictEntries s = some (s1, ev) ∧ Consistent s1) ∧
    (∀ ops, ∃ s1, run s ops = some s1 ∧ Consistent s1) := by
  have hnd := hc.1
  have hp := hc.2
  have htouch : ∀ i, i ∈ s.table →
      insertToQueue s i false = some { s with m_queue := s.m_queue.erase i ++ [i] } ∧
      Consistent { s with m_queue := s.m_queue.erase i ++ [i] } := by
    intro i hi
    have hq : i ∈ s.m_queue := hp.symm.subset hi
    exact ⟨insertToQueue_old s i hq, hnd, (erase_append_perm _ _ hq).trans hp⟩
  refine ⟨⟨fun i => ⟨fun h => hp.subset h, fun h => hp.symm.subset h⟩,
    hp.symm.nodup_iff.mp hnd⟩, ?_, ?_, ?_, ?_, ?_, ?_⟩
  · intro i hi
    obtain ⟨s1, ev, he, hc1, _⟩ := applyOp_spec s (.insert i) hc
    refine ⟨s1, ev, ?_, hc1⟩
    simpa [applyOp, hi] using he
  · intro i hi
    exact ⟨_, (htouch i hi).1, (htouch i hi).2⟩
  · intro i hi
    exact ⟨_, (htouch i hi).1, (htouch i hi).2⟩
  · intro i hi
    exact ⟨hnd.erase i, hp.erase i⟩
  · obtain ⟨s1, ev, he, _, hc1, _⟩ := evictEntries_spec s hc
    exact ⟨s1, ev, he, hc1⟩
  · intro ops
    exact run_consistent ops s hc

/-- Witness for `queue_in_step_with_cache`: the cache `1, 2, 3` with queue `3, 1, 2`. -/
theorem queue_in_step_with_cache_witness :
    ((∀ i, i ∈ (State.mk [1, 2, 3] [3, 1, 2] 3).m_queue ↔
        i ∈ (State.mk [1, 2, 3] [3, 1, 2] 3).table) ∧
      (State.mk [1, 2, 3] [3, 1, 2] 3).m_queue.Nodup) ∧
    (∀ i, i ∉ (State.mk [1, 2, 3] [3, 1, 2] 3).table →
      ∃ s1 ev, doAfterInsert { (State.mk [1, 2, 3] [3, 1, 2] 3) with
          table := (State.mk [1, 2, 3] [3, 1, 2] 3).table ++ [i] } i = some (s1, ev) ∧
        Consistent s1) ∧
    (∀ i, i ∈ (State.mk [1, 2, 3] [3, 1, 2] 3).table →
      ∃ s1, doAfterRefresh (State.mk [1, 2, 3] [3, 1, 2] 3) i = some s1 ∧ Consistent s1) ∧
    (∀ i, i ∈ (State.mk [1, 2, 3] [3, 1, 2] 3).table →
      ∃ s1, doBeforeUse (State.mk [1, 2, 3] [3, 1, 2] 3) i = some s1 ∧ Consistent s1) ∧
    (∀ i, i ∈ (State.mk [1, 2, 3] [3, 1, 2] 3).table →
      Consistent { doBeforeErase (State.mk [1, 2, 3] [3, 1, 2] 3) i with
        table := (State.mk [1, 2, 3] [3, 1, 2] 3).table.erase i }) ∧
    (∃ s1 ev, evictEntries (State.mk [1, 2, 3] [3, 1, 2] 3) = some (s1, ev) ∧
      Consistent s1) ∧
    (∀ ops, ∃ s1, run (State.mk [1, 2, 3] [3, 1, 2] 3) ops = some s1 ∧ Consistent s1) :=
  queue_in_step_with_cache (State.mk [1, 2, 3] [3, 1, 2] 3)
    ⟨by decide, by decide⟩

end LruPolicy

/-! ### The forwarder: the invariant at the level of views -/

namespace Forwarder

/-- Cancelling removes events only. -/
theorem mem_of_mem_cancel {events : List Event} {t : Option Nat} {ev : Event}
    (h : ev ∈ scheduler.cancel events t) : ev ∈ events := by
  cases t with
  | none => exact h
  | some id => exact (List.mem_filter.mp h).1

/-- After cancelling a handle no pending event has its id. -/
theorem ne_of_mem_cancel {events : List Event} {id : Nat} {ev : Event}
    (h : ev ∈ scheduler.cancel events (some id)) : ev.id ≠ id := by
  have := (List.mem_filter.mp h).2
  simpa using this

/-- A cancelled handle is not pending. -/
theorem not_pending_cancel (events : List Event) (t : Option Nat) :
    ¬ Pending (scheduler.cancel events t) t := by
  rintro ⟨ev, hev, ht⟩
  cases t with
  | none => cases ht
  | some id =>
    have h1 := ne_of_mem_cancel hev
    injection ht with ht
    exact h1 ht.symm

/-- Pending handles stay pending in a larger queue only: fewer events, fewer pending
handles. -/
theorem pending_mono {events evs : List Event} {t : Option Nat}
    (hsub : ∀ ev ∈ evs, ev ∈ events) (h : Pending evs t) : Pending events t := by
  obtain ⟨ev, hev, ht⟩ := h
  exact ⟨ev, hsub ev hev, ht⟩

/-- Entries of the table are determined by their identity. -/
theorem skel_unique {skels : List Skeleton} (hn : (skels.map (fun k => k.id)).Nodup)
    {a b : Skeleton} (ha : a ∈ skels) (hb : b ∈ skels) (hab : a.id = b.id) : a = b :=
  List.inj_on_of_nodup_map hn ha hb hab

/-- Removing events keeps the invariant. -/
theorem invV_shrink {v : View} (h : InvV v) (evs : List Event)
    (hsub : ∀ ev ∈ evs, ev ∈ v.events) :
    InvV (View.mk v.skels evs v.nextEntryId v.nextEventId) where
  idsNodup := h.idsNodup
  idsLt := h.idsLt
  keys := h.keys
  evLt := fun ev hev => h.evLt ev (hsub ev hev)
  handlesLt := h.handlesLt
  tracked := fun ev hev => h.tracked ev (hsub ev hev)
  exclusive := fun k hk hp => h.exclusive k hk ⟨pending_mono hsub hp.1, pending_mono hsub hp.2⟩

/-- Setting the unsatisfy timer of an entry whose straggler timer is idle keeps the
invariant. -/
theorem invV_setUnsat {v : View} (h : InvV v) (id : Nat) (delay : Int) (k0 : Skeleton)
    (hk0 : k0 ∈ v.skels) (hid : k0.id = id) (hidle : StragIdle v id) :
    InvV (View.mk
      (v.skels.map (fun k => if k.id = id then { k with unsat := some v.nextEventId } else k))
      (scheduler.cancel v.events k0.unsat ++ [Event.mk v.nextEventId delay (.unsatisfied id)])
      v.nextEntryId (v.nextEventId + 1)) where
  idsNodup := by
    have : (List.map (fun k => k.id) (List.map (fun k : Skeleton =>
        if k.id = id then { k with unsat := some v.nextEventId } else k) v.skels)) =
        v.skels.map (fun k => k.id) := by
      rw [List.map_map]
      apply List.map_congr_left
      intro k _
      by_cases hk : k.id = id <;> simp [hk]
    simpa [this] using h.idsNodup
  idsLt := by
    intro k hk
    obtain ⟨k1, hk1, rfl⟩ := List.mem_map.mp hk
    have := h.idsLt k1 hk1
    by_cases hc : k1.id = id <;> simpa [hc] using this
  keys := by
    simp only [List.pairwise_map]
    refine List.Pairwise.imp ?_ h.keys
    intro a b hab
    by_cases ha : a.id = id <;> by_cases hb : b.id = id <;> simpa [ha, hb] using hab
  evLt := by
    intro ev hev
    simp only [List.mem_append, List.mem_singleton] at hev
    rcases hev with hev | rfl
    · have := h.evLt ev (mem_of_mem_cancel hev)
      simp only; omega
    · simp
  handlesLt := by
    intro k hk t ht
    obtain ⟨k1, hk1, rfl⟩ := List.mem_map.mp hk
    have hold := h.handlesLt k1 hk1
    by_cases hc : k1.id = id
    · simp only [hc, if_true] at ht
      rcases ht with ht | ht
      · injection ht with ht; simp only; omega
      · have := hold t (Or.inr ht); simp only; omega
    · simp only [hc, if_false] at ht
      have := hold t ht; simp only; omega
  tracked := by
    intro ev hev
    simp only [List.mem_append, List.mem_singleton] at hev
    rcases hev with hev | rfl
    · obtain ⟨k, hk, hke, hm⟩ := h.tracked ev (mem_of_mem_cancel hev)
      refine ⟨_, List.mem_map.mpr ⟨k, hk, rfl⟩, ?_, ?_⟩
      · by_cases hc : k.id = id <;> simpa [hc] using hke
      · cases hcb : ev.callback with
        | unsatisfied e =>
          rw [hcb] at hm
          simp only at hm
          by_cases hc : k.id = id
          · exfalso
            have hkk : k = k0 := skel_unique h.idsNodup hk hk0 (hc.trans hid.symm)
            rw [hkk] at hm
            rw [hm] at hev
            exact ne_of_mem_cancel hev rfl
          · simpa [hc] using hm
        | finalize e sat fr =>
          rw [hcb] at hm
          simp only at hm
          by_cases hc : k.id = id <;> simpa [hc] using hm
    · refine ⟨_, List.mem_map.mpr ⟨k0, hk0, rfl⟩, ?_, ?_⟩
      · simp [hid, Callback.entry]
      · simp [hid]
  exclusive := by
    intro k hk ⟨hu, hs⟩
    obtain ⟨k1, hk1, rfl⟩ := List.mem_map.mp hk
    have hltAll := h.handlesLt k1 hk1
    -- the straggler handle of `k1` is pending among the old events
    have hs1 : Pending v.events k1.strag := by
      obtain ⟨ev, hev, ht⟩ := hs
      have ht1 : k1.strag = some ev.id := by
        by_cases hc : k1.id = id <;> simpa [hc] using ht
      simp only [List.mem_append, List.mem_singleton] at hev
      rcases hev with hev | rfl
      · exact ⟨ev, mem_of_mem_cancel hev, ht1⟩
      · have := hltAll _ (Or.inr ht1)
        simp at this
    by_cases hc : k1.id = id
    · exact hidle k1 hk1 hc hs1
    · have hu1 : Pending v.events k1.unsat := by
        obtain ⟨ev, hev, ht⟩ := hu
        have ht1 : k1.unsat = some ev.id := by simpa [hc] using ht
        simp only [List.mem_append, List.mem_singleton] at hev
        rcases hev with hev | rfl
        · exact ⟨ev, mem_of_mem_cancel hev, ht1⟩
        · have := hltAll _ (Or.inl ht1)
          simp at this
      exact h.exclusive k1 hk1 ⟨hu1, hs1⟩

/-- Setting the straggler timer of an entry whose unsatisfy timer is idle keeps the
invariant. -/
theorem invV_setStrag {v : View} (h : InvV v) (id : Nat) (delay : Int) (sat : Bool)
    (fr : Int) (k0 : Skeleton) (hk0 : k0 ∈ v.skels) (hid : k0.id = id)
    (hidle : UnsatIdle v id) :
    InvV (View.mk
      (v.skels.map (fun k => if k.id = id then { k with strag := some v.nextEventId } else k))
      (scheduler.cancel v.events k0.strag ++ [Event.mk v.nextEventId delay (.finalize id sat fr)])
      v.nextEntryId (v.nextEventId + 1)) where
  idsNodup := by
    have : (List.map (fun k => k.id) (List.map (fun k : Skeleton =>
        if k.id = id then { k with strag := some v.nextEventId } else k) v.skels)) =
        v.skels.map (fun k => k.id) := by
      rw [List.map_map]
      apply List.map_congr_left
      intro k _
      by_cases hk : k.id = id <;> simp [hk]
    simpa [this] using h.idsNodup
  idsLt := by
    intro k hk
    obtain ⟨k1, hk1, rfl⟩ := List.mem_map.mp hk
    have := h.idsLt k1 hk1
    by_cases hc : k1.id = id <;> simpa [hc] using this
  keys := by
    simp only [List.pairwise_map]
    refine List.Pairwise.imp ?_ h.keys
    intro a b hab
    by_cases ha : a.id = id <;> by_cases hb : b.id = id <;> simpa [ha, hb] using hab
  evLt := by
    intro ev hev
    simp only [List.mem_append, List.mem_singleton] at hev
    rcases hev with hev | rfl
    · have := h.evLt ev (mem_of_mem_cancel hev)
      simp only; omega
    · simp
  handlesLt := by
    intro k hk t ht
    obtain ⟨k1, hk1, rfl⟩ := List.mem_map.mp hk
    have hold := h.handlesLt k1 hk1
    by_cases hc : k1.id = id
    · simp only [hc, if_true] at ht
      rcases ht with ht | ht
      · have := hold t (Or.inl ht); simp only; omega
      · injection ht with ht; simp only; omega
    · simp only [hc, if_false] at ht
      have := hold t ht; simp only; omega
  tracked := by
    intro ev hev
    simp only [List.mem_append, List.mem_singleton] at hev
    rcases hev with hev | rfl
    · obtain ⟨k, hk, hke, hm⟩ := h.tracked ev (mem_of_mem_cancel hev)
      refine ⟨_, List.mem_map.mpr ⟨k, hk, rfl⟩, ?_, ?_⟩
      · by_cases hc : k.id = id <;> simpa [hc] using hke
      · cases hcb : ev.callback with
        | unsatisfied e =>
          rw [hcb] at hm
          simp only at hm
          by_cases hc : k.id = id <;> simpa [hc] using hm
        | finalize e sat1 fr1 =>
          rw [hcb] at hm
          simp only at hm
          by_cases hc : k.id = id
          · exfalso
            have hkk : k = k0 := skel_unique h.idsNodup hk hk0 (hc.trans hid.symm)
            rw [hkk] at hm
            rw [hm] at hev
            exact ne_of_mem_cancel hev rfl
          · simpa [hc] using hm
    · refine ⟨_, List.mem_map.mpr ⟨k0, hk0, rfl⟩, ?_, ?_⟩
      · simp [hid, Callback.entry]
      · simp [hid]
  exclusive := by
    intro k hk ⟨hu, hs⟩
    obtain ⟨k1, hk1, rfl⟩ := List.mem_map.mp hk
    have hltAll := h.handlesLt k1 hk1
    have hu1 : Pending v.events k1.unsat := by
      obtain ⟨ev, hev, ht⟩ := hu
      have ht1 : k1.unsat = some ev.id := by
        by_cases hc : k1.id = id <;> simpa [hc] using ht
      simp only [List.mem_append, List.mem_singleton] at hev
      rcases hev with hev | rfl
      · exact ⟨ev, mem_of_mem_cancel hev, ht1⟩
      · have := hltAll _ (Or.inl ht1)
        simp at this
    by_cases hc : k1.id = id
    · exact hidle k1 hk1 hc hu1
    · have hs1 : Pending v.events k1.strag := by
        obtain ⟨ev, hev, ht⟩ := hs
        have ht1 : k1.strag = some ev.id := by simpa [hc] using ht
        simp only [List.mem_append, List.mem_singleton] at hev
        rcases hev with hev | rfl
        · exact ⟨ev, mem_of_mem_cancel hev, ht1⟩
        · have := hltAll _ (Or.inr ht1)
          simp at this
      exact h.exclusive k1 hk1 ⟨hu1, hs1⟩

/-- Setting the straggler timer leaves an idle unsatisfy timer of the same entry idle. -/
theorem unsatIdle_setStrag {v : View} (h : InvV v) (id : Nat) (ev0 : Event)
    (t : Option Nat) (hev0 : ev0.id = v.nextEventId) (hidle : UnsatIdle v id) :
    UnsatIdle (View.mk
      (v.skels.map (fun k => if k.id = id then { k with strag := some v.nextEventId } else k))
      (scheduler.cancel v.events t ++ [ev0]) v.nextEntryId (v.nextEventId + 1)) id := by
  intro k hk hkid ⟨ev, hev, ht⟩
  obtain ⟨k1, hk1, rfl⟩ := List.mem_map.mp hk
  have hk1id : k1.id = id := by
    by_cases hc : k1.id = id
    · exact hc
    · simp [hc] at hkid
  have ht1 : k1.unsat = some ev.id := by simpa [hk1id] using ht
  simp only [List.mem_append, List.mem_singleton] at hev
  rcases hev with hev | rfl
  · exact hidle k1 hk1 hk1id ⟨ev, mem_of_mem_cancel hev, ht1⟩
  · have := h.handlesLt k1 hk1 _ (Or.inl ht1)
    omega

/-- Adding an entry for a request that no entry of the table has keeps the invariant. -/
theorem invV_insert {v : View} (h : InvV v) (interest : Interest)
    (hnew : ∀ k ∈ v.skels, sameRequest k.interest interest = false) :
    InvV (View.mk (v.skels ++ [Skeleton.mk v.nextEntryId interest none none]) v.events
      (v.nextEntryId + 1) v.nextEventId) where
  idsNodup := by
    rw [List.map_append]
    refine List.Nodup.append h.idsNodup (by simp) ?_
    intro x hx hx2
    obtain ⟨k, hk, rfl⟩ := List.mem_map.mp hx
    have := h.idsLt k hk
    simp at hx2
    omega
  idsLt := by
    intro k hk
    simp only [List.mem_append, List.mem_singleton] at hk
    rcases hk with hk | rfl
    · have := h.idsLt k hk; simp only; omega
    · simp
  keys := by
    rw [List.pairwise_append]
    refine ⟨h.keys, List.pairwise_singleton _ _, ?_⟩
    intro a ha b hb
    simp only [List.mem_singleton] at hb
    subst hb
    exact hnew a ha
  evLt := h.evLt
  handlesLt := by
    intro k hk t ht
    simp only [List.mem_append, List.mem_singleton] at hk
    rcases hk with hk | rfl
    · exact h.handlesLt k hk t ht
    · simp at ht
  tracked := by
    intro ev hev
    obtain ⟨k, hk, hke, hm⟩ := h.tracked ev hev
    exact ⟨k, List.mem_append_left _ hk, hke, hm⟩
  exclusive := by
    intro k hk hp
    simp only [List.mem_append, List.mem_singleton] at hk
    rcases hk with hk | rfl
    · exact h.exclusive k hk hp
    · obtain ⟨⟨ev, _, ht⟩, _⟩ := hp
      simp at ht

/-- Erasing an entry that no pending event is bound to keeps the invariant. -/
theorem invV_erase {v : View} (h : InvV v) (id : Nat)
    (hfree : ∀ ev ∈ v.events, ev.callback.entry ≠ id) :
    InvV (View.mk (v.skels.filter (fun k => k.id != id)) v.events v.nextEntryId
      v.nextEventId) where
  idsNodup := by
    have hsub : (v.skels.filter (fun k => k.id != id)).Sublist v.skels := List.filter_sublist _
    exact List.Nodup.sublist (hsub.map _) h.idsNodup
  idsLt := fun k hk => h.idsLt k (List.mem_filter.mp hk).1
  keys := List.Pairwise.sublist (List.filter_sublist _) h.keys
  evLt := h.evLt
  handlesLt := fun k hk => h.handlesLt k (List.mem_filter.mp hk).1
  tracked := by
    intro ev hev
    obtain ⟨k, hk, hke, hm⟩ := h.tracked ev hev
    refine ⟨k, List.mem_filter.mpr ⟨hk, ?_⟩, hke, hm⟩
    have := hfree ev hev
    simpa [hke] using this
  exclusive := fun k hk => h.exclusive k (List.mem_filter.mp hk).1

/-- After both handles of an entry are cancelled no pending event is bound to it. -/
theorem no_event_after_cancel {v : View} (h : InvV v) (k0 : Skeleton) (hk0 : k0 ∈ v.skels) :
    ∀ ev ∈ scheduler.cancel (scheduler.cancel v.events k0.unsat) k0.strag, ev.callback.entry ≠ k0.id := by
  intro ev hev hent
  have hev1 : ev ∈ scheduler.cancel v.events k0.unsat := mem_of_mem_cancel hev
  have hev0 : ev ∈ v.events := mem_of_mem_cancel hev1
  obtain ⟨k, hk, hke, hm⟩ := h.tracked ev hev0
  have hkk : k = k0 := skel_unique h.idsNodup hk hk0 (hke.trans hent)
  subst hkk
  cases hcb : ev.callback with
  | unsatisfied e =>
    rw [hcb] at hm
    simp only at hm
    rw [hm] at hev1
    exact ne_of_mem_cancel hev1 rfl
  | finalize e sat fr =>
    rw [hcb] at hm
    simp only at hm
    rw [hm] at hev
    exact ne_of_mem_cancel hev rfl

/-! ### The forwarder: the invariant along the pipelines -/

/-- The entry found by identity is in the table and has that identity. -/
theorem findEntry_some {s : State} {id : Nat} {e : PitEntry} (h : findEntry s id = some e) :
    e ∈ s.m_pit ∧ e.id = id := by
  unfold findEntry at h
  exact ⟨List.mem_of_find?_eq_some h, by simpa using List.find?_some h⟩

/-- The skeleton of a found entry is in the view. -/
theorem skel_mem_view {s : State} {id : Nat} {e : PitEntry} (h : findEntry s id = some e) :
    e.skel ∈ s.view.skels ∧ e.skel.id = id :=
  ⟨List.mem_map.mpr ⟨e, (findEntry_some h).1, rfl⟩, (findEntry_some h).2⟩

/-- The keys of the table are read off the view. -/
theorem keysOf_view (s : State) :
    keysOf s = s.view.skels.map (fun k => (k.id, k.interest)) := by
  simp [keysOf, State.view, List.map_map, Function.comp_def, PitEntry.skel]

/-- States with the same view have the same keys. -/
theorem keysOf_congr {s s1 : State} (h : s1.view = s.view) : keysOf s1 = keysOf s := by
  rw [keysOf_view, keysOf_view, h]

/-- A change of an entry that keeps its skeleton keeps the view. -/
theorem view_modifyEntry (s : State) (id : Nat) (f : PitEntry → PitEntry)
    (hf : ∀ e, (f e).skel = e.skel) : (modifyEntry s id f).view = s.view := by
  simp only [modifyEntry, State.view, List.map_map]
  congr 1
  apply List.map_congr_left
  intro e _
  by_cases hc : e.id = id <;> simp [hc, hf]

/-- A step that keeps the view keeps everything. -/
theorem keeps_of_view {id : Nat} {s s1 : State} (h : s1.view = s.view) : Keeps id s s1 :=
  ⟨fun hi => by unfold Inv; rw [h]; exact hi,
    ⟨keysOf_congr h, congrArg View.nextEntryId h⟩, fun _ hu => by rw [h]; exact hu⟩

/-- Doing nothing keeps everything. -/
theorem keeps_refl (id : Nat) (s : State) : Keeps id s s :=
  keeps_of_view rfl

/-- Steps compose. -/
theorem keeps_trans {id : Nat} {s s1 s2 : State} (h1 : Keeps id s s1) (h2 : Keeps id s1 s2) :
    Keeps id s s2 :=
  ⟨fun hi => h2.1 (h1.1 hi), ⟨h2.2.1.1.trans h1.2.1.1, h2.2.1.2.trans h1.2.1.2⟩,
    fun hi hu => h2.2.2 (h1.1 hi) (h1.2.2 hi hu)⟩

/-- `cancelUnsatisfyAndStragglerTimer` changes the scheduler queue only. -/
theorem cancelBoth_eq {s s1 : State} {id : Nat}
    (h : cancelUnsatisfyAndStragglerTimer s id = some s1) :
    ∃ e, findEntry s id = some e ∧
      s1 = { s with events := scheduler.cancel (scheduler.cancel s.events e.m_unsatisfyTimer) e.m_stragglerTimer } := by
  unfold cancelUnsatisfyAndStragglerTimer at h
  cases hf : findEntry s id with
  | none => simp [hf] at h
  | some e => simp [hf] at h; exact ⟨e, rfl, h.symm⟩

/-- After `cancelUnsatisfyAndStragglerTimer` the invariant holds, the table is the
same, both timers of the entry are idle and no pending event is bound to it. -/
theorem cancelBoth_spec {s s1 : State} {id : Nat}
    (h : cancelUnsatisfyAndStragglerTimer s id = some s1) (hi : Inv s) :
    Inv s1 ∧ s1.m_pit = s.m_pit ∧ UnsatIdle s1.view id ∧ StragIdle s1.view id ∧
      (∀ ev ∈ s1.events, ev.callback.entry ≠ id) ∧ (∀ ev ∈ s1.events, ev ∈ s.events) := by
  obtain ⟨e, hf, rfl⟩ := cancelBoth_eq h
  obtain ⟨hmem, hid⟩ := skel_mem_view hf
  have hsub : ∀ ev ∈ scheduler.cancel (scheduler.cancel s.events e.m_unsatisfyTimer) e.m_stragglerTimer,
      ev ∈ s.events := fun ev hev => mem_of_mem_cancel (mem_of_mem_cancel hev)
  refine ⟨invV_shrink hi _ hsub, rfl, ?_, ?_, ?_, hsub⟩
  · intro k hk hkid hp
    have hkk : k = e.skel := skel_unique hi.idsNodup hk hmem (hkid.trans hid.symm)
    subst hkk
    exact not_pending_cancel s.events e.m_unsatisfyTimer
      (pending_mono (fun ev hev => mem_of_mem_cancel hev) hp)
  · intro k hk hkid hp
    have hkk : k = e.skel := skel_unique hi.idsNodup hk hmem (hkid.trans hid.symm)
    subst hkk
    exact not_pending_cancel _ e.m_stragglerTimer hp
  · intro ev hev
    have := no_event_after_cancel hi e.skel hmem ev hev
    rwa [hid] at this

/-- `cancelUnsatisfyAndStragglerTimer` keeps the invariant, the keys and idle timers. -/
theorem cancelBoth_keeps (id1 : Nat) {s s1 : State} {id : Nat}
    (h : cancelUnsatisfyAndStragglerTimer s id = some s1) : Keeps id1 s s1 := by
  obtain ⟨e, hf, rfl⟩ := cancelBoth_eq h
  refine ⟨fun hi => (cancelBoth_spec h hi).1, ⟨rfl, rfl⟩, ?_⟩
  intro hi hu k hk hkid hp
  exact hu k hk hkid
    (pending_mono (fun ev hev => mem_of_mem_cancel (mem_of_mem_cancel hev)) hp)

/-- The view after `setStragglerTimer`. -/
theorem setStragglerTimer_view {s s1 : State} {id : Nat} {sat : Bool} {fr : Int}
    (h : setStragglerTimer s id sat fr = some s1) :
    ∃ e, findEntry s id = some e ∧ s1.view = View.mk
      (s.view.skels.map (fun k => if k.id = id then { k with strag := some s.nextEventId } else k))
      (scheduler.cancel s.events e.m_stragglerTimer ++
        [Event.mk s.nextEventId stragglerTime (.finalize id sat fr)])
      s.nextEntryId (s.nextEventId + 1) := by
  unfold setStragglerTimer at h
  cases hf : findEntry s id with
  | none => simp [hf] at h
  | some e =>
    simp only [hf, Option.some.injEq] at h
    subst h
    refine ⟨e, rfl, ?_⟩
    simp only [State.view, modifyEntry, scheduler.schedule, List.map_map, View.mk.injEq, and_true]
    apply List.map_congr_left
    intro x _
    by_cases hc : x.id = id <;> simp [hc, PitEntry.skel]

/-- `setStragglerTimer` keeps the keys of the table. -/
theorem setStragglerTimer_static {s s1 : State} {id : Nat} {sat : Bool} {fr : Int}
    (h : setStragglerTimer s id sat fr = some s1) : Static s s1 := by
  obtain ⟨e, hf, hv⟩ := setStragglerTimer_view h
  refine ⟨?_, congrArg View.nextEntryId hv⟩
  rw [keysOf_view, keysOf_view, hv]
  simp only [List.map_map]
  apply List.map_congr_left
  intro k _
  by_cases hc : k.id = id <;> simp [hc]

/-- `setStragglerTimer` on an entry whose unsatisfy timer is idle keeps the invariant
and the idle unsatisfy timer. -/
theorem setStragglerTimer_spec {s s1 : State} {id : Nat} {sat : Bool} {fr : Int}
    (h : setStragglerTimer s id sat fr = some s1) (hi : Inv s) (hu : UnsatIdle s.view id) :
    Inv s1 ∧ UnsatIdle s1.view id := by
  obtain ⟨e, hf, hv⟩ := setStragglerTimer_view h
  obtain ⟨hmem, hid⟩ := skel_mem_view hf
  refine ⟨?_, ?_⟩
  · unfold Inv
    rw [hv]
    exact invV_setStrag hi id stragglerTime sat fr e.skel hmem hid hu
  · rw [hv]
    exact unsatIdle_setStrag hi id _ _ rfl hu

/-- The view after `setUnsatisfyTimer`. -/
theorem setUnsatisfyTimer_view {env : Env} {s s1 : State} {id : Nat}
    (h : setUnsatisfyTimer env s id = some s1) :
    ∃ e delay, findEntry s id = some e ∧ s1.view = View.mk
      (s.view.skels.map (fun k => if k.id = id then { k with unsat := some s.nextEventId } else k))
      (scheduler.cancel s.events e.m_unsatisfyTimer ++ [Event.mk s.nextEventId delay (.unsatisfied id)])
      s.nextEntryId (s.nextEventId + 1) := by
  unfold setUnsatisfyTimer at h
  cases hf : findEntry s id with
  | none => simp [hf] at h
  | some e =>
    cases hl : lastExpiring e.inRecords with
    | none => simp [hf, hl] at h
    | some r =>
      simp only [hf, hl, Option.some.injEq] at h
      subst h
      refine ⟨e, r.expiry - env.now, rfl, ?_⟩
      simp only [State.view, modifyEntry, scheduler.schedule, List.map_map, View.mk.injEq, and_true]
      apply List.map_congr_left
      intro x _
      by_cases hc : x.id = id <;> simp [hc, PitEntry.skel]

/-- `setUnsatisfyTimer` keeps the keys of the table. -/
theorem setUnsatisfyTimer_static {env : Env} {s s1 : State} {id : Nat}
    (h : setUnsatisfyTimer env s id = some s1) : Static s s1 := by
  obtain ⟨e, delay, hf, hv⟩ := setUnsatisfyTimer_view h
  refine ⟨?_, congrArg View.nextEntryId hv⟩
  rw [keysOf_view, keysOf_view, hv]
  simp only [List.map_map]
  apply List.map_congr_left
  intro k _
  by_cases hc : k.id = id <;> simp [hc]

/-- `setUnsatisfyTimer` on an entry whose straggler timer is idle keeps the
invariant. -/
theorem setUnsatisfyTimer_spec {env : Env} {s s1 : State} {id : Nat}
    (h : setUnsatisfyTimer env s id = some s1) (hi : Inv s) (hs : StragIdle s.view id) :
    Inv s1 := by
  obtain ⟨e, delay, hf, hv⟩ := setUnsatisfyTimer_view h
  obtain ⟨hmem, hid⟩ := skel_mem_view hf
  unfold Inv
  rw [hv]
  exact invV_setUnsat hi id delay e.skel hmem hid hs

/-- Keeping the keys is reflexive. -/
theorem static_refl (s : State) : Static s s := ⟨rfl, rfl⟩

/-- Keeping the keys composes. -/
theorem static_trans {s s1 s2 : State} (h1 : Static s s1) (h2 : Static s1 s2) :
    Static s s2 :=
  ⟨h2.1.trans h1.1, h2.2.trans h1.2⟩

/-- A step that keeps the view keeps the keys. -/
theorem static_of_view {s s1 : State} (h : s1.view = s.view) : Static s s1 :=
  ⟨keysOf_congr h, congrArg View.nextEntryId h⟩

/-- Inserting or refreshing an out-record keeps the skeleton. -/
theorem insertOrUpdateOutRecord_skel (env : Env) (e : PitEntry) (face : Face)
    (interest : Interest) : (insertOrUpdateOutRecord env e face interest).skel = e.skel := by
  unfold insertOrUpdateOutRecord
  dsimp only
  split <;> rfl

/-- Inserting or refreshing an in-record keeps the skeleton. -/
theorem insertOrUpdateInRecord_skel (env : Env) (e : PitEntry) (face : Face)
    (interest : Interest) : (insertOrUpdateInRecord env e face interest).skel = e.skel := by
  unfold insertOrUpdateInRecord
  dsimp only
  split <;> rfl

/-- `onOutgoingInterest` keeps the view. -/
theorem onOutgoingInterest_view {env : Env} {s s1 : State} {id : Nat} {outFace : Face}
    {interest : Interest} (h : onOutgoingInterest env s id outFace interest = some s1) :
    s1.view = s.view := by
  unfold onOutgoingInterest at h
  cases hf : findEntry s id with
  | none => simp [hf] at h
  | some e =>
    simp only [hf, Option.some.injEq] at h
    subst h
    have := view_modifyEntry s id (fun e => insertOrUpdateOutRecord env e outFace interest)
      (fun x => insertOrUpdateOutRecord_skel env x outFace interest)
    simpa [State.view, emit] using this

/-- `onOutgoingNack` keeps the view. -/
theorem onOutgoingNack_view {env : Env} {s s1 : State} {id : Nat} {outFace : Face}
    {reason : NackReason} (h : onOutgoingNack env s id outFace reason = some s1) :
    s1.view = s.view := by
  unfold onOutgoingNack at h
  cases hf : findEntry s id with
  | none => simp [hf] at h
  | some e =>
    simp only [hf] at h
    split at h
    · simp at h; rw [h]
    · split at h
      · simp at h; rw [h]
      · split at h
        · simp at h; rw [h]
        · simp only [Option.some.injEq] at h
          subst h
          have := view_modifyEntry s id (fun x => deleteInRecord x outFace) (by intro x; rfl)
          simpa [State.view, emit] using this

/-- Recording nonces keeps the view. -/
theorem view_foldl_dnl (e : PitEntry) (rs : List OutRecord) :
    ∀ s : State, (rs.foldl (fun st r => insertNonceToDnl st e r) s).view = s.view := by
  induction rs with
  | nil => intro s; rfl
  | cons r rs ih => intro s; simp only [List.foldl_cons]; rw [ih]; rfl

/-- `insertDeadNonceList` keeps the view. -/
theorem insertDeadNonceList_view {env : Env} {s s1 : State} {id : Nat} {sat : Bool}
    {fr : Int} {up : Option Face} (h : insertDeadNonceList env s id sat fr up = some s1) :
    s1.view = s.view := by
  unfold insertDeadNonceList at h
  cases hf : findEntry s id with
  | none => simp [hf] at h
  | some e =>
    simp only [hf] at h
    split at h
    · simp at h; rw [h]
    · cases up with
      | none =>
        simp only [Option.some.injEq] at h
        rw [← h]; exact view_foldl_dnl e _ s
      | some face =>
        simp only at h
        split at h
        · simp only [Option.some.injEq] at h; rw [← h]; rfl
        · simp at h; rw [h]

/-- `onOutgoingData` keeps the view. -/
theorem onOutgoingData_view (env : Env) (s : State) (data : Data) (outFace : Face) :
    (onOutgoingData env s data outFace).view = s.view := by
  unfold onOutgoingData
  split
  · rfl
  · split <;> rfl

/-- `onInterestReject` keeps the invariant, the keys and an idle unsatisfy timer. -/
theorem onInterestReject_keeps {env : Env} {s s1 : State} {id : Nat}
    (h : onInterestReject env s id = some s1) : Keeps id s s1 := by
  unfold onInterestReject at h
  cases hf : findEntry s id with
  | none => simp [hf] at h
  | some e =>
    simp only [hf] at h
    split at h
    · simp at h; rw [h]; exact keeps_refl _ _
    · cases hc : cancelUnsatisfyAndStragglerTimer s id with
      | none => simp [hc] at h
      | some s2 =>
        simp only [hc] at h
        refine ⟨?_, ?_, ?_⟩
        · intro hi
          obtain ⟨hi2, _, hu2, _⟩ := cancelBoth_spec hc hi
          exact (setStragglerTimer_spec h hi2 hu2).1
        · exact static_trans (cancelBoth_keeps id hc).2.1 (setStragglerTimer_static h)
        · intro hi _
          obtain ⟨hi2, _, hu2, _⟩ := cancelBoth_spec hc hi
          exact (setStragglerTimer_spec h hi2 hu2).2

/-- One call of the strategy keeps the invariant, the keys and an idle unsatisfy
timer. -/
theorem applyStrategyAction_keeps {env : Env} {s s1 : State} {id : Nat} {a : StrategyAction}
    (h : applyStrategyAction env s id a = some s1) : Keeps id s s1 := by
  cases a with
  | sendInterest outFace interest => exact keeps_of_view (onOutgoingInterest_view h)
  | rejectPendingInterest => exact onInterestReject_keeps h
  | sendNack outFace reason => exact keeps_of_view (onOutgoingNack_view h)

/-- The calls of the strategy keep the invariant, the keys and an idle unsatisfy timer. -/
theorem runStrategyActions_keeps {env : Env} {id : Nat} (as : List StrategyAction) :
    ∀ {s s1 : State}, runStrategyActions env id s as = some s1 → Keeps id s s1 := by
  induction as with
  | nil => intro s s1 h; simp [runStrategyActions] at h; rw [h]; exact keeps_refl _ _
  | cons a rest ih =>
    intro s s1 h
    cases ha : applyStrategyAction env s id a with
    | none => simp [runStrategyActions, ha] at h
    | some s2 =>
      simp only [runStrategyActions, ha] at h
      exact keeps_trans (applyStrategyAction_keeps ha) (ih h)

/-- An extension point keeps the invariant, the keys and an idle unsatisfy timer. -/
theorem dispatchToStrategy_keeps {env : Env} {s s1 : State} {point : ExtensionPoint}
    {id : Nat} (h : dispatchToStrategy env s point id = some s1) : Keeps id s s1 := by
  unfold dispatchToStrategy at h
  cases hf : findEntry s id with
  | none => simp [hf] at h
  | some e =>
    simp only [hf] at h
    have hv : (emit s (.strategy point id)).view = s.view := rfl
    exact keeps_trans (keeps_of_view hv) (runStrategyActions_keeps _ h)

/-- The view after `Pit.erase`. -/
theorem pitErase_view (s : State) (id : Nat) :
    (Pit.erase s id).view =
      View.mk (s.view.skels.filter (fun k => k.id != id)) s.events s.nextEntryId
        s.nextEventId := by
  simp only [Pit.erase, State.view, View.mk.injEq, and_true]
  rw [List.filter_map]
  rfl

/-- Keys only grow: reflexivity. -/
theorem grows_refl (s : State) : Grows s s :=
  ⟨Nat.le_refl _, fun k hk => Or.inl hk⟩

/-- Keys only grow: composition. -/
theorem grows_trans {s s1 s2 : State} (h1 : Grows s s1) (h2 : Grows s1 s2) : Grows s s2 := by
  refine ⟨Nat.le_trans h1.1 h2.1, ?_⟩
  intro k hk
  rcases h2.2 k hk with hk1 | hk1
  · exact h1.2 k hk1
  · exact Or.inr (Nat.le_trans h1.1 hk1)

/-- Keeping the keys is a case of growing. -/
theorem static_grows {s s1 : State} (h : Static s s1) : Grows s s1 :=
  ⟨Nat.le_of_eq h.2.symm, fun k hk => Or.inl (h.1 ▸ hk)⟩

/-- `onInterestFinalize` keeps the invariant; afterwards the entry is not in the table
and no pending event is bound to it; no entry is created. -/
theorem onInterestFinalize_spec {env : Env} {s s1 : State} {id : Nat} {sat : Bool} {fr : Int}
    (h : onInterestFinalize env s id sat fr = some s1) :
    (Inv s → Inv s1 ∧ ∀ ev ∈ s1.events, ev.callback.entry ≠ id) ∧
      (∀ x ∈ s1.m_pit, x.id ≠ id) ∧ (∀ x ∈ s1.m_pit, x ∈ s.m_pit) ∧
      s1.nextEntryId = s.nextEntryId := by
  unfold onInterestFinalize at h
  cases hd : insertDeadNonceList env s id sat fr none with
  | none => simp [hd] at h
  | some s2 =>
    cases hc : cancelUnsatisfyAndStragglerTimer s2 id with
    | none => simp [hd, hc] at h
    | some s3 =>
      simp only [hd, hc, Option.some.injEq] at h
      subst h
      have hv2 := insertDeadNonceList_view hd
      obtain ⟨e, hf, hs3⟩ := cancelBoth_eq hc
      have hpit2 : s2.m_pit.map PitEntry.skel = s.m_pit.map PitEntry.skel :=
        congrArg View.skels hv2
      have hpit : s2.m_pit = s.m_pit := by
        -- the dead nonce list insertion does not touch the table
        unfold insertDeadNonceList at hd
        cases hf0 : findEntry s id with
        | none => simp [hf0] at hd
        | some e0 =>
          simp only [hf0] at hd
          split at hd
          · simp at hd; rw [hd]
          · simp only [Option.some.injEq] at hd
            rw [← hd]
            generalize e0.outRecords = rs
            clear hd hv2 hc hf hs3 hpit2
            induction rs generalizing s with
            | nil => rfl
            | cons r rs ih =>
              simp only [List.foldl_cons]
              rw [ih]
              · rfl
              · simpa [findEntry, insertNonceToDnl, DeadNonceList.add] using hf0
      refine ⟨?_, ?_, ?_, ?_⟩
      · intro hi
        have hi2 : Inv s2 := by unfold Inv; rw [hv2]; exact hi
        obtain ⟨hi3, _, _, _, hfree, _⟩ := cancelBoth_spec hc hi2
        refine ⟨?_, ?_⟩
        · unfold Inv
          rw [pitErase_view]
          exact invV_erase hi3 id hfree
        · exact hfree
      · intro x hx
        have := (List.mem_filter.mp hx).2
        simpa using this
      · intro x hx
        have := (List.mem_filter.mp hx).1
        rw [hs3] at this
        rw [← hpit]
        exact this
      · rw [hs3]
        exact congrArg View.nextEntryId hv2

/-- `onInterestUnsatisfied` keeps the invariant; afterwards the entry is not in the
table and no pending event is bound to it; no entry is created. -/
theorem onInterestUnsatisfied_spec {env : Env} {s s1 : State} {id : Nat}
    (h : onInterestUnsatisfied env s id = some s1) :
    (Inv s → Inv s1 ∧ ∀ ev ∈ s1.events, ev.callback.entry ≠ id) ∧
      (∀ x ∈ s1.m_pit, x.id ≠ id) ∧ Grows s s1 := by
  unfold onInterestUnsatisfied at h
  cases hd : dispatchToStrategy env s .beforeExpirePendingInterest id with
  | none => simp [hd] at h
  | some s2 =>
    simp only [hd] at h
    have hk := dispatchToStrategy_keeps hd
    obtain ⟨h1, h2, h3, h4⟩ := onInterestFinalize_spec h
    refine ⟨fun hi => h1 (hk.1 hi), h2, ?_⟩
    refine grows_trans (static_grows hk.2.1) ⟨Nat.le_of_eq h4.symm, ?_⟩
    intro k hk1
    obtain ⟨x, hx, rfl⟩ := List.mem_map.mp hk1
    exact Or.inl (List.mem_map.mpr ⟨x, h3 x hx, rfl⟩)

/-- `onContentStoreHit` on an entry whose unsatisfy timer is idle keeps the invariant;
it keeps the keys. -/
theorem onContentStoreHit_spec {env : Env} {s s1 : State} {inFace : Face} {id : Nat}
    {interest : Interest} {data : Data}
    (h : onContentStoreHit env s inFace id interest data = some s1) :
    (Inv s → UnsatIdle s.view id → Inv s1) ∧ Static s s1 := by
  unfold onContentStoreHit at h
  cases hd : dispatchToStrategy env s .beforeSatisfyInterest id with
  | none => simp [hd] at h
  | some s2 =>
    simp only [hd] at h
    cases hst : setStragglerTimer s2 id true data.freshnessPeriod with
    | none => simp [hst] at h
    | some s3 =>
      simp only [hst, Option.some.injEq] at h
      subst h
      have hk := dispatchToStrategy_keeps hd
      refine ⟨?_, ?_⟩
      · intro hi hu
        have := (setStragglerTimer_spec hst (hk.1 hi) (hk.2.2 hi hu)).1
        unfold Inv
        rw [onOutgoingData_view]
        exact this
      · exact static_trans (static_trans hk.2.1 (setStragglerTimer_static hst))
          (static_of_view (onOutgoingData_view _ _ _ _))

/-- The loop over the next hops keeps the view. -/
theorem forwardToNextHops_view {env : Env} {id : Nat} {interest : Interest}
    (faces : List Face) :
    ∀ {s s1 : State}, forwardToNextHops env id interest s faces = some s1 →
      s1.view = s.view := by
  induction faces with
  | nil => intro s s1 h; simp [forwardToNextHops] at h; rw [h]
  | cons f rest ih =>
    intro s s1 h
    cases ho : onOutgoingInterest env s id f interest with
    | none => simp [forwardToNextHops, ho] at h
    | some s2 =>
      simp only [forwardToNextHops, ho] at h
      rw [ih h, onOutgoingInterest_view ho]

/-- Next-hop resolution keeps the invariant and the keys. -/
theorem resolveNextHop_keeps {env : Env} {s s1 : State} {inFace : Face} {id : Nat}
    {interest : Interest} (h : resolveNextHop env s inFace id interest = some s1) :
    Keeps id s s1 := by
  unfold resolveNextHop at h
  cases hc : env.functionChaining interest with
  | none => simp [hc] at h
  | some r =>
    obtain ⟨interest2, fibEntry⟩ := r
    simp only [hc] at h
    split at h
    · exact keeps_of_view (forwardToNextHops_view _ h)
    · split at h
      · split at h
        · exact keeps_of_view (onOutgoingInterest_view h)
        · simp at h; rw [h]; exact keeps_refl _ _
      · exact dispatchToStrategy_keeps h

/-- The first part of `onContentStoreMiss`, on an entry whose straggler timer is idle,
keeps the invariant; it keeps the keys. -/
theorem recordPending_spec {env : Env} {s s1 : State} {inFace : Face} {id : Nat}
    {interest : Interest} (h : recordPending env s inFace id interest = some s1) :
    (Inv s → StragIdle s.view id → Inv s1) ∧ Static s s1 := by
  unfold recordPending at h
  cases hf : findEntry s id with
  | none => simp [hf] at h
  | some e =>
    simp only [hf] at h
    have hv := view_modifyEntry s id (fun e => insertOrUpdateInRecord env e inFace interest)
      (fun x => insertOrUpdateInRecord_skel env x inFace interest)
    refine ⟨?_, static_trans (static_of_view hv) (setUnsatisfyTimer_static h)⟩
    intro hi hs
    refine setUnsatisfyTimer_spec h ?_ ?_
    · unfold Inv; rw [hv]; exact hi
    · rw [hv]; exact hs

/-- `onContentStoreMiss` on an entry whose straggler timer is idle keeps the invariant;
it keeps the keys. -/
theorem onContentStoreMiss_spec {env : Env} {s s1 : State} {inFace : Face} {id : Nat}
    {interest : Interest} (h : onContentStoreMiss env s inFace id interest = some s1) :
    (Inv s → StragIdle s.view id → Inv s1) ∧ Static s s1 := by
  unfold onContentStoreMiss at h
  cases hr : recordPending env s inFace id interest with
  | none => simp [hr] at h
  | some s2 =>
    simp only [hr] at h
    have h1 := recordPending_spec hr
    have h2 := resolveNextHop_keeps h
    exact ⟨fun hi hs => h2.1 (h1.1 hi hs), static_trans h1.2 h2.2.1⟩

/-- `Pit::insert` keeps the invariant; the table only grows, by an entry with a fresh
identity; the scheduler queue is untouched. -/
theorem pitInsert_spec (s : State) (interest : Interest) :
    (Inv s → Inv (Pit.insert s interest).1) ∧ Grows s (Pit.insert s interest).1 ∧
      ((∃ e ∈ s.m_pit, sameRequest e.interest interest = true) →
        (Pit.insert s interest).1 = s) := by
  unfold Pit.insert
  cases hf : s.m_pit.find? (fun e => sameRequest e.interest interest) with
  | some e => exact ⟨fun hi => hi, grows_refl s, fun _ => rfl⟩
  | none =>
    simp only
    have hnone := List.find?_eq_none.mp hf
    refine ⟨?_, ⟨Nat.le_succ _, ?_⟩, ?_⟩
    rotate_left 2
    · rintro ⟨e, he, hs⟩
      exact absurd hs (hnone e he)
    · intro hi
      have hnew : ∀ k ∈ s.view.skels, sameRequest k.interest interest = false := by
        intro k hk
        obtain ⟨e, he, rfl⟩ := List.mem_map.mp hk
        simpa [PitEntry.skel] using hnone e he
      have := invV_insert hi interest hnew
      unfold Inv
      simpa [State.view, PitEntry.skel] using this
    · intro k hk
      simp only [keysOf, List.map_append, List.mem_append, List.map_cons, List.map_nil,
        List.mem_singleton] at hk
      rcases hk with hk | rfl
      · exact Or.inl hk
      · exact Or.inr (Nat.le_refl _)

/-- `onIncomingInterest` keeps the invariant; the table only grows, and it keeps its
keys when it already has an entry for the request. -/
theorem onIncomingInterest_spec {env : Env} {s s1 : State} {inFace : Face}
    {interest : Interest} (h : onIncomingInterest env s inFace interest = some s1) :
    (Inv s → Inv s1) ∧ Grows s s1 ∧
      ((∃ e ∈ s.m_pit, sameRequest e.interest interest = true) → Static s s1) := by
  unfold onIncomingInterest at h
  simp only at h
  split at h
  · simp only [Option.some.injEq] at h
    subst h
    exact ⟨fun hi => hi, grows_refl _, fun _ => static_refl _⟩
  · generalize hs0 : ({ s with m_counters :=
        { s.m_counters with nInInterests := s.m_counters.nInInterests + 1 } } : State) = s0 at h
    have hv0 : s0.view = s.view := by rw [← hs0]; rfl
    generalize hint : ({ interest with incomingFaceIdTag := some inFace.id } : Interest) =
      interest1 at h
    obtain ⟨hins1, hins2, hins3⟩ := pitInsert_spec s0 interest1
    generalize Pit.insert s0 interest1 = ins at h hins1 hins2 hins3
    have hst0 : (∃ e ∈ s.m_pit, sameRequest e.interest interest = true) → Static s ins.1 := by
      rintro ⟨e, he, hsame⟩
      have : ins.1 = s0 := hins3 ⟨e, by rw [← hs0]; exact he, by rw [← hint]; exact hsame⟩
      rw [this]
      exact static_of_view hv0
    have hg0 : Grows s s0 := static_grows (static_of_view hv0)
    have hi0 : Inv s → Inv s0 := fun hi => by unfold Inv; rw [hv0]; exact hi
    cases hf : findEntry ins.1 ins.2 with
    | none => simp [hf] at h
    | some pitEntry =>
      simp only [hf] at h
      cases hc : cancelUnsatisfyAndStragglerTimer ins.1 ins.2 with
      | none => simp [hc] at h
      | some s2 =>
        simp only [hc] at h
        have hk2 := cancelBoth_keeps ins.2 hc
        have hg2 : Grows s s2 := grows_trans (grows_trans hg0 hins2) (static_grows hk2.2.1)
        split at h
        · split at h
          · -- cache hit
            obtain ⟨h1, h2⟩ := onContentStoreHit_spec h
            refine ⟨?_, grows_trans hg2 (static_grows h2),
              fun hex => static_trans (static_trans (hst0 hex) hk2.2.1) h2⟩
            intro hi
            obtain ⟨hi2, _, hu2, _⟩ := cancelBoth_spec hc (hins1 (hi0 hi))
            exact h1 hi2 hu2
          · -- cache miss
            obtain ⟨h1, h2⟩ := onContentStoreMiss_spec h
            refine ⟨?_, grows_trans hg2 (static_grows h2),
              fun hex => static_trans (static_trans (hst0 hex) hk2.2.1) h2⟩
            intro hi
            obtain ⟨hi2, _, _, hs2, _⟩ := cancelBoth_spec hc (hins1 (hi0 hi))
            exact h1 hi2 hs2
        · obtain ⟨h1, h2⟩ := onContentStoreMiss_spec h
          refine ⟨?_, grows_trans hg2 (static_grows h2),
            fun hex => static_trans (static_trans (hst0 hex) hk2.2.1) h2⟩
          intro hi
          obtain ⟨hi2, _, _, hs2, _⟩ := cancelBoth_spec hc (hins1 (hi0 hi))
          exact h1 hi2 hs2

/-- One iteration of the loop of `onIncomingData` keeps the invariant and the keys. -/
theorem satisfyEntry_spec {env : Env} {inFace : Face} {l l1 : DataLoop} {id : Nat}
    (h : satisfyEntry env inFace l id = some l1) :
    (Inv l.state → Inv l1.state) ∧ Static l.state l1.state := by
  unfold satisfyEntry at h
  simp only at h
  cases hc : cancelUnsatisfyAndStragglerTimer l.state id with
  | none => simp [hc] at h
  | some s1 =>
    simp only [hc] at h
    cases hf : findEntry s1 id with
    | none => simp [hf] at h
    | some e =>
      simp only [hf] at h
      split at h
      · simp at h
      · rename_i s2 pending flag hchosen
        have hv2 : s2.view = s1.view := by
          split at hchosen
          · split at hchosen
            · simp at hchosen
            · simp only [Option.some.injEq, Prod.mk.injEq] at hchosen
              rw [← hchosen.1]
              exact view_modifyEntry s1 id _ (fun x => rfl)
          · simp only [Option.some.injEq, Prod.mk.injEq] at hchosen
            rw [← hchosen.1]
        cases hd : dispatchToStrategy env s2 .beforeSatisfyInterest id with
        | none => simp [hd] at h
        | some s3 =>
          simp only [hd] at h
          split at h
          · simp at h
          · rename_i s4 hdn
            split at h
            · simp at h
            · rename_i s6 hst
              simp only [Option.some.injEq] at h
              subst h
              have hk1 := cancelBoth_keeps id hc
              have hk3 := dispatchToStrategy_keeps hd
              have hv4 := insertDeadNonceList_view hdn
              have hv5 : (if flag = true then
                  modifyEntry s4 id (fun x => deleteOutRecord (clearInRecords x) inFace)
                  else s4).view = s4.view := by
                split
                · exact view_modifyEntry s4 id _ (fun x => rfl)
                · rfl
              refine ⟨?_, ?_⟩
              · intro hi
                obtain ⟨hi1, _, hu1, _⟩ := cancelBoth_spec hc hi
                have hi2 : Inv s2 := by unfold Inv; rw [hv2]; exact hi1
                have hu2 : UnsatIdle s2.view id := by rw [hv2]; exact hu1
                have hi3 := hk3.1 hi2
                have hu3 := hk3.2.2 hi2 hu2
                have hi5 : Inv (if flag = true then
                    modifyEntry s4 id (fun x => deleteOutRecord (clearInRecords x) inFace)
                    else s4) := by unfold Inv; rw [hv5, hv4]; exact hi3
                have hu5 : UnsatIdle (if flag = true then
                    modifyEntry s4 id (fun x => deleteOutRecord (clearInRecords x) inFace)
                    else s4).view id := by rw [hv5, hv4]; exact hu3
                exact (setStragglerTimer_spec hst hi5 hu5).1
              · exact static_trans (static_trans (static_trans (static_trans hk1.2.1
                  (static_of_view hv2)) hk3.2.1) (static_of_view (hv5.trans hv4)))
                  (setStragglerTimer_static hst)

/-- The loop of `onIncomingData` keeps the invariant and the keys. -/
theorem satisfyEntries_spec {env : Env} {inFace : Face} (ids : List Nat) :
    ∀ {l l1 : DataLoop}, satisfyEntries env inFace l ids = some l1 →
      (Inv l.state → Inv l1.state) ∧ Static l.state l1.state := by
  induction ids with
  | nil =>
    intro l l1 h
    simp [satisfyEntries] at h
    rw [h]
    exact ⟨fun hi => hi, static_refl _⟩
  | cons id rest ih =>
    intro l l1 h
    cases hs : satisfyEntry env inFace l id with
    | none => simp [satisfyEntries, hs] at h
    | some l2 =>
      simp only [satisfyEntries, hs] at h
      obtain ⟨h1, h2⟩ := satisfyEntry_spec hs
      obtain ⟨h3, h4⟩ := ih h
      exact ⟨fun hi => h3 (h1 hi), static_trans h2 h4⟩

/-- Handing the Data to the pending downstreams keeps the view. -/
theorem view_foldl_onOutgoingData (env : Env) (data : Data) (faces : List Face) :
    ∀ s : State,
      (faces.foldl (fun st face => onOutgoingData env st data face) s).view = s.view := by
  induction faces with
  | nil => intro s; rfl
  | cons f rest ih => intro s; simp only [List.foldl_cons]; rw [ih, onOutgoingData_view]

/-- `onIncomingData` keeps the invariant and the keys. -/
theorem onIncomingData_spec {env : Env} {s s1 : State} {inFace : Face} {data : Data}
    (h : onIncomingData env s inFace data = some s1) :
    (Inv s → Inv s1) ∧ Static s s1 := by
  unfold onIncomingData at h
  simp only at h
  split at h
  · simp only [Option.some.injEq] at h
    subst h
    exact ⟨fun hi => hi, static_refl _⟩
  · split at h
    · simp at h
    · rename_i data1 hov
      split at h
      · simp only [Option.some.injEq] at h
        subst h
        have hv : (onDataUnsolicited env { s with m_counters :=
            { s.m_counters with nInData := s.m_counters.nInData + 1 } } inFace data1).view =
            s.view := by
          unfold onDataUnsolicited
          split <;> rfl
        exact ⟨fun hi => by unfold Inv; rw [hv]; exact hi, static_of_view hv⟩
      · split at h
        · simp at h
        · rename_i l hl
          simp only [Option.some.injEq] at h
          subst h
          obtain ⟨h1, h2⟩ := satisfyEntries_spec _ hl
          have hv := view_foldl_onOutgoingData env l.data l.pendingDownstreams l.state
          refine ⟨?_, ?_⟩
          · intro hi
            unfold Inv
            rw [hv]
            exact h1 hi
          · exact static_trans h2 (static_of_view hv)

/-- `onIncomingNack` keeps the invariant and the keys. -/
theorem onIncomingNack_spec {env : Env} {s s1 : State} {inFace : Face} {nack : Nack}
    (h : onIncomingNack env s inFace nack = some s1) :
    (Inv s → Inv s1) ∧ Static s s1 := by
  unfold onIncomingNack at h
  simp only at h
  have hdrop : ∀ {t : State}, t = ({ s with m_counters :=
      { s.m_counters with nInNacks := s.m_counters.nInNacks + 1 } } : State) →
      (Inv s → Inv t) ∧ Static s t := by
    intro t ht
    have hv : t.view = s.view := by rw [ht]; rfl
    exact ⟨fun hi => by unfold Inv; rw [hv]; exact hi, static_of_view hv⟩
  split at h
  · simp only [Option.some.injEq] at h; exact hdrop h.symm
  · split at h
    · simp only [Option.some.injEq] at h; exact hdrop h.symm
    · split at h
      · simp only [Option.some.injEq] at h; exact hdrop h.symm
      · split at h
        · simp only [Option.some.injEq] at h; exact hdrop h.symm
        · have hk := dispatchToStrategy_keeps h
          have hv1 : ∀ pid : Nat, (modifyEntry ({ s with m_counters :=
              { s.m_counters with nInNacks := s.m_counters.nInNacks + 1 } } : State)
            pid (fun x => { x with outRecords := x.outRecords.map (fun r =>
                if r.face = inFace then { r with incomingNack := some nack } else r) })).view =
              s.view := fun pid => view_modifyEntry _ pid _ (fun x => rfl)
          refine ⟨?_, static_trans (static_of_view (hv1 _)) hk.2.1⟩
          intro hi
          apply hk.1
          unfold Inv
          rw [hv1]
          exact hi

/-- Firing an event keeps the invariant; the table only shrinks or stays; when the
event was pending, afterwards the entry it was bound to is not in the table and no
pending event is bound to that entry. -/
theorem fire_spec {env : Env} {s s1 : State} {eventId : Nat}
    (h : fire env s eventId = some s1) :
    (Inv s → Inv s1) ∧ Grows s s1 ∧
      (∀ ev, s.events.find? (fun x => x.id == eventId) = some ev →
        (∀ x ∈ s1.m_pit, x.id ≠ ev.callback.entry) ∧
        (Inv s → ∀ e1 ∈ s1.events, e1.callback.entry ≠ ev.callback.entry)) := by
  unfold fire at h
  cases hf : s.events.find? (fun ev => ev.id == eventId) with
  | none =>
    simp only [hf, Option.some.injEq] at h
    subst h
    exact ⟨fun hi => hi, grows_refl _, fun ev hev => by simp at hev⟩
  | some ev =>
    simp only [hf] at h
    have hi1 : Inv s → Inv ({ s with events := s.events.filter (fun x => x.id != eventId) } :
        State) := fun hi => invV_shrink hi _ (fun e1 he1 => (List.mem_filter.mp he1).1)
    have hg1 : Grows s ({ s with events := s.events.filter (fun x => x.id != eventId) } :
        State) := grows_refl s
    cases hcb : ev.callback with
    | unsatisfied e =>
      simp only [hcb] at h
      obtain ⟨h1, h2, h3⟩ := onInterestUnsatisfied_spec h
      refine ⟨fun hi => (h1 (hi1 hi)).1, grows_trans hg1 h3, ?_⟩
      intro ev1 hev1
      injection hev1 with hev1
      subst hev1
      rw [hcb]
      exact ⟨h2, fun hi => (h1 (hi1 hi)).2⟩
    | finalize e sat fr =>
      simp only [hcb] at h
      obtain ⟨h1, h2, h3, h4⟩ := onInterestFinalize_spec h
      refine ⟨fun hi => (h1 (hi1 hi)).1, ?_, ?_⟩
      · refine ⟨Nat.le_of_eq h4.symm, ?_⟩
        intro k hk
        obtain ⟨x, hx, rfl⟩ := List.mem_map.mp hk
        exact Or.inl (List.mem_map.mpr ⟨x, h3 x hx, rfl⟩)
      · intro ev1 hev1
        injection hev1 with hev1
        subst hev1
        rw [hcb]
        exact ⟨h2, fun hi => (h1 (hi1 hi)).2⟩

/-- One event keeps the invariant; the table only grows by entries with fresh
identities. -/
theorem step_spec {env : Env} {s s1 : State} {input : Input}
    (h : step env s input = some s1) : (Inv s → Inv s1) ∧ Grows s s1 := by
  cases input with
  | interest inFace interest =>
    obtain ⟨h1, h2, _⟩ := onIncomingInterest_spec h
    exact ⟨h1, h2⟩
  | data inFace data =>
    obtain ⟨h1, h2⟩ := onIncomingData_spec h
    exact ⟨h1, static_grows h2⟩
  | nack inFace nack =>
    obtain ⟨h1, h2⟩ := onIncomingNack_spec h
    exact ⟨h1, static_grows h2⟩
  | timer eventId =>
    obtain ⟨h1, h2, _⟩ := fire_spec h
    exact ⟨h1, h2⟩
  | strategyCall entry action =>
    have hk := applyStrategyAction_keeps h
    exact ⟨hk.1, static_grows hk.2.1⟩

/-- A sequence of events keeps the invariant; the table only grows by entries with
fresh identities. -/
theorem runEvents_spec (trace : List (Env × Input)) :
    ∀ {s s1 : State}, runEvents s trace = some s1 → (Inv s → Inv s1) ∧ Grows s s1 := by
  induction trace with
  | nil =>
    intro s s1 h
    simp [runEvents] at h
    rw [h]
    exact ⟨fun hi => hi, grows_refl _⟩
  | cons p rest ih =>
    intro s s1 h
    obtain ⟨env, input⟩ := p
    cases hs : step env s input with
    | none => simp [runEvents, hs] at h
    | some s2 =>
      simp only [runEvents, hs] at h
      obtain ⟨h1, h2⟩ := step_spec hs
      obtain ⟨h3, h4⟩ := ih h
      exact ⟨fun hi => h3 (h1 hi), grows_trans h2 h4⟩

/-- The initial state satisfies the invariant. -/
theorem inv_initial : Inv initial where
  idsNodup := List.nodup_nil
  idsLt := fun k hk => by simp [State.view, initial] at hk
  keys := List.Pairwise.nil
  evLt := fun ev hev => by simp [State.view, initial] at hev
  handlesLt := fun k hk => by simp [State.view, initial] at hk
  tracked := fun ev hev => by simp [State.view, initial] at hev
  exclusive := fun k hk => by simp [State.view, initial] at hk

/-- Every reachable state satisfies the invariant. -/
theorem inv_of_reachable {s : State} (h : Reachable s) : Inv s := by
  obtain ⟨trace, ht⟩ := h
  exact (runEvents_spec trace ht).1 inv_initial

/-- An identity that was handed out and is not in the table stays out of the table. -/
theorem gone_of_grows {s s1 : State} {id : Nat} (hg : Grows s s1)
    (hlt : id < s.nextEntryId) (hout : ∀ x ∈ s.m_pit, x.id ≠ id) :
    id < s1.nextEntryId ∧ ∀ x ∈ s1.m_pit, x.id ≠ id := by
  refine ⟨Nat.lt_of_lt_of_le hlt hg.1, ?_⟩
  intro x hx hxid
  have hk : (x.id, x.interest) ∈ keysOf s1 := List.mem_map.mpr ⟨x, hx, rfl⟩
  rcases hg.2 _ hk with hk1 | hk1
  · obtain ⟨y, hy, hyx⟩ := List.mem_map.mp hk1
    have : y.id = x.id := congrArg Prod.fst hyx
    exact hout y hy (this.trans hxid)
  · simp only at hk1
    omega

/-- Under the invariant no pending event is bound to an identity outside the table. -/
theorem no_event_of_gone {s : State} {id : Nat} (hi : Inv s) (hout : ∀ x ∈ s.m_pit, x.id ≠ id) :
    ∀ ev ∈ s.events, ev.callback.entry ≠ id := by
  intro ev hev hent
  obtain ⟨k, hk, hke, _⟩ := hi.tracked ev hev
  obtain ⟨x, hx, rfl⟩ := List.mem_map.mp hk
  exact hout x hx (hke.trans hent)

/-! ### The forwarder: timer and table claims -/

/-- A timer is armed exactly when its handle is pending in the scheduler queue. -/
theorem armed_iff (s : State) (t : Option Nat) : armed s t = true ↔ Pending s.events t := by
  cases t with
  | none => simp [armed, Pending]
  | some id =>
    simp only [armed, Pending, List.any_eq_true, beq_iff_eq, Option.some.injEq]
    constructor
    · rintro ⟨ev, hev, h⟩; exact ⟨ev, hev, h.symm⟩
    · rintro ⟨ev, hev, h⟩; exact ⟨ev, hev, h.symm⟩

/-- C5 (timer mutual exclusion). In every state reached from the initial state by
Interest, Data and Nack arrivals, timer firings and strategy calls (the pipelines
`onContentStoreHit`, `onContentStoreMiss`, `onInterestReject`, `onInterestUnsatisfied`
and `onInterestFinalize` run inside these), no PIT entry has both its unsatisfy timer
and its straggler timer armed. -/
theorem timers_mutually_exclusive (s : State) (h : Reachable s) :
    ∀ e ∈ s.m_pit, ¬ (armed s e.m_unsatisfyTimer = true ∧ armed s e.m_stragglerTimer = true) := by
  intro e he ⟨hu, hs⟩
  have hi := inv_of_reachable h
  exact hi.exclusive e.skel (List.mem_map.mpr ⟨e, he, rfl⟩)
    ⟨(armed_iff s _).mp hu, (armed_iff s _).mp hs⟩

/-- Witness for `timers_mutually_exclusive`: the state after the sample run, where the
entry has its straggler timer armed. -/
theorem timers_mutually_exclusive_witness :
    Reachable sampleState ∧
    (sampleState.m_pit.map (fun e => armed sampleState e.m_stragglerTimer)) = [true] ∧
    ∀ e ∈ sampleState.m_pit,
      ¬ (armed sampleState e.m_unsatisfyTimer = true ∧
        armed sampleState e.m_stragglerTimer = true) :=
  ⟨⟨sampleTrace, by decide⟩, by decide,
    timers_mutually_exclusive sampleState ⟨sampleTrace, by decide⟩⟩

/-- C6 (PIT uniqueness). (1) In every reachable state no two PIT entries are the same
request (same name and selectors). (2) `Pit::insert` of an Interest whose request has
an entry returns an existing entry of that request and leaves the table as it is.
(3) `onIncomingInterest` of such an Interest, whatever its nonce, leaves the
identities and requests of the table as they are: no entry is created. -/
theorem pit_one_entry_per_request :
    (∀ s, Reachable s →
      s.m_pit.Pairwise (fun a b => sameRequest a.interest b.interest = false)) ∧
    (∀ (s : State) (interest : Interest),
      (∃ e ∈ s.m_pit, sameRequest e.interest interest = true) →
      ∃ e1 ∈ s.m_pit, sameRequest e1.interest interest = true ∧
        Pit.insert s interest = (s, e1.id)) ∧
    (∀ (env : Env) (s s1 : State) (inFace : Face) (interest : Interest),
      (∃ e ∈ s.m_pit, sameRequest e.interest interest = true) →
      onIncomingInterest env s inFace interest = some s1 →
      keysOf s1 = keysOf s) := by
  refine ⟨?_, ?_, ?_⟩
  · intro s h
    have hi := inv_of_reachable h
    have := hi.keys
    simp only [State.view, List.pairwise_map] at this
    exact this
  · rintro s interest ⟨e, he, hs⟩
    cases hf : s.m_pit.find? (fun e => sameRequest e.interest interest) with
    | none => exact absurd hs (List.find?_eq_none.mp hf e he)
    | some e1 =>
      exact ⟨e1, List.mem_of_find?_eq_some hf,
        List.find?_some (p := fun e : PitEntry => sameRequest e.interest interest) hf,
        by simp [Pit.insert, hf]⟩
  · intro env s s1 inFace interest hex h
    exact ((onIncomingInterest_spec h).2.2 hex).1

/-- Witness for `pit_one_entry_per_request`: after the first Interest of the sample
run the second one, with another nonce, creates no entry; the state after the run has
one entry. -/
theorem pit_one_entry_per_request_witness :
    sampleState.m_pit.Pairwise (fun a b => sameRequest a.interest b.interest = false) ∧
    sampleState.m_pit.length = 1 ∧
    (∀ s1, onIncomingInterest (sampleEnv 1)
        ((runEvents initial (sampleTrace.take 1)).getD initial) (sampleFace 2)
        (sampleInterest 78) = some s1 →
      keysOf s1 = keysOf ((runEvents initial (sampleTrace.take 1)).getD initial)) :=
  ⟨pit_one_entry_per_request.1 sampleState ⟨sampleTrace, by decide⟩, by decide,
    fun s1 => pit_one_entry_per_request.2.2 (sampleEnv 1) _ s1 (sampleFace 2)
      (sampleInterest 78) (by decide)⟩

/-! ### The forwarder: dead nonce list claims -/

/-- Recording the nonces of a list of out-records appends their pairs to the list. -/
theorem foldl_insertNonceToDnl (e : PitEntry) (rs : List OutRecord) :
    ∀ s : State, rs.foldl (fun st r => insertNonceToDnl st e r) s =
      { s with m_deadNonceList :=
          s.m_deadNonceList ++ rs.map (fun r => (e.interest.name, r.lastNonce)) } := by
  induction rs with
  | nil => intro s; simp
  | cons r rs ih =>
    intro s
    simp only [List.foldl_cons]
    rw [ih]
    simp [insertNonceToDnl, DeadNonceList.add]

/-- What `insertDeadNonceList` does, in one equation: nothing when it decides not to
record, else it appends the pairs of `recordedNonces`. -/
theorem insertDeadNonceList_eq (env : Env) (s : State) (id : Nat) (e : PitEntry)
    (sat : Bool) (fr : Int) (up : Option Face) (hf : findEntry s id = some e) :
    insertDeadNonceList env s id sat fr up =
      some (if needDnl env e sat fr then
        { s with m_deadNonceList := s.m_deadNonceList ++ recordedNonces e up } else s) := by
  unfold insertDeadNonceList
  simp only [hf]
  by_cases hn : needDnl env e sat fr = true
  · simp only [hn, Bool.not_true, Bool.false_eq_true, if_false, if_true]
    cases up with
    | none => simp only [recordedNonces, foldl_insertNonceToDnl]
    | some face =>
      simp only [recordedNonces]
      cases e.outRecords.find? (fun r => r.face == face) with
      | some r => simp [DeadNonceList.add]
      | none => simp
  · simp [hn]

/-- The decision `needDnl` in words: the entry is unsatisfied, or it is satisfied, its
Interest has MustBeFresh and the freshness period is non-negative and below the lifetime
of the dead nonce list. -/
theorem needDnl_iff (env : Env) (e : PitEntry) (sat : Bool) (fr : Int) :
    needDnl env e sat fr = true ↔
      (sat = false ∨
        (sat = true ∧ e.interest.mustBeFresh = true ∧ 0 ≤ fr ∧ fr < env.lifetimeDnl)) := by
  cases sat <;> simp [needDnl]

/-- There is a pair to record exactly when the entry has an out-record (no upstream
given) or an out-record of the upstream face. -/
theorem recordedNonces_ne_nil_iff (e : PitEntry) (up : Option Face) :
    recordedNonces e up ≠ [] ↔
      ((up = none ∧ e.outRecords ≠ []) ∨
        (∃ face, up = some face ∧ ∃ r ∈ e.outRecords, r.face = face)) := by
  cases up with
  | none => simp [recordedNonces]
  | some face =>
    simp only [recordedNonces, false_and, false_or, Option.some.injEq, exists_eq_left', ne_eq,
      reduceCtorEq]
    cases hfind : e.outRecords.find? (fun r => r.face == face) with
    | none =>
      simp only [not_true_eq_false, false_iff, not_exists, not_and]
      intro r hr hface
      have := List.find?_eq_none.mp hfind r hr
      simp [hface] at this
    | some r =>
      simp only [List.cons_ne_self, not_false_eq_true, true_iff]
      exact ⟨r, List.mem_of_find?_eq_some hfind, by simpa using List.find?_some hfind⟩

/-- C8 (amended): `insertDeadNonceList` returns, and the dead nonce list is changed if and
only if there is an out-record to record (the entry has an out-record when no upstream
face is given, an out-record of the upstream face otherwise) and the entry is unsatisfied,
or it is satisfied, its Interest has MustBeFresh and the Data freshness period is
non-negative and below the lifetime of the dead nonce list. Under that condition on the
entry and the Data the nonces asked for are appended, otherwise the state is unchanged. In
particular an Interest without MustBeFresh satisfied by Data with freshness period 10000
records nothing. -/
theorem insertDeadNonceList_decision (env : Env) (s : State) (id : Nat) (e : PitEntry)
    (sat : Bool) (fr : Int) (up : Option Face) (hf : findEntry s id = some e) :
    (∃ s1, insertDeadNonceList env s id sat fr up = some s1 ∧
      (s1.m_deadNonceList ≠ s.m_deadNonceList ↔
        (((up = none ∧ e.outRecords ≠ []) ∨
            (∃ face, up = some face ∧ ∃ r ∈ e.outRecords, r.face = face)) ∧
          (sat = false ∨
            (sat = true ∧ e.interest.mustBeFresh = true ∧ 0 ≤ fr ∧
              fr < env.lifetimeDnl)))) ∧
      ((sat = false ∨
          (sat = true ∧ e.interest.mustBeFresh = true ∧ 0 ≤ fr ∧ fr < env.lifetimeDnl)) →
        s1 = { s with m_deadNonceList := s.m_deadNonceList ++ recordedNonces e up }) ∧
      (¬ (sat = false ∨
          (sat = true ∧ e.interest.mustBeFresh = true ∧ 0 ≤ fr ∧ fr < env.lifetimeDnl)) →
        s1 = s)) ∧
    (e.interest.mustBeFresh = false →
      insertDeadNonceList env s id true 10000 up = some s) := by
  refine ⟨⟨_, insertDeadNonceList_eq env s id e sat fr up hf, ?_, ?_, ?_⟩, ?_⟩
  · rw [← needDnl_iff env e sat fr, ← recordedNonces_ne_nil_iff e up]
    by_cases hn : needDnl env e sat fr = true
    · simp [hn]
    · simp [hn]
  · intro hc
    rw [if_pos ((needDnl_iff env e sat fr).mpr hc)]
  · intro hc
    rw [if_neg (fun h => hc ((needDnl_iff env e sat fr).mp h))]
  · intro hm
    rw [insertDeadNonceList_eq env s id e true 10000 up hf]
    simp [needDnl, hm]

/-- Witness for `insertDeadNonceList_decision`: the entry of the sample run after the
first Interest (no MustBeFresh, one out-record on face 3 with nonce 77): unsatisfied, the
pair `(/x, 77)` is recorded; satisfied with freshness 10000, nothing is. -/
theorem insertDeadNonceList_decision_witness :
    findEntry sampleAfterFirst 0 = some sampleEntry ∧
    sampleEntry.outRecords.map (fun r => (r.face, r.lastNonce)) = [(sampleFace 3, 77)] ∧
    insertDeadNonceList (sampleEnv 1) sampleAfterFirst 0 false 0 (some (sampleFace 3)) =
      some { sampleAfterFirst with m_deadNonceList := [(["x"], 77)] } ∧
    insertDeadNonceList (sampleEnv 1) sampleAfterFirst 0 true 10000 (some (sampleFace 3)) =
      some sampleAfterFirst ∧
    (∃ s1, insertDeadNonceList (sampleEnv 1) sampleAfterFirst 0 false 0
          (some (sampleFace 3)) = some s1 ∧
      (s1.m_deadNonceList ≠ sampleAfterFirst.m_deadNonceList ↔
        (((some (sampleFace 3) = none ∧ sampleEntry.outRecords ≠ []) ∨
            (∃ face, some (sampleFace 3) = some face ∧
              ∃ r ∈ sampleEntry.outRecords, r.face = face)) ∧
          (false = false ∨
            (false = true ∧ sampleEntry.interest.mustBeFresh = true ∧ (0 : Int) ≤ 0 ∧
              0 < (sampleEnv 1).lifetimeDnl)))) ∧
      ((false = false ∨
          (false = true ∧ sampleEntry.interest.mustBeFresh = true ∧ (0 : Int) ≤ 0 ∧
            0 < (sampleEnv 1).lifetimeDnl)) →
        s1 = { sampleAfterFirst with
                m_deadNonceList := sampleAfterFirst.m_deadNonceList ++
                  recordedNonces sampleEntry (some (sampleFace 3)) }) ∧
      (¬ (false = false ∨
          (false = true ∧ sampleEntry.interest.mustBeFresh = true ∧ (0 : Int) ≤ 0 ∧
            0 < (sampleEnv 1).lifetimeDnl)) →
        s1 = sampleAfterFirst)) ∧
    (sampleEntry.interest.mustBeFresh = false →
      insertDeadNonceList (sampleEnv 1) sampleAfterFirst 0 true 10000
        (some (sampleFace 3)) = some sampleAfterFirst) :=
  ⟨by decide, by decide, by decide, by decide,
    insertDeadNonceList_decision (sampleEnv 1) sampleAfterFirst 0 sampleEntry false 0
      (some (sampleFace 3)) (by decide)⟩

/-- C8 (counterexample): the entry of `rejectedState`, the state after one Interest that
the strategy rejected, is unsatisfied and has no out-record. `insertDeadNonceList` for
the unsatisfied entry leaves the state as it is, and when the straggler timer of the entry
fires the entry is finalized as unsatisfied with the dead nonce list still empty: no nonce
is recorded although the entry is unsatisfied. -/
theorem unsatisfied_entry_without_out_record :
    runEvents initial [(rejectEnv 0, .interest (sampleFace 1) (sampleInterest 77))] =
      some rejectedState ∧
    rejectedState.m_pit.map (fun e => (e.id, e.outRecords.length)) = [(0, 0)] ∧
    insertDeadNonceList (rejectEnv 2) rejectedState 0 false 0 none = some rejectedState ∧
    rejectedState.events.map (fun ev => (ev.id, ev.callback)) = [(1, .finalize 0 false (-1))] ∧
    (fire (rejectEnv 500000) rejectedState 1).map
      (fun s => (s.m_pit.length, s.m_deadNonceList)) = some (0, []) := by
  decide

/-- C9 (what is recorded). When `insertDeadNonceList` decides to record: with no
upstream face it appends the pair (entry name, last nonce) of every out-record of the
entry, in order, and nothing else; with an upstream face it appends only the pair of
that face's out-record, and nothing if the entry has no out-record for the face. The
finalize of an unsatisfied entry returns and has recorded the pairs of all its
out-records. -/
theorem insertDeadNonceList_targets (env : Env) (s : State) (id : Nat) (e : PitEntry)
    (sat : Bool) (fr : Int) (hf : findEntry s id = some e) :
    (needDnl env e sat fr = true →
      insertDeadNonceList env s id sat fr none =
        some { s with m_deadNonceList :=
          s.m_deadNonceList ++ e.outRecords.map (fun r => (e.interest.name, r.lastNonce)) }) ∧
    (needDnl env e sat fr = true → ∀ (face : Face) (r : OutRecord),
      e.outRecords.find? (fun r => r.face == face) = some r →
      insertDeadNonceList env s id sat fr (some face) =
        some { s with m_deadNonceList := s.m_deadNonceList ++ [(e.interest.name, r.lastNonce)] }) ∧
    (∀ face : Face, e.outRecords.find? (fun r => r.face == face) = none →
      insertDeadNonceList env s id sat fr (some face) = some s) ∧
    (∃ s1, onInterestFinalize env s id false fr = some s1 ∧
      s1.m_deadNonceList =
        s.m_deadNonceList ++ e.outRecords.map (fun r => (e.interest.name, r.lastNonce))) := by
  refine ⟨?_, ?_, ?_, ?_⟩
  · intro hn
    rw [insertDeadNonceList_eq env s id e sat fr none hf]
    simp [hn, recordedNonces]
  · intro hn face r hr
    rw [insertDeadNonceList_eq env s id e sat fr (some face) hf]
    simp [hn, recordedNonces, hr]
  · intro face hr
    rw [insertDeadNonceList_eq env s id e sat fr (some face) hf]
    by_cases hn : needDnl env e sat fr = true
    · simp [hn, recordedNonces, hr]
    · simp [hn]
  · have h1 := insertDeadNonceList_eq env s id e false fr none hf
    have hn : needDnl env e false fr = true := by simp [needDnl]
    simp only [hn, if_true, recordedNonces] at h1
    have hf2 := hf
    unfold findEntry at hf2
    unfold onInterestFinalize
    rw [h1]
    simp only [cancelUnsatisfyAndStragglerTimer, findEntry, hf2]
    exact ⟨_, rfl, rfl⟩

/-- Witness for `insertDeadNonceList_targets`: the entry of the sample run after the
first Interest has one out-record, on face 3 with nonce 77; finalizing it unsatisfied
records `(/x, 77)`. -/
theorem insertDeadNonceList_targets_witness :
    ∃ s1, onInterestFinalize (sampleEnv 1) sampleAfterFirst 0 false (-1) =
        some s1 ∧
      s1.m_deadNonceList = [(["x"], 77)] := by
  obtain ⟨s1, h1, h2⟩ := (insertDeadNonceList_targets (sampleEnv 1) sampleAfterFirst 0
    sampleEntry false (-1) (by decide)).2.2.2
  exact ⟨s1, h1, h2.trans (by decide)⟩

/-! ### The forwarder: finalization -/

/-- An entry object is in the table exactly when its identity is among the keys. -/
theorem findEntry_isSome_iff (s : State) (id : Nat) :
    (∃ e, findEntry s id = some e) ↔ id ∈ (keysOf s).map Prod.fst := by
  constructor
  · rintro ⟨e, he⟩
    obtain ⟨hm, hid⟩ := findEntry_some he
    exact List.mem_map.mpr ⟨(e.id, e.interest), List.mem_map.mpr ⟨e, hm, rfl⟩, hid⟩
  · intro h
    obtain ⟨k, hk, hkid⟩ := List.mem_map.mp h
    obtain ⟨e, he, rfl⟩ := List.mem_map.mp hk
    cases hf : findEntry s id with
    | some x => exact ⟨x, rfl⟩
    | none =>
      unfold findEntry at hf
      have := List.find?_eq_none.mp hf e he
      simp at this
      exact absurd hkid this

/-- A step that keeps the keys keeps the entry objects in the table. -/
theorem present_of_static {s s1 : State} (h : Static s s1) {id : Nat}
    (hp : ∃ e, findEntry s id = some e) : ∃ e, findEntry s1 id = some e := by
  rw [findEntry_isSome_iff] at hp ⊢
  rw [h.1]
  exact hp

/-- `onInterestReject` returns for an entry of the table. -/
theorem onInterestReject_total (env : Env) (s : State) (id : Nat)
    (hp : ∃ e, findEntry s id = some e) : ∃ s1, onInterestReject env s id = some s1 := by
  obtain ⟨e, he⟩ := hp
  unfold onInterestReject
  simp only [he]
  split
  · exact ⟨s, rfl⟩
  · have he1 := he
    unfold findEntry at he1
    simp only [cancelUnsatisfyAndStragglerTimer, setStragglerTimer, findEntry, he1]
    exact ⟨_, rfl⟩

/-- A call of the strategy returns for an entry of the table. -/
theorem applyStrategyAction_total (env : Env) (s : State) (id : Nat) (a : StrategyAction)
    (hp : ∃ e, findEntry s id = some e) : ∃ s1, applyStrategyAction env s id a = some s1 := by
  cases a with
  | sendInterest outFace interest =>
    obtain ⟨e, he⟩ := hp
    simp only [applyStrategyAction, onOutgoingInterest, he]
    exact ⟨_, rfl⟩
  | rejectPendingInterest => exact onInterestReject_total env s id hp
  | sendNack outFace reason =>
    obtain ⟨e, he⟩ := hp
    simp only [applyStrategyAction, onOutgoingNack, he]
    split
    · exact ⟨_, rfl⟩
    · split
      · exact ⟨_, rfl⟩
      · split <;> exact ⟨_, rfl⟩

/-- The calls of the strategy return for an entry of the table. -/
theorem runStrategyActions_total (env : Env) (id : Nat) (as : List StrategyAction) :
    ∀ s : State, (∃ e, findEntry s id = some e) →
      ∃ s1, runStrategyActions env id s as = some s1 := by
  induction as with
  | nil => intro s _; exact ⟨s, rfl⟩
  | cons a rest ih =>
    intro s hp
    obtain ⟨s1, h1⟩ := applyStrategyAction_total env s id a hp
    have hp1 := present_of_static (applyStrategyAction_keeps h1).2.1 hp
    obtain ⟨s2, h2⟩ := ih s1 hp1
    exact ⟨s2, by simp [runStrategyActions, h1, h2]⟩

/-- An extension point returns for an entry of the table. -/
theorem dispatchToStrategy_total (env : Env) (s : State) (point : ExtensionPoint) (id : Nat)
    (hp : ∃ e, findEntry s id = some e) : ∃ s1, dispatchToStrategy env s point id = some s1 := by
  obtain ⟨e, he⟩ := hp
  unfold dispatchToStrategy
  simp only [he]
  exact runStrategyActions_total env id _ _ ⟨e, he⟩

/-- `onInterestFinalize` returns for an entry of the table. -/
theorem onInterestFinalize_total (env : Env) (s : State) (id : Nat) (sat : Bool) (fr : Int)
    (hp : ∃ e, findEntry s id = some e) :
    ∃ s1, onInterestFinalize env s id sat fr = some s1 := by
  obtain ⟨e, he⟩ := hp
  unfold onInterestFinalize
  rw [insertDeadNonceList_eq env s id e sat fr none he]
  have he1 := he
  unfold findEntry at he1
  by_cases hn : needDnl env e sat fr = true
  · simp only [hn, if_true, cancelUnsatisfyAndStragglerTimer, findEntry, he1]
    exact ⟨_, rfl⟩
  · have hn1 : needDnl env e sat fr = false := by simpa using hn
    simp only [hn1, Bool.false_eq_true, if_false, cancelUnsatisfyAndStragglerTimer, findEntry,
      he1]
    exact ⟨_, rfl⟩

/-- `onInterestUnsatisfied` returns for an entry of the table. -/
theorem onInterestUnsatisfied_total (env : Env) (s : State) (id : Nat)
    (hp : ∃ e, findEntry s id = some e) : ∃ s1, onInterestUnsatisfied env s id = some s1 := by
  obtain ⟨s1, h1⟩ := dispatchToStrategy_total env s .beforeExpirePendingInterest id hp
  have hp1 := present_of_static (dispatchToStrategy_keeps h1).2.1 hp
  obtain ⟨s2, h2⟩ := onInterestFinalize_total env s1 id false env.defaultFreshnessPeriod hp1
  exact ⟨s2, by simp [onInterestUnsatisfied, h1, h2]⟩

/-- Under the invariant every timer firing returns. -/
theorem fire_total (env : Env) (s : State) (eventId : Nat) (hi : Inv s) :
    ∃ s1, fire env s eventId = some s1 := by
  unfold fire
  cases hf : s.events.find? (fun ev => ev.id == eventId) with
  | none => exact ⟨s, rfl⟩
  | some ev =>
    simp only
    obtain ⟨k, hk, hke, _⟩ := hi.tracked ev (List.mem_of_find?_eq_some hf)
    obtain ⟨x, hx, rfl⟩ := List.mem_map.mp hk
    have hp : ∃ e, findEntry s ev.callback.entry = some e := by
      rw [findEntry_isSome_iff]
      exact List.mem_map.mpr ⟨(x.id, x.interest), List.mem_map.mpr ⟨x, hx, rfl⟩, hke⟩
    cases hcb : ev.callback with
    | unsatisfied e =>
      rw [hcb] at hp
      exact onInterestUnsatisfied_total env _ e hp
    | finalize e sat fr =>
      rw [hcb] at hp
      exact onInterestFinalize_total env _ e sat fr hp

/-- The scheduler queue after `onInterestFinalize`: both handles of the entry were
cancelled. -/
theorem onInterestFinalize_events {env : Env} {s s1 : State} {id : Nat} {sat : Bool}
    {fr : Int} {e : PitEntry} (hf : findEntry s id = some e)
    (h : onInterestFinalize env s id sat fr = some s1) :
    ∃ evs, s1.events = scheduler.cancel (scheduler.cancel evs e.m_unsatisfyTimer) e.m_stragglerTimer := by
  unfold onInterestFinalize at h
  cases hd : insertDeadNonceList env s id sat fr none with
  | none => simp [hd] at h
  | some s2 =>
    cases hc : cancelUnsatisfyAndStragglerTimer s2 id with
    | none => simp [hd, hc] at h
    | some s3 =>
      simp only [hd, hc, Option.some.injEq] at h
      subst h
      obtain ⟨e2, hf2, hs3⟩ := cancelBoth_eq hc
      have hskel : s2.m_pit.map PitEntry.skel = s.m_pit.map PitEntry.skel :=
        congrArg View.skels (insertDeadNonceList_view hd)
      have hcomp : (fun k : Skeleton => k.id == id) ∘ PitEntry.skel =
          fun x : PitEntry => x.id == id := rfl
      have he2 : e2.skel = e.skel := by
        have h2 : (s2.m_pit.map PitEntry.skel).find? (fun k => k.id == id) = some e2.skel := by
          rw [List.find?_map, hcomp]
          unfold findEntry at hf2
          rw [hf2]; rfl
        have h1 : (s.m_pit.map PitEntry.skel).find? (fun k => k.id == id) = some e.skel := by
          rw [List.find?_map, hcomp]
          unfold findEntry at hf
          rw [hf]; rfl
        rw [hskel, h1] at h2
        injection h2 with h2
        exact h2.symm
      have hu : e2.m_unsatisfyTimer = e.m_unsatisfyTimer := congrArg Skeleton.unsat he2
      have hs : e2.m_stragglerTimer = e.m_stragglerTimer := congrArg Skeleton.strag he2
      refine ⟨s2.events, ?_⟩
      rw [hs3, ← hu, ← hs]
      rfl

/-- C7 (finalize once). (1) After `onInterestFinalize` runs on a PIT entry, the entry
is not in the PIT and neither of its timers is armed. (2) When a pending timer event
fires in a reachable state (the unsatisfy timer, which ends in `onInterestFinalize`, or
the straggler timer, which is `onInterestFinalize`), the callback returns, and after it
and after every later sequence of events the entry the event was bound to is not in the PIT and no
pending event is bound to it: no later callback runs on that entry. -/
theorem finalize_once :
    (∀ (env : Env) (s s1 : State) (id : Nat) (sat : Bool) (fr : Int) (e : PitEntry),
      findEntry s id = some e → onInterestFinalize env s id sat fr = some s1 →
      findEntry s1 id = none ∧ (∀ x ∈ s1.m_pit, x.id ≠ id) ∧
        armed s1 e.m_unsatisfyTimer = false ∧ armed s1 e.m_stragglerTimer = false) ∧
    (∀ (env : Env) (s : State) (eventId : Nat) (ev : Event),
      Reachable s → s.events.find? (fun x => x.id == eventId) = some ev →
      ∃ s1, fire env s eventId = some s1 ∧
        ∀ (trace : List (Env × Input)) (s2 : State), runEvents s1 trace = some s2 →
          (∀ x ∈ s2.m_pit, x.id ≠ ev.callback.entry) ∧
          (∀ e2 ∈ s2.events, e2.callback.entry ≠ ev.callback.entry)) := by
  refine ⟨?_, ?_⟩
  · intro env s s1 id sat fr e hf h
    obtain ⟨_, hout, _, _⟩ := onInterestFinalize_spec h
    refine ⟨?_, hout, ?_, ?_⟩
    · cases hf1 : findEntry s1 id with
      | none => rfl
      | some x => exact absurd (findEntry_some hf1).2 (hout x (findEntry_some hf1).1)
    · rw [Bool.eq_false_iff]
      intro ha
      obtain ⟨evs, hevs⟩ := onInterestFinalize_events hf h
      have hp := (armed_iff _ _).mp ha
      rw [hevs] at hp
      exact not_pending_cancel evs e.m_unsatisfyTimer
        (pending_mono (fun ev hev => mem_of_mem_cancel hev) hp)
    · rw [Bool.eq_false_iff]
      intro ha
      obtain ⟨evs, hevs⟩ := onInterestFinalize_events hf h
      have hp := (armed_iff _ _).mp ha
      rw [hevs] at hp
      exact not_pending_cancel _ e.m_stragglerTimer hp
  · intro env s eventId ev hr hfind
    have hi := inv_of_reachable hr
    obtain ⟨s1, hfire⟩ := fire_total env s eventId hi
    refine ⟨s1, hfire, ?_⟩
    intro trace s2 hrun
    obtain ⟨hi1, hg1, hpost⟩ := fire_spec hfire
    obtain ⟨hout1, _⟩ := hpost ev hfind
    have hev : ev ∈ s.events := List.mem_of_find?_eq_some hfind
    obtain ⟨k, hk, hke, _⟩ := hi.tracked ev hev
    have hlt : ev.callback.entry < s.nextEntryId := by
      have := hi.idsLt k hk
      rw [hke] at this
      exact this
    obtain ⟨hi2, hg2⟩ := runEvents_spec trace hrun
    have hgone := gone_of_grows hg2 (Nat.lt_of_lt_of_le hlt hg1.1) hout1
    exact ⟨hgone.2, no_event_of_gone (hi2 (hi1 hi)) hgone.2⟩

/-- Witness for `finalize_once`: in the state after the sample run the straggler
timer (event 2, bound to entry 0) fires; after one more Interest for the same name the
table holds a new entry 1, entry 0 is not back and no event is bound to it. -/
theorem finalize_once_witness :
    fire (sampleEnv 3) sampleState 2 = some sampleFinalized ∧
    runEvents sampleFinalized
      [(sampleEnv 4, .interest (sampleFace 1) (sampleInterest 79))] = some sampleLater ∧
    sampleLater.m_pit.map (fun e => e.id) = [1] ∧
    ∃ s1, fire (sampleEnv 3) sampleState 2 = some s1 ∧
      ∀ (trace : List (Env × Input)) (s2 : State), runEvents s1 trace = some s2 →
        (∀ x ∈ s2.m_pit, x.id ≠ 0) ∧ (∀ e2 ∈ s2.events, e2.callback.entry ≠ 0) :=
  ⟨by decide, by decide, by decide,
    finalize_once.2 (sampleEnv 3) sampleState 2
      (Event.mk 2 stragglerTime (.finalize 0 true 0)) ⟨sampleTrace, by decide⟩ (by decide)⟩

/-! ### The forwarder: the Interest pipeline claims -/

/-- Under the invariant an entry of the table is the one found by its identity. -/
theorem findEntry_of_mem {s : State} (hi : Inv s) {e : PitEntry} (he : e ∈ s.m_pit) :
    findEntry s e.id = some e := by
  cases hf : findEntry s e.id with
  | none =>
    unfold findEntry at hf
    have := List.find?_eq_none.mp hf e he
    simp at this
  | some x =>
    obtain ⟨hx, hxid⟩ := findEntry_some hf
    have hn : (s.m_pit.map (fun x => x.id)).Nodup := by
      have := hi.idsNodup
      simpa [State.view, List.map_map, Function.comp_def, PitEntry.skel] using this
    rw [List.inj_on_of_nodup_map hn hx he hxid]

/-- `sameRequest` compares name and selectors. -/
theorem sameRequest_iff (a b : Interest) :
    sameRequest a b = true ↔
      a.name = b.name ∧ a.mustBeFresh = b.mustBeFresh ∧ a.otherSelectors = b.otherSelectors := by
  simp [sameRequest, and_assoc]

/-- Under the invariant the entry of a request is the one `Pit::insert` finds. -/
theorem find_request_of_mem {s : State} (hi : Inv s) {e : PitEntry} (he : e ∈ s.m_pit)
    {interest : Interest} (hs : sameRequest e.interest interest = true) :
    s.m_pit.find? (fun x => sameRequest x.interest interest) = some e := by
  cases hf : s.m_pit.find? (fun x => sameRequest x.interest interest) with
  | none => exact absurd hs (List.find?_eq_none.mp hf e he)
  | some x =>
    have hx : x ∈ s.m_pit := List.mem_of_find?_eq_some hf
    have hxs : sameRequest x.interest interest = true :=
      List.find?_some (p := fun x : PitEntry => sameRequest x.interest interest) hf
    have hkeys : s.m_pit.Pairwise (fun a b => sameRequest a.interest b.interest = false) := by
      have := hi.keys
      simpa [State.view, List.pairwise_map] using this
    by_contra hne
    have hne1 : x ≠ e := fun h => hne (by rw [h])
    have hsym : Symmetric (fun a b : PitEntry => sameRequest a.interest b.interest = false) := by
      intro a b hab
      cases hba : sameRequest b.interest a.interest with
      | false => rfl
      | true =>
        have h1 := (sameRequest_iff _ _).mp hba
        have : sameRequest a.interest b.interest = true :=
          (sameRequest_iff _ _).mpr ⟨h1.1.symm, h1.2.1.symm, h1.2.2.symm⟩
        rw [this] at hab
        exact absurd hab (by simp)
    have hfalse := hkeys.forall hsym hx he hne1
    have h1 := (sameRequest_iff _ _).mp hxs
    have h2 := (sameRequest_iff _ _).mp hs
    have : sameRequest x.interest e.interest = true :=
      (sameRequest_iff _ _).mpr ⟨h1.1.trans h2.1.symm, h1.2.1.trans h2.2.1.symm,
        h1.2.2.trans h2.2.2.symm⟩
    rw [this] at hfalse
    exact absurd hfalse (by simp)

/-- Finding an entry after a change of that entry that keeps its identity. -/
theorem findEntry_modifyEntry (s : State) (id : Nat) (f : PitEntry → PitEntry)
    (hf : ∀ x, (f x).id = x.id) :
    findEntry (modifyEntry s id f) id = (findEntry s id).map f := by
  unfold findEntry modifyEntry
  simp only
  induction s.m_pit with
  | nil => rfl
  | cons x rest ih =>
    by_cases hx : x.id = id
    · simp [List.find?, hx, hf]
    · have hb : (x.id == id) = false := by simpa using hx
      simp [List.find?, hx, hb, ih]

/-- A non-empty collection has a latest-expiring in-record. -/
theorem lastExpiring_isSome (l : List InRecord) (h : l ≠ []) : ∃ r, lastExpiring l = some r := by
  cases l with
  | nil => exact absurd rfl h
  | cons r rs => exact ⟨_, rfl⟩

/-- After `insertOrUpdateInRecord` the entry has an in-record of the face with the nonce
of the Interest; its out-records and timers are the same. -/
theorem insertOrUpdateInRecord_spec (env : Env) (e : PitEntry) (face : Face)
    (interest : Interest) :
    (∃ r ∈ (insertOrUpdateInRecord env e face interest).inRecords,
      r.face = face ∧ r.lastNonce = interest.nonce) ∧
    (insertOrUpdateInRecord env e face interest).inRecords ≠ [] ∧
    (insertOrUpdateInRecord env e face interest).outRecords = e.outRecords := by
  unfold insertOrUpdateInRecord
  simp only
  split
  · rename_i hany
    obtain ⟨x, hx, hxf⟩ := List.any_eq_true.mp hany
    have hxf1 : x.face = face := by simpa using hxf
    refine ⟨⟨_, List.mem_map.mpr ⟨x, hx, rfl⟩, ?_, ?_⟩, ?_, rfl⟩
    · simp [hxf1]
    · simp [hxf1]
    · intro hnil
      have : x ∈ e.inRecords := hx
      simp only at hnil
      rw [List.map_eq_nil_iff] at hnil
      rw [hnil] at this
      simp at this
  · exact ⟨⟨_, List.mem_cons_self _ _, rfl, rfl⟩, by simp, rfl⟩

/-- The first part of the miss path on an entry of the table (timers cancelled or not):
it returns, emits nothing, leaves an in-record of the face with the nonce of the
Interest, leaves the out-records as they are, and arms the unsatisfy timer. -/
theorem recordPending_result (env : Env) (s : State) (inFace : Face) (e : PitEntry)
    (interest : Interest) (hf : findEntry s e.id = some e) :
    ∃ s3 e3, recordPending env s inFace e.id interest = some s3 ∧
      s3.effects = s.effects ∧ findEntry s3 e.id = some e3 ∧
      (∃ r ∈ e3.inRecords, r.face = inFace ∧ r.lastNonce = interest.nonce) ∧
      e3.outRecords = e.outRecords ∧ e3.m_stragglerTimer = e.m_stragglerTimer ∧
      armed s3 e3.m_unsatisfyTimer = true ∧
      (∀ ev ∈ s3.events, ev ∈ s.events ∨ ev.id = s.nextEventId) := by
  obtain ⟨hrec, hne, hout⟩ := insertOrUpdateInRecord_spec env e inFace interest
  obtain ⟨r, hr⟩ := lastExpiring_isSome _ hne
  have hfm : findEntry (modifyEntry s e.id
      (fun x => insertOrUpdateInRecord env x inFace interest)) e.id =
      some (insertOrUpdateInRecord env e inFace interest) := by
    rw [findEntry_modifyEntry _ _ _ (fun x => congrArg Skeleton.id
      (insertOrUpdateInRecord_skel env x inFace interest)), hf]
    rfl
  have hskel := insertOrUpdateInRecord_skel env e inFace interest
  cases hrp : recordPending env s inFace e.id interest with
  | none =>
    unfold recordPending at hrp
    simp only [hf] at hrp
    unfold setUnsatisfyTimer at hrp
    simp [hfm, hr] at hrp
  | some s3 =>
    unfold recordPending at hrp
    simp only [hf] at hrp
    unfold setUnsatisfyTimer at hrp
    simp only [hfm, hr, Option.some.injEq] at hrp
    subst hrp
    refine ⟨_, { insertOrUpdateInRecord env e inFace interest with
      m_unsatisfyTimer := some s.nextEventId }, rfl, rfl, ?_, hrec, hout, ?_, ?_, ?_⟩
    · rw [findEntry_modifyEntry]
      · exact congrArg (Option.map _) hfm
      · intro x; rfl
    · exact congrArg Skeleton.strag hskel
    · simp [armed, scheduler.schedule, modifyEntry]
    · intro ev hev
      simp only [scheduler.schedule, modifyEntry, List.mem_append, List.mem_singleton] at hev
      rcases hev with hev | rfl
      · exact Or.inl (mem_of_mem_cancel hev)
      · exact Or.inr rfl

/-- C1, as the code has it. When an Interest arrives on a face while the PIT entry of
its request holds an in-record with the same nonce from another face (and the Interest
does not violate the `/localhost` scope), `onIncomingInterest` does not go to
`onInterestLoop`: it cancels the timers of the entry and runs the miss path on it
without a cache lookup. Up to next-hop resolution nothing is sent (no Nack), the entry
has an in-record of the arrival face with that nonce, its out-records are unchanged, its
unsatisfy timer is armed and its straggler timer is not; the Interest then goes through
next-hop resolution like any Interest for a pending entry. -/
theorem duplicate_takes_miss_path (env : Env) (s : State) (inFace : Face)
    (interest : Interest) (e : PitEntry) (hr : Reachable s) (he : e ∈ s.m_pit)
    (hsame : sameRequest e.interest interest = true)
    (hdup : findDuplicateNonce e interest.nonce inFace = true)
    (hscope : ¬ (inFace.scope = .FACE_SCOPE_NON_LOCAL ∧ underLocalhost interest.name = true)) :
    ∃ s3 e3,
      onIncomingInterest env s inFace interest =
        resolveNextHop env s3 inFace e.id
          { interest with incomingFaceIdTag := some inFace.id } ∧
      s3.effects = s.effects ∧
      findEntry s3 e.id = some e3 ∧
      (∃ r ∈ e3.inRecords, r.face = inFace ∧ r.lastNonce = interest.nonce) ∧
      e3.outRecords = e.outRecords ∧
      armed s3 e3.m_unsatisfyTimer = true ∧ armed s3 e3.m_stragglerTimer = false := by
  have hi := inv_of_reachable hr
  have hfe : findEntry s e.id = some e := findEntry_of_mem hi he
  have hfind : s.m_pit.find? (fun x => sameRequest x.interest
      { interest with incomingFaceIdTag := some inFace.id }) = some e :=
    find_request_of_mem hi he (by simpa [sameRequest] using hsame)
  have hpending : e.inRecords.isEmpty = false := by
    unfold findDuplicateNonce at hdup
    obtain ⟨r, hr1, _⟩ := List.any_eq_true.mp hdup
    cases hl : e.inRecords with
    | nil => rw [hl] at hr1; simp at hr1
    | cons a l => rfl
  cases hc : cancelUnsatisfyAndStragglerTimer
      ({ s with m_counters :=
        { s.m_counters with nInInterests := s.m_counters.nInInterests + 1 } } : State) e.id with
  | none =>
    have hfe0 := hfe
    unfold findEntry at hfe0
    simp [cancelUnsatisfyAndStragglerTimer, findEntry, hfe0] at hc
  | some s2 =>
    obtain ⟨e0, hf0, hs2⟩ := cancelBoth_eq hc
    have he0 : e0 = e := by
      have : findEntry ({ s with m_counters :=
        { s.m_counters with nInInterests := s.m_counters.nInInterests + 1 } } : State) e.id =
          some e := hfe
      rw [this] at hf0
      injection hf0 with hf0
      exact hf0.symm
    subst he0
    have hfe2 : findEntry s2 e0.id = some e0 := by rw [hs2]; exact hfe
    obtain ⟨s3, e3, hrp, heff, hf3, hrec, hout, hstrag, harm, hevs⟩ :=
      recordPending_result env s2 inFace e0
        { interest with incomingFaceIdTag := some inFace.id } hfe2
    refine ⟨s3, e3, ?_, ?_, hf3, hrec, hout, harm, ?_⟩
    · unfold onIncomingInterest
      have hsc : (decide (inFace.scope = FaceScope.FACE_SCOPE_NON_LOCAL) &&
          underLocalhost interest.name) = false := by
        cases hd : decide (inFace.scope = FaceScope.FACE_SCOPE_NON_LOCAL) with
        | false => rfl
        | true =>
          cases hu : underLocalhost interest.name with
          | false => rfl
          | true => exact absurd ⟨of_decide_eq_true hd, hu⟩ hscope
      have hfe1 := hfe
      unfold findEntry at hfe1
      simp only [hsc, Pit.insert, hfind, findEntry, hfe1, hc, hpending,
        onContentStoreMiss, hrp, Bool.false_eq_true, if_false, Bool.not_false, Bool.not_true]
    · rw [heff, hs2]
    · rw [Bool.eq_false_iff]
      intro ha
      obtain ⟨ev, hev, hid⟩ := (armed_iff _ _).mp ha
      rw [hstrag] at hid
      rcases hevs ev hev with hev2 | hev2
      · rw [hs2] at hev2
        exact not_pending_cancel _ e0.m_stragglerTimer ⟨ev, hev2, hid⟩
      · have := hi.handlesLt e0.skel (List.mem_map.mpr ⟨e0, he, rfl⟩) ev.id (Or.inr hid)
        rw [hev2, hs2] at this
        exact Nat.lt_irrefl _ this

/-- Witness for `duplicate_takes_miss_path`: the Interest of the sample run received
again with the same nonce on face 2. -/
theorem duplicate_takes_miss_path_witness :
    ∃ s3 e3,
      onIncomingInterest (sampleEnv 1) sampleAfterFirst (sampleFace 2) (sampleInterest 77) =
        resolveNextHop (sampleEnv 1) s3 (sampleFace 2) sampleEntry.id
          { sampleInterest 77 with incomingFaceIdTag := some (sampleFace 2).id } ∧
      s3.effects = sampleAfterFirst.effects ∧
      findEntry s3 sampleEntry.id = some e3 ∧
      (∃ r ∈ e3.inRecords, r.face = sampleFace 2 ∧ r.lastNonce = (sampleInterest 77).nonce) ∧
      e3.outRecords = sampleEntry.outRecords ∧
      armed s3 e3.m_unsatisfyTimer = true ∧ armed s3 e3.m_stragglerTimer = false :=
  duplicate_takes_miss_path (sampleEnv 1) sampleAfterFirst (sampleFace 2) (sampleInterest 77)
    sampleEntry ⟨sampleTrace.take 1, by decide⟩ (by decide) (by decide) (by decide) (by decide)

/-- C1 fails on the code. After the Interest `/x` with nonce 77 from point-to-point
face 1 is recorded, the same Interest with nonce 77 arrives on point-to-point face 2:
the duplicate nonce is in the entry, yet no Nack is sent, an in-record for face 2 is
added next to the one of face 1, and the Interest is forwarded again. -/
theorem duplicate_not_suppressed :
    sampleAfterFirst.m_pit.map (fun e => (e.interest.name, e.inRecords.map (fun r =>
      (r.face, r.lastNonce)))) = [(["x"], [(sampleFace 1, 77)])] ∧
    sampleAfterFirst.m_pit.map (fun e => findDuplicateNonce e 77 (sampleFace 2)) = [true] ∧
    onIncomingInterest (sampleEnv 1) sampleAfterFirst (sampleFace 2) (sampleInterest 77) =
      some sampleDuplicate ∧
    sampleDuplicate.effects.any Effect.isNack = false ∧
    sampleDuplicate.m_pit.map (fun e => e.inRecords.map (fun r => (r.face, r.lastNonce))) =
      [[(sampleFace 2, 77), (sampleFace 1, 77)]] ∧
    sampleDuplicate.m_counters.nOutInterests = sampleAfterFirst.m_counters.nOutInterests + 1 := by
  decide

/-- C10, as the code has it. On a cache miss the function FIB lookup of the overlay
comes first: when the function chain left by the overlay is not empty and the lookup
yields an entry, the Interest goes to the next hops of that entry and the next-hop
override is not read. Otherwise (empty chain, or no function FIB entry), an Interest
with a next-hop override naming an existing face is forwarded to that face only (one
out-going Interest, the counter goes up by one) and the strategy is not invoked. -/
theorem override_after_function_lookup (env : Env) (s s1 : State) (inFace : Face) (id : Nat)
    (interest interest2 : Interest) (fibEntry : Option (List Face))
    (hc : env.functionChaining interest = some (interest2, fibEntry))
    (hp : recordPending env s inFace id interest = some s1) :
    (∀ nextHops, interest2.function ≠ [] → fibEntry = some nextHops →
      onContentStoreMiss env s inFace id interest =
        forwardToNextHops env id interest2 s1 nextHops) ∧
    ((interest2.function = [] ∨ fibEntry = none) →
      ∀ tag face, interest2.nextHopFaceIdTag = some tag → env.faceTable tag = some face →
        onContentStoreMiss env s inFace id interest =
          onOutgoingInterest env s1 id face interest2 ∧
        (∀ e, findEntry s1 id = some e →
          ∃ s2, onContentStoreMiss env s inFace id interest = some s2 ∧
            s2.effects = s1.effects ++ [.sendInterest face interest2] ∧
            s2.m_counters.nOutInterests = s1.m_counters.nOutInterests + 1)) := by
  refine ⟨?_, ?_⟩
  · intro nextHops hne hfib
    simp [onContentStoreMiss, hp, resolveNextHop, hc, hne, hfib]
  · intro hor tag face htag hface
    have hres : onContentStoreMiss env s inFace id interest =
        onOutgoingInterest env s1 id face interest2 := by
      rcases hor with hfn | hfib
      · simp [onContentStoreMiss, hp, resolveNextHop, hc, hfn, htag, hface]
      · simp [onContentStoreMiss, hp, resolveNextHop, hc, hfib, htag, hface]
    refine ⟨hres, ?_⟩
    intro e he
    rw [hres]
    simp [onOutgoingInterest, he, emit, modifyEntry]

/-- Witness for `override_after_function_lookup`: the sample node (no function FIB
entry) receives the Interest with the override naming face 3 as its first Interest. -/
theorem override_after_function_lookup_witness :
    ∃ s2, onContentStoreMiss (sampleEnv 0) (Pit.insert initial chainInterest).1 (sampleFace 1) 0
        chainInterest = some s2 ∧
      s2.effects = [.sendInterest (sampleFace 3) chainInterest] ∧
      s2.m_counters.nOutInterests = 1 := by
  obtain ⟨s2, h1, h2, h3⟩ :=
    ((override_after_function_lookup (sampleEnv 0) (Pit.insert initial chainInterest).1
      ((recordPending (sampleEnv 0) (Pit.insert initial chainInterest).1 (sampleFace 1) 0
        chainInterest).getD initial)
      (sampleFace 1) 0 chainInterest chainInterest none rfl (by decide)).2 (Or.inr rfl) 3
      (sampleFace 3) rfl (by decide)).2
      ((findEntry ((recordPending (sampleEnv 0) (Pit.insert initial chainInterest).1
        (sampleFace 1) 0 chainInterest).getD initial) 0).getD sampleEntry) (by decide)
  exact ⟨s2, h1, h2.trans (by decide), h3.trans (by decide)⟩

/-- C10 fails on the code. The Interest carries a next-hop override naming the existing
face 3 and the function chain `/F1`, for which the function FIB has an entry with next
hop face 7: after the cache miss the Interest is sent on face 7 and not on face 3. -/
theorem override_bypassed_by_function_lookup :
    chainInterest.nextHopFaceIdTag = some 3 ∧
    chainEnv.faceTable 3 = some (sampleFace 3) ∧
    (onIncomingInterest chainEnv initial (sampleFace 1) chainInterest).map
        (fun s => s.effects) =
      some [.csLookup { chainInterest with incomingFaceIdTag := some 1 },
        .sendInterest (sampleFace 7) { chainInterest with incomingFaceIdTag := some 1 }] := by
  decide

/-! ### The forwarder: rejection and loop pipelines -/

/-- `setStragglerTimer` on an entry of the table, as a state. -/
theorem setStragglerTimer_eq (s : State) (id : Nat) (e : PitEntry) (sat : Bool) (fr : Int)
    (hf : findEntry s id = some e) :
    setStragglerTimer s id sat fr = some (modifyEntry
      { s with
        events := scheduler.cancel s.events e.m_stragglerTimer ++
          [Event.mk s.nextEventId stragglerTime (.finalize id sat fr)],
        nextEventId := s.nextEventId + 1 } id
      (fun x => { x with m_stragglerTimer := some s.nextEventId })) := by
  simp [setStragglerTimer, hf, scheduler.schedule]

/-- An event whose id no other pending event has is the one the scheduler finds. -/
theorem fire_of_mem (env : Env) (s : State) (ev : Event) (hev : ev ∈ s.events)
    (hu : ∀ x ∈ s.events, x.id = ev.id → x = ev) :
    s.events.find? (fun x => x.id == ev.id) = some ev := by
  cases hf : s.events.find? (fun x => x.id == ev.id) with
  | none =>
    have := List.find?_eq_none.mp hf ev hev
    simp at this
  | some x =>
    have hx := List.mem_of_find?_eq_some hf
    have hxid := List.find?_some (p := fun x : Event => x.id == ev.id) hf
    rw [hu x hx (by simpa using hxid)]

/-- C20 (rejection). `onInterestReject` on an entry of the table, in a reachable state.
When the entry has a pending out-record the call returns the state as it is: no timer,
record or table change. Otherwise it returns with the records of the entry, the keys of
the table and the effects unchanged, the unsatisfy timer of the entry not armed, and the
straggler timer armed: the handle of the entry is the new event, and the only pending
event bound to the entry is that event, which calls `onInterestFinalize` with
`isSatisfied = false` after the straggler time. -/
theorem reject_arms_straggler_only (env : Env) (s : State) (id : Nat) (e : PitEntry)
    (hr : Reachable s) (hf : findEntry s id = some e) :
    (env.hasPendingOutRecords e = true → onInterestReject env s id = some s) ∧
    (env.hasPendingOutRecords e = false →
      ∃ s1 e1, onInterestReject env s id = some s1 ∧ findEntry s1 id = some e1 ∧
        e1.inRecords = e.inRecords ∧ e1.outRecords = e.outRecords ∧
        s1.effects = s.effects ∧ keysOf s1 = keysOf s ∧
        armed s1 e1.m_unsatisfyTimer = false ∧
        e1.m_stragglerTimer = some s.nextEventId ∧
        armed s1 e1.m_stragglerTimer = true ∧
        (∀ ev ∈ s1.events, (ev.id = s.nextEventId ∨ ev.callback.entry = id) →
          ev = Event.mk s.nextEventId stragglerTime
            (.finalize id false env.defaultFreshnessPeriod))) := by
  have hi := inv_of_reachable hr
  obtain ⟨hmem, hid⟩ := findEntry_some hf
  have hk := skel_mem_view hf
  refine ⟨fun hp => by simp [onInterestReject, hf, hp], fun hp => ?_⟩
  have hf0 := hf
  unfold findEntry at hf0
  obtain ⟨sc, hc⟩ : ∃ sc, cancelUnsatisfyAndStragglerTimer s id = some sc := by
    simp [cancelUnsatisfyAndStragglerTimer, findEntry, hf0]
  obtain ⟨e0, hf1, hsc⟩ := cancelBoth_eq hc
  rw [hf] at hf1
  injection hf1 with hf1
  subst hf1
  have hfc : findEntry sc id = some e := by rw [hsc]; exact hf
  have hrej : onInterestReject env s id =
      setStragglerTimer sc id false env.defaultFreshnessPeriod := by
    simp [onInterestReject, hf, hp, hc]
  rw [hrej, setStragglerTimer_eq _ _ _ _ _ hfc]
  have hev : sc.events = scheduler.cancel (scheduler.cancel s.events e.m_unsatisfyTimer)
      e.m_stragglerTimer := by rw [hsc]
  have hnx : sc.nextEventId = s.nextEventId := by rw [hsc]
  have hpit : sc.m_pit = s.m_pit := by rw [hsc]
  have heff : sc.effects = s.effects := by rw [hsc]
  rw [hnx]
  refine ⟨_, { e with m_stragglerTimer := some s.nextEventId }, rfl, ?_, rfl, rfl, heff, ?_, ?_,
    rfl, ?_, ?_⟩
  · rw [findEntry_modifyEntry]
    · show Option.map _ (findEntry sc id) = _
      rw [hfc]
      rfl
    · intro x; rfl
  · simp only [keysOf, modifyEntry, List.map_map]
    rw [hpit]
    apply List.map_congr_left
    intro x hx
    by_cases hxi : x.id = id <;> simp [hxi]
  · rw [Bool.eq_false_iff]
    intro ha
    obtain ⟨ev, hev1, hevid⟩ := (armed_iff _ _).mp ha
    simp only [modifyEntry, List.mem_append, List.mem_singleton] at hev1
    rcases hev1 with hev1 | rfl
    · have hev2 := mem_of_mem_cancel hev1
      rw [hev] at hev2
      exact not_pending_cancel s.events e.m_unsatisfyTimer
        ⟨ev, mem_of_mem_cancel hev2, hevid⟩
    · have := hi.handlesLt e.skel hk.1 s.nextEventId (Or.inl hevid)
      exact Nat.lt_irrefl _ this
  · simp [armed, modifyEntry]
  · intro ev hev1 hor
    simp only [modifyEntry, List.mem_append, List.mem_singleton] at hev1
    rcases hev1 with hev1 | hev1
    · exfalso
      have hev2 := mem_of_mem_cancel hev1
      rw [hev] at hev2
      rcases hor with h1 | h1
      · have := hi.evLt ev (mem_of_mem_cancel (mem_of_mem_cancel hev2))
        rw [h1] at this
        exact Nat.lt_irrefl _ this
      · exact no_event_after_cancel hi e.skel hk.1 ev hev2 (h1.trans hk.2.symm)
    · exact hev1

/-- Witness for `reject_arms_straggler_only`: the entry of the sample run after the first
Interest, which has an out-record on face 3, rejected once with that out-record counted
as pending and once without. -/
theorem reject_arms_straggler_only_witness :
    onInterestReject (pendingEnv 1) sampleAfterFirst 0 = some sampleAfterFirst ∧
    ∃ s1 e1, onInterestReject (sampleEnv 1) sampleAfterFirst 0 = some s1 ∧
      findEntry s1 0 = some e1 ∧
      e1.inRecords = sampleEntry.inRecords ∧ e1.outRecords = sampleEntry.outRecords ∧
      s1.effects = sampleAfterFirst.effects ∧ keysOf s1 = keysOf sampleAfterFirst ∧
      armed s1 e1.m_unsatisfyTimer = false ∧
      e1.m_stragglerTimer = some sampleAfterFirst.nextEventId ∧
      armed s1 e1.m_stragglerTimer = true ∧
      (∀ ev ∈ s1.events, (ev.id = sampleAfterFirst.nextEventId ∨ ev.callback.entry = 0) →
        ev = Event.mk sampleAfterFirst.nextEventId stragglerTime
          (.finalize 0 false (sampleEnv 1).defaultFreshnessPeriod)) :=
  ⟨(reject_arms_straggler_only (pendingEnv 1) sampleAfterFirst 0 sampleEntry
      ⟨sampleTrace.take 1, by decide⟩ (by decide)).1 (by decide),
    (reject_arms_straggler_only (sampleEnv 1) sampleAfterFirst 0 sampleEntry
      ⟨sampleTrace.take 1, by decide⟩ (by decide)).2 (by decide)⟩

/-- C15 (loop pipeline). `onInterestLoop` changes nothing but the effects: on a
multi-access face it sends nothing, on any other face it sends one Nack, carrying the
received Interest and the reason `DUPLICATE`, on the face the Interest came from. The
PIT (in-records, out-records, timer handles) and the scheduler queue are as before. -/
theorem onInterestLoop_nack_or_drop (s : State) (inFace : Face) (interest : Interest) :
    onInterestLoop s inFace interest =
      { s with effects := s.effects ++
          (if inFace.linkType = .LINK_TYPE_MULTI_ACCESS then []
            else [.sendNack inFace (Nack.mk interest .DUPLICATE)]) } ∧
    (onInterestLoop s inFace interest).m_pit = s.m_pit ∧
    (onInterestLoop s inFace interest).events = s.events := by
  unfold onInterestLoop
  split <;> simp [emit]

/-! ### The forwarder: what the calls of a strategy leave as it is -/

/-- Finding another entry after a change of the entry `id` that keeps its identity. -/
theorem findEntry_modifyEntry_ne (s : State) (id j : Nat) (f : PitEntry → PitEntry)
    (hf : ∀ x, (f x).id = x.id) (hj : j ≠ id) :
    findEntry (modifyEntry s id f) j = findEntry s j := by
  unfold findEntry modifyEntry
  simp only
  induction s.m_pit with
  | nil => rfl
  | cons x rest ih =>
    simp only [List.map_cons, List.find?_cons]
    by_cases hx : x.id = id
    · have hb : (x.id == j) = false := by
        simp only [beq_eq_false_iff_ne, ne_eq]
        intro h; exact hj (h.symm.trans hx)
      have hb2 : ((f x).id == j) = false := by rw [hf]; exact hb
      rw [if_pos hx, hb2, hb]
      exact ih
    · rw [if_neg hx]
      cases hxj : (x.id == j) with
      | true => rfl
      | false => exact ih

/-- Doing nothing is within the frame of a strategy call. -/
theorem actionFrame_refl (id : Nat) (s : State) : ActionFrame id s s where
  others := fun _ _ => rfl
  log := fun _ _ _ => rfl
  dnl := rfl
  events := fun ev hev => Or.inl hev
  next := Nat.le_refl _
  entry := fun e he => ⟨e, he, List.Sublist.refl _, rfl⟩

/-- The frame of strategy calls composes. -/
theorem actionFrame_trans {id : Nat} {s s1 s2 : State} (h1 : ActionFrame id s s1)
    (h2 : ActionFrame id s1 s2) : ActionFrame id s s2 where
  others := fun j hj => (h2.others j hj).trans (h1.others j hj)
  log := fun P hI hN => (h2.log P hI hN).trans (h1.log P hI hN)
  dnl := h2.dnl.trans h1.dnl
  events := fun ev hev => by
    rcases h2.events ev hev with h | ⟨h, hfin⟩
    · exact h1.events ev h
    · exact Or.inr ⟨Nat.le_trans h1.next h, hfin⟩
  next := Nat.le_trans h1.next h2.next
  entry := fun e he => by
    obtain ⟨e1, he1, hs1, hu1⟩ := h1.entry e he
    obtain ⟨e2, he2, hs2, hu2⟩ := h2.entry e1 he1
    exact ⟨e2, he2, hs2.trans hs1, hu2.trans hu1⟩

/-- An effect outside a log does not show in it. -/
theorem filter_append_off (P : Effect → Bool) (l : List Effect) (x : Effect)
    (hx : P x = false) : (l ++ [x]).filter P = l.filter P := by
  simp [List.filter_append, List.filter_cons, hx]

/-- `onOutgoingInterest`: frame. -/
theorem onOutgoingInterest_frame {env : Env} {s s1 : State} {id : Nat} {outFace : Face}
    {interest : Interest} (h : onOutgoingInterest env s id outFace interest = some s1) :
    ActionFrame id s s1 := by
  unfold onOutgoingInterest at h
  cases hf : findEntry s id with
  | none => simp [hf] at h
  | some e =>
    simp only [hf, Option.some.injEq] at h
    subst h
    have hid : ∀ x, (insertOrUpdateOutRecord env x outFace interest).id = x.id :=
      fun x => congrArg Skeleton.id (insertOrUpdateOutRecord_skel env x outFace interest)
    refine ⟨?_, ?_, rfl, fun ev hev => Or.inl hev, Nat.le_refl _, ?_⟩
    · intro j hj
      exact findEntry_modifyEntry_ne s id j _ hid hj
    · intro P hI hN
      exact filter_append_off P _ _ (hI _ _)
    · intro e0 he0
      refine ⟨insertOrUpdateOutRecord env e0 outFace interest, ?_, ?_, ?_⟩
      · have := findEntry_modifyEntry s id _ hid
        rw [he0] at this
        exact this
      · unfold insertOrUpdateOutRecord; dsimp only; split <;> exact List.Sublist.refl _
      · exact congrArg Skeleton.unsat (insertOrUpdateOutRecord_skel env e0 outFace interest)

/-- `onOutgoingNack`: frame. -/
theorem onOutgoingNack_frame {env : Env} {s s1 : State} {id : Nat} {outFace : Face}
    {reason : NackReason} (h : onOutgoingNack env s id outFace reason = some s1) :
    ActionFrame id s s1 := by
  unfold onOutgoingNack at h
  cases hf : findEntry s id with
  | none => simp [hf] at h
  | some e =>
    simp only [hf] at h
    split at h
    · simp at h; rw [h]; exact actionFrame_refl _ _
    · split at h
      · simp at h; rw [h]; exact actionFrame_refl _ _
      · split at h
        · simp at h; rw [h]; exact actionFrame_refl _ _
        · simp only [Option.some.injEq] at h
          subst h
          refine ⟨?_, ?_, rfl, fun ev hev => Or.inl hev, Nat.le_refl _, ?_⟩
          · intro j hj
            exact findEntry_modifyEntry_ne s id j (fun x => deleteInRecord x outFace)
              (fun x => rfl) hj
          · intro P hI hN
            exact filter_append_off P _ _ (hN _ _)
          · intro e0 he0
            refine ⟨deleteInRecord e0 outFace, ?_, List.filter_sublist _, rfl⟩
            have := findEntry_modifyEntry s id (fun x => deleteInRecord x outFace)
              (fun x => rfl)
            rw [he0] at this
            exact this

/-- `onInterestReject`: frame. -/
theorem onInterestReject_frame {env : Env} {s s1 : State} {id : Nat}
    (h : onInterestReject env s id = some s1) : ActionFrame id s s1 := by
  unfold onInterestReject at h
  cases hf : findEntry s id with
  | none => simp [hf] at h
  | some e =>
    simp only [hf] at h
    split at h
    · simp at h; rw [h]; exact actionFrame_refl _ _
    · cases hc : cancelUnsatisfyAndStragglerTimer s id with
      | none => simp [hc] at h
      | some sc =>
        simp only [hc] at h
        obtain ⟨e0, hf1, hsc⟩ := cancelBoth_eq hc
        rw [hf] at hf1
        injection hf1 with hf1
        subst hf1
        have hfc : findEntry sc id = some e := by rw [hsc]; exact hf
        rw [setStragglerTimer_eq _ _ _ _ _ hfc] at h
        simp only [Option.some.injEq] at h
        subst h
        have hev : sc.events = scheduler.cancel (scheduler.cancel s.events e.m_unsatisfyTimer)
            e.m_stragglerTimer := by rw [hsc]
        have hnx : sc.nextEventId = s.nextEventId := by rw [hsc]
        have hpit : sc.m_pit = s.m_pit := by rw [hsc]
        have heff : sc.effects = s.effects := by rw [hsc]
        have hdnl : sc.m_deadNonceList = s.m_deadNonceList := by rw [hsc]
        refine ⟨?_, ?_, hdnl, ?_, ?_, ?_⟩
        · intro j hj
          refine (findEntry_modifyEntry_ne _ id j _ ?_ hj).trans ?_
          · intro x; rfl
          · show sc.m_pit.find? _ = s.m_pit.find? _
            rw [hpit]
        · intro P hI hN
          show sc.effects.filter P = _
          rw [heff]
        · intro ev hev1
          simp only [modifyEntry, List.mem_append, List.mem_singleton] at hev1
          rcases hev1 with hev1 | hev1
          · have hev2 := mem_of_mem_cancel hev1
            rw [hev] at hev2
            exact Or.inl (mem_of_mem_cancel (mem_of_mem_cancel hev2))
          · rw [hev1, hnx]
            exact Or.inr ⟨Nat.le_refl _, _, rfl⟩
        · show s.nextEventId ≤ sc.nextEventId + 1
          rw [hnx]; exact Nat.le_succ _
        · intro e0 he0
          rw [hf] at he0
          injection he0 with he0
          subst he0
          refine ⟨{ e with m_stragglerTimer := some sc.nextEventId }, ?_,
            List.Sublist.refl _, rfl⟩
          rw [findEntry_modifyEntry]
          · show Option.map _ (findEntry sc id) = _
            rw [hfc]
            rfl
          · intro x; rfl

/-- One call of the strategy: frame. -/
theorem applyStrategyAction_frame {env : Env} {s s1 : State} {id : Nat} {a : StrategyAction}
    (h : applyStrategyAction env s id a = some s1) : ActionFrame id s s1 := by
  cases a with
  | sendInterest outFace interest => exact onOutgoingInterest_frame h
  | rejectPendingInterest => exact onInterestReject_frame h
  | sendNack outFace reason => exact onOutgoingNack_frame h

/-- The calls of the strategy: frame. -/
theorem runStrategyActions_frame {env : Env} {id : Nat} (as : List StrategyAction) :
    ∀ {s s1 : State}, runStrategyActions env id s as = some s1 → ActionFrame id s s1 := by
  induction as with
  | nil => intro s s1 h; simp [runStrategyActions] at h; rw [h]; exact actionFrame_refl _ _
  | cons a rest ih =>
    intro s s1 h
    cases ha : applyStrategyAction env s id a with
    | none => simp [runStrategyActions, ha] at h
    | some s2 =>
      simp only [runStrategyActions, ha] at h
      exact actionFrame_trans (applyStrategyAction_frame ha) (ih h)

/-- The out-records after `insertOrUpdateOutRecord` are earlier ones or of the face. -/
theorem insertOrUpdateOutRecord_mem (env : Env) (e : PitEntry) (face : Face)
    (interest : Interest) :
    ∀ r ∈ (insertOrUpdateOutRecord env e face interest).outRecords,
      r ∈ e.outRecords ∨ r.face = face := by
  intro r hr
  unfold insertOrUpdateOutRecord at hr
  dsimp only at hr
  split at hr
  · simp only [List.mem_map] at hr
    obtain ⟨x, hx, hxr⟩ := hr
    by_cases hxf : x.face = face
    · rw [if_pos hxf] at hxr
      exact Or.inr (by rw [← hxr])
    · rw [if_neg hxf] at hxr
      exact Or.inl (by rw [← hxr]; exact hx)
  · simp only [List.mem_append, List.mem_singleton] at hr
    rcases hr with hr | hr
    · exact Or.inl hr
    · exact Or.inr (by rw [hr])

/-- One call of the strategy: the records of the entry. The in-records stay unless the
call is `sendNack`; an out-record is an earlier one unless the call is `sendInterest`
on its face. -/
theorem applyStrategyAction_records {env : Env} {s s1 : State} {id : Nat}
    {a : StrategyAction} {e : PitEntry} (h : applyStrategyAction env s id a = some s1)
    (he : findEntry s id = some e) :
    ∃ e1, findEntry s1 id = some e1 ∧
      ((∀ f r, a ≠ .sendNack f r) → e1.inRecords = e.inRecords) ∧
      (∀ r ∈ e1.outRecords, r ∈ e.outRecords ∨ ∃ i, a = .sendInterest r.face i) := by
  cases a with
  | sendInterest outFace interest =>
    simp only [applyStrategyAction, onOutgoingInterest, he, Option.some.injEq] at h
    subst h
    have hid : ∀ x, (insertOrUpdateOutRecord env x outFace interest).id = x.id :=
      fun x => congrArg Skeleton.id (insertOrUpdateOutRecord_skel env x outFace interest)
    refine ⟨insertOrUpdateOutRecord env e outFace interest, ?_, ?_, ?_⟩
    · have := findEntry_modifyEntry s id _ hid
      rw [he] at this
      exact this
    · intro _
      unfold insertOrUpdateOutRecord; dsimp only; split <;> rfl
    · intro r hr
      rcases insertOrUpdateOutRecord_mem env e outFace interest r hr with h1 | h1
      · exact Or.inl h1
      · exact Or.inr ⟨interest, by rw [h1]⟩
  | rejectPendingInterest =>
    simp only [applyStrategyAction] at h
    unfold onInterestReject at h
    simp only [he] at h
    split at h
    · simp at h; subst h
      exact ⟨e, he, fun _ => rfl, fun r hr => Or.inl hr⟩
    · cases hc : cancelUnsatisfyAndStragglerTimer s id with
      | none => simp [hc] at h
      | some sc =>
        simp only [hc] at h
        obtain ⟨e0, hf1, hsc⟩ := cancelBoth_eq hc
        have hfc : findEntry sc id = some e := by rw [hsc]; exact he
        rw [setStragglerTimer_eq _ _ _ _ _ hfc] at h
        simp only [Option.some.injEq] at h
        subst h
        refine ⟨{ e with m_stragglerTimer := some sc.nextEventId }, ?_, fun _ => rfl,
          fun r hr => Or.inl hr⟩
        rw [findEntry_modifyEntry]
        · show Option.map _ (findEntry sc id) = _
          rw [hfc]
          rfl
        · intro x; rfl
  | sendNack outFace reason =>
    simp only [applyStrategyAction] at h
    unfold onOutgoingNack at h
    simp only [he] at h
    have hno : ¬ (∀ f r, StrategyAction.sendNack outFace reason ≠ .sendNack f r) :=
      fun hn => hn outFace reason rfl
    split at h
    · simp at h; subst h
      exact ⟨e, he, fun _ => rfl, fun r hr => Or.inl hr⟩
    · split at h
      · simp at h; subst h
        exact ⟨e, he, fun _ => rfl, fun r hr => Or.inl hr⟩
      · split at h
        · simp at h; subst h
          exact ⟨e, he, fun _ => rfl, fun r hr => Or.inl hr⟩
        · simp only [Option.some.injEq] at h
          subst h
          refine ⟨deleteInRecord e outFace, ?_, fun hn => absurd hn hno,
            fun r hr => Or.inl hr⟩
          have := findEntry_modifyEntry s id (fun x => deleteInRecord x outFace)
            (fun x => rfl)
          rw [he] at this
          exact this

/-- The calls of the strategy: the records of the entry. -/
theorem runStrategyActions_records {env : Env} {id : Nat} (as : List StrategyAction) :
    ∀ {s s1 : State} {e : PitEntry}, runStrategyActions env id s as = some s1 →
      findEntry s id = some e →
      ∃ e1, findEntry s1 id = some e1 ∧
        ((∀ a ∈ as, ∀ f r, a ≠ .sendNack f r) → e1.inRecords = e.inRecords) ∧
        (∀ r ∈ e1.outRecords, r ∈ e.outRecords ∨ ∃ i, .sendInterest r.face i ∈ as) := by
  induction as with
  | nil =>
    intro s s1 e h he
    simp [runStrategyActions] at h
    subst h
    exact ⟨e, he, fun _ => rfl, fun r hr => Or.inl hr⟩
  | cons a rest ih =>
    intro s s1 e h he
    cases ha : applyStrategyAction env s id a with
    | none => simp [runStrategyActions, ha] at h
    | some s2 =>
      simp only [runStrategyActions, ha] at h
      obtain ⟨e2, he2, hin2, hout2⟩ := applyStrategyAction_records ha he
      obtain ⟨e1, he1, hin1, hout1⟩ := ih h he2
      refine ⟨e1, he1, ?_, ?_⟩
      · intro hn
        rw [hin1 (fun a ha => hn a (List.mem_cons_of_mem _ ha)),
          hin2 (hn a (List.mem_cons_self _ _))]
      · intro r hr
        rcases hout1 r hr with h1 | ⟨i, hi⟩
        · rcases hout2 r h1 with h2 | ⟨i, hi⟩
          · exact Or.inl h2
          · exact Or.inr ⟨i, by rw [hi]; exact List.mem_cons_self _ _⟩
        · exact Or.inr ⟨i, List.mem_cons_of_mem _ hi⟩

/-- An extension point: the entry is in the table, the strategy makes its calls after
the invocation is logged. -/
theorem dispatchToStrategy_eq {env : Env} {s s1 : State} {point : ExtensionPoint} {id : Nat}
    (h : dispatchToStrategy env s point id = some s1) :
    ∃ e, findEntry s id = some e ∧
      runStrategyActions env id (emit s (.strategy point id)) (env.strategy point e) =
        some s1 := by
  unfold dispatchToStrategy at h
  cases hf : findEntry s id with
  | none => simp [hf] at h
  | some e => exact ⟨e, rfl, by simpa [hf] using h⟩

/-! ### The forwarder: the miss path -/

/-- The scan of `lastExpiring` ends on a record of the collection whose expiry no other
record exceeds. -/
theorem lastExpiring_scan (rs : List InRecord) :
    ∀ r : InRecord,
      rs.foldl (fun best x => if best.expiry < x.expiry then x else best) r ∈ r :: rs ∧
      ∀ x ∈ r :: rs,
        x.expiry ≤ (rs.foldl (fun best x => if best.expiry < x.expiry then x else best) r).expiry := by
  induction rs with
  | nil => intro r; simp
  | cons a rest ih =>
    intro r
    simp only [List.foldl_cons]
    by_cases hlt : r.expiry < a.expiry
    · simp only [if_pos hlt]
      obtain ⟨hm, hmax⟩ := ih a
      refine ⟨List.mem_cons_of_mem _ hm, ?_⟩
      intro x hx
      rcases List.mem_cons.mp hx with h | h
      · have h0 := hmax _ (List.mem_cons_self _ _)
        rw [h]; omega
      · exact hmax x h
    · simp only [if_neg hlt]
      obtain ⟨hm, hmax⟩ := ih r
      constructor
      · rcases List.mem_cons.mp hm with h | h
        · rw [h]; exact List.mem_cons_self _ _
        · exact List.mem_cons_of_mem _ (List.mem_cons_of_mem _ h)
      · intro x hx
        have h0 := hmax _ (List.mem_cons_self _ _)
        rcases List.mem_cons.mp hx with h | h
        · rw [h]; exact h0
        · rcases List.mem_cons.mp h with h1 | h1
          · rw [h1]; omega
          · exact hmax x (List.mem_cons_of_mem _ h1)

/-- The record `lastExpiring` returns is in the collection and has the largest expiry. -/
theorem lastExpiring_spec {l : List InRecord} {r : InRecord} (h : lastExpiring l = some r) :
    r ∈ l ∧ ∀ x ∈ l, x.expiry ≤ r.expiry := by
  cases l with
  | nil => simp [lastExpiring] at h
  | cons a rest =>
    simp only [lastExpiring, Option.some.injEq] at h
    subst h
    exact lastExpiring_scan rest a

/-- C18 (unsatisfy timer on the miss path). `onContentStoreMiss` on an entry of the
table first inserts or refreshes the in-record of the arrival face and sets the unsatisfy
timer, then resolves the next hop. After that first part the handle of the entry is a
new event, pending in the scheduler, that calls `onInterestUnsatisfied` for the entry
after the largest expiry over the in-records of the entry minus the current time; it is
the only pending unsatisfy event of the entry, so any earlier one is replaced. -/
theorem unsatisfy_timer_rearmed (env : Env) (s : State) (inFace : Face) (e : PitEntry)
    (interest : Interest) (hi : Inv s) (hf : findEntry s e.id = some e) :
    ∃ s1 e1 r, recordPending env s inFace e.id interest = some s1 ∧
      onContentStoreMiss env s inFace e.id interest =
        resolveNextHop env s1 inFace e.id interest ∧
      findEntry s1 e.id = some e1 ∧
      e1.inRecords = (insertOrUpdateInRecord env e inFace interest).inRecords ∧
      r ∈ e1.inRecords ∧ (∀ x ∈ e1.inRecords, x.expiry ≤ r.expiry) ∧
      e1.m_unsatisfyTimer = some s.nextEventId ∧
      armed s1 e1.m_unsatisfyTimer = true ∧
      (∀ ev ∈ s1.events, (ev.id = s.nextEventId ∨ ev.callback = .unsatisfied e.id) →
        ev = Event.mk s.nextEventId (r.expiry - env.now) (.unsatisfied e.id)) := by
  obtain ⟨hrec, hne, hout⟩ := insertOrUpdateInRecord_spec env e inFace interest
  obtain ⟨r, hr⟩ := lastExpiring_isSome _ hne
  obtain ⟨hrm, hrmax⟩ := lastExpiring_spec hr
  have hk := skel_mem_view hf
  have hfm : findEntry (modifyEntry s e.id
      (fun x => insertOrUpdateInRecord env x inFace interest)) e.id =
      some (insertOrUpdateInRecord env e inFace interest) := by
    rw [findEntry_modifyEntry _ _ _ (fun x => congrArg Skeleton.id
      (insertOrUpdateInRecord_skel env x inFace interest)), hf]
    rfl
  have hskel := insertOrUpdateInRecord_skel env e inFace interest
  have hrp : recordPending env s inFace e.id interest = some
      (modifyEntry (scheduler.schedule
        { modifyEntry s e.id (fun x => insertOrUpdateInRecord env x inFace interest) with
          events := scheduler.cancel s.events e.m_unsatisfyTimer }
        (r.expiry - env.now) (.unsatisfied e.id)).1 e.id
        (fun x => { x with m_unsatisfyTimer := some s.nextEventId })) := by
    unfold recordPending
    simp only [hf]
    unfold setUnsatisfyTimer
    simp only [hfm, hr]
    have hu : (insertOrUpdateInRecord env e inFace interest).m_unsatisfyTimer =
        e.m_unsatisfyTimer := congrArg Skeleton.unsat hskel
    rw [hu]
    rfl
  refine ⟨_, { insertOrUpdateInRecord env e inFace interest with
    m_unsatisfyTimer := some s.nextEventId }, r, hrp, ?_, ?_, rfl, hrm, hrmax, rfl, ?_, ?_⟩
  · simp only [onContentStoreMiss, hrp]
  · rw [findEntry_modifyEntry]
    · exact congrArg (Option.map _) hfm
    · intro x; rfl
  · simp [armed, scheduler.schedule, modifyEntry]
  · intro ev hev hor
    simp only [scheduler.schedule, modifyEntry, List.mem_append, List.mem_singleton] at hev
    rcases hev with hev | hev
    · exfalso
      have hev0 := mem_of_mem_cancel hev
      rcases hor with h1 | h1
      · have := hi.evLt ev hev0
        rw [h1] at this
        exact Nat.lt_irrefl _ this
      · obtain ⟨k, hk1, hkid, hkc⟩ := hi.tracked ev hev0
        rw [h1] at hkid hkc
        have hke : k = e.skel := skel_unique hi.idsNodup hk1 hk.1 hkid
        rw [hke] at hkc
        have hu : e.m_unsatisfyTimer = some ev.id := hkc
        rw [hu] at hev
        exact ne_of_mem_cancel hev rfl
    · exact hev

/-- Witness for `unsatisfy_timer_rearmed`: the second Interest of the sample run takes
the miss path on the entry of the first. -/
theorem unsatisfy_timer_rearmed_witness :
    ∃ s1 e1 r, recordPending (sampleEnv 1) sampleAfterFirst (sampleFace 2) sampleEntry.id
        (sampleInterest 78) = some s1 ∧
      onContentStoreMiss (sampleEnv 1) sampleAfterFirst (sampleFace 2) sampleEntry.id
          (sampleInterest 78) =
        resolveNextHop (sampleEnv 1) s1 (sampleFace 2) sampleEntry.id (sampleInterest 78) ∧
      findEntry s1 sampleEntry.id = some e1 ∧
      e1.inRecords = (insertOrUpdateInRecord (sampleEnv 1) sampleEntry (sampleFace 2)
        (sampleInterest 78)).inRecords ∧
      r ∈ e1.inRecords ∧ (∀ x ∈ e1.inRecords, x.expiry ≤ r.expiry) ∧
      e1.m_unsatisfyTimer = some sampleAfterFirst.nextEventId ∧
      armed s1 e1.m_unsatisfyTimer = true ∧
      (∀ ev ∈ s1.events,
        (ev.id = sampleAfterFirst.nextEventId ∨ ev.callback = .unsatisfied sampleEntry.id) →
        ev = Event.mk sampleAfterFirst.nextEventId (r.expiry - (sampleEnv 1).now)
          (.unsatisfied sampleEntry.id)) :=
  unsatisfy_timer_rearmed (sampleEnv 1) sampleAfterFirst (sampleFace 2) sampleEntry
    (sampleInterest 78) (inv_of_reachable ⟨sampleTrace.take 1, by decide⟩) (by decide)

/-- The next hops of the function FIB entry: frame. -/
theorem forwardToNextHops_frame {env : Env} {id : Nat} {interest : Interest}
    (faces : List Face) :
    ∀ {s s1 : State}, forwardToNextHops env id interest s faces = some s1 →
      ActionFrame id s s1 := by
  induction faces with
  | nil => intro s s1 h; simp [forwardToNextHops] at h; rw [h]; exact actionFrame_refl _ _
  | cons f rest ih =>
    intro s s1 h
    cases ho : onOutgoingInterest env s id f interest with
    | none => simp [forwardToNextHops, ho] at h
    | some s2 =>
      simp only [forwardToNextHops, ho] at h
      exact actionFrame_trans (onOutgoingInterest_frame ho) (ih h)

/-- An extension point leaves a log without its invocation, Interests and Nacks as it
is. -/
theorem dispatchToStrategy_log {env : Env} {s s1 : State} {point : ExtensionPoint} {id : Nat}
    (h : dispatchToStrategy env s point id = some s1) (P : Effect → Bool)
    (hI : ∀ f i, P (.sendInterest f i) = false) (hN : ∀ f n, P (.sendNack f n) = false)
    (hS : P (.strategy point id) = false) :
    s1.effects.filter P = s.effects.filter P := by
  obtain ⟨e, he, hrun⟩ := dispatchToStrategy_eq h
  rw [(runStrategyActions_frame _ hrun).log P hI hN]
  simp [emit, List.filter_append, List.filter_cons, hS]

/-- Next-hop resolution leaves the content store log as it is. -/
theorem resolveNextHop_cacheLog {env : Env} {s s1 : State} {inFace : Face} {id : Nat}
    {interest : Interest} (h : resolveNextHop env s inFace id interest = some s1) :
    s1.effects.filter Effect.isCache = s.effects.filter Effect.isCache := by
  unfold resolveNextHop at h
  cases hc : env.functionChaining interest with
  | none => simp [hc] at h
  | some p =>
    obtain ⟨interest2, fibEntry⟩ := p
    simp only [hc] at h
    split at h
    · exact (forwardToNextHops_frame _ h).log _ (fun _ _ => rfl) (fun _ _ => rfl)
    · split at h
      · split at h
        · exact (onOutgoingInterest_frame h).log _ (fun _ _ => rfl) (fun _ _ => rfl)
        · simp at h; rw [h]
      · exact dispatchToStrategy_log h _ (fun _ _ => rfl) (fun _ _ => rfl) rfl

/-- The first part of the miss path leaves the effects as they are. -/
theorem recordPending_effects {env : Env} {s s1 : State} {inFace : Face} {id : Nat}
    {interest : Interest} (h : recordPending env s inFace id interest = some s1) :
    s1.effects = s.effects ∧ ∃ e, findEntry s id = some e := by
  cases hf : findEntry s id with
  | none => simp [recordPending, hf] at h
  | some e =>
    obtain ⟨hm, hid⟩ := findEntry_some hf
    subst hid
    obtain ⟨s3, e3, hrp, heff, _⟩ := recordPending_result env s inFace e interest hf
    rw [h] at hrp
    injection hrp with hrp
    subst hrp
    exact ⟨heff, e, rfl⟩

/-- The miss path leaves the content store log as it is. -/
theorem onContentStoreMiss_cacheLog {env : Env} {s s1 : State} {inFace : Face} {id : Nat}
    {interest : Interest} (h : onContentStoreMiss env s inFace id interest = some s1) :
    s1.effects.filter Effect.isCache = s.effects.filter Effect.isCache := by
  unfold onContentStoreMiss at h
  cases hr : recordPending env s inFace id interest with
  | none => simp [hr] at h
  | some s2 =>
    simp only [hr] at h
    rw [resolveNextHop_cacheLog h, (recordPending_effects hr).1]

/-- `onOutgoingData` leaves a log without Data handed to a face as it is. -/
theorem onOutgoingData_log (env : Env) (s : State) (data : Data) (outFace : Face)
    (P : Effect → Bool) (hD : ∀ f d, P (.sendData f d) = false) :
    (onOutgoingData env s data outFace).effects.filter P = s.effects.filter P := by
  unfold onOutgoingData
  split
  · rfl
  · split
    · rfl
    · exact filter_append_off P _ _ (hD _ _)

/-- The hit path leaves the content store log as it is. -/
theorem onContentStoreHit_cacheLog {env : Env} {s s1 : State} {inFace : Face} {id : Nat}
    {interest : Interest} {data : Data}
    (h : onContentStoreHit env s inFace id interest data = some s1) :
    s1.effects.filter Effect.isCache = s.effects.filter Effect.isCache := by
  unfold onContentStoreHit at h
  simp only at h
  cases hd : dispatchToStrategy env s .beforeSatisfyInterest id with
  | none => simp [hd] at h
  | some s2 =>
    simp only [hd] at h
    cases hs : setStragglerTimer s2 id true data.freshnessPeriod with
    | none => simp [hs] at h
    | some s3 =>
      simp only [hs, Option.some.injEq] at h
      subst h
      rw [onOutgoingData_log _ _ _ _ _ (fun _ _ => rfl),
        ← dispatchToStrategy_log hd _ (fun _ _ => rfl) (fun _ _ => rfl) rfl]
      cases hf : findEntry s2 id with
      | none => simp [setStragglerTimer, hf] at hs
      | some e =>
        rw [setStragglerTimer_eq _ _ _ _ _ hf] at hs
        injection hs with hs
        rw [← hs]
        rfl

/-- The entry `Pit::insert` returns does not depend on the counters. -/
theorem pitInsert_find_counters (s : State) (c : Counters) (i : Interest) :
    findEntry (Pit.insert { s with m_counters := c } i).1
        (Pit.insert { s with m_counters := c } i).2 =
      findEntry (Pit.insert s i).1 (Pit.insert s i).2 := by
  unfold Pit.insert findEntry
  cases s.m_pit.find? (fun e => sameRequest e.interest i) <;> rfl

/-- The result of `onIncomingInterest` on an Interest that does not violate the
`/localhost` scope: the entry `Pit::insert` returns, and the content store log, which
gains a lookup exactly when that entry has no in-record. -/
theorem onIncomingInterest_cacheLog {env : Env} {s s1 : State} {inFace : Face}
    {interest : Interest}
    (hscope : ¬ (inFace.scope = .FACE_SCOPE_NON_LOCAL ∧ underLocalhost interest.name = true))
    (h : onIncomingInterest env s inFace interest = some s1) :
    ∃ pitEntry,
      findEntry (Pit.insert s { interest with incomingFaceIdTag := some inFace.id }).1
        (Pit.insert s { interest with incomingFaceIdTag := some inFace.id }).2 =
          some pitEntry ∧
      s1.effects.filter Effect.isCache = s.effects.filter Effect.isCache ++
        (if pitEntry.inRecords = [] then
          [.csLookup { interest with incomingFaceIdTag := some inFace.id }] else []) := by
  have hsc : (decide (inFace.scope = FaceScope.FACE_SCOPE_NON_LOCAL) &&
      underLocalhost interest.name) = false := by
    cases hd : decide (inFace.scope = FaceScope.FACE_SCOPE_NON_LOCAL) with
    | false => rfl
    | true =>
      cases hu : underLocalhost interest.name with
      | false => rfl
      | true => exact absurd ⟨of_decide_eq_true hd, hu⟩ hscope
  unfold onIncomingInterest at h
  simp only [hsc, Bool.false_eq_true, if_false] at h
  split at h
  · simp at h
  · rename_i pitEntry hfind
    refine ⟨pitEntry, ?_, ?_⟩
    · rw [pitInsert_find_counters] at hfind
      exact hfind
    · split at h
      · simp at h
      · rename_i s2 hc
        obtain ⟨e0, _, hs2⟩ := cancelBoth_eq hc
        have heff : s2.effects = s.effects := by
          rw [hs2]
          show (Pit.insert _ _).1.effects = s.effects
          unfold Pit.insert
          split <;> rfl
        cases hrec : pitEntry.inRecords with
        | nil =>
          simp only [hrec, List.isEmpty_nil, Bool.not_true, Bool.not_false, if_true] at h
          split at h
          · rw [onContentStoreHit_cacheLog h]
            simp [emit, heff, List.filter_append, List.filter_cons, Effect.isCache]
          · rw [onContentStoreMiss_cacheLog h]
            simp [emit, heff, List.filter_append, List.filter_cons, Effect.isCache]
        | cons a rest =>
          simp only [hrec, List.isEmpty_cons, Bool.not_false, Bool.not_true,
            Bool.false_eq_true, if_false] at h
          rw [onContentStoreMiss_cacheLog h, heff]
          simp

/-- C16, as the code has it. When an Interest that does not violate the `/localhost`
scope arrives in a reachable state and `onIncomingInterest` returns, the cache is
consulted exactly when the PIT entry of the request has no in-record at all, expired or
not: with an in-record in the entry the content store log is as before (the Interest
goes to the miss path without a lookup), and without one (no entry yet, or an entry
with no in-record) the log gains one lookup of the Interest. -/
theorem lookup_only_without_in_records (env : Env) (s s1 : State) (inFace : Face)
    (interest : Interest) (hr : Reachable s)
    (hscope : ¬ (inFace.scope = .FACE_SCOPE_NON_LOCAL ∧ underLocalhost interest.name = true))
    (h : onIncomingInterest env s inFace interest = some s1) :
    ((∃ e ∈ s.m_pit, sameRequest e.interest interest = true ∧ e.inRecords ≠ []) →
      s1.effects.filter Effect.isCache = s.effects.filter Effect.isCache) ∧
    ((∀ e ∈ s.m_pit, sameRequest e.interest interest = true → e.inRecords = []) →
      s1.effects.filter Effect.isCache = s.effects.filter Effect.isCache ++
        [.csLookup { interest with incomingFaceIdTag := some inFace.id }]) := by
  have hi := inv_of_reachable hr
  obtain ⟨pitEntry, hfind, hlog⟩ := onIncomingInterest_cacheLog hscope h
  constructor
  · rintro ⟨e, he, hsame, hne⟩
    have hf := find_request_of_mem hi he
      (show sameRequest e.interest { interest with incomingFaceIdTag := some inFace.id } = true
        by simpa [sameRequest] using hsame)
    have hins : Pit.insert s { interest with incomingFaceIdTag := some inFace.id } =
        (s, e.id) := by simp [Pit.insert, hf]
    rw [hins, findEntry_of_mem hi he] at hfind
    injection hfind with hfind
    subst hfind
    rw [hlog, if_neg hne]
    simp
  · intro hall
    have hnil : pitEntry.inRecords = [] := by
      cases hf : s.m_pit.find? (fun x => sameRequest x.interest
          { interest with incomingFaceIdTag := some inFace.id }) with
      | some e =>
        have hins : Pit.insert s { interest with incomingFaceIdTag := some inFace.id } =
            (s, e.id) := by simp [Pit.insert, hf]
        have he := List.mem_of_find?_eq_some hf
        rw [hins, findEntry_of_mem hi he] at hfind
        injection hfind with hfind
        subst hfind
        have hs := List.find?_some (p := fun x : PitEntry => sameRequest x.interest
          { interest with incomingFaceIdTag := some inFace.id }) hf
        exact hall e he (by simpa [sameRequest] using hs)
      | none =>
        simp only [Pit.insert, hf] at hfind
        obtain ⟨hm, hid⟩ := findEntry_some hfind
        simp only [List.mem_append, List.mem_singleton] at hm
        rcases hm with hm | hm
        · have := hi.idsLt pitEntry.skel (List.mem_map.mpr ⟨pitEntry, hm, rfl⟩)
          have hid2 : pitEntry.skel.id = s.nextEntryId := hid
          rw [hid2] at this
          exact absurd this (Nat.lt_irrefl _)
        · rw [hm]
    rw [hlog, if_pos hnil]

/-- Witness for `lookup_only_without_in_records`: the Interest that arrives at time 5000
for the rejected entry. -/
theorem lookup_only_without_in_records_witness :
    ((∃ e ∈ rejectedState.m_pit,
        sameRequest e.interest (sampleInterest 78) = true ∧ e.inRecords ≠ []) →
      rejectedAgain.effects.filter Effect.isCache =
        rejectedState.effects.filter Effect.isCache) ∧
    ((∀ e ∈ rejectedState.m_pit,
        sameRequest e.interest (sampleInterest 78) = true → e.inRecords = []) →
      rejectedAgain.effects.filter Effect.isCache =
        rejectedState.effects.filter Effect.isCache ++
          [.csLookup { sampleInterest 78 with incomingFaceIdTag := some (sampleFace 2).id }]) :=
  lookup_only_without_in_records (rejectEnv 5000) rejectedState rejectedAgain (sampleFace 2)
    (sampleInterest 78) ⟨[(rejectEnv 0, .interest (sampleFace 1) (sampleInterest 77))],
      by decide⟩ (by decide) (by decide)

/-- C16 fails on the code. The entry for `/x` holds one in-record, of face 1, which
expired at 4000 (the strategy rejected the Interest, so the entry waits for its
straggler timer). At time 5000 an Interest for `/x` arrives on face 2: the entry has no
unexpired in-record, yet the cache is not consulted and the Interest takes the miss
path, which adds the in-record of face 2. -/
theorem expired_in_record_skips_lookup :
    rejectedState.m_pit.map (fun e => e.inRecords.map (fun r =>
      (r.face, decide (r.expiry > (rejectEnv 5000).now)))) = [[(sampleFace 1, false)]] ∧
    onIncomingInterest (rejectEnv 5000) rejectedState (sampleFace 2) (sampleInterest 78) =
      some rejectedAgain ∧
    rejectedAgain.effects.filter Effect.isCache = rejectedState.effects.filter Effect.isCache ∧
    rejectedAgain.m_pit.map (fun e => e.inRecords.map (fun r => r.face)) =
      [[sampleFace 2, sampleFace 1]] := by
  decide

/-- C19, as the code has it. On a cache miss for an Interest that carries no next-hop
override after the overlay: when the function chain left by the overlay is empty or the
function FIB lookup yields no entry, the miss path returns and the strategy is invoked
once at `afterReceiveInterest` for the entry. When the lookup yields an entry whose list
of next hops is empty, the miss path returns right after the in-record and the unsatisfy
timer are set: nothing is sent and the strategy is not invoked. -/
theorem strategy_when_no_function_route (env : Env) (s : State) (inFace : Face)
    (e : PitEntry) (interest interest2 : Interest) (fibEntry : Option (List Face))
    (hf : findEntry s e.id = some e)
    (hc : env.functionChaining interest = some (interest2, fibEntry))
    (htag : interest2.nextHopFaceIdTag = none) :
    ((interest2.function = [] ∨ fibEntry = none) →
      ∃ s1 s2, recordPending env s inFace e.id interest = some s1 ∧
        onContentStoreMiss env s inFace e.id interest = some s2 ∧
        dispatchToStrategy env s1 .afterReceiveInterest e.id = some s2 ∧
        s2.effects.filter Effect.isStrategy =
          s.effects.filter Effect.isStrategy ++ [.strategy .afterReceiveInterest e.id]) ∧
    (interest2.function ≠ [] → fibEntry = some [] →
      ∃ s1, recordPending env s inFace e.id interest = some s1 ∧
        onContentStoreMiss env s inFace e.id interest = some s1 ∧
        s1.effects = s.effects) := by
  obtain ⟨s1, e1, hrp, heff, hf1, _⟩ := recordPending_result env s inFace e interest hf
  constructor
  · intro hor
    obtain ⟨s2, hd⟩ := dispatchToStrategy_total env s1 .afterReceiveInterest e.id ⟨e1, hf1⟩
    refine ⟨s1, s2, hrp, ?_, hd, ?_⟩
    · rcases hor with h | h
      · simp [onContentStoreMiss, hrp, resolveNextHop, hc, h, htag, hd]
      · simp [onContentStoreMiss, hrp, resolveNextHop, hc, h, htag, hd]
    · obtain ⟨e0, he0, hrun⟩ := dispatchToStrategy_eq hd
      rw [(runStrategyActions_frame _ hrun).log _ (fun _ _ => rfl) (fun _ _ => rfl), ← heff]
      simp [emit, List.filter_append, List.filter_cons, Effect.isStrategy]
  · intro hne hfib
    refine ⟨s1, hrp, ?_, heff⟩
    simp [onContentStoreMiss, hrp, resolveNextHop, hc, hne, hfib, forwardToNextHops]

/-- Witness for `strategy_when_no_function_route`: the first Interest of the sample run,
for which the function FIB has no entry. -/
theorem strategy_when_no_function_route_witness :
    ∃ s1 s2, recordPending (sampleEnv 0) (Pit.insert initial (sampleInterest 77)).1
        (sampleFace 1) 0 (sampleInterest 77) = some s1 ∧
      onContentStoreMiss (sampleEnv 0) (Pit.insert initial (sampleInterest 77)).1
        (sampleFace 1) 0 (sampleInterest 77) = some s2 ∧
      dispatchToStrategy (sampleEnv 0) s1 .afterReceiveInterest 0 = some s2 ∧
      s2.effects.filter Effect.isStrategy =
        (Pit.insert initial (sampleInterest 77)).1.effects.filter Effect.isStrategy ++
          [.strategy .afterReceiveInterest 0] :=
  (strategy_when_no_function_route (sampleEnv 0) (Pit.insert initial (sampleInterest 77)).1
    (sampleFace 1) freshEntry (sampleInterest 77) (sampleInterest 77) none (by decide) rfl
    rfl).1 (Or.inr rfl)

/-- C19 fails on the code. The Interest carries the function chain `/F1` and no next-hop
override; the function FIB has an entry for the chain with no next hop. After the cache
miss nothing is sent and the strategy is not invoked: the only effect is the cache
lookup, and the entry waits with its in-record for the unsatisfy timer. -/
theorem empty_route_skips_strategy :
    functionInterest.nextHopFaceIdTag = none ∧
    emptyRouteEnv.functionChaining { functionInterest with incomingFaceIdTag := some 1 } =
      some ({ functionInterest with incomingFaceIdTag := some 1 }, some []) ∧
    (onIncomingInterest emptyRouteEnv initial (sampleFace 1) functionInterest).map
        (fun s => (s.effects, s.m_pit.map (fun e => e.inRecords.map (fun r => r.face)))) =
      some ([.csLookup { functionInterest with incomingFaceIdTag := some 1 }],
        [[sampleFace 1]]) := by
  decide

/-! ### The forwarder: the dead nonce list on the Interest path -/

/-- `cancelUnsatisfyAndStragglerTimer` does not read the dead nonce list. -/
theorem cancelBoth_dnl (d : List (Name × Nat)) (s : State) (id : Nat) :
    cancelUnsatisfyAndStragglerTimer (withDeadNonceList d s) id =
      (cancelUnsatisfyAndStragglerTimer s id).map (withDeadNonceList d) := by
  unfold cancelUnsatisfyAndStragglerTimer
  show (match findEntry s id with | none => none | some e => _) = _
  cases findEntry s id <;> rfl

/-- `setStragglerTimer` does not read the dead nonce list. -/
theorem setStragglerTimer_dnl (d : List (Name × Nat)) (s : State) (id : Nat) (sat : Bool)
    (fr : Int) :
    setStragglerTimer (withDeadNonceList d s) id sat fr =
      (setStragglerTimer s id sat fr).map (withDeadNonceList d) := by
  unfold setStragglerTimer
  show (match findEntry s id with | none => none | some e => _) = _
  cases findEntry s id <;> rfl

/-- `setUnsatisfyTimer` does not read the dead nonce list. -/
theorem setUnsatisfyTimer_dnl (env : Env) (d : List (Name × Nat)) (s : State) (id : Nat) :
    setUnsatisfyTimer env (withDeadNonceList d s) id =
      (setUnsatisfyTimer env s id).map (withDeadNonceList d) := by
  unfold setUnsatisfyTimer
  show (match findEntry s id with | none => none | some e => _) = _
  cases findEntry s id with
  | none => rfl
  | some e =>
    simp only
    cases lastExpiring e.inRecords <;> rfl

/-- `onOutgoingInterest` does not read the dead nonce list. -/
theorem onOutgoingInterest_dnl (env : Env) (d : List (Name × Nat)) (s : State) (id : Nat)
    (outFace : Face) (interest : Interest) :
    onOutgoingInterest env (withDeadNonceList d s) id outFace interest =
      (onOutgoingInterest env s id outFace interest).map (withDeadNonceList d) := by
  unfold onOutgoingInterest
  show (match findEntry s id with | none => none | some e => _) = _
  cases findEntry s id <;> rfl

/-- `onOutgoingNack` does not read the dead nonce list. -/
theorem onOutgoingNack_dnl (env : Env) (d : List (Name × Nat)) (s : State) (id : Nat)
    (outFace : Face) (reason : NackReason) :
    onOutgoingNack env (withDeadNonceList d s) id outFace reason =
      (onOutgoingNack env s id outFace reason).map (withDeadNonceList d) := by
  unfold onOutgoingNack
  show (match findEntry s id with | none => none | some e => _) = _
  cases findEntry s id with
  | none => rfl
  | some e =>
    simp only
    split
    · rfl
    · split
      · rfl
      · split <;> rfl

/-- `onInterestReject` does not read the dead nonce list. -/
theorem onInterestReject_dnl (env : Env) (d : List (Name × Nat)) (s : State) (id : Nat) :
    onInterestReject env (withDeadNonceList d s) id =
      (onInterestReject env s id).map (withDeadNonceList d) := by
  unfold onInterestReject
  show (match findEntry s id with | none => none | some e => _) = _
  cases findEntry s id with
  | none => rfl
  | some e =>
    simp only
    split
    · rfl
    · rw [cancelBoth_dnl]
      cases cancelUnsatisfyAndStragglerTimer s id with
      | none => rfl
      | some s1 => exact setStragglerTimer_dnl d s1 id false _

/-- A call of the strategy does not read the dead nonce list. -/
theorem applyStrategyAction_dnl (env : Env) (d : List (Name × Nat)) (s : State) (id : Nat)
    (a : StrategyAction) :
    applyStrategyAction env (withDeadNonceList d s) id a =
      (applyStrategyAction env s id a).map (withDeadNonceList d) := by
  cases a with
  | sendInterest outFace interest => exact onOutgoingInterest_dnl env d s id outFace interest
  | rejectPendingInterest => exact onInterestReject_dnl env d s id
  | sendNack outFace reason => exact onOutgoingNack_dnl env d s id outFace reason

/-- The calls of the strategy do not read the dead nonce list. -/
theorem runStrategyActions_dnl (env : Env) (d : List (Name × Nat)) (id : Nat)
    (as : List StrategyAction) :
    ∀ s : State, runStrategyActions env id (withDeadNonceList d s) as =
      (runStrategyActions env id s as).map (withDeadNonceList d) := by
  induction as with
  | nil => intro s; rfl
  | cons a rest ih =>
    intro s
    simp only [runStrategyActions, applyStrategyAction_dnl]
    cases applyStrategyAction env s id a with
    | none => rfl
    | some s1 => exact ih s1

/-- An extension point does not read the dead nonce list. -/
theorem dispatchToStrategy_dnl (env : Env) (d : List (Name × Nat)) (s : State)
    (point : ExtensionPoint) (id : Nat) :
    dispatchToStrategy env (withDeadNonceList d s) point id =
      (dispatchToStrategy env s point id).map (withDeadNonceList d) := by
  unfold dispatchToStrategy
  show (match findEntry s id with | none => none | some e => _) = _
  cases findEntry s id with
  | none => rfl
  | some e => exact runStrategyActions_dnl env d id _ (emit s (.strategy point id))

/-- `onOutgoingData` does not read the dead nonce list. -/
theorem onOutgoingData_dnl (env : Env) (d : List (Name × Nat)) (s : State) (data : Data)
    (outFace : Face) :
    onOutgoingData env (withDeadNonceList d s) data outFace =
      withDeadNonceList d (onOutgoingData env s data outFace) := by
  unfold onOutgoingData
  split
  · rfl
  · split <;> rfl

/-- The hit path does not read the dead nonce list. -/
theorem onContentStoreHit_dnl (env : Env) (d : List (Name × Nat)) (s : State) (inFace : Face)
    (id : Nat) (interest : Interest) (data : Data) :
    onContentStoreHit env (withDeadNonceList d s) inFace id interest data =
      (onContentStoreHit env s inFace id interest data).map (withDeadNonceList d) := by
  unfold onContentStoreHit
  simp only [dispatchToStrategy_dnl]
  cases dispatchToStrategy env s .beforeSatisfyInterest id with
  | none => rfl
  | some s1 =>
    simp only [Option.map_some', setStragglerTimer_dnl]
    cases setStragglerTimer s1 id true data.freshnessPeriod with
    | none => rfl
    | some s2 => simp only [Option.map_some', onOutgoingData_dnl]

/-- The loop over the next hops does not read the dead nonce list. -/
theorem forwardToNextHops_dnl (env : Env) (d : List (Name × Nat)) (id : Nat)
    (interest : Interest) (faces : List Face) :
    ∀ s : State, forwardToNextHops env id interest (withDeadNonceList d s) faces =
      (forwardToNextHops env id interest s faces).map (withDeadNonceList d) := by
  induction faces with
  | nil => intro s; rfl
  | cons f rest ih =>
    intro s
    simp only [forwardToNextHops, onOutgoingInterest_dnl]
    cases onOutgoingInterest env s id f interest with
    | none => rfl
    | some s1 => exact ih s1

/-- Next-hop resolution does not read the dead nonce list. -/
theorem resolveNextHop_dnl (env : Env) (d : List (Name × Nat)) (s : State) (inFace : Face)
    (id : Nat) (interest : Interest) :
    resolveNextHop env (withDeadNonceList d s) inFace id interest =
      (resolveNextHop env s inFace id interest).map (withDeadNonceList d) := by
  unfold resolveNextHop
  cases env.functionChaining interest with
  | none => rfl
  | some p =>
    obtain ⟨interest2, fibEntry⟩ := p
    simp only
    split
    · exact forwardToNextHops_dnl env d id interest2 _ s
    · split
      · split
        · exact onOutgoingInterest_dnl env d s id _ interest2
        · rfl
      · exact dispatchToStrategy_dnl env d s _ id

/-- The first part of the miss path does not read the dead nonce list. -/
theorem recordPending_dnl (env : Env) (d : List (Name × Nat)) (s : State) (inFace : Face)
    (id : Nat) (interest : Interest) :
    recordPending env (withDeadNonceList d s) inFace id interest =
      (recordPending env s inFace id interest).map (withDeadNonceList d) := by
  unfold recordPending
  show (match findEntry s id with | none => none | some e => _) = _
  cases findEntry s id with
  | none => rfl
  | some e =>
    exact setUnsatisfyTimer_dnl env d
      (modifyEntry s id (fun e => insertOrUpdateInRecord env e inFace interest)) id

/-- The miss path does not read the dead nonce list. -/
theorem onContentStoreMiss_dnl (env : Env) (d : List (Name × Nat)) (s : State)
    (inFace : Face) (id : Nat) (interest : Interest) :
    onContentStoreMiss env (withDeadNonceList d s) inFace id interest =
      (onContentStoreMiss env s inFace id interest).map (withDeadNonceList d) := by
  unfold onContentStoreMiss
  rw [recordPending_dnl]
  cases recordPending env s inFace id interest with
  | none => rfl
  | some s1 => exact resolveNextHop_dnl env d s1 inFace id interest

/-- `Pit::insert` does not read the dead nonce list. -/
theorem pitInsert_dnl (d : List (Name × Nat)) (s : State) (i : Interest) :
    Pit.insert (withDeadNonceList d s) i =
      (withDeadNonceList d (Pit.insert s i).1, (Pit.insert s i).2) := by
  unfold Pit.insert
  show (match s.m_pit.find? _ with | some e => _ | none => _) = _
  cases s.m_pit.find? (fun e => sameRequest e.interest i) <;> rfl

/-- Finding an entry does not read the dead nonce list. -/
theorem findEntry_dnl (d : List (Name × Nat)) (s : State) (id : Nat) :
    findEntry (withDeadNonceList d s) id = findEntry s id := rfl

/-- C14, as the code has it. `onIncomingInterest` proceeds in the same way whatever the
dead nonce list holds: run from a state with any other list `d` it returns exactly when
it returns from `s`, and with the same state up to that list, which it leaves as it is.
So an Interest whose name and nonce are in the list is not treated as a loop: its
in-record is inserted, the unsatisfy timer is armed, and it is answered from the cache
or forwarded as if the pair were absent. -/
theorem dead_nonce_list_not_consulted (env : Env) (s : State) (inFace : Face)
    (interest : Interest) (d : List (Name × Nat)) :
    onIncomingInterest env (withDeadNonceList d s) inFace interest =
      (onIncomingInterest env s inFace interest).map (withDeadNonceList d) := by
  have e1 : ({ withDeadNonceList d s with m_counters :=
      { (withDeadNonceList d s).m_counters with
        nInInterests := (withDeadNonceList d s).m_counters.nInInterests + 1 } } : State) =
      withDeadNonceList d { s with m_counters :=
        { s.m_counters with nInInterests := s.m_counters.nInInterests + 1 } } := rfl
  unfold onIncomingInterest
  simp only
  rw [e1]
  generalize ({ s with m_counters :=
    { s.m_counters with nInInterests := s.m_counters.nInInterests + 1 } } : State) = s0
  generalize ({ interest with incomingFaceIdTag := some inFace.id } : Interest) = i
  split
  · rfl
  · rw [pitInsert_dnl]
    simp only [findEntry_dnl]
    cases findEntry (Pit.insert s0 i).1 (Pit.insert s0 i).2 with
    | none => rfl
    | some pitEntry =>
      simp only [cancelBoth_dnl]
      cases cancelUnsatisfyAndStragglerTimer (Pit.insert s0 i).1 (Pit.insert s0 i).2 with
      | none => rfl
      | some s2 =>
        simp only [Option.map_some']
        split
        · have e2 : emit (withDeadNonceList d s2) (.csLookup i) =
              withDeadNonceList d (emit s2 (.csLookup i)) := rfl
          rw [e2]
          cases env.csMatch i with
          | some data => exact onContentStoreHit_dnl env d _ inFace _ i data
          | none => exact onContentStoreMiss_dnl env d _ inFace _ i
        · exact onContentStoreMiss_dnl env d _ inFace _ i

/-- C14 fails on the code. The Interest `/x` with nonce 77 was forwarded and expired
unsatisfied, so the dead nonce list holds `/x` with nonce 77. The same Interest arrives
again: a PIT entry is created, the cache is consulted, the in-record of face 1 is
inserted, the unsatisfy timer is armed, and the strategy forwards the Interest on
face 3. No Nack is sent. -/
theorem dead_nonce_not_suppressed :
    DeadNonceList.has expiredState (sampleInterest 77).name (sampleInterest 77).nonce = true ∧
    expiredState.m_pit = [] ∧
    onIncomingInterest (sampleEnv 4001) expiredState (sampleFace 1) (sampleInterest 77) =
      some loopedState ∧
    loopedState.m_pit.map (fun e => (e.inRecords.map (fun r => (r.face, r.lastNonce)),
      armed loopedState e.m_unsatisfyTimer)) = [([(sampleFace 1, 77)], true)] ∧
    loopedState.effects.drop expiredState.effects.length =
      [.csLookup { sampleInterest 77 with incomingFaceIdTag := some 1 },
        .strategy .afterReceiveInterest 1,
        .sendInterest (sampleFace 3) { sampleInterest 77 with incomingFaceIdTag := some 1 }] := by
  decide

/-! ### The forwarder: the hit path -/

/-- `onOutgoingData` touches neither the PIT nor the scheduler. -/
theorem onOutgoingData_tables (env : Env) (s : State) (data : Data) (outFace : Face) :
    (onOutgoingData env s data outFace).m_pit = s.m_pit ∧
    (onOutgoingData env s data outFace).events = s.events := by
  unfold onOutgoingData
  split
  · exact ⟨rfl, rfl⟩
  · split <;> exact ⟨rfl, rfl⟩

/-- C17 (cache hit). `onContentStoreHit` on an entry of the table, under the table
invariant, returns. It invokes `beforeSatisfyInterest`, sets the straggler timer and hands
the cached Data (with the service time of the Interest, the overlay tags removed and the
incoming face id of the content store) to `onOutgoingData` toward the face the Interest
came from, which touches neither the PIT nor the scheduler. For the entry before that
last step: its in-records are among those it had (none is added); each of its
out-records is one it had, unless the strategy itself called `sendInterest` on that face
at the extension point; its unsatisfy handle is the same and is armed only if it was
armed before, and no unsatisfy event of the entry is new; its straggler handle is a new
pending event that calls `onInterestFinalize` as satisfied with the freshness period of
the Data. -/
theorem hit_arms_straggler_and_sends (env : Env) (s : State) (inFace : Face) (e : PitEntry)
    (interest : Interest) (data : Data) (hi : Inv s) (hf : findEntry s e.id = some e) :
    ∃ s2 e2 h,
      onContentStoreHit env s inFace e.id interest data =
        some (onOutgoingData env s2
          { data with serviceTime := interest.serviceTime, functionNameTag := none,
                      hopTag := none, countTag := none,
                      incomingFaceIdTag := some env.faceidContentStore } inFace) ∧
      findEntry s2 e.id = some e2 ∧
      e2.inRecords.Sublist e.inRecords ∧
      (∀ r ∈ e2.outRecords, r ∈ e.outRecords ∨
        ∃ i, StrategyAction.sendInterest r.face i ∈ env.strategy .beforeSatisfyInterest e) ∧
      e2.m_unsatisfyTimer = e.m_unsatisfyTimer ∧
      (armed s2 e2.m_unsatisfyTimer = true → armed s e.m_unsatisfyTimer = true) ∧
      (∀ ev ∈ s2.events, ev.callback = .unsatisfied e.id → ev ∈ s.events) ∧
      e2.m_stragglerTimer = some h ∧ armed s2 e2.m_stragglerTimer = true ∧
      (∀ ev ∈ s2.events, ev.id = h →
        ev = Event.mk h stragglerTime (.finalize e.id true data.freshnessPeriod)) ∧
      (∀ d, (onOutgoingData env s2 d inFace).m_pit = s2.m_pit ∧
        (onOutgoingData env s2 d inFace).events = s2.events) := by
  obtain ⟨s1, hd⟩ := dispatchToStrategy_total env s .beforeSatisfyInterest e.id ⟨e, hf⟩
  obtain ⟨e0, he0, hrun⟩ := dispatchToStrategy_eq hd
  rw [hf] at he0
  injection he0 with he0
  subst he0
  have hfr := runStrategyActions_frame _ hrun
  have hfe : findEntry (emit s (.strategy .beforeSatisfyInterest e.id)) e.id = some e := hf
  obtain ⟨e1, hf1, _, hout⟩ := runStrategyActions_records _ hrun hfe
  obtain ⟨e1', hf1', hsub, hunsat⟩ := hfr.entry e hfe
  rw [hf1] at hf1'
  injection hf1' with hf1'
  subst hf1'
  have hi1 : Inv s1 := (dispatchToStrategy_keeps hd).1 hi
  have hk := skel_mem_view hf
  have hst := setStragglerTimer_eq s1 e.id e1 true data.freshnessPeriod hf1
  obtain ⟨s2, hset⟩ : ∃ s2, setStragglerTimer s1 e.id true data.freshnessPeriod = some s2 :=
    ⟨_, hst⟩
  have hs2 := hst
  rw [hset] at hs2
  injection hs2 with hs2
  have hev2 : s2.events = scheduler.cancel s1.events e1.m_stragglerTimer ++
      [Event.mk s1.nextEventId stragglerTime (.finalize e.id true data.freshnessPeriod)] := by
    rw [hs2]; rfl
  have hfe2 : findEntry s2 e.id = some { e1 with m_stragglerTimer := some s1.nextEventId } := by
    rw [hs2, findEntry_modifyEntry]
    · show Option.map _ (findEntry s1 e.id) = _
      rw [hf1]
      rfl
    · intro x; rfl
  refine ⟨s2, { e1 with m_stragglerTimer := some s1.nextEventId }, s1.nextEventId, ?_, hfe2,
    hsub, hout, hunsat, ?_, ?_, rfl, ?_, ?_, fun d => onOutgoingData_tables env s2 d inFace⟩
  · unfold onContentStoreHit
    simp only [hd, hset]
  · intro ha
    obtain ⟨ev, hev, hid⟩ := (armed_iff _ _).mp ha
    have hid1 : e.m_unsatisfyTimer = some ev.id := hunsat ▸ hid
    have hlt := hi.handlesLt e.skel hk.1 ev.id (Or.inl hid1)
    rw [hev2] at hev
    simp only [List.mem_append, List.mem_singleton] at hev
    rcases hev with hev | hev
    · rcases hfr.events ev (mem_of_mem_cancel hev) with h1 | ⟨h1, _⟩
      · exact (armed_iff _ _).mpr ⟨ev, h1, hid1⟩
      · exact absurd hlt (Nat.not_lt.mpr h1)
    · rw [hev] at hlt
      exact absurd hlt (Nat.not_lt.mpr hfr.next)
  · intro ev hev hcb
    rw [hev2] at hev
    simp only [List.mem_append, List.mem_singleton] at hev
    rcases hev with hev | hev
    · rcases hfr.events ev (mem_of_mem_cancel hev) with h1 | ⟨_, fr, h1⟩
      · exact h1
      · rw [h1] at hcb; exact absurd hcb (by simp)
    · rw [hev] at hcb; exact absurd hcb (by simp)
  · simp [armed, hev2]
  · intro ev hev hid
    rw [hev2] at hev
    simp only [List.mem_append, List.mem_singleton] at hev
    rcases hev with hev | hev
    · have := hi1.evLt ev (mem_of_mem_cancel hev)
      rw [hid] at this
      exact absurd this (Nat.lt_irrefl _)
    · exact hev

/-- Witness for `hit_arms_straggler_and_sends`: the first Interest of the sample run with
`sampleData` in the cache. -/
theorem hit_arms_straggler_and_sends_witness :
    ∃ s2 e2 h,
      onContentStoreHit (sampleEnv 0) (Pit.insert initial (sampleInterest 77)).1 (sampleFace 1)
          freshEntry.id (sampleInterest 77) sampleData =
        some (onOutgoingData (sampleEnv 0) s2
          { sampleData with serviceTime := (sampleInterest 77).serviceTime,
                            functionNameTag := none, hopTag := none, countTag := none,
                            incomingFaceIdTag := some (sampleEnv 0).faceidContentStore }
          (sampleFace 1)) ∧
      findEntry s2 freshEntry.id = some e2 ∧
      e2.inRecords.Sublist freshEntry.inRecords ∧
      (∀ r ∈ e2.outRecords, r ∈ freshEntry.outRecords ∨
        ∃ i, StrategyAction.sendInterest r.face i ∈
          (sampleEnv 0).strategy .beforeSatisfyInterest freshEntry) ∧
      e2.m_unsatisfyTimer = freshEntry.m_unsatisfyTimer ∧
      (armed s2 e2.m_unsatisfyTimer = true →
        armed (Pit.insert initial (sampleInterest 77)).1 freshEntry.m_unsatisfyTimer = true) ∧
      (∀ ev ∈ s2.events, ev.callback = .unsatisfied freshEntry.id →
        ev ∈ (Pit.insert initial (sampleInterest 77)).1.events) ∧
      e2.m_stragglerTimer = some h ∧ armed s2 e2.m_stragglerTimer = true ∧
      (∀ ev ∈ s2.events, ev.id = h →
        ev = Event.mk h stragglerTime
          (.finalize freshEntry.id true sampleData.freshnessPeriod)) ∧
      (∀ d, (onOutgoingData (sampleEnv 0) s2 d (sampleFace 1)).m_pit = s2.m_pit ∧
        (onOutgoingData (sampleEnv 0) s2 d (sampleFace 1)).events = s2.events) :=
  hit_arms_straggler_and_sends (sampleEnv 0) (Pit.insert initial (sampleInterest 77)).1
    (sampleFace 1) freshEntry (sampleInterest 77) sampleData
    ((pitInsert_spec initial (sampleInterest 77)).1 inv_initial) (by decide)

/-! ### The forwarder: the Data pipeline -/

/-- The scan for the largest sequence number, from any point on. -/
theorem maxSequence_scan (rs : List InRecord) :
    ∀ (pre : List InRecord) (acc : Nat × Option Face), 1 ≤ acc.1 →
      (∀ x ∈ pre, x.sequenceNumber ≤ acc.1) →
      (acc.1 > 1 → ∃ r ∈ pre, acc.2 = some r.face ∧ r.sequenceNumber = acc.1) →
      (∀ x ∈ pre ++ rs, x.sequenceNumber ≤
        (rs.foldl (fun acc r => if r.sequenceNumber > acc.1 then (r.sequenceNumber, some r.face)
          else acc) acc).1) ∧
      ((rs.foldl (fun acc r => if r.sequenceNumber > acc.1 then (r.sequenceNumber, some r.face)
          else acc) acc).1 > 1 →
        ∃ r ∈ pre ++ rs,
          (rs.foldl (fun acc r => if r.sequenceNumber > acc.1 then
            (r.sequenceNumber, some r.face) else acc) acc).2 = some r.face ∧
          r.sequenceNumber = (rs.foldl (fun acc r => if r.sequenceNumber > acc.1 then
            (r.sequenceNumber, some r.face) else acc) acc).1) := by
  induction rs with
  | nil =>
    intro pre acc h1 hle hex
    simp only [List.foldl_nil, List.append_nil]
    exact ⟨hle, hex⟩
  | cons a rest ih =>
    intro pre acc h1 hle hex
    simp only [List.foldl_cons]
    have hpre : pre ++ a :: rest = (pre ++ [a]) ++ rest := by simp
    rw [hpre]
    by_cases hgt : a.sequenceNumber > acc.1
    · rw [if_pos hgt]
      apply ih
      · show 1 ≤ a.sequenceNumber
        omega
      · intro x hx
        rcases List.mem_append.mp hx with h | h
        · have := hle x h
          show x.sequenceNumber ≤ a.sequenceNumber
          omega
        · simp only [List.mem_singleton] at h
          rw [h]
      · intro _
        exact ⟨a, by simp, rfl, rfl⟩
    · rw [if_neg hgt]
      apply ih _ _ h1
      · intro x hx
        rcases List.mem_append.mp hx with h | h
        · exact hle x h
        · simp only [List.mem_singleton] at h
          rw [h]
          omega
      · intro hacc
        obtain ⟨r, hr, h2, h3⟩ := hex hacc
        exact ⟨r, List.mem_append_left _ hr, h2, h3⟩

/-- The scan for the largest sequence number: when the result is above 1, the saved face
is the face of an in-record that holds the largest sequence number of the collection. -/
theorem maxSequence_spec (l : List InRecord) :
    (∀ x ∈ l, x.sequenceNumber ≤ (maxSequence l).1) ∧
    ((maxSequence l).1 > 1 →
      ∃ r ∈ l, (maxSequence l).2 = some r.face ∧ r.sequenceNumber = (maxSequence l).1) := by
  have := maxSequence_scan l [] (1, none) (Nat.le_refl _) (fun x hx => by simp at hx)
    (fun h => absurd h (Nat.lt_irrefl _))
  simpa [maxSequence] using this

/-- The largest sequence number is above 1 exactly when an in-record has one above 1. -/
theorem maxSequence_gt_iff (l : List InRecord) :
    (maxSequence l).1 > 1 ↔ ∃ r ∈ l, r.sequenceNumber > 1 := by
  obtain ⟨h1, h2⟩ := maxSequence_spec l
  constructor
  · intro h
    obtain ⟨r, hr, _, hs⟩ := h2 h
    exact ⟨r, hr, by omega⟩
  · rintro ⟨r, hr, hs⟩
    have := h1 r hr
    omega

/-- Membership after `insertFace`. -/
theorem mem_insertFace (faces : List Face) (f g : Face) :
    g ∈ insertFace faces f ↔ g ∈ faces ∨ g = f := by
  unfold insertFace
  split
  · rename_i h
    have hf : f ∈ faces := by simpa using h
    constructor
    · exact Or.inl
    · rintro (h1 | h1)
      · exact h1
      · rw [h1]; exact hf
  · simp

/-- `insertFace` keeps the faces distinct. -/
theorem nodup_insertFace (faces : List Face) (f : Face) (h : faces.Nodup) :
    (insertFace faces f).Nodup := by
  unfold insertFace
  split
  · exact h
  · rename_i hc
    have hf : f ∉ faces := by simpa using hc
    rw [List.nodup_append]
    refine ⟨h, List.nodup_singleton _, ?_⟩
    intro a ha hb
    simp only [List.mem_singleton] at hb
    rw [hb] at ha
    exact hf ha

/-- Inserting the faces of a list of in-records. -/
theorem foldl_insertFace (rs : List InRecord) :
    ∀ faces : List Face,
      (∀ g, g ∈ rs.foldl (fun acc r => insertFace acc r.face) faces ↔
        g ∈ faces ∨ ∃ r ∈ rs, r.face = g) ∧
      (faces.Nodup → (rs.foldl (fun acc r => insertFace acc r.face) faces).Nodup) := by
  induction rs with
  | nil => intro faces; simp
  | cons a rest ih =>
    intro faces
    simp only [List.foldl_cons]
    obtain ⟨h1, h2⟩ := ih (insertFace faces a.face)
    refine ⟨?_, fun hn => h2 (nodup_insertFace _ _ hn)⟩
    intro g
    rw [h1, mem_insertFace]
    constructor
    · rintro ((h | h) | ⟨r, hr, hg⟩)
      · exact Or.inl h
      · exact Or.inr ⟨a, List.mem_cons_self _ _, h.symm⟩
      · exact Or.inr ⟨r, List.mem_cons_of_mem _ hr, hg⟩
    · rintro (h | ⟨r, hr, hg⟩)
      · exact Or.inl (Or.inl h)
      · rcases List.mem_cons.mp hr with h | h
        · exact Or.inl (Or.inr (by rw [← hg, h]))
        · exact Or.inr ⟨r, h, hg⟩

/-- The second half of the loop body of `onIncomingData` (lines 2226-2246) on an entry of
the table: it returns; the other entry objects and the log of Data handed to faces are as
before; with the flag set the entry ends with no in-record and no out-record of the
arrival face; with the flag clear its in-records are as before unless the strategy sends
a Nack. -/
theorem satisfyTail_result (env : Env) (inFace : Face) (s2 : State) (id : Nat)
    (e2 : PitEntry) (flag : Bool) (fr : Int) (hf : findEntry s2 id = some e2) :
    ∃ s3 s4 s6 e6, dispatchToStrategy env s2 .beforeSatisfyInterest id = some s3 ∧
      insertDeadNonceList env s3 id true fr (some inFace) = some s4 ∧
      setStragglerTimer
        (if flag = true then
          modifyEntry s4 id (fun x => deleteOutRecord (clearInRecords x) inFace) else s4)
        id true fr = some s6 ∧
      findEntry s6 id = some e6 ∧
      (∀ j, j ≠ id → findEntry s6 j = findEntry s2 j) ∧
      s6.effects.filter Effect.isData = s2.effects.filter Effect.isData ∧
      (flag = true → e6.inRecords = [] ∧ ∀ r ∈ e6.outRecords, r.face ≠ inFace) ∧
      (flag = false →
        (∀ x, ∀ a ∈ env.strategy .beforeSatisfyInterest x, ∀ g r, a ≠ .sendNack g r) →
        e6.inRecords = e2.inRecords) := by
  obtain ⟨s3, hd⟩ := dispatchToStrategy_total env s2 .beforeSatisfyInterest id ⟨e2, hf⟩
  obtain ⟨e0, he0, hrun⟩ := dispatchToStrategy_eq hd
  rw [hf] at he0
  injection he0 with he0
  subst he0
  have hfr := runStrategyActions_frame _ hrun
  have hfe : findEntry (emit s2 (.strategy .beforeSatisfyInterest id)) id = some e2 := hf
  obtain ⟨e3, hf3, hin3, _⟩ := runStrategyActions_records _ hrun hfe
  have hlog3 : s3.effects.filter Effect.isData = s2.effects.filter Effect.isData := by
    rw [hfr.log _ (fun _ _ => rfl) (fun _ _ => rfl)]
    simp [emit, List.filter_append, List.filter_cons, Effect.isData]
  have hdn := insertDeadNonceList_eq env s3 id e3 true fr (some inFace) hf3
  obtain ⟨s4, hs4⟩ : ∃ s4, s4 = (if needDnl env e3 true fr = true then
      { s3 with m_deadNonceList := s3.m_deadNonceList ++ recordedNonces e3 (some inFace) }
      else s3) := ⟨_, rfl⟩
  rw [← hs4] at hdn
  have hpit4 : s4.m_pit = s3.m_pit := by rw [hs4]; split <;> rfl
  have heff4 : s4.effects = s3.effects := by rw [hs4]; split <;> rfl
  have hfind4 : ∀ j, findEntry s4 j = findEntry s3 j := by
    intro j; unfold findEntry; rw [hpit4]
  obtain ⟨s5, hs5⟩ : ∃ s5, s5 = (if flag = true then
      modifyEntry s4 id (fun x => deleteOutRecord (clearInRecords x) inFace) else s4) :=
    ⟨_, rfl⟩
  have hf5 : findEntry s5 id = some (if flag = true then
      deleteOutRecord (clearInRecords e3) inFace else e3) := by
    rw [hs5]
    split
    · rw [findEntry_modifyEntry]
      · rw [hfind4, hf3]; rfl
      · intro x; rfl
    · rw [hfind4, hf3]
  have hoth5 : ∀ j, j ≠ id → findEntry s5 j = findEntry s3 j := by
    intro j hj
    rw [hs5]
    split
    · refine (findEntry_modifyEntry_ne _ id j _ ?_ hj).trans (hfind4 j)
      intro x; rfl
    · exact hfind4 j
  have heff5 : s5.effects = s3.effects := by
    rw [hs5]
    split
    · exact heff4
    · exact heff4
  have hst := setStragglerTimer_eq s5 id _ true fr hf5
  obtain ⟨s6, hset⟩ : ∃ s6, setStragglerTimer s5 id true fr = some s6 := ⟨_, hst⟩
  have hs6 := hst
  rw [hset] at hs6
  injection hs6 with hs6
  have hf6 : findEntry s6 id = some { (if flag = true then
      deleteOutRecord (clearInRecords e3) inFace else e3) with
      m_stragglerTimer := some s5.nextEventId } := by
    rw [hs6, findEntry_modifyEntry]
    · show Option.map _ (findEntry s5 id) = _
      rw [hf5]
      rfl
    · intro x; rfl
  refine ⟨s3, s4, s6, _, hd, hdn, ?_, hf6, ?_, ?_, ?_, ?_⟩
  · rw [← hs5]; exact hset
  · intro j hj
    rw [hs6]
    refine (findEntry_modifyEntry_ne _ id j _ ?_ hj).trans ?_
    · intro x; rfl
    · show findEntry s5 j = _
      rw [hoth5 j hj]
      exact hfr.others j hj
  · rw [← hlog3, ← heff5, hs6]
    rfl
  · intro hflag
    subst hflag
    simp only [if_true, clearInRecords, deleteOutRecord, List.filter_nil, true_and]
    intro r hr
    have := (List.mem_filter.mp hr).2
    simpa using this
  · intro hflag hno
    subst hflag
    simp only [Bool.false_eq_true, if_false]
    exact hin3 (hno e2)

/-- One iteration of the loop of `onIncomingData` on an entry of the table. -/
theorem satisfyEntry_result (env : Env) (inFace : Face) (l : DataLoop) (id : Nat)
    (e : PitEntry) (hf : findEntry l.state id = some e) :
    ∃ l1 e1, satisfyEntry env inFace l id = some l1 ∧ findEntry l1.state id = some e1 ∧
      (∀ j, j ≠ id → findEntry l1.state j = findEntry l.state j) ∧
      (∀ g, g ∈ l1.pendingDownstreams ↔
        g ∈ l.pendingDownstreams ∨ selectsDownstream env e g = true) ∧
      (l.pendingDownstreams.Nodup → l1.pendingDownstreams.Nodup) ∧
      l1.state.effects.filter Effect.isData = l.state.effects.filter Effect.isData ∧
      l1.data = (if (decide (env.choiceType = 4) && l.updateControlFlag) = true then
        updateControl env l.data else l.data) ∧
      l1.updateControlFlag = (if (decide (env.choiceType = 4) && l.updateControlFlag) = true
        then false else l.updateControlFlag) ∧
      l1.pitSatisfyFlag =
        (if (maxSequence e.inRecords).1 > 1 then false else l.pitSatisfyFlag) ∧
      (∀ f, (maxSequence e.inRecords).1 > 1 → (maxSequence e.inRecords).2 = some f →
        l1.pendingDownstreams = insertFace l.pendingDownstreams f ∧
        ((∀ x, ∀ a ∈ env.strategy .beforeSatisfyInterest x, ∀ g r, a ≠ .sendNack g r) →
          e1.inRecords = e.inRecords.filter (fun x => x.face != f))) ∧
      (l1.pitSatisfyFlag = true → e1.inRecords = [] ∧ ∀ r ∈ e1.outRecords, r.face ≠ inFace) := by
  have hf0 := hf
  unfold findEntry at hf0
  obtain ⟨sc, hc⟩ : ∃ sc, cancelUnsatisfyAndStragglerTimer l.state id = some sc := by
    simp [cancelUnsatisfyAndStragglerTimer, findEntry, hf0]
  obtain ⟨e0, hf1, hsc⟩ := cancelBoth_eq hc
  have hpit : sc.m_pit = l.state.m_pit := by rw [hsc]
  have heff : sc.effects = l.state.effects := by rw [hsc]
  have hfind : ∀ j, findEntry sc j = findEntry l.state j := by
    intro j; unfold findEntry; rw [hpit]
  have hfc : findEntry sc id = some e := by rw [hfind]; exact hf
  by_cases hms : (maxSequence e.inRecords).1 > 1
  · obtain ⟨r, hr, hface, hseq⟩ := (maxSequence_spec e.inRecords).2 hms
    have hf2 : findEntry (modifyEntry sc id (fun x => deleteInRecord x r.face)) id =
        some (deleteInRecord e r.face) := by
      rw [findEntry_modifyEntry]
      · rw [hfc]; rfl
      · intro x; rfl
    obtain ⟨s3, s4, s6, e6, hd, hdn, hset, hf6, hoth, hlog, _, hin⟩ :=
      satisfyTail_result env inFace _ id _ false
        (if (decide (env.choiceType = 4) && l.updateControlFlag) = true then
          updateControl env l.data else l.data).freshnessPeriod hf2
    simp only [Bool.false_eq_true, if_false] at hset
    refine ⟨DataLoop.mk s6
      (if (decide (env.choiceType = 4) && l.updateControlFlag) = true then
        updateControl env l.data else l.data)
      (insertFace l.pendingDownstreams r.face) false
      (if (decide (env.choiceType = 4) && l.updateControlFlag) = true then false
        else l.updateControlFlag), e6, ?_, hf6, ?_, ?_, ?_, ?_, rfl, rfl, ?_, ?_, ?_⟩
    · unfold satisfyEntry
      simp only [hc, hfc, hms, if_true, hface, hd, hdn, Bool.false_eq_true, if_false, hset]
    · intro j hj
      rw [hoth j hj]
      refine (findEntry_modifyEntry_ne _ id j _ ?_ hj).trans (hfind j)
      intro x; rfl
    · intro g
      simp only [mem_insertFace, selectsDownstream, hms, if_true, hface, beq_iff_eq,
        Option.some.injEq]
      constructor
      · rintro (h | h)
        · exact Or.inl h
        · exact Or.inr h.symm
      · rintro (h | h)
        · exact Or.inl h
        · exact Or.inr h.symm
    · exact nodup_insertFace _ _
    · rw [hlog]
      show sc.effects.filter _ = _
      rw [heff]
    · simp only [hms, if_true]
    · intro f _ hf'
      rw [hface] at hf'
      injection hf' with hf'
      subst hf'
      exact ⟨rfl, fun hno => hin rfl hno⟩
    · intro h
      exact absurd h (by simp)
  · obtain ⟨s3, s4, s6, e6, hd, hdn, hset, hf6, hoth, hlog, hclear, _⟩ :=
      satisfyTail_result env inFace sc id e l.pitSatisfyFlag
        (if (decide (env.choiceType = 4) && l.updateControlFlag) = true then
          updateControl env l.data else l.data).freshnessPeriod hfc
    refine ⟨DataLoop.mk s6
      (if (decide (env.choiceType = 4) && l.updateControlFlag) = true then
        updateControl env l.data else l.data)
      ((e.inRecords.filter (fun r => decide (r.expiry > env.now))).foldl
        (fun acc r => insertFace acc r.face) l.pendingDownstreams) l.pitSatisfyFlag
      (if (decide (env.choiceType = 4) && l.updateControlFlag) = true then false
        else l.updateControlFlag), e6, ?_, hf6, ?_, ?_, ?_, ?_, rfl, rfl, ?_, ?_, ?_⟩
    · unfold satisfyEntry
      simp only [hc, hfc, hms, if_false, hd, hdn, hset]
    · intro j hj
      rw [hoth j hj]
      exact hfind j
    · intro g
      simp only [selectsDownstream, hms, if_false]
      rw [(foldl_insertFace _ _).1 g]
      simp only [List.mem_filter, List.any_eq_true, Bool.and_eq_true, decide_eq_true_eq,
        beq_iff_eq]
      constructor
      · rintro (h | ⟨r, ⟨hr, hexp⟩, hg⟩)
        · exact Or.inl h
        · exact Or.inr ⟨r, hr, hexp, hg⟩
      · rintro (h | ⟨r, hr, hexp, hg⟩)
        · exact Or.inl h
        · exact Or.inr ⟨r, ⟨hr, hexp⟩, hg⟩
    · exact (foldl_insertFace _ _).2
    · rw [hlog, heff]
    · simp only [hms, if_false]
    · intro f h
      exact absurd h hms
    · exact hclear

/-- The loop of `onIncomingData` over distinct entries of the table: it returns; the
entry objects outside the matches and the log of Data handed to faces are as before; the
pending downstreams are distinct and are those selected for one of the matches; the
Data is updated at most once, in the first iteration. -/
theorem satisfyEntries_result (env : Env) (inFace : Face) (ids : List Nat) :
    ∀ l : DataLoop, ids.Nodup → (∀ id ∈ ids, ∃ e, findEntry l.state id = some e) →
      ∃ l1, satisfyEntries env inFace l ids = some l1 ∧
        (∀ j, j ∉ ids → findEntry l1.state j = findEntry l.state j) ∧
        (∀ g, g ∈ l1.pendingDownstreams ↔ g ∈ l.pendingDownstreams ∨
          ∃ id ∈ ids, ∃ e, findEntry l.state id = some e ∧ selectsDownstream env e g = true) ∧
        (l.pendingDownstreams.Nodup → l1.pendingDownstreams.Nodup) ∧
        l1.state.effects.filter Effect.isData = l.state.effects.filter Effect.isData ∧
        ((decide (env.choiceType = 4) && l.updateControlFlag) = false →
          l1.data = l.data ∧ l1.updateControlFlag = l.updateControlFlag) ∧
        (ids ≠ [] → l1.data =
          (if (decide (env.choiceType = 4) && l.updateControlFlag) = true then
            updateControl env l.data else l.data)) := by
  induction ids with
  | nil =>
    intro l _ _
    refine ⟨l, rfl, fun _ _ => rfl, ?_, fun h => h, rfl, fun _ => ⟨rfl, rfl⟩,
      fun h => absurd rfl h⟩
    intro g
    simp
  | cons id0 rest ih =>
    intro l hnd hall
    obtain ⟨e0, he0⟩ := hall id0 (List.mem_cons_self _ _)
    obtain ⟨l', e0', h1, hf', hoth, hpend, hnodup, hlog, hdata, hucf, _⟩ :=
      satisfyEntry_result env inFace l id0 e0 he0
    have hnd' := List.nodup_cons.mp hnd
    have hne : ∀ id ∈ rest, id ≠ id0 := fun id hid h => hnd'.1 (h ▸ hid)
    have hall' : ∀ id ∈ rest, ∃ e, findEntry l'.state id = some e := by
      intro id hid
      rw [hoth id (hne id hid)]
      exact hall id (List.mem_cons_of_mem _ hid)
    obtain ⟨l1, h2, hoth2, hpend2, hnodup2, hlog2, hdata2, _⟩ := ih l' hnd'.2 hall'
    have hc' : (decide (env.choiceType = 4) && l'.updateControlFlag) = false := by
      rw [hucf]
      cases hcc : (decide (env.choiceType = 4) && l.updateControlFlag) with
      | false => simpa using hcc
      | true => simp
    obtain ⟨hd1, hu1⟩ := hdata2 hc'
    refine ⟨l1, by simp [satisfyEntries, h1, h2], ?_, ?_, fun h => hnodup2 (hnodup h),
      hlog2.trans hlog, ?_, ?_⟩
    · intro j hj
      simp only [List.mem_cons, not_or] at hj
      rw [hoth2 j hj.2, hoth j hj.1]
    · intro g
      rw [hpend2 g, hpend g]
      constructor
      · rintro ((h | h) | ⟨id, hid, e, he, hs⟩)
        · exact Or.inl h
        · exact Or.inr ⟨id0, List.mem_cons_self _ _, e0, he0, h⟩
        · rw [hoth id (hne id hid)] at he
          exact Or.inr ⟨id, List.mem_cons_of_mem _ hid, e, he, hs⟩
      · rintro (h | ⟨id, hid, e, he, hs⟩)
        · exact Or.inl (Or.inl h)
        · rcases List.mem_cons.mp hid with h | h
          · subst h
            rw [he0] at he
            injection he with he
            subst he
            exact Or.inl (Or.inr hs)
          · refine Or.inr ⟨id, h, e, ?_, hs⟩
            rw [hoth id (hne id h)]
            exact he
    · intro hc
      rw [hd1, hu1, hdata, hucf]
      simp [hc]
    · intro _
      rw [hd1, hdata]

/-- The loop of `onIncomingData`: the matched entries afterwards. An entry with a
sequence number above 1 has lost the in-record of the saved face only, unless the
strategy sends a Nack; when no entry of the loop has a sequence number above 1 and the
flag is set, every entry ends with no in-record and no out-record of the arrival face. -/
theorem satisfyEntries_entries (env : Env) (inFace : Face) (ids : List Nat) :
    ∀ l l1 : DataLoop, ids.Nodup → (∀ id ∈ ids, ∃ e, findEntry l.state id = some e) →
      satisfyEntries env inFace l ids = some l1 →
      ∀ id ∈ ids, ∀ e, findEntry l.state id = some e →
        ∃ e1, findEntry l1.state id = some e1 ∧
          (∀ f, (maxSequence e.inRecords).1 > 1 → (maxSequence e.inRecords).2 = some f →
            (∀ x, ∀ a ∈ env.strategy .beforeSatisfyInterest x, ∀ g r, a ≠ .sendNack g r) →
            e1.inRecords = e.inRecords.filter (fun x => x.face != f)) ∧
          (l.pitSatisfyFlag = true →
            (∀ id' ∈ ids, ∀ e', findEntry l.state id' = some e' →
              (maxSequence e'.inRecords).1 ≤ 1) →
            e1.inRecords = [] ∧ ∀ r ∈ e1.outRecords, r.face ≠ inFace) := by
  induction ids with
  | nil => intro l l1 _ _ _ id hid; simp at hid
  | cons id0 rest ih =>
    intro l l1 hnd hall h id hid e he
    have hnd' := List.nodup_cons.mp hnd
    have hne : ∀ id ∈ rest, id ≠ id0 := fun id hid h => hnd'.1 (h ▸ hid)
    obtain ⟨e0, hf0⟩ := hall id0 (List.mem_cons_self _ _)
    obtain ⟨l', e0', h1, hf', hoth, _, _, _, _, _, hflag, halt, hclear⟩ :=
      satisfyEntry_result env inFace l id0 e0 hf0
    simp only [satisfyEntries, h1] at h
    have hall' : ∀ id ∈ rest, ∃ e, findEntry l'.state id = some e := by
      intro id hid
      rw [hoth id (hne id hid)]
      exact hall id (List.mem_cons_of_mem _ hid)
    obtain ⟨l1', h2, hoth2, _⟩ := satisfyEntries_result env inFace rest l' hnd'.2 hall'
    rw [h] at h2
    injection h2 with h2
    subst h2
    rcases List.mem_cons.mp hid with hid0 | hidr
    · subst hid0
      rw [hf0] at he
      injection he with he
      subst he
      refine ⟨e0', ?_, ?_, ?_⟩
      · rw [hoth2 id hnd'.1]; exact hf'
      · intro f hms hface hno
        exact (halt f hms hface).2 hno
      · intro hfl hdef
        have h0 := hdef id (List.mem_cons_self _ _) e0 hf0
        apply hclear
        rw [hflag, if_neg (by omega)]
        exact hfl
    · have he' : findEntry l'.state id = some e := by
        rw [hoth id (hne id hidr)]; exact he
      obtain ⟨e1, hf1, hA, hB⟩ := ih l' l1 hnd'.2 hall' h id hidr e he'
      refine ⟨e1, hf1, hA, ?_⟩
      intro hfl hdef
      apply hB
      · have h0 := hdef id0 (List.mem_cons_self _ _) e0 hf0
        rw [hflag, if_neg (by omega)]
        exact hfl
      · intro id' hid' e' he''
        rw [hoth id' (hne id' hid')] at he''
        exact hdef id' (List.mem_cons_of_mem _ hid') e' he''

/-- Handing the Data to the pending downstreams touches neither the PIT nor the
scheduler. -/
theorem foldl_onOutgoingData_tables (env : Env) (data : Data) (faces : List Face) :
    ∀ s : State,
      (faces.foldl (fun st face => onOutgoingData env st data face) s).m_pit = s.m_pit ∧
      (faces.foldl (fun st face => onOutgoingData env st data face) s).events = s.events := by
  induction faces with
  | nil => intro s; exact ⟨rfl, rfl⟩
  | cons f rest ih =>
    intro s
    simp only [List.foldl_cons]
    obtain ⟨h1, h2⟩ := ih (onOutgoingData env s data f)
    obtain ⟨h3, h4⟩ := onOutgoingData_tables env s data f
    exact ⟨h1.trans h3, h2.trans h4⟩

/-- `onIncomingData` on a Data that does not violate the `/localhost` scope, passes the
overlay and matches an entry, under the table invariant: the loop over the matches runs
from a state with the same PIT and the same log of Data handed to faces, it returns, and
the Data it leaves is handed to each of its pending downstreams in turn. -/
theorem onIncomingData_matched (env : Env) (s : State) (inFace : Face) (data0 data : Data)
    (hi : Inv s)
    (hscope : ¬ (inFace.scope = .FACE_SCOPE_NON_LOCAL ∧ underLocalhost data0.name = true))
    (hov : env.dataOverlay { data0 with incomingFaceIdTag := some inFace.id } = some data)
    (hm : ∃ e ∈ s.m_pit, env.matchesData e data = true) :
    ∃ s1 l, s1.m_pit = s.m_pit ∧
      s1.effects.filter Effect.isData = s.effects.filter Effect.isData ∧
      ((s.m_pit.filter (fun e => env.matchesData e data)).map (fun e => e.id)).Nodup ∧
      satisfyEntries env inFace (DataLoop.mk s1 data [] true true)
        ((s.m_pit.filter (fun e => env.matchesData e data)).map (fun e => e.id)) = some l ∧
      onIncomingData env s inFace data0 =
        some (l.pendingDownstreams.foldl (fun st face => onOutgoingData env st l.data face)
          l.state) := by
  have hsc : (decide (inFace.scope = FaceScope.FACE_SCOPE_NON_LOCAL) &&
      underLocalhost data0.name) = false := by
    cases hd : decide (inFace.scope = FaceScope.FACE_SCOPE_NON_LOCAL) with
    | false => rfl
    | true =>
      cases hu : underLocalhost data0.name with
      | false => rfl
      | true => exact absurd ⟨of_decide_eq_true hd, hu⟩ hscope
  have hne : (s.m_pit.filter (fun e => env.matchesData e data)).isEmpty = false := by
    obtain ⟨e, he, hmatch⟩ := hm
    have : e ∈ s.m_pit.filter (fun e => env.matchesData e data) :=
      List.mem_filter.mpr ⟨he, hmatch⟩
    cases hl : s.m_pit.filter (fun e => env.matchesData e data) with
    | nil => rw [hl] at this; simp at this
    | cons a rest => rfl
  have hnd : ((s.m_pit.filter (fun e => env.matchesData e data)).map (fun e => e.id)).Nodup := by
    have h0 : (s.m_pit.map (fun x => x.id)).Nodup := by
      have := hi.idsNodup
      simpa [State.view, List.map_map, Function.comp_def, PitEntry.skel] using this
    exact List.Nodup.sublist (List.Sublist.map _ (List.filter_sublist _)) h0
  obtain ⟨s1, hs1⟩ : ∃ s1 : State, s1 = emit
      { s with m_counters := { s.m_counters with nInData := s.m_counters.nInData + 1 } }
      (.csInsert { data with hopCountTag := none }
        (((s.m_pit.filter (fun e => env.matchesData e data)).flatMap
          (fun e => e.outRecords)).getLast?.map
            (fun r => Int.tdiv (env.now - r.lastRenewed) 2))
        (((s.m_pit.filter (fun e => env.matchesData e data)).flatMap
          (fun e => e.outRecords)).getLast?.map (fun _ => env.now))) := ⟨_, rfl⟩
  have hpit : s1.m_pit = s.m_pit := by rw [hs1]; rfl
  have hlog : s1.effects.filter Effect.isData = s.effects.filter Effect.isData := by
    rw [hs1]
    simp [emit, List.filter_append, List.filter_cons, Effect.isData]
  have hall : ∀ id ∈ (s.m_pit.filter (fun e => env.matchesData e data)).map (fun e => e.id),
      ∃ e, findEntry (DataLoop.mk s1 data [] true true).state id = some e := by
    intro id hid
    obtain ⟨e, he, rfl⟩ := List.mem_map.mp hid
    have hmem := (List.mem_filter.mp he).1
    refine ⟨e, ?_⟩
    have := findEntry_of_mem hi hmem
    unfold findEntry at this ⊢
    show s1.m_pit.find? _ = _
    rw [hpit]
    exact this
  obtain ⟨l, hl, _⟩ := satisfyEntries_result env inFace _ (DataLoop.mk s1 data [] true true)
    hnd hall
  refine ⟨s1, l, hpit, hlog, hnd, hl, ?_⟩
  unfold onIncomingData
  simp only [hsc, hov, hne, Bool.false_eq_true, if_false]
  rw [← hs1, hl]

/-- The entries found by the identities of the matches are the matches. -/
theorem matched_entry_iff (env : Env) (s s1 : State) (data : Data) (hi : Inv s)
    (hpit : s1.m_pit = s.m_pit) (P : PitEntry → Prop) :
    (∃ id ∈ (s.m_pit.filter (fun e => env.matchesData e data)).map (fun e => e.id),
      ∃ e, findEntry s1 id = some e ∧ P e) ↔
    ∃ e ∈ s.m_pit, env.matchesData e data = true ∧ P e := by
  have hfind : ∀ e ∈ s.m_pit, findEntry s1 e.id = some e := by
    intro e he
    have := findEntry_of_mem hi he
    unfold findEntry at this ⊢
    rw [hpit]
    exact this
  constructor
  · rintro ⟨id, hid, e, he, hp⟩
    obtain ⟨e0, he0, rfl⟩ := List.mem_map.mp hid
    obtain ⟨hmem, hmatch⟩ := List.mem_filter.mp he0
    rw [hfind e0 hmem] at he
    injection he with he
    subst he
    exact ⟨e0, hmem, hmatch, hp⟩
  · rintro ⟨e, he, hmatch, hp⟩
    exact ⟨e.id, List.mem_map.mpr ⟨e, List.mem_filter.mpr ⟨he, hmatch⟩, rfl⟩, e,
      hfind e he, hp⟩

/-- C12 (downstreams of the default policy). In a reachable state, let a Data arrive
that does not violate the `/localhost` scope, passes the overlay and matches at least
one PIT entry, where no in-record of a matched entry has a sequence number above 1.
Then `onIncomingData` returns, and the only Data it hands to faces are handed after the
loop over the matches, by one call of `onOutgoingData` for each face of a list `faces`
with the Data left by the loop: the faces of the list are distinct, and a face is in it
exactly when it holds, on at least one matched entry, an in-record whose expiry is later
than the current time. -/
theorem data_handed_once_per_pending_face (env : Env) (s : State) (inFace : Face)
    (data0 data : Data) (hr : Reachable s)
    (hscope : ¬ (inFace.scope = .FACE_SCOPE_NON_LOCAL ∧ underLocalhost data0.name = true))
    (hov : env.dataOverlay { data0 with incomingFaceIdTag := some inFace.id } = some data)
    (hm : ∃ e ∈ s.m_pit, env.matchesData e data = true)
    (hdef : ∀ e ∈ s.m_pit, env.matchesData e data = true →
      ∀ r ∈ e.inRecords, r.sequenceNumber ≤ 1) :
    ∃ (faces : List Face) (sL : State) (dataOut : Data),
      onIncomingData env s inFace data0 =
        some (faces.foldl (fun st face => onOutgoingData env st dataOut face) sL) ∧
      sL.effects.filter Effect.isData = s.effects.filter Effect.isData ∧
      faces.Nodup ∧
      (∀ f, f ∈ faces ↔ ∃ e ∈ s.m_pit, env.matchesData e data = true ∧
        ∃ r ∈ e.inRecords, r.expiry > env.now ∧ r.face = f) ∧
      dataOut = (if env.choiceType = 4 then updateControl env data else data) := by
  have hi := inv_of_reachable hr
  obtain ⟨s1, l, hpit, hlog, hnd, hl, hres⟩ :=
    onIncomingData_matched env s inFace data0 data hi hscope hov hm
  have hall : ∀ id ∈ (s.m_pit.filter (fun e => env.matchesData e data)).map (fun e => e.id),
      ∃ e, findEntry (DataLoop.mk s1 data [] true true).state id = some e := by
    intro id hid
    obtain ⟨e, he, rfl⟩ := List.mem_map.mp hid
    refine ⟨e, ?_⟩
    have := findEntry_of_mem hi (List.mem_filter.mp he).1
    unfold findEntry at this ⊢
    show s1.m_pit.find? _ = _
    rw [hpit]
    exact this
  obtain ⟨l', hl', _, hpend, hnodup, hlog2, _, hdata⟩ :=
    satisfyEntries_result env inFace _ (DataLoop.mk s1 data [] true true) hnd hall
  rw [hl] at hl'
  injection hl' with hl'
  subst hl'
  refine ⟨l.pendingDownstreams, l.state, l.data, hres, hlog2.trans hlog,
    hnodup List.nodup_nil, ?_, ?_⟩
  · intro f
    rw [hpend f]
    simp only [List.not_mem_nil, false_or]
    rw [matched_entry_iff env s s1 data hi hpit (fun e => selectsDownstream env e f = true)]
    constructor
    · rintro ⟨e, he, hmatch, hsel⟩
      have hle : ¬ (maxSequence e.inRecords).1 > 1 := by
        intro hgt
        obtain ⟨r, hr1, hr2⟩ := (maxSequence_gt_iff _).mp hgt
        have := hdef e he hmatch r hr1
        omega
      simp only [selectsDownstream, hle, if_false, List.any_eq_true, Bool.and_eq_true,
        decide_eq_true_eq, beq_iff_eq] at hsel
      exact ⟨e, he, hmatch, hsel⟩
    · rintro ⟨e, he, hmatch, hsel⟩
      have hle : ¬ (maxSequence e.inRecords).1 > 1 := by
        intro hgt
        obtain ⟨r, hr1, hr2⟩ := (maxSequence_gt_iff _).mp hgt
        have := hdef e he hmatch r hr1
        omega
      refine ⟨e, he, hmatch, ?_⟩
      simp only [selectsDownstream, hle, if_false, List.any_eq_true, Bool.and_eq_true,
        decide_eq_true_eq, beq_iff_eq]
      exact hsel
  · have hne : (s.m_pit.filter (fun e => env.matchesData e data)).map (fun e => e.id) ≠ [] := by
      obtain ⟨e, he, hmatch⟩ := hm
      intro h
      have : e.id ∈ (s.m_pit.filter (fun e => env.matchesData e data)).map (fun e => e.id) :=
        List.mem_map.mpr ⟨e, List.mem_filter.mpr ⟨he, hmatch⟩, rfl⟩
      rw [h] at this
      simp at this
    rw [hdata hne]
    simp

/-- Witness for `data_handed_once_per_pending_face`: the Data of the sample run arrives
after the two Interests. -/
theorem data_handed_once_per_pending_face_witness :
    ∃ (faces : List Face) (sL : State) (dataOut : Data),
      onIncomingData (sampleEnv 2) samplePending (sampleFace 3) sampleData =
        some (faces.foldl (fun st face => onOutgoingData (sampleEnv 2) st dataOut face) sL) ∧
      sL.effects.filter Effect.isData = samplePending.effects.filter Effect.isData ∧
      faces.Nodup ∧
      (∀ f, f ∈ faces ↔ ∃ e ∈ samplePending.m_pit,
        (sampleEnv 2).matchesData e { sampleData with incomingFaceIdTag := some 3 } = true ∧
        ∃ r ∈ e.inRecords, r.expiry > (sampleEnv 2).now ∧ r.face = f) ∧
      dataOut = (if (sampleEnv 2).choiceType = 4 then
        updateControl (sampleEnv 2) { sampleData with incomingFaceIdTag := some 3 }
        else { sampleData with incomingFaceIdTag := some 3 }) :=
  data_handed_once_per_pending_face (sampleEnv 2) samplePending (sampleFace 3) sampleData
    { sampleData with incomingFaceIdTag := some 3 } ⟨sampleTrace.take 2, by decide⟩
    (by decide) rfl (by decide) (by decide)

/-- Removing the in-record of a face from a collection with one in-record per face
removes that in-record only. -/
theorem filter_face_eq_erase (l : List InRecord) (r : InRecord) (hr : r ∈ l)
    (hn : (l.map (fun x => x.face)).Nodup) :
    l.filter (fun x => x.face != r.face) = l.erase r := by
  induction l with
  | nil => simp at hr
  | cons a rest ih =>
    have hn' := List.nodup_cons.mp hn
    by_cases ha : a = r
    · subst ha
      have : rest.filter (fun x => x.face != a.face) = rest := by
        apply List.filter_eq_self.mpr
        intro x hx
        simp only [bne_iff_ne, ne_eq]
        intro hxa
        exact hn'.1 (List.mem_map.mpr ⟨x, hx, hxa⟩)
      simp [List.filter_cons, this]
    · have hr' : r ∈ rest := by
        rcases List.mem_cons.mp hr with h | h
        · exact absurd h.symm ha
        · exact h
      have hne : a.face ≠ r.face := by
        intro h
        exact hn'.1 (List.mem_map.mpr ⟨r, hr', h.symm⟩)
      have hb : (a == r) = false := by simpa using ha
      simp only [List.filter_cons, bne_iff_ne, ne_eq, hne, not_false_eq_true, decide_True,
        if_true, List.erase_cons, hb, Bool.false_eq_true, if_false]
      rw [ih hr' hn'.2]

/-- C13 (alternate policy). In a reachable state, let a Data arrive that does not violate
the `/localhost` scope and passes the overlay, and let `e` be a matched entry in which
some in-record has a sequence number above 1, with a strategy that sends no Nack at
`beforeSatisfyInterest`. Then `onIncomingData` returns and hands the Data to the faces
selected for the matched entries; for `e` the only face selected is the face of an
in-record `r` that holds the largest sequence number of the entry; afterwards the
in-records of `e` are those it had on other faces than that of `r`, in place, which is
the collection without `r` when it holds one in-record per face. -/
theorem highest_sequence_in_record_only (env : Env) (s : State) (inFace : Face)
    (data0 data : Data) (e : PitEntry) (hr : Reachable s)
    (hscope : ¬ (inFace.scope = .FACE_SCOPE_NON_LOCAL ∧ underLocalhost data0.name = true))
    (hov : env.dataOverlay { data0 with incomingFaceIdTag := some inFace.id } = some data)
    (he : e ∈ s.m_pit) (hmatch : env.matchesData e data = true)
    (hseq : ∃ r ∈ e.inRecords, r.sequenceNumber > 1)
    (hno : ∀ x, ∀ a ∈ env.strategy .beforeSatisfyInterest x, ∀ g n, a ≠ .sendNack g n) :
    ∃ (faces : List Face) (sL : State) (dataOut : Data) (e1 : PitEntry) (r : InRecord),
      onIncomingData env s inFace data0 =
        some (faces.foldl (fun st face => onOutgoingData env st dataOut face) sL) ∧
      (∀ f, f ∈ faces ↔
        ∃ e' ∈ s.m_pit, env.matchesData e' data = true ∧ selectsDownstream env e' f = true) ∧
      r ∈ e.inRecords ∧ r.sequenceNumber > 1 ∧
      (∀ x ∈ e.inRecords, x.sequenceNumber ≤ r.sequenceNumber) ∧
      (∀ f, selectsDownstream env e f = true ↔ f = r.face) ∧
      findEntry (faces.foldl (fun st face => onOutgoingData env st dataOut face) sL) e.id =
        some e1 ∧
      e1.inRecords = e.inRecords.filter (fun x => x.face != r.face) ∧
      ((e.inRecords.map (fun x => x.face)).Nodup → e1.inRecords = e.inRecords.erase r) := by
  have hi := inv_of_reachable hr
  obtain ⟨s1, l, hpit, hlog, hnd, hl, hres⟩ :=
    onIncomingData_matched env s inFace data0 data hi hscope hov ⟨e, he, hmatch⟩
  have hfind : ∀ x ∈ s.m_pit, findEntry s1 x.id = some x := by
    intro x hx
    have := findEntry_of_mem hi hx
    unfold findEntry at this ⊢
    rw [hpit]
    exact this
  have hall : ∀ id ∈ (s.m_pit.filter (fun e => env.matchesData e data)).map (fun e => e.id),
      ∃ e, findEntry (DataLoop.mk s1 data [] true true).state id = some e := by
    intro id hid
    obtain ⟨x, hx, rfl⟩ := List.mem_map.mp hid
    exact ⟨x, hfind x (List.mem_filter.mp hx).1⟩
  obtain ⟨l', hl', _, hpend, _⟩ :=
    satisfyEntries_result env inFace _ (DataLoop.mk s1 data [] true true) hnd hall
  rw [hl] at hl'
  injection hl' with hl'
  subst hl'
  have hms := (maxSequence_gt_iff e.inRecords).mpr hseq
  obtain ⟨hmax, hex⟩ := maxSequence_spec e.inRecords
  obtain ⟨r, hrm, hface, hrs⟩ := hex hms
  have hid : e.id ∈ (s.m_pit.filter (fun e => env.matchesData e data)).map (fun e => e.id) :=
    List.mem_map.mpr ⟨e, List.mem_filter.mpr ⟨he, hmatch⟩, rfl⟩
  obtain ⟨e1, hf1, hA, _⟩ := satisfyEntries_entries env inFace _
    (DataLoop.mk s1 data [] true true) l hnd hall hl e.id hid e (hfind e he)
  have hin := hA r.face hms hface hno
  refine ⟨l.pendingDownstreams, l.state, l.data, e1, r, hres, ?_, hrm, by omega, ?_, ?_, ?_,
    hin, ?_⟩
  · intro f
    rw [hpend f]
    simp only [List.not_mem_nil, false_or]
    exact matched_entry_iff env s s1 data hi hpit (fun e => selectsDownstream env e f = true)
  · intro x hx
    rw [hrs]
    exact hmax x hx
  · intro f
    simp only [selectsDownstream, hms, if_true, hface, beq_iff_eq, Option.some.injEq]
    exact eq_comm
  · unfold findEntry
    rw [(foldl_onOutgoingData_tables env l.data l.pendingDownstreams l.state).1]
    exact hf1
  · intro hn
    rw [hin]
    exact filter_face_eq_erase _ _ hrm hn

/-- Witness for `highest_sequence_in_record_only`: Data `/x` arrives on face 3 for the
entries of `sequenceState`; the first entry holds the in-record of face 1 with sequence
number 2. -/
theorem highest_sequence_in_record_only_witness :
    ∃ (faces : List Face) (sL : State) (dataOut : Data) (e1 : PitEntry) (r : InRecord),
      onIncomingData (sequenceEnv 2) sequenceState (sampleFace 3) sampleData =
        some (faces.foldl (fun st face => onOutgoingData (sequenceEnv 2) st dataOut face) sL) ∧
      (∀ f, f ∈ faces ↔ ∃ e' ∈ sequenceState.m_pit,
        (sequenceEnv 2).matchesData e' { sampleData with incomingFaceIdTag := some 3 } = true ∧
        selectsDownstream (sequenceEnv 2) e' f = true) ∧
      r ∈ sequenceEntry.inRecords ∧ r.sequenceNumber > 1 ∧
      (∀ x ∈ sequenceEntry.inRecords, x.sequenceNumber ≤ r.sequenceNumber) ∧
      (∀ f, selectsDownstream (sequenceEnv 2) sequenceEntry f = true ↔ f = r.face) ∧
      findEntry (faces.foldl (fun st face => onOutgoingData (sequenceEnv 2) st dataOut face)
        sL) sequenceEntry.id = some e1 ∧
      e1.inRecords = sequenceEntry.inRecords.filter (fun x => x.face != r.face) ∧
      ((sequenceEntry.inRecords.map (fun x => x.face)).Nodup →
        e1.inRecords = sequenceEntry.inRecords.erase r) :=
  highest_sequence_in_record_only (sequenceEnv 2) sequenceState (sampleFace 3) sampleData
    { sampleData with incomingFaceIdTag := some 3 } sequenceEntry ⟨sequenceTrace, by decide⟩
    (by decide) rfl (by decide) (by decide) (by decide) (by
      intro x a ha
      simp [sequenceEnv, sampleEnv] at ha)

/-- When no in-record of a matched entry has a sequence number above 1, every matched
entry ends with no in-record and no out-record of the arrival face. -/
theorem satisfied_entries_cleared (env : Env) (s : State) (inFace : Face)
    (data0 data : Data) (hr : Reachable s)
    (hscope : ¬ (inFace.scope = .FACE_SCOPE_NON_LOCAL ∧ underLocalhost data0.name = true))
    (hov : env.dataOverlay { data0 with incomingFaceIdTag := some inFace.id } = some data)
    (hm : ∃ e ∈ s.m_pit, env.matchesData e data = true)
    (hdef : ∀ e ∈ s.m_pit, env.matchesData e data = true →
      ∀ r ∈ e.inRecords, r.sequenceNumber ≤ 1) :
    ∃ s1, onIncomingData env s inFace data0 = some s1 ∧
      ∀ e ∈ s.m_pit, env.matchesData e data = true →
        ∃ e1, findEntry s1 e.id = some e1 ∧ e1.inRecords = [] ∧
          ∀ r ∈ e1.outRecords, r.face ≠ inFace := by
  have hi := inv_of_reachable hr
  obtain ⟨s1, l, hpit, hlog, hnd, hl, hres⟩ :=
    onIncomingData_matched env s inFace data0 data hi hscope hov hm
  have hfind : ∀ x ∈ s.m_pit, findEntry s1 x.id = some x := by
    intro x hx
    have := findEntry_of_mem hi hx
    unfold findEntry at this ⊢
    rw [hpit]
    exact this
  have hall : ∀ id ∈ (s.m_pit.filter (fun e => env.matchesData e data)).map (fun e => e.id),
      ∃ e, findEntry (DataLoop.mk s1 data [] true true).state id = some e := by
    intro id hid
    obtain ⟨x, hx, rfl⟩ := List.mem_map.mp hid
    exact ⟨x, hfind x (List.mem_filter.mp hx).1⟩
  refine ⟨_, hres, ?_⟩
  intro e he hmatch
  have hid : e.id ∈ (s.m_pit.filter (fun e => env.matchesData e data)).map (fun e => e.id) :=
    List.mem_map.mpr ⟨e, List.mem_filter.mpr ⟨he, hmatch⟩, rfl⟩
  obtain ⟨e1, hf1, _, hB⟩ := satisfyEntries_entries env inFace _
    (DataLoop.mk s1 data [] true true) l hnd hall hl e.id hid e (hfind e he)
  refine ⟨e1, ?_, hB rfl ?_⟩
  · unfold findEntry
    rw [(foldl_onOutgoingData_tables env l.data l.pendingDownstreams l.state).1]
    exact hf1
  · intro id' hid' e' he'
    obtain ⟨x, hx, hxid⟩ := List.mem_map.mp hid'
    obtain ⟨hxm, hxmatch⟩ := List.mem_filter.mp hx
    have hfx : findEntry s1 id' = some x := by rw [← hxid]; exact hfind x hxm
    have he'' : findEntry s1 id' = some e' := he'
    rw [hfx] at he''
    injection he'' with he''
    subst he''
    by_contra hgt
    obtain ⟨r, hr1, hr2⟩ := (maxSequence_gt_iff _).mp (by omega : (maxSequence x.inRecords).1 > 1)
    have := hdef x hxm hxmatch r hr1
    omega

/-- C11 on the code, at the failing input. `sequenceState` holds two entries matched by
Data `/x`, both forwarded on face 3: entry 0 with in-records of face 2 and of face 1
(sequence number 2), entry 1 with one in-record, of face 2, with sequence number 0. When
the Data arrives on face 3, entry 0 is handled first and clears `pitSatisfyFlag`; entry 1,
which has no in-record with a sequence number above 1, has the Data handed to its face 2,
yet keeps its in-record and its out-record of face 3. -/
theorem sticky_flag_keeps_in_records :
    sequenceState.m_pit.map (fun e => (e.id,
      e.inRecords.map (fun r => (r.face, r.sequenceNumber)),
      e.outRecords.map (fun r => r.face))) =
      [(0, [(sampleFace 2, 0), (sampleFace 1, 2)], [sampleFace 3]),
       (1, [(sampleFace 2, 0)], [sampleFace 3])] ∧
    sequenceState.m_pit.map (fun e => (sequenceEnv 2).matchesData e
      { sampleData with incomingFaceIdTag := some 3 }) = [true, true] ∧
    (onIncomingData (sequenceEnv 2) sequenceState (sampleFace 3) sampleData).map
      (fun s => (s.m_pit.map (fun e => (e.id, e.inRecords.map (fun r => r.face),
        e.outRecords.map (fun r => r.face))),
        (s.effects.filter Effect.isData).map (fun x =>
          match x with
          | .sendData face _ => face.id
          | _ => 0))) =
      some ([(0, [sampleFace 2], [sampleFace 3]), (1, [sampleFace 2], [sampleFace 3])],
        [1, 2]) := by
  decide

/-! ### The forwarder: unsolicited Data, outgoing Data, Nacks and the scope check -/

/-- C24: when the Data that arrives matches no PIT entry, `onIncomingData` returns the
state it was given with `nInData` incremented and, exactly when the unsolicited-data
policy decides to cache, one unsolicited cache insertion of the Data appended to the
log: no Data is handed to a face and the PIT, the timers and the dead nonce list are as
before. -/
theorem unsolicited_data_cached_iff (env : Env) (s : State) (inFace : Face)
    (data0 data : Data)
    (hscope : ¬ (inFace.scope = .FACE_SCOPE_NON_LOCAL ∧ underLocalhost data0.name = true))
    (hov : env.dataOverlay { data0 with incomingFaceIdTag := some inFace.id } = some data)
    (hnone : ∀ e ∈ s.m_pit, env.matchesData e data = false) :
    onIncomingData env s inFace data0 =
      some { s with
        m_counters := { s.m_counters with nInData := s.m_counters.nInData + 1 },
        effects := s.effects ++
          (if env.unsolicitedCache inFace data = true then [.csInsertUnsolicited data]
            else []) } := by
  have hsc : (decide (inFace.scope = FaceScope.FACE_SCOPE_NON_LOCAL) &&
      underLocalhost data0.name) = false := by
    cases hd : decide (inFace.scope = FaceScope.FACE_SCOPE_NON_LOCAL) with
    | false => rfl
    | true =>
      cases hu : underLocalhost data0.name with
      | false => rfl
      | true => exact absurd ⟨of_decide_eq_true hd, hu⟩ hscope
  have hfil : s.m_pit.filter (fun e => env.matchesData e data) = [] := by
    rw [List.filter_eq_nil_iff]
    intro e he
    rw [hnone e he]
    simp
  unfold onIncomingData
  simp only [hsc, hov, hfil, Bool.false_eq_true, if_false, List.isEmpty_nil, if_true]
  unfold onDataUnsolicited
  split
  · simp [emit]
  · simp

/-- Witness for `unsolicited_data_cached_iff`: Data `/y` arrives on face 3 while only
`/x` is pending. -/
theorem unsolicited_data_cached_iff_witness :
    onIncomingData (sampleEnv 2) sampleAfterFirst (sampleFace 3) otherData =
      some { sampleAfterFirst with
        m_counters := { sampleAfterFirst.m_counters with
          nInData := sampleAfterFirst.m_counters.nInData + 1 },
        effects := sampleAfterFirst.effects ++
          (if (sampleEnv 2).unsolicitedCache (sampleFace 3)
              { otherData with incomingFaceIdTag := some 3 } = true then
            [.csInsertUnsolicited { otherData with incomingFaceIdTag := some 3 }]
          else []) } :=
  unsolicited_data_cached_iff (sampleEnv 2) sampleAfterFirst (sampleFace 3) otherData
    { otherData with incomingFaceIdTag := some 3 } (by decide) rfl (by decide)

/-- C25: `onOutgoingData` hands the Data to the face and increments `nOutData` exactly
when the face id is not the invalid id and it is not the case that the face is non-local
while the Data name is under `/localhost`; otherwise the state is as before. -/
theorem onOutgoingData_sends_iff (env : Env) (s : State) (data : Data) (outFace : Face) :
    onOutgoingData env s data outFace =
      (if outFace.id ≠ env.INVALID_FACEID ∧
          ¬ (outFace.scope = .FACE_SCOPE_NON_LOCAL ∧ underLocalhost data.name = true) then
        { s with effects := s.effects ++ [.sendData outFace data],
                 m_counters := { s.m_counters with nOutData := s.m_counters.nOutData + 1 } }
      else s) := by
  unfold onOutgoingData
  by_cases h1 : outFace.id = env.INVALID_FACEID
  · simp [h1]
  · by_cases h2 : outFace.scope = .FACE_SCOPE_NON_LOCAL ∧ underLocalhost data.name = true
    · simp [h1, h2]
    · rw [if_neg h1, if_neg h2, if_pos ⟨h1, h2⟩]
      rfl

/-- C27: `onOutgoingNack` changes nothing when the face id is invalid, the entry has no
in-record for the face, or the face is multi-access; otherwise it hands the face one
Nack built from the Interest of the in-record with the given reason, removes that
in-record and no other (the entry keeps its other in-records in order; with one
in-record per face this is the erasure of that in-record), and increments `nOutNacks`. -/
theorem onOutgoingNack_sends_iff (env : Env) (s : State) (id : Nat) (e : PitEntry)
    (outFace : Face) (reason : NackReason) (hf : findEntry s id = some e) :
    ((outFace.id = env.INVALID_FACEID ∨
        e.inRecords.find? (fun r => r.face == outFace) = none ∨
        outFace.linkType = .LINK_TYPE_MULTI_ACCESS) →
      onOutgoingNack env s id outFace reason = some s) ∧
    (∀ inRecord, outFace.id ≠ env.INVALID_FACEID →
      e.inRecords.find? (fun r => r.face == outFace) = some inRecord →
      outFace.linkType ≠ .LINK_TYPE_MULTI_ACCESS →
      ∃ s1, onOutgoingNack env s id outFace reason = some s1 ∧
        s1.effects = s.effects ++ [.sendNack outFace (Nack.mk inRecord.interest reason)] ∧
        s1.m_counters.nOutNacks = s.m_counters.nOutNacks + 1 ∧
        findEntry s1 id =
          some { e with inRecords := e.inRecords.filter (fun x => x.face != outFace) } ∧
        (∀ j, j ≠ id → findEntry s1 j = findEntry s j) ∧
        s1.events = s.events ∧
        ((e.inRecords.map (fun x => x.face)).Nodup →
          e.inRecords.filter (fun x => x.face != outFace) = e.inRecords.erase inRecord)) := by
  constructor
  · intro hor
    unfold onOutgoingNack
    simp only [hf]
    by_cases h1 : outFace.id = env.INVALID_FACEID
    · simp [h1]
    · rw [if_neg h1]
      cases hfind : e.inRecords.find? (fun r => r.face == outFace) with
      | none => rfl
      | some r =>
        simp only
        rcases hor with h | h | h
        · exact absurd h h1
        · rw [hfind] at h; exact absurd h (by simp)
        · rw [if_pos h]
  · intro inRecord h1 hfind h3
    have hmem := List.mem_of_find?_eq_some hfind
    have hface : inRecord.face = outFace := by
      have := List.find?_some (p := fun r : InRecord => r.face == outFace) hfind
      simpa using this
    have heq : onOutgoingNack env s id outFace reason = some
        (let s2 := emit (modifyEntry s id (fun x => deleteInRecord x outFace))
          (.sendNack outFace (Nack.mk inRecord.interest reason))
        { s2 with m_counters := { s2.m_counters with nOutNacks := s2.m_counters.nOutNacks + 1 } }) := by
      unfold onOutgoingNack
      simp only [hf, if_neg h1, hfind, if_neg h3]
    refine ⟨_, heq, rfl, rfl, ?_, ?_, rfl, ?_⟩
    · have := findEntry_modifyEntry s id (fun x => deleteInRecord x outFace) (fun x => rfl)
      rw [hf] at this
      exact this
    · intro j hj
      exact findEntry_modifyEntry_ne s id j (fun x => deleteInRecord x outFace)
        (fun x => rfl) hj
    · intro hn
      rw [← hface]
      exact filter_face_eq_erase _ _ hmem hn

/-- Witness for `onOutgoingNack_sends_iff`: for the entry with in-records of faces 1
and 2, a Nack to face 3 is dropped and a Nack to face 1 is sent. -/
theorem onOutgoingNack_sends_iff_witness :
    onOutgoingNack (sampleEnv 1) samplePending 0 (sampleFace 3) .NO_ROUTE =
      some samplePending ∧
    ∃ s1, onOutgoingNack (sampleEnv 1) samplePending 0 (sampleFace 1) .NO_ROUTE = some s1 ∧
      s1.effects = samplePending.effects ++ [.sendNack (sampleFace 1)
        (Nack.mk { sampleInterest 77 with incomingFaceIdTag := some 1 } .NO_ROUTE)] ∧
      s1.m_counters.nOutNacks = samplePending.m_counters.nOutNacks + 1 ∧
      findEntry s1 0 = some { pendingEntry with
        inRecords := pendingEntry.inRecords.filter (fun x => x.face != sampleFace 1) } ∧
      (∀ j, j ≠ 0 → findEntry s1 j = findEntry samplePending j) ∧
      s1.events = samplePending.events ∧
      ((pendingEntry.inRecords.map (fun x => x.face)).Nodup →
        pendingEntry.inRecords.filter (fun x => x.face != sampleFace 1) =
          pendingEntry.inRecords.erase (InRecord.mk (sampleFace 1) 77 4000 0
            { sampleInterest 77 with incomingFaceIdTag := some 1 })) :=
  ⟨(onOutgoingNack_sends_iff (sampleEnv 1) samplePending 0 pendingEntry (sampleFace 3)
      .NO_ROUTE (by decide)).1 (Or.inr (Or.inl (by decide))),
    (onOutgoingNack_sends_iff (sampleEnv 1) samplePending 0 pendingEntry (sampleFace 1)
      .NO_ROUTE (by decide)).2 (InRecord.mk (sampleFace 1) 77 4000 0
        { sampleInterest 77 with incomingFaceIdTag := some 1 })
      (by decide) (by decide) (by decide)⟩

/-- C28: an Interest or a Data that arrives on a non-local face with a name under
`/localhost` is counted and dropped at the scope check: the pipeline returns the state
it was given with only the arrival counter incremented. -/
theorem localhost_scope_stops_pipeline (env : Env) (s : State) (inFace : Face)
    (hface : inFace.scope = .FACE_SCOPE_NON_LOCAL) :
    (∀ interest : Interest, underLocalhost interest.name = true →
      onIncomingInterest env s inFace interest =
        some { s with m_counters :=
          { s.m_counters with nInInterests := s.m_counters.nInInterests + 1 } }) ∧
    (∀ data : Data, underLocalhost data.name = true →
      onIncomingData env s inFace data =
        some { s with m_counters :=
          { s.m_counters with nInData := s.m_counters.nInData + 1 } }) := by
  constructor
  · intro interest hn
    unfold onIncomingInterest
    simp [hface, hn]
  · intro data hn
    unfold onIncomingData
    simp [hface, hn]

/-- Witness for `localhost_scope_stops_pipeline`: `/localhost/x` arrives on the
non-local face 1. -/
theorem localhost_scope_stops_pipeline_witness :
    onIncomingInterest (sampleEnv 1) sampleAfterFirst (sampleFace 1)
        (Interest.mk ["localhost", "x"] false 0 77 4000 [] 0 none none) =
      some { sampleAfterFirst with m_counters :=
        { sampleAfterFirst.m_counters with
          nInInterests := sampleAfterFirst.m_counters.nInInterests + 1 } } ∧
    onIncomingData (sampleEnv 1) sampleAfterFirst (sampleFace 1)
        (Data.mk ["localhost", "x"] 0 0 0 none none none none none) =
      some { sampleAfterFirst with m_counters :=
        { sampleAfterFirst.m_counters with
          nInData := sampleAfterFirst.m_counters.nInData + 1 } } :=
  ⟨(localhost_scope_stops_pipeline (sampleEnv 1) sampleAfterFirst (sampleFace 1) rfl).1
      (Interest.mk ["localhost", "x"] false 0 77 4000 [] 0 none none) (by decide),
    (localhost_scope_stops_pipeline (sampleEnv 1) sampleAfterFirst (sampleFace 1) rfl).2
      (Data.mk ["localhost", "x"] 0 0 0 none none none none none) (by decide)⟩

/-! ### The forwarder: the expiry of a pending Interest -/

/-- One call of the strategy keeps the Interest of the entry, and its out-records unless
the call is `sendInterest`. -/
theorem applyStrategyAction_outRecords {env : Env} {s s1 : State} {id : Nat}
    {a : StrategyAction} {e : PitEntry} (h : applyStrategyAction env s id a = some s1)
    (he : findEntry s id = some e) :
    ∃ e1, findEntry s1 id = some e1 ∧ e1.interest = e.interest ∧
      ((∀ f i, a ≠ .sendInterest f i) → e1.outRecords = e.outRecords) := by
  cases a with
  | sendInterest outFace interest =>
    simp only [applyStrategyAction, onOutgoingInterest, he, Option.some.injEq] at h
    subst h
    have hid : ∀ x, (insertOrUpdateOutRecord env x outFace interest).id = x.id :=
      fun x => congrArg Skeleton.id (insertOrUpdateOutRecord_skel env x outFace interest)
    refine ⟨insertOrUpdateOutRecord env e outFace interest, ?_, ?_, ?_⟩
    · have := findEntry_modifyEntry s id _ hid
      rw [he] at this
      exact this
    · exact congrArg Skeleton.interest (insertOrUpdateOutRecord_skel env e outFace interest)
    · intro hno
      exact absurd rfl (hno outFace interest)
  | rejectPendingInterest =>
    simp only [applyStrategyAction] at h
    unfold onInterestReject at h
    simp only [he] at h
    split at h
    · simp at h; subst h
      exact ⟨e, he, rfl, fun _ => rfl⟩
    · cases hc : cancelUnsatisfyAndStragglerTimer s id with
      | none => simp [hc] at h
      | some sc =>
        simp only [hc] at h
        obtain ⟨e0, hf1, hsc⟩ := cancelBoth_eq hc
        have hfc : findEntry sc id = some e := by rw [hsc]; exact he
        rw [setStragglerTimer_eq _ _ _ _ _ hfc] at h
        simp only [Option.some.injEq] at h
        subst h
        refine ⟨{ e with m_stragglerTimer := some sc.nextEventId }, ?_, rfl, fun _ => rfl⟩
        rw [findEntry_modifyEntry]
        · show Option.map _ (findEntry sc id) = _
          rw [hfc]
          rfl
        · intro x; rfl
  | sendNack outFace reason =>
    simp only [applyStrategyAction] at h
    unfold onOutgoingNack at h
    simp only [he] at h
    split at h
    · simp at h; subst h
      exact ⟨e, he, rfl, fun _ => rfl⟩
    · split at h
      · simp at h; subst h
        exact ⟨e, he, rfl, fun _ => rfl⟩
      · split at h
        · simp at h; subst h
          exact ⟨e, he, rfl, fun _ => rfl⟩
        · simp only [Option.some.injEq] at h
          subst h
          refine ⟨deleteInRecord e outFace, ?_, rfl, fun _ => rfl⟩
          have := findEntry_modifyEntry s id (fun x => deleteInRecord x outFace)
            (fun x => rfl)
          rw [he] at this
          exact this

/-- The calls of the strategy keep the Interest of the entry, and its out-records when
none of them is `sendInterest`. -/
theorem runStrategyActions_outRecords {env : Env} {id : Nat} (as : List StrategyAction) :
    ∀ {s s1 : State} {e : PitEntry}, runStrategyActions env id s as = some s1 →
      findEntry s id = some e →
      ∃ e1, findEntry s1 id = some e1 ∧ e1.interest = e.interest ∧
        ((∀ a ∈ as, ∀ f i, a ≠ .sendInterest f i) → e1.outRecords = e.outRecords) := by
  induction as with
  | nil =>
    intro s s1 e h he
    simp [runStrategyActions] at h
    subst h
    exact ⟨e, he, rfl, fun _ => rfl⟩
  | cons a rest ih =>
    intro s s1 e h he
    cases ha : applyStrategyAction env s id a with
    | none => simp [runStrategyActions, ha] at h
    | some s2 =>
      simp only [runStrategyActions, ha] at h
      obtain ⟨e2, he2, hi2, ho2⟩ := applyStrategyAction_outRecords ha he
      obtain ⟨e1, he1, hi1, ho1⟩ := ih h he2
      refine ⟨e1, he1, hi1.trans hi2, ?_⟩
      intro hn
      rw [ho1 (fun a ha => hn a (List.mem_cons_of_mem _ ha)),
        ho2 (hn a (List.mem_cons_self _ _))]

/-- `onInterestFinalize` on an entry of the table: the state it returns. -/
theorem onInterestFinalize_eq (env : Env) (s : State) (id : Nat) (e : PitEntry) (sat : Bool)
    (fr : Int) (he : findEntry s id = some e) :
    ∃ s1, onInterestFinalize env s id sat fr = some s1 ∧
      s1.m_deadNonceList = s.m_deadNonceList ++
        (if needDnl env e sat fr = true then recordedNonces e none else []) ∧
      s1.m_pit = s.m_pit.filter (fun x => x.id != id) ∧
      s1.events = scheduler.cancel (scheduler.cancel s.events e.m_unsatisfyTimer)
        e.m_stragglerTimer ∧
      s1.effects = s.effects ∧ s1.nextEventId = s.nextEventId := by
  unfold onInterestFinalize
  rw [insertDeadNonceList_eq env s id e sat fr none he]
  have he1 := he
  unfold findEntry at he1
  by_cases hn : needDnl env e sat fr = true
  · simp only [hn, if_true, cancelUnsatisfyAndStragglerTimer, findEntry, he1]
    exact ⟨_, rfl, rfl, rfl, rfl, rfl, rfl⟩
  · have hn1 : needDnl env e sat fr = false := by simpa using hn
    simp only [hn1, Bool.false_eq_true, if_false, cancelUnsatisfyAndStragglerTimer, findEntry,
      he1]
    exact ⟨_, rfl, by simp [Pit.erase], rfl, rfl, rfl, rfl⟩

/-- C21 (amended): in a reachable state, when the pending unsatisfy timer of a PIT entry
fires, whatever in-records the entry holds (in particular in-records of two
point-to-point faces), `beforeExpirePendingInterest` of the strategy is invoked and the
entry is finalized at once: the firing returns, the entry is no longer in the PIT, no
event of the entry is pending (no straggler timer is armed), and the dead nonce list
has gained the entry name with the last nonce of every out-record the entry held at
that moment; these are the out-records it had before the firing unless the strategy
sends an Interest at this extension point. -/
theorem unsatisfied_finalizes_at_once (env : Env) (s : State) (eventId id : Nat) (ev : Event)
    (e : PitEntry) (hr : Reachable s)
    (hev : s.events.find? (fun x => x.id == eventId) = some ev)
    (hcb : ev.callback = .unsatisfied id) (he : findEntry s id = some e) :
    ∃ sm em s1,
      dispatchToStrategy env { s with events := s.events.filter (fun x => x.id != eventId) }
        .beforeExpirePendingInterest id = some sm ∧
      findEntry sm id = some em ∧ em.interest = e.interest ∧
      ((∀ a ∈ env.strategy .beforeExpirePendingInterest e, ∀ f i, a ≠ .sendInterest f i) →
        em.outRecords = e.outRecords) ∧
      fire env s eventId = some s1 ∧
      findEntry s1 id = none ∧
      (∀ x ∈ s1.events, x.callback.entry ≠ id) ∧
      s1.m_deadNonceList = s.m_deadNonceList ++
        em.outRecords.map (fun r => (e.interest.name, r.lastNonce)) := by
  have hi := inv_of_reachable hr
  obtain ⟨s0, hs0⟩ : ∃ s0 : State,
      s0 = { s with events := s.events.filter (fun x => x.id != eventId) } := ⟨_, rfl⟩
  have he0 : findEntry s0 id = some e := by rw [hs0]; exact he
  have hi0 : Inv s0 := by
    rw [hs0]
    exact invV_shrink hi _ (fun x hx => (List.mem_filter.mp hx).1)
  obtain ⟨sm, hd⟩ := dispatchToStrategy_total env s0 .beforeExpirePendingInterest id ⟨e, he0⟩
  obtain ⟨e', he', hrun⟩ := dispatchToStrategy_eq hd
  rw [he0] at he'
  injection he' with he'
  subst he'
  have hfe : findEntry (emit s0 (.strategy .beforeExpirePendingInterest id)) id = some e := he0
  obtain ⟨em, hem, hint, hout⟩ := runStrategyActions_outRecords _ hrun hfe
  have hdnl : sm.m_deadNonceList = s.m_deadNonceList := by
    rw [(runStrategyActions_frame _ hrun).dnl, hs0]
    rfl
  obtain ⟨s1, hfin, hd1, hpit, _⟩ :=
    onInterestFinalize_eq env sm id em false env.defaultFreshnessPeriod hem
  have him : Inv sm := (dispatchToStrategy_keeps hd).1 hi0
  refine ⟨sm, em, s1, ?_, hem, hint, hout, ?_, ?_, ?_, ?_⟩
  · rw [← hs0]; exact hd
  · unfold fire
    simp only [hev, hcb]
    rw [← hs0]
    unfold onInterestUnsatisfied
    simp only [hd]
    exact hfin
  · unfold findEntry
    rw [hpit]
    apply List.find?_eq_none.mpr
    intro x hx
    have := (List.mem_filter.mp hx).2
    simpa using this
  · exact ((onInterestFinalize_spec hfin).1 him).2
  · rw [hd1, hdnl]
    simp [needDnl, recordedNonces, hint]

/-- C21 (counterexample): the entry of `samplePending` holds in-records of the
point-to-point faces 2 and 1 and its unsatisfy timer is event 1; when that event fires
the PIT is empty at once and no event is pending, so no straggler timer was armed; the
dead nonce list holds `/x` with nonce 77. -/
theorem unsatisfied_entry_not_kept :
    pendingEntry.inRecords.map (fun r => r.face) = [sampleFace 2, sampleFace 1] ∧
    samplePending.events = [Event.mk 1 4000 (.unsatisfied 0)] ∧
    (fire (sampleEnv 4001) samplePending 1).map
        (fun s => (s.m_pit, s.events, s.m_deadNonceList)) =
      some ([], [], [(["x"], 77)]) := by
  decide

/-- Witness for `unsatisfied_finalizes_at_once`: the unsatisfy timer of the entry with
in-records of faces 1 and 2 fires at time 4001. -/
theorem unsatisfied_finalizes_at_once_witness :
    ∃ sm em s1,
      dispatchToStrategy (sampleEnv 4001)
        { samplePending with events := samplePending.events.filter (fun x => x.id != 1) }
        .beforeExpirePendingInterest 0 = some sm ∧
      findEntry sm 0 = some em ∧ em.interest = pendingEntry.interest ∧
      ((∀ a ∈ (sampleEnv 4001).strategy .beforeExpirePendingInterest pendingEntry,
          ∀ f i, a ≠ .sendInterest f i) →
        em.outRecords = pendingEntry.outRecords) ∧
      fire (sampleEnv 4001) samplePending 1 = some s1 ∧
      findEntry s1 0 = none ∧
      (∀ x ∈ s1.events, x.callback.entry ≠ 0) ∧
      s1.m_deadNonceList = samplePending.m_deadNonceList ++
        em.outRecords.map (fun r => (pendingEntry.interest.name, r.lastNonce)) :=
  unsatisfied_finalizes_at_once (sampleEnv 4001) samplePending 1 0
    (Event.mk 1 4000 (.unsatisfied 0)) pendingEntry ⟨sampleTrace.take 2, by decide⟩
    (by decide) rfl (by decide)

/-! ### The forwarder: the cache insertion and the satisfaction of a must-be-fresh Interest -/

/-- `insertDeadNonceList` leaves the log as it is. -/
theorem insertDeadNonceList_effects {env : Env} {s s1 : State} {id : Nat} {sat : Bool}
    {fr : Int} {up : Option Face} (h : insertDeadNonceList env s id sat fr up = some s1) :
    s1.effects = s.effects := by
  cases hf : findEntry s id with
  | none => simp [insertDeadNonceList, hf] at h
  | some e =>
    rw [insertDeadNonceList_eq env s id e sat fr up hf] at h
    injection h with h
    rw [← h]
    split <;> rfl

/-- `setStragglerTimer` leaves the log as it is. -/
theorem setStragglerTimer_effects {s s1 : State} {id : Nat} {sat : Bool} {fr : Int}
    (h : setStragglerTimer s id sat fr = some s1) : s1.effects = s.effects := by
  cases hf : findEntry s id with
  | none => simp [setStragglerTimer, hf] at h
  | some e =>
    rw [setStragglerTimer_eq s id e sat fr hf] at h
    injection h with h
    rw [← h]
    rfl

/-- One iteration of the loop of `onIncomingData` that returns: the calls it made. -/
theorem satisfyEntry_some {env : Env} {inFace : Face} {l l1 : DataLoop} {id : Nat}
    (h : satisfyEntry env inFace l id = some l1) :
    ∃ sc s2 flag fr s3 s4,
      cancelUnsatisfyAndStragglerTimer l.state id = some sc ∧
      s2.effects = sc.effects ∧
      dispatchToStrategy env s2 .beforeSatisfyInterest id = some s3 ∧
      insertDeadNonceList env s3 id true fr (some inFace) = some s4 ∧
      setStragglerTimer
        (if flag = true then
          modifyEntry s4 id (fun x => deleteOutRecord (clearInRecords x) inFace) else s4)
        id true fr = some l1.state := by
  unfold satisfyEntry at h
  dsimp only at h
  split at h
  · exact absurd h (by simp)
  · rename_i sc hc
    split at h
    · exact absurd h (by simp)
    · rename_i e hfe
      split at h
      · exact absurd h (by simp)
      · rename_i s2 pending flag hch
        have h2 : s2.effects = sc.effects := by
          split at hch
          · split at hch
            · exact absurd hch (by simp)
            · simp only [Option.some.injEq, Prod.mk.injEq] at hch
              rw [← hch.1]
              rfl
          · simp only [Option.some.injEq, Prod.mk.injEq] at hch
            rw [← hch.1]
        split at h
        · exact absurd h (by simp)
        · rename_i s3 hd
          split at h
          · exact absurd h (by simp)
          · rename_i s4 hn
            split at h
            · exact absurd h (by simp)
            · rename_i s6 hst
              simp only [Option.some.injEq] at h
              refine ⟨sc, s2, flag, _, s3, s4, hc, h2, hd, hn, ?_⟩
              rw [← h]
              exact hst

/-- One iteration of the loop of `onIncomingData` leaves the log as it is, up to the
Interests and Nacks handed to faces and the invocations of the strategy. -/
theorem satisfyEntry_log {env : Env} {inFace : Face} {l l1 : DataLoop} {id : Nat}
    (h : satisfyEntry env inFace l id = some l1) (P : Effect → Bool)
    (hI : ∀ f i, P (.sendInterest f i) = false) (hN : ∀ f n, P (.sendNack f n) = false)
    (hS : ∀ p i, P (.strategy p i) = false) :
    l1.state.effects.filter P = l.state.effects.filter P := by
  obtain ⟨sc, s2, flag, fr, s3, s4, hc, h2, hd, hn, hst⟩ := satisfyEntry_some h
  obtain ⟨e0, hf1, hsc⟩ := cancelBoth_eq hc
  have heff : sc.effects = l.state.effects := by rw [hsc]
  rw [setStragglerTimer_effects hst]
  have h4 := insertDeadNonceList_effects hn
  have h3 := dispatchToStrategy_log hd P hI hN (hS _ _)
  have h5 : (if flag = true then
      modifyEntry s4 id (fun x => deleteOutRecord (clearInRecords x) inFace)
      else s4).effects = s4.effects := by split <;> rfl
  rw [h5, h4, h3, h2, heff]

/-- The loop of `onIncomingData` leaves the log as it is, up to the Interests and Nacks
handed to faces and the invocations of the strategy. -/
theorem satisfyEntries_log {env : Env} {inFace : Face} (ids : List Nat) :
    ∀ {l l1 : DataLoop}, satisfyEntries env inFace l ids = some l1 →
      ∀ P : Effect → Bool, (∀ f i, P (.sendInterest f i) = false) →
        (∀ f n, P (.sendNack f n) = false) → (∀ p i, P (.strategy p i) = false) →
        l1.state.effects.filter P = l.state.effects.filter P := by
  induction ids with
  | nil =>
    intro l l1 h P _ _ _
    simp [satisfyEntries] at h
    rw [h]
  | cons id rest ih =>
    intro l l1 h P hI hN hS
    cases h1 : satisfyEntry env inFace l id with
    | none => simp [satisfyEntries, h1] at h
    | some l2 =>
      simp only [satisfyEntries, h1] at h
      rw [ih h P hI hN hS, satisfyEntry_log h1 P hI hN hS]

/-- The calls of `onOutgoingData` after the loop leave the log as it is, up to the Data
handed to faces. -/
theorem foldl_onOutgoingData_log (env : Env) (data : Data) (faces : List Face)
    (P : Effect → Bool) (hD : ∀ f d, P (.sendData f d) = false) :
    ∀ s : State,
      (faces.foldl (fun st face => onOutgoingData env st data face) s).effects.filter P =
        s.effects.filter P := by
  induction faces with
  | nil => intro s; rfl
  | cons f rest ih =>
    intro s
    simp only [List.foldl_cons]
    rw [ih, onOutgoingData_log env s data f P hD]

/-- `onIncomingData` on a Data that does not violate the `/localhost` scope, passes the
overlay and matches an entry: the content store insertion is logged, then the loop over
the matches runs, then the Data is handed to the pending downstreams. -/
theorem onIncomingData_loop (env : Env) (s : State) (inFace : Face) (data0 data : Data)
    (hscope : ¬ (inFace.scope = .FACE_SCOPE_NON_LOCAL ∧ underLocalhost data0.name = true))
    (hov : env.dataOverlay { data0 with incomingFaceIdTag := some inFace.id } = some data)
    (hm : s.m_pit.filter (fun e => env.matchesData e data) ≠ []) :
    onIncomingData env s inFace data0 =
      (satisfyEntries env inFace
        (DataLoop.mk
          (emit { s with m_counters := { s.m_counters with nInData := s.m_counters.nInData + 1 } }
            (.csInsert { data with hopCountTag := none }
              (((s.m_pit.filter (fun e => env.matchesData e data)).flatMap
                (fun e => e.outRecords)).getLast?.map
                  (fun r => Int.tdiv (env.now - r.lastRenewed) 2))
              (((s.m_pit.filter (fun e => env.matchesData e data)).flatMap
                (fun e => e.outRecords)).getLast?.map (fun _ => env.now))))
          data [] true true)
        ((s.m_pit.filter (fun e => env.matchesData e data)).map (fun e => e.id))).map
      (fun l => l.pendingDownstreams.foldl (fun st face => onOutgoingData env st l.data face)
        l.state) := by
  have hsc : (decide (inFace.scope = FaceScope.FACE_SCOPE_NON_LOCAL) &&
      underLocalhost data0.name) = false := by
    cases hd : decide (inFace.scope = FaceScope.FACE_SCOPE_NON_LOCAL) with
    | false => rfl
    | true =>
      cases hu : underLocalhost data0.name with
      | false => rfl
      | true => exact absurd ⟨of_decide_eq_true hd, hu⟩ hscope
  have hne : (s.m_pit.filter (fun e => env.matchesData e data)).isEmpty = false := by
    cases hl : s.m_pit.filter (fun e => env.matchesData e data) with
    | nil => exact absurd hl hm
    | cons a rest => rfl
  unfold onIncomingData
  simp only [hsc, hov, hne, Bool.false_eq_true, if_false]
  split <;> simp_all

/-- C23: in a reachable state, let a Data arrive that does not violate the `/localhost`
scope, passes the overlay and matches at least one PIT entry. Then `onIncomingData`
returns, and the state from which the loop over the matched entries starts differs from
the state at arrival only in `nInData` and in the one cache insertion appended to the
log: its PIT and its pending events are those at arrival, so the insertion precedes
every change of a matched entry. Over the whole arrival the content store log gains
exactly this one insertion. -/
theorem cache_insert_once_before_loop (env : Env) (s : State) (inFace : Face)
    (data0 data : Data) (hr : Reachable s)
    (hscope : ¬ (inFace.scope = .FACE_SCOPE_NON_LOCAL ∧ underLocalhost data0.name = true))
    (hov : env.dataOverlay { data0 with incomingFaceIdTag := some inFace.id } = some data)
    (hm : ∃ e ∈ s.m_pit, env.matchesData e data = true) :
    ∃ t n sI l s1,
      sI = emit
        { s with m_counters := { s.m_counters with nInData := s.m_counters.nInData + 1 } }
        (.csInsert { data with hopCountTag := none } t n) ∧
      sI.m_pit = s.m_pit ∧ sI.events = s.events ∧
      satisfyEntries env inFace (DataLoop.mk sI data [] true true)
        ((s.m_pit.filter (fun e => env.matchesData e data)).map (fun e => e.id)) = some l ∧
      onIncomingData env s inFace data0 = some s1 ∧
      s1 = l.pendingDownstreams.foldl (fun st face => onOutgoingData env st l.data face)
        l.state ∧
      s1.effects.filter Effect.isCache =
        s.effects.filter Effect.isCache ++ [.csInsert { data with hopCountTag := none } t n] := by
  have hi := inv_of_reachable hr
  have hne : s.m_pit.filter (fun e => env.matchesData e data) ≠ [] := by
    obtain ⟨e, he, hmatch⟩ := hm
    intro h0
    have : e ∈ s.m_pit.filter (fun e => env.matchesData e data) :=
      List.mem_filter.mpr ⟨he, hmatch⟩
    rw [h0] at this
    simp at this
  have hnd : ((s.m_pit.filter (fun e => env.matchesData e data)).map (fun e => e.id)).Nodup := by
    have h0 : (s.m_pit.map (fun x => x.id)).Nodup := by
      have := hi.idsNodup
      simpa [State.view, List.map_map, Function.comp_def, PitEntry.skel] using this
    exact List.Nodup.sublist (List.Sublist.map _ (List.filter_sublist _)) h0
  have hloop := onIncomingData_loop env s inFace data0 data hscope hov hne
  obtain ⟨sI, hsI⟩ : ∃ sI : State, sI = emit
      { s with m_counters := { s.m_counters with nInData := s.m_counters.nInData + 1 } }
      (.csInsert { data with hopCountTag := none }
        (((s.m_pit.filter (fun e => env.matchesData e data)).flatMap
          (fun e => e.outRecords)).getLast?.map
            (fun r => Int.tdiv (env.now - r.lastRenewed) 2))
        (((s.m_pit.filter (fun e => env.matchesData e data)).flatMap
          (fun e => e.outRecords)).getLast?.map (fun _ => env.now))) := ⟨_, rfl⟩
  rw [← hsI] at hloop
  have hpit : sI.m_pit = s.m_pit := by rw [hsI]; rfl
  have hall : ∀ id ∈ (s.m_pit.filter (fun e => env.matchesData e data)).map (fun e => e.id),
      ∃ e, findEntry (DataLoop.mk sI data [] true true).state id = some e := by
    intro id hid
    obtain ⟨e, he, rfl⟩ := List.mem_map.mp hid
    refine ⟨e, ?_⟩
    have := findEntry_of_mem hi (List.mem_filter.mp he).1
    unfold findEntry at this ⊢
    show sI.m_pit.find? _ = _
    rw [hpit]
    exact this
  obtain ⟨l, hl, _⟩ :=
    satisfyEntries_result env inFace _ (DataLoop.mk sI data [] true true) hnd hall
  refine ⟨_, _, sI, l, _, hsI, hpit, by rw [hsI]; rfl, hl, ?_, rfl, ?_⟩
  · rw [hloop, hl]
    rfl
  · rw [foldl_onOutgoingData_log env l.data l.pendingDownstreams Effect.isCache
      (fun _ _ => rfl)]
    rw [satisfyEntries_log _ hl Effect.isCache (fun _ _ => rfl) (fun _ _ => rfl)
      (fun _ _ => rfl)]
    show sI.effects.filter _ = _
    rw [hsI]
    simp [emit, List.filter_append, List.filter_cons, Effect.isCache]

/-- Witness for `cache_insert_once_before_loop`: Data `/x` arrives on face 3 for the
pending entry of the sample run. -/
theorem cache_insert_once_before_loop_witness :
    ∃ t n sI l s1,
      sI = emit
        { samplePending with m_counters := { samplePending.m_counters with
            nInData := samplePending.m_counters.nInData + 1 } }
        (.csInsert { ({ sampleData with incomingFaceIdTag := some 3 } : Data) with
          hopCountTag := none } t n) ∧
      sI.m_pit = samplePending.m_pit ∧ sI.events = samplePending.events ∧
      satisfyEntries (sampleEnv 2) (sampleFace 3)
        (DataLoop.mk sI { sampleData with incomingFaceIdTag := some 3 } [] true true)
        ((samplePending.m_pit.filter (fun e => (sampleEnv 2).matchesData e
          { sampleData with incomingFaceIdTag := some 3 })).map (fun e => e.id)) = some l ∧
      onIncomingData (sampleEnv 2) samplePending (sampleFace 3) sampleData = some s1 ∧
      s1 = l.pendingDownstreams.foldl
        (fun st face => onOutgoingData (sampleEnv 2) st l.data face) l.state ∧
      s1.effects.filter Effect.isCache =
        samplePending.effects.filter Effect.isCache ++
          [.csInsert { ({ sampleData with incomingFaceIdTag := some 3 } : Data) with
            hopCountTag := none } t n] :=
  cache_insert_once_before_loop (sampleEnv 2) samplePending (sampleFace 3) sampleData
    { sampleData with incomingFaceIdTag := some 3 } ⟨sampleTrace.take 2, by decide⟩
    (by decide) rfl ⟨pendingEntry, by decide, by decide⟩

/-- The overlay block of the loop keeps the name and the freshness period of the Data. -/
theorem updateControl_fields (env : Env) (data : Data) :
    (updateControl env data).name = data.name ∧
    (updateControl env data).freshnessPeriod = data.freshnessPeriod := by
  unfold updateControl
  split
  · exact ⟨rfl, rfl⟩
  · split <;> exact ⟨rfl, rfl⟩

/-- The calls of `onOutgoingData` after the loop: they append Data handed to faces to the
log, among them the Data for every face of the list that passes the checks of
`onOutgoingData`, and leave the tables as they are. -/
theorem foldl_onOutgoingData_sent (env : Env) (data : Data) (faces : List Face) :
    ∀ s : State, ∃ sent,
      (faces.foldl (fun st face => onOutgoingData env st data face) s).effects =
        s.effects ++ sent ∧
      (∀ x ∈ sent, Effect.isData x = true) ∧
      (∀ f ∈ faces, f.id ≠ env.INVALID_FACEID →
        ¬ (f.scope = .FACE_SCOPE_NON_LOCAL ∧ underLocalhost data.name = true) →
        .sendData f data ∈ sent) ∧
      (faces.foldl (fun st face => onOutgoingData env st data face) s).m_deadNonceList =
        s.m_deadNonceList := by
  induction faces with
  | nil => intro s; exact ⟨[], by simp, by simp, by simp, rfl⟩
  | cons f rest ih =>
    intro s
    simp only [List.foldl_cons]
    obtain ⟨sent, h1, h2, h3, h4⟩ := ih (onOutgoingData env s data f)
    by_cases hok : f.id ≠ env.INVALID_FACEID ∧
        ¬ (f.scope = .FACE_SCOPE_NON_LOCAL ∧ underLocalhost data.name = true)
    · have he : (onOutgoingData env s data f).effects = s.effects ++ [.sendData f data] := by
        unfold onOutgoingData
        rw [if_neg (fun h => hok.1 h), if_neg hok.2]
        rfl
      have hdn : (onOutgoingData env s data f).m_deadNonceList = s.m_deadNonceList := by
        unfold onOutgoingData
        rw [if_neg (fun h => hok.1 h), if_neg hok.2]
        rfl
      refine ⟨.sendData f data :: sent, ?_, ?_, ?_, h4.trans hdn⟩
      · rw [h1, he]; simp
      · intro x hx
        rcases List.mem_cons.mp hx with h | h
        · rw [h]; rfl
        · exact h2 x h
      · intro g hg hv hl
        rcases List.mem_cons.mp hg with h | h
        · rw [h]; exact List.mem_cons_self _ _
        · exact List.mem_cons_of_mem _ (h3 g h hv hl)
    · have he : onOutgoingData env s data f = s := by
        unfold onOutgoingData
        by_cases h1 : f.id = env.INVALID_FACEID
        · rw [if_pos h1]
        · rw [if_neg h1]
          by_cases h2 : f.scope = .FACE_SCOPE_NON_LOCAL ∧ underLocalhost data.name = true
          · rw [if_pos h2]
          · exact absurd ⟨h1, h2⟩ hok
      rw [he] at h1 h4 ⊢
      refine ⟨sent, h1, h2, ?_, h4⟩
      intro g hg hv hl
      rcases List.mem_cons.mp hg with h | h
      · rw [h] at hv hl; exact absurd ⟨hv, hl⟩ hok
      · exact h3 g h hv hl

/-- The second half of the loop body of `onIncomingData` (lines 2226-2246) on an entry of
the table, in detail: the strategy keeps the Interest of the entry and the dead nonce
list, and the out-records unless it sends an Interest; then the dead nonce list takes
the nonces the policy records, and the straggler timer is the new event. -/
theorem satisfyTail_detail (env : Env) (inFace : Face) (s2 : State) (id : Nat)
    (e2 : PitEntry) (flag : Bool) (fr : Int) (hf : findEntry s2 id = some e2) :
    ∃ s3 e3 s4 s6, dispatchToStrategy env s2 .beforeSatisfyInterest id = some s3 ∧
      findEntry s3 id = some e3 ∧ e3.interest = e2.interest ∧
      ((∀ a ∈ env.strategy .beforeSatisfyInterest e2, ∀ f i, a ≠ .sendInterest f i) →
        e3.outRecords = e2.outRecords) ∧
      s3.m_deadNonceList = s2.m_deadNonceList ∧
      insertDeadNonceList env s3 id true fr (some inFace) = some s4 ∧
      setStragglerTimer
        (if flag = true then
          modifyEntry s4 id (fun x => deleteOutRecord (clearInRecords x) inFace) else s4)
        id true fr = some s6 ∧
      s6.m_deadNonceList = s3.m_deadNonceList ++
        (if needDnl env e3 true fr = true then recordedNonces e3 (some inFace) else []) ∧
      s6.events = scheduler.cancel s3.events e3.m_stragglerTimer ++
        [Event.mk s3.nextEventId stragglerTime (.finalize id true fr)] ∧
      findEntry s6 id = some { (if flag = true then
        deleteOutRecord (clearInRecords e3) inFace else e3) with
        m_stragglerTimer := some s3.nextEventId } := by
  obtain ⟨s3, hd⟩ := dispatchToStrategy_total env s2 .beforeSatisfyInterest id ⟨e2, hf⟩
  obtain ⟨e0, he0, hrun⟩ := dispatchToStrategy_eq hd
  rw [hf] at he0
  injection he0 with he0
  subst he0
  have hfr := runStrategyActions_frame _ hrun
  have hfe : findEntry (emit s2 (.strategy .beforeSatisfyInterest id)) id = some e2 := hf
  obtain ⟨e3, hf3, hint3, hout3⟩ := runStrategyActions_outRecords _ hrun hfe
  have hdn := insertDeadNonceList_eq env s3 id e3 true fr (some inFace) hf3
  obtain ⟨s4, hs4⟩ : ∃ s4, s4 = (if needDnl env e3 true fr = true then
      { s3 with m_deadNonceList := s3.m_deadNonceList ++ recordedNonces e3 (some inFace) }
      else s3) := ⟨_, rfl⟩
  rw [← hs4] at hdn
  have hpit4 : s4.m_pit = s3.m_pit := by rw [hs4]; split <;> rfl
  have hev4 : s4.events = s3.events := by rw [hs4]; split <;> rfl
  have hnx4 : s4.nextEventId = s3.nextEventId := by rw [hs4]; split <;> rfl
  have hdnl4 : s4.m_deadNonceList = s3.m_deadNonceList ++
      (if needDnl env e3 true fr = true then recordedNonces e3 (some inFace) else []) := by
    rw [hs4]; split <;> simp
  have hfind4 : ∀ j, findEntry s4 j = findEntry s3 j := by
    intro j; unfold findEntry; rw [hpit4]
  obtain ⟨s5, hs5⟩ : ∃ s5, s5 = (if flag = true then
      modifyEntry s4 id (fun x => deleteOutRecord (clearInRecords x) inFace) else s4) :=
    ⟨_, rfl⟩
  have hf5 : findEntry s5 id = some (if flag = true then
      deleteOutRecord (clearInRecords e3) inFace else e3) := by
    rw [hs5]
    split
    · rw [findEntry_modifyEntry]
      · rw [hfind4, hf3]; rfl
      · intro x; rfl
    · rw [hfind4, hf3]
  have hev5 : s5.events = s3.events := by rw [hs5]; split <;> exact hev4
  have hnx5 : s5.nextEventId = s3.nextEventId := by rw [hs5]; split <;> exact hnx4
  have hdnl5 : s5.m_deadNonceList = s4.m_deadNonceList := by rw [hs5]; split <;> rfl
  have hstr5 : (if flag = true then
      deleteOutRecord (clearInRecords e3) inFace else e3).m_stragglerTimer =
      e3.m_stragglerTimer := by split <;> rfl
  have hst := setStragglerTimer_eq s5 id _ true fr hf5
  obtain ⟨s6, hset⟩ : ∃ s6, setStragglerTimer s5 id true fr = some s6 := ⟨_, hst⟩
  have hs6 := hst
  rw [hset] at hs6
  injection hs6 with hs6
  refine ⟨s3, e3, s4, s6, hd, hf3, hint3, hout3, ?_, hdn, ?_, ?_, ?_, ?_⟩
  · rw [hfr.dnl]; rfl
  · rw [← hs5]; exact hset
  · rw [← hdnl4, ← hdnl5, hs6]; rfl
  · rw [hs6]
    show scheduler.cancel s5.events _ ++ [Event.mk s5.nextEventId _ _] = _
    rw [hev5, hnx5, hstr5]
  · rw [hs6, findEntry_modifyEntry]
    · show Option.map _ (findEntry s5 id) = _
      rw [hf5, hnx5]
      rfl
    · intro x; rfl

/-- One iteration of the loop of `onIncomingData` on an entry whose in-records have no
sequence number above 1, from the calls it makes. -/
theorem satisfyEntry_default (env : Env) (inFace : Face) (l : DataLoop) (id : Nat)
    (e : PitEntry) (fr : Int) (sc s3 s4 s6 : State)
    (hfr : fr = (if (decide (env.choiceType = 4) && l.updateControlFlag) = true then
      updateControl env l.data else l.data).freshnessPeriod)
    (hms : ¬ (maxSequence e.inRecords).1 > 1)
    (hc : cancelUnsatisfyAndStragglerTimer l.state id = some sc)
    (hfc : findEntry sc id = some e)
    (hd : dispatchToStrategy env sc .beforeSatisfyInterest id = some s3)
    (hdn : insertDeadNonceList env s3 id true fr (some inFace) = some s4)
    (hset : setStragglerTimer
      (if l.pitSatisfyFlag = true then
        modifyEntry s4 id (fun x => deleteOutRecord (clearInRecords x) inFace) else s4)
      id true fr = some s6) :
    satisfyEntry env inFace l id = some (DataLoop.mk s6
      (if (decide (env.choiceType = 4) && l.updateControlFlag) = true then
        updateControl env l.data else l.data)
      ((e.inRecords.filter (fun r => decide (r.expiry > env.now))).foldl
        (fun acc r => insertFace acc r.face) l.pendingDownstreams) l.pitSatisfyFlag
      (if (decide (env.choiceType = 4) && l.updateControlFlag) = true then false
        else l.updateControlFlag)) := by
  subst hfr
  unfold satisfyEntry
  simp only [hc, hfc, hms, if_false, hd, hdn, hset]

/-- C22: in a reachable state, let the only PIT entry matched by an arriving Data be the
entry of a must-be-fresh Interest whose one out-record is on the arrival face `F`, with
no sequence number above 1; the Data has freshness period 0 and the dead nonce list
lifetime is above 0; the strategy sends no Interest at `beforeSatisfyInterest`. Then
`onIncomingData` returns; the dead nonce list gains exactly the entry name with the last
nonce of the `F` out-record; the Data is handed to the face of every unexpired in-record
whose face passes the checks of `onOutgoingData` (the requester); the entry ends with no
in-record and no out-record; its straggler timer is a new pending event that finalizes
the entry as satisfied, and when that event fires the entry leaves the PIT. -/
theorem fresh_data_records_nonce (env : Env) (s : State) (inFace : Face)
    (data0 data : Data) (e : PitEntry) (r : OutRecord) (rq : InRecord)
    (hr : Reachable s)
    (hscope : ¬ (inFace.scope = .FACE_SCOPE_NON_LOCAL ∧ underLocalhost data0.name = true))
    (hov : env.dataOverlay { data0 with incomingFaceIdTag := some inFace.id } = some data)
    (hfresh : data.freshnessPeriod = 0)
    (hm : s.m_pit.filter (fun x => env.matchesData x data) = [e])
    (hmbf : e.interest.mustBeFresh = true)
    (hout : e.outRecords = [r]) (hface : r.face = inFace)
    (hlife : env.lifetimeDnl > 0)
    (hseq : ∀ x ∈ e.inRecords, x.sequenceNumber ≤ 1)
    (hrq : rq ∈ e.inRecords) (hexp : rq.expiry > env.now)
    (hvalid : rq.face.id ≠ env.INVALID_FACEID)
    (hlocal : ¬ (rq.face.scope = .FACE_SCOPE_NON_LOCAL ∧ underLocalhost data.name = true))
    (hstr : ∀ a ∈ env.strategy .beforeSatisfyInterest e, ∀ f i, a ≠ .sendInterest f i) :
    ∃ s1 e1 evId sent,
      onIncomingData env s inFace data0 = some s1 ∧
      s1.m_deadNonceList = s.m_deadNonceList ++ [(e.interest.name, r.lastNonce)] ∧
      s1.effects.filter Effect.isData = s.effects.filter Effect.isData ++ sent ∧
      .sendData rq.face (if env.choiceType = 4 then updateControl env data else data) ∈ sent ∧
      findEntry s1 e.id = some e1 ∧ e1.inRecords = [] ∧ e1.outRecords = [] ∧
      e1.m_stragglerTimer = some evId ∧
      Event.mk evId stragglerTime (.finalize e.id true 0) ∈ s1.events ∧
      ∀ env2, ∃ s2, fire env2 s1 evId = some s2 ∧ findEntry s2 e.id = none := by
  have hi := inv_of_reachable hr
  have hmem : e ∈ s.m_pit := by
    have : e ∈ s.m_pit.filter (fun x => env.matchesData x data) := by
      rw [hm]; exact List.mem_singleton_self e
    exact (List.mem_filter.mp this).1
  have hfe := findEntry_of_mem hi hmem
  have hne : s.m_pit.filter (fun x => env.matchesData x data) ≠ [] := by rw [hm]; simp
  have hloop := onIncomingData_loop env s inFace data0 data hscope hov hne
  obtain ⟨sI, hsI⟩ : ∃ sI : State, sI = emit
      { s with m_counters := { s.m_counters with nInData := s.m_counters.nInData + 1 } }
      (.csInsert { data with hopCountTag := none }
        (((s.m_pit.filter (fun e => env.matchesData e data)).flatMap
          (fun e => e.outRecords)).getLast?.map
            (fun r => Int.tdiv (env.now - r.lastRenewed) 2))
        (((s.m_pit.filter (fun e => env.matchesData e data)).flatMap
          (fun e => e.outRecords)).getLast?.map (fun _ => env.now))) := ⟨_, rfl⟩
  rw [← hsI, hm] at hloop
  simp only [List.map_cons, List.map_nil] at hloop
  have hfI : findEntry sI e.id = some e := by rw [hsI]; exact hfe
  have hiI : Inv sI := by rw [hsI]; exact hi
  have hdnlI : sI.m_deadNonceList = s.m_deadNonceList := by rw [hsI]; rfl
  have hlogI : sI.effects.filter Effect.isData = s.effects.filter Effect.isData := by
    rw [hsI]
    simp [emit, List.filter_append, List.filter_cons, Effect.isData]
  have hms : ¬ (maxSequence e.inRecords).1 > 1 := by
    intro hgt
    obtain ⟨x, hx1, hx2⟩ := (maxSequence_gt_iff _).mp hgt
    have := hseq x hx1
    omega
  obtain ⟨sc, hc⟩ : ∃ sc, cancelUnsatisfyAndStragglerTimer sI e.id = some sc := by
    simp [cancelUnsatisfyAndStragglerTimer, hfI]
  obtain ⟨e0, hf1, hsc⟩ := cancelBoth_eq hc
  have hfc : findEntry sc e.id = some e := by rw [hsc]; exact hfI
  have hdnlc : sc.m_deadNonceList = sI.m_deadNonceList := by rw [hsc]
  obtain ⟨hic, _⟩ := cancelBoth_spec hc hiI
  obtain ⟨dl, hdl⟩ : ∃ dl : Data, dl =
      (if (decide (env.choiceType = 4) && true) = true then updateControl env data
        else data) := ⟨_, rfl⟩
  have hdl4 : dl = (if env.choiceType = 4 then updateControl env data else data) := by
    rw [hdl]
    by_cases h4 : env.choiceType = 4 <;> simp [h4]
  have hdlf : dl.freshnessPeriod = 0 := by
    rw [hdl4]
    split
    · rw [(updateControl_fields env data).2]; exact hfresh
    · exact hfresh
  have hdln : dl.name = data.name := by
    rw [hdl4]
    split
    · exact (updateControl_fields env data).1
    · rfl
  obtain ⟨s3, e3, s4, s6, hd, hf3, hint3, hout3, hdnl3, hdn, hset, hdnl6, hev6, hf6⟩ :=
    satisfyTail_detail env inFace sc e.id e true 0 hfc
  have hi3 : Inv s3 := (dispatchToStrategy_keeps hd).1 hic
  have hsat := satisfyEntry_default env inFace (DataLoop.mk sI data [] true true) e.id e 0
    sc s3 s4 s6 (by rw [← hdlf, hdl]) hms hc hfc hd hdn hset
  simp only [← hdl] at hsat
  simp only [satisfyEntries, hsat, Option.map_some'] at hloop
  have hlog6 : s6.effects.filter Effect.isData = sI.effects.filter Effect.isData :=
    satisfyEntry_log hsat Effect.isData (fun _ _ => rfl) (fun _ _ => rfl) (fun _ _ => rfl)
  obtain ⟨sent, hsent, hall, hin, hdnlS⟩ := foldl_onOutgoingData_sent env dl
    ((e.inRecords.filter (fun r => decide (r.expiry > env.now))).foldl
      (fun acc r => insertFace acc r.face) []) s6
  obtain ⟨hpitS, hevS⟩ := foldl_onOutgoingData_tables env dl
    ((e.inRecords.filter (fun r => decide (r.expiry > env.now))).foldl
      (fun acc r => insertFace acc r.face) []) s6
  have hneed : needDnl env e3 true 0 = true := by
    simp [needDnl, hint3, hmbf, hlife]
  have hrec : recordedNonces e3 (some inFace) = [(e.interest.name, r.lastNonce)] := by
    simp [recordedNonces, hout3 hstr, hout, hface, hint3]
  have hf1' : findEntry
      ((e.inRecords.filter (fun r => decide (r.expiry > env.now))).foldl
        (fun acc r => insertFace acc r.face) []
        |>.foldl (fun st face => onOutgoingData env st dl face) s6) e.id =
      some { deleteOutRecord (clearInRecords e3) inFace with
        m_stragglerTimer := some s3.nextEventId } := by
    unfold findEntry
    rw [hpitS]
    exact hf6
  have hfind : (((e.inRecords.filter (fun r => decide (r.expiry > env.now))).foldl
        (fun acc r => insertFace acc r.face) []
        |>.foldl (fun st face => onOutgoingData env st dl face) s6).events).find?
        (fun x => x.id == s3.nextEventId) =
      some (Event.mk s3.nextEventId stragglerTime (.finalize e.id true 0)) := by
    rw [hevS, hev6, List.find?_append]
    have hnone : (scheduler.cancel s3.events e3.m_stragglerTimer).find?
        (fun x => x.id == s3.nextEventId) = none := by
      apply List.find?_eq_none.mpr
      intro x hx
      have := hi3.evLt x (mem_of_mem_cancel hx)
      simp only [beq_iff_eq]
      intro h
      rw [h] at this
      exact Nat.lt_irrefl _ this
    rw [hnone]
    simp
  refine ⟨_, _, s3.nextEventId, sent, hloop, ?_, ?_, ?_, hf1', rfl, ?_, rfl, ?_, ?_⟩
  · rw [hdnlS, hdnl6, hneed, hrec, hdnl3, hdnlc, hdnlI]
    rfl
  · rw [hsent, List.filter_append, List.filter_eq_self.mpr hall, hlog6, hlogI]
  · rw [← hdl4]
    refine hin rq.face ?_ hvalid (by rw [hdln]; exact hlocal)
    rw [(foldl_insertFace _ _).1]
    exact Or.inr ⟨rq, List.mem_filter.mpr ⟨hrq, by simpa using hexp⟩, rfl⟩
  · simp [deleteOutRecord, clearInRecords, hout3 hstr, hout, hface]
  · rw [hevS, hev6]
    simp
  · intro env2
    unfold fire
    simp only [hfind]
    obtain ⟨s2, hfin, _, hpit2, _⟩ := onInterestFinalize_eq env2
      { ((e.inRecords.filter (fun r => decide (r.expiry > env.now))).foldl
          (fun acc r => insertFace acc r.face) []
          |>.foldl (fun st face => onOutgoingData env st dl face) s6) with
        events := (((e.inRecords.filter (fun r => decide (r.expiry > env.now))).foldl
          (fun acc r => insertFace acc r.face) []
          |>.foldl (fun st face => onOutgoingData env st dl face) s6).events).filter
            (fun x => x.id != s3.nextEventId) }
      e.id _ true 0 hf1'
    refine ⟨s2, hfin, ?_⟩
    unfold findEntry
    rw [hpit2]
    apply List.find?_eq_none.mpr
    intro x hx
    have := (List.mem_filter.mp hx).2
    simpa using this

/-- Witness for `fresh_data_records_nonce`: Data `/x` with freshness period 0 arrives on
face 3 for the must-be-fresh Interest of face 1 that was forwarded there. -/
theorem fresh_data_records_nonce_witness :
    ∃ s1 e1 evId sent,
      onIncomingData (sampleEnv 2) freshPending (sampleFace 3) sampleData = some s1 ∧
      s1.m_deadNonceList = freshPending.m_deadNonceList ++
        [(freshEntryPending.interest.name, (OutRecord.mk (sampleFace 3) 77 0 none).lastNonce)] ∧
      s1.effects.filter Effect.isData = freshPending.effects.filter Effect.isData ++ sent ∧
      .sendData (InRecord.mk (sampleFace 1) 77 4000 0
          { freshInterest 77 with incomingFaceIdTag := some 1 }).face
        (if (sampleEnv 2).choiceType = 4 then
          updateControl (sampleEnv 2) { sampleData with incomingFaceIdTag := some 3 }
        else { sampleData with incomingFaceIdTag := some 3 }) ∈ sent ∧
      findEntry s1 freshEntryPending.id = some e1 ∧ e1.inRecords = [] ∧ e1.outRecords = [] ∧
      e1.m_stragglerTimer = some evId ∧
      Event.mk evId stragglerTime (.finalize freshEntryPending.id true 0) ∈ s1.events ∧
      ∀ env2, ∃ s2, fire env2 s1 evId = some s2 ∧ findEntry s2 freshEntryPending.id = none :=
  fresh_data_records_nonce (sampleEnv 2) freshPending (sampleFace 3) sampleData
    { sampleData with incomingFaceIdTag := some 3 } freshEntryPending
    (OutRecord.mk (sampleFace 3) 77 0 none)
    (InRecord.mk (sampleFace 1) 77 4000 0 { freshInterest 77 with incomingFaceIdTag := some 1 })
    ⟨[(sampleEnv 0, .interest (sampleFace 1) (freshInterest 77))], by decide⟩
    (by decide) rfl rfl (by decide) (by decide) (by decide) rfl (by decide) (by decide)
    (by decide) (by decide) (by decide) (by decide) (fun a ha => by simp [sampleEnv] at ha)

/-! ### The forwarder: implicit claims on the Data and miss paths -/

/-- C32: the entry of `rejectedState` holds the in-record of face 1 and no out-record.
Data `/x` arrives on face 3 and matches it; the cache insertion is made with a latency
and a timestamp that were never assigned. -/
theorem cache_insert_without_out_record :
    rejectedState.m_pit.map (fun e => (e.inRecords.map (fun r => r.face), e.outRecords)) =
      [([sampleFace 1], [])] ∧
    (onIncomingData (rejectEnv 2) rejectedState (sampleFace 3) sampleData).map
        (fun s => (s.effects.filter Effect.isCache).getLast?) =
      some (some (.csInsert { sampleData with incomingFaceIdTag := some 3 } none none)) := by
  decide

/-- C33: the call of `setUnsatisfyTimer` in the pipeline (the one of `onContentStoreMiss`,
line 235) is made on the state left by `insertOrUpdateInRecord`, in which the entry has
at least one in-record: the search for the latest-expiring in-record finds a record of
the collection, and the call returns. -/
theorem unsatisfy_timer_set_with_in_record (env : Env) (s : State) (inFace : Face)
    (e : PitEntry) (interest : Interest) (hf : findEntry s e.id = some e) :
    ∃ em r s1,
      findEntry (modifyEntry s e.id (fun x => insertOrUpdateInRecord env x inFace interest))
        e.id = some em ∧
      em.inRecords ≠ [] ∧ lastExpiring em.inRecords = some r ∧ r ∈ em.inRecords ∧
      recordPending env s inFace e.id interest =
        setUnsatisfyTimer env
          (modifyEntry s e.id (fun x => insertOrUpdateInRecord env x inFace interest)) e.id ∧
      setUnsatisfyTimer env
        (modifyEntry s e.id (fun x => insertOrUpdateInRecord env x inFace interest)) e.id =
          some s1 := by
  obtain ⟨_, hne, _⟩ := insertOrUpdateInRecord_spec env e inFace interest
  obtain ⟨r, hr⟩ := lastExpiring_isSome _ hne
  have hfm : findEntry (modifyEntry s e.id
      (fun x => insertOrUpdateInRecord env x inFace interest)) e.id =
      some (insertOrUpdateInRecord env e inFace interest) := by
    rw [findEntry_modifyEntry _ _ _ (fun x => congrArg Skeleton.id
      (insertOrUpdateInRecord_skel env x inFace interest)), hf]
    rfl
  obtain ⟨s3, e3, hrp, _⟩ := recordPending_result env s inFace e interest hf
  have heq : recordPending env s inFace e.id interest =
      setUnsatisfyTimer env
        (modifyEntry s e.id (fun x => insertOrUpdateInRecord env x inFace interest)) e.id := by
    unfold recordPending
    simp only [hf]
  exact ⟨_, r, s3, hfm, hne, hr, (lastExpiring_spec hr).1, heq, by rw [← heq]; exact hrp⟩

/-- Witness for `unsatisfy_timer_set_with_in_record`: the first Interest of the sample run
on the entry `Pit::insert` has just created. -/
theorem unsatisfy_timer_set_with_in_record_witness :
    ∃ em r s1,
      findEntry (modifyEntry (Pit.insert initial (sampleInterest 77)).1 freshEntry.id
        (fun x => insertOrUpdateInRecord (sampleEnv 0) x (sampleFace 1) (sampleInterest 77)))
        freshEntry.id = some em ∧
      em.inRecords ≠ [] ∧ lastExpiring em.inRecords = some r ∧ r ∈ em.inRecords ∧
      recordPending (sampleEnv 0) (Pit.insert initial (sampleInterest 77)).1 (sampleFace 1)
          freshEntry.id (sampleInterest 77) =
        setUnsatisfyTimer (sampleEnv 0)
          (modifyEntry (Pit.insert initial (sampleInterest 77)).1 freshEntry.id
            (fun x => insertOrUpdateInRecord (sampleEnv 0) x (sampleFace 1)
              (sampleInterest 77))) freshEntry.id ∧
      setUnsatisfyTimer (sampleEnv 0)
        (modifyEntry (Pit.insert initial (sampleInterest 77)).1 freshEntry.id
          (fun x => insertOrUpdateInRecord (sampleEnv 0) x (sampleFace 1)
            (sampleInterest 77))) freshEntry.id = some s1 :=
  unsatisfy_timer_set_with_in_record (sampleEnv 0) (Pit.insert initial (sampleInterest 77)).1
    (sampleFace 1) freshEntry (sampleInterest 77) (by decide)

/-- C34 (amended): in a reachable state, let a Data arrive on a face that holds an
unexpired in-record on a matched entry none of whose in-records has a sequence number
above 1. Then `onIncomingData` returns and hands the Data left by the loop to
`onOutgoingData` once for each face of a list of distinct faces, and the arrival face is
in that list: it is not excluded from the downstreams. -/
theorem arrival_face_among_downstreams (env : Env) (s : State) (inFace : Face)
    (data0 data : Data) (e : PitEntry) (rq : InRecord) (hr : Reachable s)
    (hscope : ¬ (inFace.scope = .FACE_SCOPE_NON_LOCAL ∧ underLocalhost data0.name = true))
    (hov : env.dataOverlay { data0 with incomingFaceIdTag := some inFace.id } = some data)
    (he : e ∈ s.m_pit) (hmatch : env.matchesData e data = true)
    (hseq : ∀ r ∈ e.inRecords, r.sequenceNumber ≤ 1)
    (hrq : rq ∈ e.inRecords) (hface : rq.face = inFace) (hexp : rq.expiry > env.now) :
    ∃ (faces : List Face) (sL : State) (dataOut : Data),
      onIncomingData env s inFace data0 =
        some (faces.foldl (fun st face => onOutgoingData env st dataOut face) sL) ∧
      sL.effects.filter Effect.isData = s.effects.filter Effect.isData ∧
      faces.Nodup ∧ inFace ∈ faces := by
  have hi := inv_of_reachable hr
  obtain ⟨s1, l, hpit, hlog, hnd, hl, hres⟩ :=
    onIncomingData_matched env s inFace data0 data hi hscope hov ⟨e, he, hmatch⟩
  have hall : ∀ id ∈ (s.m_pit.filter (fun e => env.matchesData e data)).map (fun e => e.id),
      ∃ e, findEntry (DataLoop.mk s1 data [] true true).state id = some e := by
    intro id hid
    obtain ⟨e, he, rfl⟩ := List.mem_map.mp hid
    refine ⟨e, ?_⟩
    have := findEntry_of_mem hi (List.mem_filter.mp he).1
    unfold findEntry at this ⊢
    show s1.m_pit.find? _ = _
    rw [hpit]
    exact this
  obtain ⟨l', hl', _, hpend, hnodup, hlog2, _, _⟩ :=
    satisfyEntries_result env inFace _ (DataLoop.mk s1 data [] true true) hnd hall
  rw [hl] at hl'
  injection hl' with hl'
  subst hl'
  refine ⟨l.pendingDownstreams, l.state, l.data, hres, hlog2.trans hlog,
    hnodup List.nodup_nil, ?_⟩
  rw [hpend inFace]
  simp only [List.not_mem_nil, false_or]
  rw [matched_entry_iff env s s1 data hi hpit (fun e => selectsDownstream env e inFace = true)]
  refine ⟨e, he, hmatch, ?_⟩
  have hle : ¬ (maxSequence e.inRecords).1 > 1 := by
    intro hgt
    obtain ⟨r, hr1, hr2⟩ := (maxSequence_gt_iff _).mp hgt
    have := hseq r hr1
    omega
  simp only [selectsDownstream, hle, if_false, List.any_eq_true, Bool.and_eq_true,
    decide_eq_true_eq, beq_iff_eq]
  exact ⟨rq, hrq, hexp, hface⟩

/-- Witness for `arrival_face_among_downstreams`: Data `/x` arrives on face 2, which
holds an in-record of the pending entry. -/
theorem arrival_face_among_downstreams_witness :
    ∃ (faces : List Face) (sL : State) (dataOut : Data),
      onIncomingData (sampleEnv 2) samplePending (sampleFace 2) sampleData =
        some (faces.foldl (fun st face => onOutgoingData (sampleEnv 2) st dataOut face) sL) ∧
      sL.effects.filter Effect.isData = samplePending.effects.filter Effect.isData ∧
      faces.Nodup ∧ sampleFace 2 ∈ faces :=
  arrival_face_among_downstreams (sampleEnv 2) samplePending (sampleFace 2) sampleData
    { sampleData with incomingFaceIdTag := some 2 } pendingEntry
    (InRecord.mk (sampleFace 2) 78 4001 0 { sampleInterest 78 with incomingFaceIdTag := some 2 })
    ⟨sampleTrace.take 2, by decide⟩ (by decide) rfl (by decide) (by decide) (by decide)
    (by decide) rfl (by decide)

/-- C34 (counterexample): the only entry of `sequencePair` holds unexpired in-records of
face 2 (sequence number 0) and face 1 (sequence number 2). Data `/x` arrives on face 2 at
time 2 and matches the entry; the Data is handed to face 1 only, not to the arrival
face. -/
theorem arrival_face_skipped_by_sequence :
    sequencePairEntry.inRecords.map (fun r => (r.face, r.sequenceNumber, r.expiry)) =
      [(sampleFace 2, 0, 4001), (sampleFace 1, 2, 4000)] ∧
    sequencePair.m_pit = [sequencePairEntry] ∧
    (sequenceEnv 2).matchesData sequencePairEntry
      { sampleData with incomingFaceIdTag := some 2 } = true ∧
    (onIncomingData (sequenceEnv 2) sequencePair (sampleFace 2) sampleData).map
        (fun s => s.effects.filter Effect.isData) =
      some [.sendData (sampleFace 1) { sampleData with incomingFaceIdTag := some 2 }] := by
  decide

/-- C35: on a cache miss where the function chain left by the overlay is empty or the
function FIB lookup yields no entry, and the Interest carries a next-hop override naming
a face that the face table does not hold, `onContentStoreMiss` returns the state left by
its first part: the log is as before (no Interest is handed to a face, the strategy is
not invoked), the out-records of the entry are as before, the entry holds the in-record
of the arrival face and its unsatisfy timer is armed. -/
theorem missing_override_face_forwards_nothing (env : Env) (s : State) (inFace : Face)
    (e : PitEntry) (interest interest2 : Interest) (fibEntry : Option (List Face)) (tag : Nat)
    (hf : findEntry s e.id = some e)
    (hc : env.functionChaining interest = some (interest2, fibEntry))
    (hfn : interest2.function = [] ∨ fibEntry = none)
    (htag : interest2.nextHopFaceIdTag = some tag)
    (hface : env.faceTable tag = none) :
    ∃ s1 e1, onContentStoreMiss env s inFace e.id interest = some s1 ∧
      recordPending env s inFace e.id interest = some s1 ∧
      s1.effects = s.effects ∧ findEntry s1 e.id = some e1 ∧
      e1.outRecords = e.outRecords ∧
      (∃ r ∈ e1.inRecords, r.face = inFace ∧ r.lastNonce = interest.nonce) ∧
      armed s1 e1.m_unsatisfyTimer = true := by
  obtain ⟨s1, e1, hrp, heff, hf1, hin, hout, _, harm, _⟩ :=
    recordPending_result env s inFace e interest hf
  refine ⟨s1, e1, ?_, hrp, heff, hf1, hout, hin, harm⟩
  rcases hfn with h | h
  · simp [onContentStoreMiss, hrp, resolveNextHop, hc, h, htag, hface]
  · simp [onContentStoreMiss, hrp, resolveNextHop, hc, h, htag, hface]

/-- Witness for `missing_override_face_forwards_nothing`: an Interest whose override
names face 9, on a node whose face table holds face 3 only. -/
theorem missing_override_face_forwards_nothing_witness :
    ∃ s1 e1, onContentStoreMiss (sampleEnv 0) (Pit.insert initial (sampleInterest 77)).1
        (sampleFace 1) freshEntry.id strayInterest = some s1 ∧
      recordPending (sampleEnv 0) (Pit.insert initial (sampleInterest 77)).1 (sampleFace 1)
        freshEntry.id strayInterest = some s1 ∧
      s1.effects = (Pit.insert initial (sampleInterest 77)).1.effects ∧
      findEntry s1 freshEntry.id = some e1 ∧
      e1.outRecords = freshEntry.outRecords ∧
      (∃ r ∈ e1.inRecords, r.face = sampleFace 1 ∧ r.lastNonce = strayInterest.nonce) ∧
      armed s1 e1.m_unsatisfyTimer = true :=
  missing_override_face_forwards_nothing (sampleEnv 0) (Pit.insert initial (sampleInterest 77)).1
    (sampleFace 1) freshEntry strayInterest strayInterest none 9 (by decide) rfl (Or.inl rfl)
    rfl (by decide)

/-! ### The forwarder: every entry of the PIT has one timer armed -/

/-- Entries that all have a pending timer: in particular those other than `id`. -/
theorem live_liveExcept {v : View} (id : Nat) (h : Live v) : LiveExcept v id :=
  fun k hk _ => h k hk

/-- A pending handle stays pending when another handle is cancelled. -/
theorem pending_cancel_other {events : List Event} {t c : Option Nat}
    (h : Pending events t) (hne : ∀ x, c = some x → t ≠ some x) :
    Pending (scheduler.cancel events c) t := by
  obtain ⟨ev, hev, ht⟩ := h
  cases c with
  | none => exact ⟨ev, hev, ht⟩
  | some x =>
    refine ⟨ev, List.mem_filter.mpr ⟨hev, ?_⟩, ht⟩
    have := hne x rfl
    rw [ht] at this
    simpa using fun e => this (by rw [e])

/-- Cancelling a handle of one entry keeps the pending timer of another entry. -/
theorem liveAt_cancel_other {v : View} (ho : OwnHandles v) {e k : Skeleton}
    (he : e ∈ v.skels) (hk : k ∈ v.skels) (hne : k.id ≠ e.id) {c : Option Nat}
    (hc : c = e.unsat ∨ c = e.strag) {events : List Event} (h : LiveAt events k) :
    LiveAt (scheduler.cancel events c) k := by
  have hdis : ∀ x, c = some x → ¬ k.holds x := by
    intro x hx hkx
    have hex : e.holds x := by
      rcases hc with h1 | h1
      · exact Or.inl (h1 ▸ hx)
      · exact Or.inr (h1 ▸ hx)
    exact hne (ho k hk e he x hkx hex)
  rcases h with h | h
  · exact Or.inl (pending_cancel_other h (fun x hx ht => hdis x hx (Or.inl ht)))
  · exact Or.inr (pending_cancel_other h (fun x hx ht => hdis x hx (Or.inr ht)))

/-- A pending timer stays pending in a queue that keeps the events. -/
theorem liveAt_mono {events evs : List Event} {k : Skeleton}
    (hsub : ∀ ev ∈ evs, ev ∈ events) (h : LiveAt evs k) : LiveAt events k := by
  rcases h with h | h
  · exact Or.inl (pending_mono hsub h)
  · exact Or.inr (pending_mono hsub h)

/-- States with the same view: ownership and pending timers are the same. -/
theorem live_of_view {s s1 : State} (hv : s1.view = s.view) (id : Nat) :
    (OwnHandles s.view → OwnHandles s1.view) ∧
    (LiveExcept s.view id → LiveExcept s1.view id) ∧ (Live s.view → Live s1.view) := by
  rw [hv]
  exact ⟨fun h => h, fun h => h, fun h => h⟩

/-- `cancelUnsatisfyAndStragglerTimer` keeps the ownership of handles and the pending
timers of the other entries. -/
theorem cancelBoth_live {s s1 : State} {id : Nat}
    (h : cancelUnsatisfyAndStragglerTimer s id = some s1) (ho : OwnHandles s.view) :
    OwnHandles s1.view ∧ (LiveExcept s.view id → LiveExcept s1.view id) := by
  obtain ⟨e, hf, rfl⟩ := cancelBoth_eq h
  obtain ⟨hmem, hid⟩ := skel_mem_view hf
  refine ⟨ho, ?_⟩
  intro hl k hk hne
  have hk' : k ∈ s.view.skels := hk
  have hne' : k.id ≠ e.skel.id := by rw [hid]; exact hne
  exact liveAt_cancel_other ho hmem hk' hne' (Or.inr rfl)
    (liveAt_cancel_other ho hmem hk' hne' (Or.inl rfl) (hl k hk' hne))

/-- `setStragglerTimer` keeps the ownership of handles; when the other entries have a
pending timer, afterwards every entry has one. -/
theorem setStragglerTimer_live {s s1 : State} {id : Nat} {sat : Bool} {fr : Int}
    (h : setStragglerTimer s id sat fr = some s1) (hi : Inv s) (ho : OwnHandles s.view) :
    OwnHandles s1.view ∧ (LiveExcept s.view id → Live s1.view) := by
  obtain ⟨e, hf, hv⟩ := setStragglerTimer_view h
  obtain ⟨hmem, hid⟩ := skel_mem_view hf
  rw [hv]
  refine ⟨?_, ?_⟩
  · intro k1 hk1 k2 hk2 x h1 h2
    obtain ⟨a, ha, rfl⟩ := List.mem_map.mp hk1
    obtain ⟨b, hb, rfl⟩ := List.mem_map.mp hk2
    have hfresh : ∀ k ∈ s.view.skels, k.holds x → x ≠ s.nextEventId := by
      intro k hk hkx hx
      have := hi.handlesLt k hk x hkx
      rw [hx] at this
      exact Nat.lt_irrefl _ this
    by_cases hca : a.id = id <;> by_cases hcb : b.id = id
    · simp only [hca, hcb, if_true]
    · simp only [hca, hcb, if_true, if_false] at h1 h2
      exfalso
      rcases h1 with h1 | h1
      · exact hcb ((ho a ha b hb x (Or.inl h1) h2).symm.trans hca)
      · simp only [Option.some.injEq] at h1
        exact absurd h1.symm (hfresh b hb h2)
    · simp only [hca, hcb, if_true, if_false] at h1 h2
      exfalso
      rcases h2 with h2 | h2
      · exact hca ((ho a ha b hb x h1 (Or.inl h2)).trans hcb)
      · simp only [Option.some.injEq] at h2
        exact absurd h2.symm (hfresh a ha h1)
    · simp only [hca, hcb, if_false] at h1 h2 ⊢
      exact ho a ha b hb x h1 h2
  · intro hl k hk
    obtain ⟨a, ha, rfl⟩ := List.mem_map.mp hk
    by_cases hca : a.id = id
    · simp only [hca, if_true]
      exact Or.inr ⟨_, List.mem_append_right _ (List.mem_singleton_self _), rfl⟩
    · simp only [hca, if_false]
      have hne' : a.id ≠ e.skel.id := by rw [hid]; exact hca
      exact liveAt_mono (fun ev hev => List.mem_append_left _ hev)
        (liveAt_cancel_other ho hmem ha hne' (Or.inr rfl) (hl a ha hca))

/-- `setUnsatisfyTimer` keeps the ownership of handles; when the other entries have a
pending timer, afterwards every entry has one. -/
theorem setUnsatisfyTimer_live {env : Env} {s s1 : State} {id : Nat}
    (h : setUnsatisfyTimer env s id = some s1) (hi : Inv s) (ho : OwnHandles s.view) :
    OwnHandles s1.view ∧ (LiveExcept s.view id → Live s1.view) := by
  obtain ⟨e, delay, hf, hv⟩ := setUnsatisfyTimer_view h
  obtain ⟨hmem, hid⟩ := skel_mem_view hf
  rw [hv]
  refine ⟨?_, ?_⟩
  · intro k1 hk1 k2 hk2 x h1 h2
    obtain ⟨a, ha, rfl⟩ := List.mem_map.mp hk1
    obtain ⟨b, hb, rfl⟩ := List.mem_map.mp hk2
    have hfresh : ∀ k ∈ s.view.skels, k.holds x → x ≠ s.nextEventId := by
      intro k hk hkx hx
      have := hi.handlesLt k hk x hkx
      rw [hx] at this
      exact Nat.lt_irrefl _ this
    by_cases hca : a.id = id <;> by_cases hcb : b.id = id
    · simp only [hca, hcb, if_true]
    · simp only [hca, hcb, if_true, if_false] at h1 h2
      exfalso
      rcases h1 with h1 | h1
      · simp only [Option.some.injEq] at h1
        exact absurd h1.symm (hfresh b hb h2)
      · exact hcb ((ho a ha b hb x (Or.inr h1) h2).symm.trans hca)
    · simp only [hca, hcb, if_true, if_false] at h1 h2
      exfalso
      rcases h2 with h2 | h2
      · simp only [Option.some.injEq] at h2
        exact absurd h2.symm (hfresh a ha h1)
      · exact hca ((ho a ha b hb x h1 (Or.inr h2)).trans hcb)
    · simp only [hca, hcb, if_false] at h1 h2 ⊢
      exact ho a ha b hb x h1 h2
  · intro hl k hk
    obtain ⟨a, ha, rfl⟩ := List.mem_map.mp hk
    by_cases hca : a.id = id
    · simp only [hca, if_true]
      exact Or.inl ⟨_, List.mem_append_right _ (List.mem_singleton_self _), rfl⟩
    · simp only [hca, if_false]
      have hne' : a.id ≠ e.skel.id := by rw [hid]; exact hca
      exact liveAt_mono (fun ev hev => List.mem_append_left _ hev)
        (liveAt_cancel_other ho hmem ha hne' (Or.inl rfl) (hl a ha hca))

/-- Arming is a case of keeping. -/
theorem keepsLive_of_arms {id : Nat} {s s1 : State} (h : Arms id s s1) : KeepsLive id s s1 :=
  ⟨h.1, fun hl => live_liveExcept id (h.2 hl), fun hl => h.2 (live_liveExcept id hl)⟩

/-- A step that keeps the view keeps the pending timers. -/
theorem keepsLive_of_view {id : Nat} {s s1 : State} (hv : s1.view = s.view)
    (ho : OwnHandles s.view) : KeepsLive id s s1 :=
  ⟨(live_of_view hv id).1 ho, (live_of_view hv id).2.1, (live_of_view hv id).2.2⟩

/-- Keeping composes. -/
theorem keepsLive_trans {id : Nat} {s s1 s2 : State} (h1 : KeepsLive id s s1)
    (h2 : KeepsLive id s1 s2) : KeepsLive id s s2 :=
  ⟨h2.1, fun hl => h2.2.1 (h1.2.1 hl), fun hl => h2.2.2 (h1.2.2 hl)⟩

/-- Keeping, then arming. -/
theorem arms_of_keeps_arms {id : Nat} {s s1 s2 : State} (h1 : KeepsLive id s s1)
    (h2 : Arms id s1 s2) : Arms id s s2 :=
  ⟨h2.1, fun hl => h2.2 (h1.2.1 hl)⟩

/-- Arming, then keeping. -/
theorem arms_of_arms_keeps {id : Nat} {s s1 s2 : State} (h1 : Arms id s s1)
    (h2 : KeepsLive id s1 s2) : Arms id s s2 :=
  ⟨h2.1, fun hl => h2.2.2 (h1.2 hl)⟩

/-- `onInterestReject` keeps the pending timers. -/
theorem onInterestReject_live {env : Env} {s s1 : State} {id : Nat}
    (h : onInterestReject env s id = some s1) (hi : Inv s) (ho : OwnHandles s.view) :
    KeepsLive id s s1 := by
  unfold onInterestReject at h
  cases hf : findEntry s id with
  | none => simp [hf] at h
  | some e =>
    simp only [hf] at h
    split at h
    · simp at h; subst h; exact keepsLive_of_view rfl ho
    · cases hc : cancelUnsatisfyAndStragglerTimer s id with
      | none => simp [hc] at h
      | some s2 =>
        simp only [hc] at h
        obtain ⟨ho2, hl2⟩ := cancelBoth_live hc ho
        obtain ⟨hi2, _⟩ := cancelBoth_spec hc hi
        obtain ⟨ho3, hl3⟩ := setStragglerTimer_live h hi2 ho2
        exact ⟨ho3, fun hl => live_liveExcept id (hl3 (hl2 hl)),
          fun hl => hl3 (hl2 (live_liveExcept id hl))⟩

/-- One call of the strategy keeps the pending timers. -/
theorem applyStrategyAction_live {env : Env} {s s1 : State} {id : Nat} {a : StrategyAction}
    (h : applyStrategyAction env s id a = some s1) (hi : Inv s) (ho : OwnHandles s.view) :
    KeepsLive id s s1 := by
  cases a with
  | sendInterest outFace interest => exact keepsLive_of_view (onOutgoingInterest_view h) ho
  | rejectPendingInterest => exact onInterestReject_live h hi ho
  | sendNack outFace reason => exact keepsLive_of_view (onOutgoingNack_view h) ho

/-- The calls of the strategy keep the pending timers. -/
theorem runStrategyActions_live {env : Env} {id : Nat} (as : List StrategyAction) :
    ∀ {s s1 : State}, runStrategyActions env id s as = some s1 → Inv s → OwnHandles s.view →
      KeepsLive id s s1 := by
  induction as with
  | nil =>
    intro s s1 h hi ho
    simp [runStrategyActions] at h
    subst h
    exact keepsLive_of_view rfl ho
  | cons a rest ih =>
    intro s s1 h hi ho
    cases ha : applyStrategyAction env s id a with
    | none => simp [runStrategyActions, ha] at h
    | some s2 =>
      simp only [runStrategyActions, ha] at h
      have h1 := applyStrategyAction_live ha hi ho
      exact keepsLive_trans h1 (ih h ((applyStrategyAction_keeps ha).1 hi) h1.1)

/-- An extension point keeps the pending timers. -/
theorem dispatchToStrategy_live {env : Env} {s s1 : State} {point : ExtensionPoint}
    {id : Nat} (h : dispatchToStrategy env s point id = some s1) (hi : Inv s)
    (ho : OwnHandles s.view) : KeepsLive id s s1 := by
  unfold dispatchToStrategy at h
  cases hf : findEntry s id with
  | none => simp [hf] at h
  | some e =>
    simp only [hf] at h
    exact runStrategyActions_live (s := emit s (.strategy point id)) _ h hi ho

/-- `Pit::erase` of the entry `id` leaves every entry with a pending timer when the other
entries had one. -/
theorem pitErase_live (s : State) (id : Nat) (ho : OwnHandles s.view) :
    Arms id s (Pit.erase s id) := by
  unfold Arms
  rw [pitErase_view]
  refine ⟨?_, ?_⟩
  · intro k1 hk1 k2 hk2 x h1 h2
    exact ho k1 (List.mem_filter.mp hk1).1 k2 (List.mem_filter.mp hk2).1 x h1 h2
  · intro hl k hk
    obtain ⟨hk1, hk2⟩ := List.mem_filter.mp hk
    exact hl k hk1 (by simpa using hk2)

/-- `onInterestFinalize` leaves every entry with a pending timer when the entries other
than the finalized one had one. -/
theorem onInterestFinalize_live {env : Env} {s s1 : State} {id : Nat} {sat : Bool} {fr : Int}
    (h : onInterestFinalize env s id sat fr = some s1) (ho : OwnHandles s.view) :
    Arms id s s1 := by
  unfold onInterestFinalize at h
  cases hd : insertDeadNonceList env s id sat fr none with
  | none => simp [hd] at h
  | some s2 =>
    cases hc : cancelUnsatisfyAndStragglerTimer s2 id with
    | none => simp [hd, hc] at h
    | some s3 =>
      simp only [hd, hc, Option.some.injEq] at h
      subst h
      have h2 : KeepsLive id s s2 := keepsLive_of_view (insertDeadNonceList_view hd) ho
      obtain ⟨ho3, hl3⟩ := cancelBoth_live hc h2.1
      have h4 := pitErase_live s3 id ho3
      exact ⟨h4.1, fun hl => h4.2 (hl3 (h2.2.1 hl))⟩

/-- `onInterestUnsatisfied` leaves every entry with a pending timer when the entries
other than the expired one had one. -/
theorem onInterestUnsatisfied_live {env : Env} {s s1 : State} {id : Nat}
    (h : onInterestUnsatisfied env s id = some s1) (hi : Inv s) (ho : OwnHandles s.view) :
    Arms id s s1 := by
  unfold onInterestUnsatisfied at h
  cases hd : dispatchToStrategy env s .beforeExpirePendingInterest id with
  | none => simp [hd] at h
  | some s2 =>
    simp only [hd] at h
    have h2 := dispatchToStrategy_live hd hi ho
    exact arms_of_keeps_arms h2 (onInterestFinalize_live h h2.1)

/-- `onContentStoreHit` leaves every entry with a pending timer when the other entries
had one. -/
theorem onContentStoreHit_live {env : Env} {s s1 : State} {inFace : Face} {id : Nat}
    {interest : Interest} {data : Data}
    (h : onContentStoreHit env s inFace id interest data = some s1) (hi : Inv s)
    (ho : OwnHandles s.view) : Arms id s s1 := by
  unfold onContentStoreHit at h
  cases hd : dispatchToStrategy env s .beforeSatisfyInterest id with
  | none => simp [hd] at h
  | some s2 =>
    simp only [hd] at h
    cases hst : setStragglerTimer s2 id true data.freshnessPeriod with
    | none => simp [hst] at h
    | some s3 =>
      simp only [hst, Option.some.injEq] at h
      subst h
      have h2 := dispatchToStrategy_live hd hi ho
      have h3 : Arms id s2 s3 :=
        setStragglerTimer_live hst ((dispatchToStrategy_keeps hd).1 hi) h2.1
      exact arms_of_arms_keeps (arms_of_keeps_arms h2 h3)
        (keepsLive_of_view (onOutgoingData_view _ _ _ _) h3.1)

/-- Next-hop resolution keeps the pending timers. -/
theorem resolveNextHop_live {env : Env} {s s1 : State} {inFace : Face} {id : Nat}
    {interest : Interest} (h : resolveNextHop env s inFace id interest = some s1)
    (hi : Inv s) (ho : OwnHandles s.view) : KeepsLive id s s1 := by
  unfold resolveNextHop at h
  cases hc : env.functionChaining interest with
  | none => simp [hc] at h
  | some r =>
    obtain ⟨interest2, fibEntry⟩ := r
    simp only [hc] at h
    split at h
    · exact keepsLive_of_view (forwardToNextHops_view _ h) ho
    · split at h
      · split at h
        · exact keepsLive_of_view (onOutgoingInterest_view h) ho
        · simp at h; subst h; exact keepsLive_of_view rfl ho
      · exact dispatchToStrategy_live h hi ho

/-- The first part of `onContentStoreMiss` leaves every entry with a pending timer when
the other entries had one. -/
theorem recordPending_live {env : Env} {s s1 : State} {inFace : Face} {id : Nat}
    {interest : Interest} (h : recordPending env s inFace id interest = some s1)
    (hi : Inv s) (ho : OwnHandles s.view) : Arms id s s1 := by
  unfold recordPending at h
  cases hf : findEntry s id with
  | none => simp [hf] at h
  | some e =>
    simp only [hf] at h
    have hv := view_modifyEntry s id (fun e => insertOrUpdateInRecord env e inFace interest)
      (fun x => insertOrUpdateInRecord_skel env x inFace interest)
    have h1 : KeepsLive id s (modifyEntry s id
        (fun e => insertOrUpdateInRecord env e inFace interest)) := keepsLive_of_view hv ho
    have hi1 : Inv (modifyEntry s id
        (fun e => insertOrUpdateInRecord env e inFace interest)) := by
      unfold Inv; rw [hv]; exact hi
    exact arms_of_keeps_arms h1 (setUnsatisfyTimer_live h hi1 h1.1)

/-- `onContentStoreMiss` on an entry whose straggler timer is idle leaves every entry
with a pending timer when the other entries had one. -/
theorem onContentStoreMiss_live {env : Env} {s s1 : State} {inFace : Face} {id : Nat}
    {interest : Interest} (h : onContentStoreMiss env s inFace id interest = some s1)
    (hi : Inv s) (hs : StragIdle s.view id) (ho : OwnHandles s.view) : Arms id s s1 := by
  unfold onContentStoreMiss at h
  cases hr : recordPending env s inFace id interest with
  | none => simp [hr] at h
  | some s2 =>
    simp only [hr] at h
    have h1 := recordPending_live hr hi ho
    have hi2 := (recordPending_spec hr).1 hi hs
    exact arms_of_arms_keeps h1 (resolveNextHop_live h hi2 h1.1)

/-- `Pit::insert` keeps the ownership of handles; when every entry had a pending timer,
afterwards every entry other than the located or created one has one. -/
theorem pitInsert_live (s : State) (interest : Interest) (ho : OwnHandles s.view) :
    OwnHandles (Pit.insert s interest).1.view ∧
      (Live s.view → LiveExcept (Pit.insert s interest).1.view (Pit.insert s interest).2) := by
  unfold Pit.insert
  cases hf : s.m_pit.find? (fun e => sameRequest e.interest interest) with
  | some e => exact ⟨ho, fun hl => live_liveExcept _ hl⟩
  | none =>
    simp only
    have hskels : ∀ k, k ∈ (State.view { s with
        m_pit := s.m_pit ++ [PitEntry.mk s.nextEntryId interest [] [] none none],
        nextEntryId := s.nextEntryId + 1 }).skels →
        k ∈ s.view.skels ∨ k = Skeleton.mk s.nextEntryId interest none none := by
      intro k hk
      simp only [State.view, List.map_append, List.mem_append, List.map_cons, List.map_nil,
        List.mem_singleton] at hk
      rcases hk with hk | hk
      · exact Or.inl hk
      · exact Or.inr hk
    refine ⟨?_, ?_⟩
    · intro k1 hk1 k2 hk2 x h1 h2
      rcases hskels k1 hk1 with h | h
      · rcases hskels k2 hk2 with h' | h'
        · exact ho k1 h k2 h' x h1 h2
        · rw [h'] at h2
          rcases h2 with h2 | h2 <;> simp at h2
      · rw [h] at h1
        rcases h1 with h1 | h1 <;> simp at h1
    · intro hl k hk hne
      rcases hskels k hk with h | h
      · exact hl k h
      · rw [h] at hne
        exact absurd rfl hne

/-- `onIncomingInterest` keeps the ownership of handles and leaves every entry with a
pending timer. -/
theorem onIncomingInterest_live {env : Env} {s s1 : State} {inFace : Face}
    {interest : Interest} (h : onIncomingInterest env s inFace interest = some s1)
    (hi : Inv s) (ho : OwnHandles s.view) (hl : Live s.view) :
    OwnHandles s1.view ∧ Live s1.view := by
  unfold onIncomingInterest at h
  simp only at h
  split at h
  · simp only [Option.some.injEq] at h
    subst h
    exact ⟨ho, hl⟩
  · generalize hs0 : ({ s with m_counters :=
        { s.m_counters with nInInterests := s.m_counters.nInInterests + 1 } } : State) = s0 at h
    have hv0 : s0.view = s.view := by rw [← hs0]; rfl
    generalize hint : ({ interest with incomingFaceIdTag := some inFace.id } : Interest) =
      interest1 at h
    have hi0 : Inv s0 := by unfold Inv; rw [hv0]; exact hi
    have ho0 : OwnHandles s0.view := by rw [hv0]; exact ho
    have hl0 : Live s0.view := by rw [hv0]; exact hl
    obtain ⟨hins1, _, _⟩ := pitInsert_spec s0 interest1
    obtain ⟨hoI, hlI⟩ := pitInsert_live s0 interest1 ho0
    generalize Pit.insert s0 interest1 = ins at h hins1 hoI hlI
    cases hf : findEntry ins.1 ins.2 with
    | none => simp [hf] at h
    | some pitEntry =>
      simp only [hf] at h
      cases hc : cancelUnsatisfyAndStragglerTimer ins.1 ins.2 with
      | none => simp [hc] at h
      | some s2 =>
        simp only [hc] at h
        obtain ⟨ho2, hl2⟩ := cancelBoth_live hc hoI
        obtain ⟨hi2, _, hu2, hs2, _⟩ := cancelBoth_spec hc (hins1 hi0)
        have hle2 : LiveExcept s2.view ins.2 := hl2 (hlI hl0)
        split at h
        · split at h
          · have := onContentStoreHit_live h hi2 ho2
            exact ⟨this.1, this.2 hle2⟩
          · have := onContentStoreMiss_live h hi2 hs2 ho2
            exact ⟨this.1, this.2 hle2⟩
        · have := onContentStoreMiss_live h hi2 hs2 ho2
          exact ⟨this.1, this.2 hle2⟩

/-- One iteration of the loop of `onIncomingData` that returns: the states it went
through. -/
theorem satisfyEntry_steps {env : Env} {inFace : Face} {l l1 : DataLoop} {id : Nat}
    (h : satisfyEntry env inFace l id = some l1) :
    ∃ sc s2 flag fr s3 s4,
      cancelUnsatisfyAndStragglerTimer l.state id = some sc ∧
      s2.view = sc.view ∧
      dispatchToStrategy env s2 .beforeSatisfyInterest id = some s3 ∧
      insertDeadNonceList env s3 id true fr (some inFace) = some s4 ∧
      setStragglerTimer
        (if flag = true then
          modifyEntry s4 id (fun x => deleteOutRecord (clearInRecords x) inFace) else s4)
        id true fr = some l1.state := by
  unfold satisfyEntry at h
  dsimp only at h
  split at h
  · exact absurd h (by simp)
  · rename_i sc hc
    split at h
    · exact absurd h (by simp)
    · rename_i e hfe
      split at h
      · exact absurd h (by simp)
      · rename_i s2 pending flag hch
        have h2 : s2.view = sc.view := by
          split at hch
          · split at hch
            · exact absurd hch (by simp)
            · simp only [Option.some.injEq, Prod.mk.injEq] at hch
              rw [← hch.1]
              exact view_modifyEntry sc id _ (fun x => rfl)
          · simp only [Option.some.injEq, Prod.mk.injEq] at hch
            rw [← hch.1]
        split at h
        · exact absurd h (by simp)
        · rename_i s3 hd
          split at h
          · exact absurd h (by simp)
          · rename_i s4 hn
            split at h
            · exact absurd h (by simp)
            · rename_i s6 hst
              simp only [Option.some.injEq] at h
              refine ⟨sc, s2, flag, _, s3, s4, hc, h2, hd, hn, ?_⟩
              rw [← h]
              exact hst

/-- One iteration of the loop of `onIncomingData` keeps the ownership of handles and
leaves every entry with a pending timer. -/
theorem satisfyEntry_live {env : Env} {inFace : Face} {l l1 : DataLoop} {id : Nat}
    (h : satisfyEntry env inFace l id = some l1) (hi : Inv l.state)
    (ho : OwnHandles l.state.view) (hl : Live l.state.view) :
    OwnHandles l1.state.view ∧ Live l1.state.view := by
  obtain ⟨sc, s2, flag, fr, s3, s4, hc, hv2, hd, hn, hst⟩ := satisfyEntry_steps h
  obtain ⟨hoc, hlc⟩ := cancelBoth_live hc ho
  obtain ⟨hic, _⟩ := cancelBoth_spec hc hi
  have hi2 : Inv s2 := by unfold Inv; rw [hv2]; exact hic
  have ho2 : OwnHandles s2.view := by rw [hv2]; exact hoc
  have hl2 : LiveExcept s2.view id := by rw [hv2]; exact hlc (live_liveExcept id hl)
  have h3 := dispatchToStrategy_live hd hi2 ho2
  have hi3 := (dispatchToStrategy_keeps hd).1 hi2
  have hv4 := insertDeadNonceList_view hn
  have hv5 : (if flag = true then
      modifyEntry s4 id (fun x => deleteOutRecord (clearInRecords x) inFace)
      else s4).view = s3.view := by
    split
    · exact (view_modifyEntry s4 id (fun x => deleteOutRecord (clearInRecords x) inFace)
        (fun x => rfl)).trans hv4
    · exact hv4
  have hi5 : Inv (if flag = true then
      modifyEntry s4 id (fun x => deleteOutRecord (clearInRecords x) inFace)
      else s4) := by unfold Inv; rw [hv5]; exact hi3
  have h5 : KeepsLive id s3 _ := keepsLive_of_view hv5 h3.1
  have h6 := setStragglerTimer_live hst hi5 h5.1
  exact ⟨h6.1, h6.2 (h5.2.1 (h3.2.1 hl2))⟩

/-- The loop of `onIncomingData` keeps the ownership of handles and leaves every entry
with a pending timer. -/
theorem satisfyEntries_live {env : Env} {inFace : Face} (ids : List Nat) :
    ∀ {l l1 : DataLoop}, satisfyEntries env inFace l ids = some l1 → Inv l.state →
      OwnHandles l.state.view → Live l.state.view →
      OwnHandles l1.state.view ∧ Live l1.state.view := by
  induction ids with
  | nil =>
    intro l l1 h hi ho hl
    simp [satisfyEntries] at h
    subst h
    exact ⟨ho, hl⟩
  | cons id rest ih =>
    intro l l1 h hi ho hl
    cases hs : satisfyEntry env inFace l id with
    | none => simp [satisfyEntries, hs] at h
    | some l2 =>
      simp only [satisfyEntries, hs] at h
      obtain ⟨ho2, hl2⟩ := satisfyEntry_live hs hi ho hl
      exact ih h ((satisfyEntry_spec hs).1 hi) ho2 hl2

/-- `onIncomingData` keeps the ownership of handles and leaves every entry with a
pending timer. -/
theorem onIncomingData_live {env : Env} {s s1 : State} {inFace : Face} {data : Data}
    (h : onIncomingData env s inFace data = some s1) (hi : Inv s) (ho : OwnHandles s.view)
    (hl : Live s.view) : OwnHandles s1.view ∧ Live s1.view := by
  unfold onIncomingData at h
  simp only at h
  split at h
  · simp only [Option.some.injEq] at h
    subst h
    exact ⟨ho, hl⟩
  · split at h
    · simp at h
    · rename_i data1 hov
      split at h
      · simp only [Option.some.injEq] at h
        subst h
        have hv : (onDataUnsolicited env { s with m_counters :=
            { s.m_counters with nInData := s.m_counters.nInData + 1 } } inFace data1).view =
            s.view := by
          unfold onDataUnsolicited
          split <;> rfl
        rw [hv]
        exact ⟨ho, hl⟩
      · split at h
        · simp at h
        · rename_i l hl1
          simp only [Option.some.injEq] at h
          subst h
          have hv := view_foldl_onOutgoingData env l.data l.pendingDownstreams l.state
          rw [hv]
          exact satisfyEntries_live _ hl1 hi ho hl

/-- `onIncomingNack` keeps the ownership of handles and leaves every entry with a
pending timer. -/
theorem onIncomingNack_live {env : Env} {s s1 : State} {inFace : Face} {nack : Nack}
    (h : onIncomingNack env s inFace nack = some s1) (hi : Inv s) (ho : OwnHandles s.view)
    (hl : Live s.view) : OwnHandles s1.view ∧ Live s1.view := by
  unfold onIncomingNack at h
  simp only at h
  have hdrop : ∀ {t : State}, t = ({ s with m_counters :=
      { s.m_counters with nInNacks := s.m_counters.nInNacks + 1 } } : State) →
      OwnHandles t.view ∧ Live t.view := by
    intro t ht
    have hv : t.view = s.view := by rw [ht]; rfl
    rw [hv]
    exact ⟨ho, hl⟩
  split at h
  · simp only [Option.some.injEq] at h; exact hdrop h.symm
  · split at h
    · simp only [Option.some.injEq] at h; exact hdrop h.symm
    · split at h
      · simp only [Option.some.injEq] at h; exact hdrop h.symm
      · split at h
        · simp only [Option.some.injEq] at h; exact hdrop h.symm
        · have hv1 : ∀ pid : Nat, (modifyEntry ({ s with m_counters :=
              { s.m_counters with nInNacks := s.m_counters.nInNacks + 1 } } : State)
            pid (fun x => { x with outRecords := x.outRecords.map (fun r =>
                if r.face = inFace then { r with incomingNack := some nack } else r) })).view =
              s.view := fun pid => view_modifyEntry _ pid _ (fun x => rfl)
          have hk := dispatchToStrategy_live h (by unfold Inv; rw [hv1]; exact hi)
            (by rw [hv1]; exact ho)
          exact ⟨hk.1, hk.2.2 (by rw [hv1]; exact hl)⟩

/-- Firing an event keeps the ownership of handles and leaves every entry with a pending
timer. -/
theorem fire_live {env : Env} {s s1 : State} {eventId : Nat}
    (h : fire env s eventId = some s1) (hi : Inv s) (ho : OwnHandles s.view)
    (hl : Live s.view) : OwnHandles s1.view ∧ Live s1.view := by
  unfold fire at h
  cases hf : s.events.find? (fun ev => ev.id == eventId) with
  | none =>
    simp only [hf, Option.some.injEq] at h
    subst h
    exact ⟨ho, hl⟩
  | some ev =>
    simp only [hf] at h
    have hevid : ev.id = eventId := by simpa using List.find?_some hf
    have hi1 : Inv ({ s with events := s.events.filter (fun x => x.id != eventId) } : State) :=
      invV_shrink hi _ (fun e1 he1 => (List.mem_filter.mp he1).1)
    have ho1 : OwnHandles
        ({ s with events := s.events.filter (fun x => x.id != eventId) } : State).view := ho
    obtain ⟨ke, hke, hkid, hkh⟩ := hi.tracked ev (List.mem_of_find?_eq_some hf)
    have hholds : ke.holds eventId := by
      rw [← hevid]
      cases hcb : ev.callback with
      | unsatisfied e => rw [hcb] at hkh; exact Or.inl hkh
      | finalize e sat fr => rw [hcb] at hkh; exact Or.inr hkh
    have hl1 : LiveExcept
        ({ s with events := s.events.filter (fun x => x.id != eventId) } : State).view
        ev.callback.entry := by
      intro k hk hne
      have hk' : k ∈ s.view.skels := hk
      have hnh : ¬ k.holds eventId := fun hkx => hne ((ho k hk' ke hke eventId hkx hholds).trans hkid)
      have keep : ∀ t : Option Nat, (t = k.unsat ∨ t = k.strag) → Pending s.events t →
          Pending (s.events.filter (fun x => x.id != eventId)) t := by
        intro t ht hp
        obtain ⟨e1, he1, ht1⟩ := hp
        refine ⟨e1, List.mem_filter.mpr ⟨he1, ?_⟩, ht1⟩
        simp only [bne_iff_ne, ne_eq]
        intro he
        apply hnh
        rcases ht with ht | ht
        · exact Or.inl (by rw [← ht, ht1, he])
        · exact Or.inr (by rw [← ht, ht1, he])
      rcases hl k hk' with hp | hp
      · exact Or.inl (keep _ (Or.inl rfl) hp)
      · exact Or.inr (keep _ (Or.inr rfl) hp)
    cases hcb : ev.callback with
    | unsatisfied e =>
      simp only [hcb] at h
      rw [hcb] at hl1
      have := onInterestUnsatisfied_live h hi1 ho1
      exact ⟨this.1, this.2 hl1⟩
    | finalize e sat fr =>
      simp only [hcb] at h
      rw [hcb] at hl1
      have := onInterestFinalize_live h ho1
      exact ⟨this.1, this.2 hl1⟩

/-- One event keeps the ownership of handles and leaves every entry with a pending
timer. -/
theorem step_live {env : Env} {s s1 : State} {input : Input}
    (h : step env s input = some s1) (hi : Inv s) (ho : OwnHandles s.view)
    (hl : Live s.view) : OwnHandles s1.view ∧ Live s1.view := by
  cases input with
  | interest inFace interest => exact onIncomingInterest_live h hi ho hl
  | data inFace data => exact onIncomingData_live h hi ho hl
  | nack inFace nack => exact onIncomingNack_live h hi ho hl
  | timer eventId => exact fire_live h hi ho hl
  | strategyCall entry action =>
    have hk := applyStrategyAction_live h hi ho
    exact ⟨hk.1, hk.2.2 hl⟩

/-- A sequence of events keeps the ownership of handles and leaves every entry with a
pending timer. -/
theorem runEvents_live (trace : List (Env × Input)) :
    ∀ {s s1 : State}, runEvents s trace = some s1 → Inv s → OwnHandles s.view →
      Live s.view → OwnHandles s1.view ∧ Live s1.view := by
  induction trace with
  | nil =>
    intro s s1 h hi ho hl
    simp [runEvents] at h
    subst h
    exact ⟨ho, hl⟩
  | cons p rest ih =>
    intro s s1 h hi ho hl
    obtain ⟨env, input⟩ := p
    cases hs : step env s input with
    | none => simp [runEvents, hs] at h
    | some s2 =>
      simp only [runEvents, hs] at h
      obtain ⟨ho2, hl2⟩ := step_live hs hi ho hl
      exact ih h ((step_spec hs).1 hi) ho2 hl2

/-- In every reachable state no handle is held by two entries and every entry has a
pending timer. -/
theorem live_of_reachable {s : State} (h : Reachable s) :
    OwnHandles s.view ∧ Live s.view := by
  obtain ⟨trace, ht⟩ := h
  refine runEvents_live trace ht inv_initial ?_ ?_
  · intro k1 hk1; simp [State.view, initial] at hk1
  · intro k hk; simp [State.view, initial] at hk

/-- C31: in every state reached by a sequence of completed pipeline events (Interest,
Data and Nack arrivals, strategy calls such as a rejection, timer firings), every entry of
the PIT has exactly one of its two timers armed, and an event of the scheduler is bound to
the entry and is the one its armed timer field names. -/
theorem every_entry_one_timer_armed (s : State) (h : Reachable s) :
    ∀ e ∈ s.m_pit,
      ((armed s e.m_unsatisfyTimer = true ∧ armed s e.m_stragglerTimer = false) ∨
        (armed s e.m_unsatisfyTimer = false ∧ armed s e.m_stragglerTimer = true)) ∧
      ∃ ev ∈ s.events, ev.callback.entry = e.id ∧
        (e.m_unsatisfyTimer = some ev.id ∨ e.m_stragglerTimer = some ev.id) := by
  intro e he
  have hi := inv_of_reachable h
  obtain ⟨ho, hl⟩ := live_of_reachable h
  have hk : e.skel ∈ s.view.skels := List.mem_map.mpr ⟨e, he, rfl⟩
  have hex := hi.exclusive e.skel hk
  have hlive := hl e.skel hk
  have hu : armed s e.m_unsatisfyTimer = true ↔ Pending s.events e.m_unsatisfyTimer :=
    armed_iff s _
  have hs : armed s e.m_stragglerTimer = true ↔ Pending s.events e.m_stragglerTimer :=
    armed_iff s _
  have bound : ∀ ev ∈ s.events, e.skel.holds ev.id → ev.callback.entry = e.id := by
    intro ev hev hh
    obtain ⟨ke, hke, hkid, hkh⟩ := hi.tracked ev hev
    have hkholds : ke.holds ev.id := by
      cases hcb : ev.callback with
      | unsatisfied x => rw [hcb] at hkh; exact Or.inl hkh
      | finalize x sat fr => rw [hcb] at hkh; exact Or.inr hkh
    have := ho ke hke e.skel hk ev.id hkholds hh
    rw [← hkid, this]
    rfl
  refine ⟨?_, ?_⟩
  · rcases hlive with hp | hp
    · left
      refine ⟨hu.mpr hp, ?_⟩
      cases hc : armed s e.m_stragglerTimer with
      | false => rfl
      | true => exact absurd ⟨hp, hs.mp hc⟩ hex
    · right
      refine ⟨?_, hs.mpr hp⟩
      cases hc : armed s e.m_unsatisfyTimer with
      | false => rfl
      | true => exact absurd ⟨hu.mp hc, hp⟩ hex
  · rcases hlive with ⟨ev, hev, ht⟩ | ⟨ev, hev, ht⟩
    · exact ⟨ev, hev, bound ev hev (Or.inl ht), Or.inl ht⟩
    · exact ⟨ev, hev, bound ev hev (Or.inr ht), Or.inr ht⟩

/-- Witness for `every_entry_one_timer_armed`: the state after the Interest of the sample
run, whose one entry has its unsatisfy timer armed and its straggler timer idle. -/
theorem every_entry_one_timer_armed_witness :
    Reachable samplePending ∧
    samplePending.m_pit.map (fun e => (armed samplePending e.m_unsatisfyTimer,
      armed samplePending e.m_stragglerTimer)) = [(true, false)] ∧
    ∀ e ∈ samplePending.m_pit,
      ((armed samplePending e.m_unsatisfyTimer = true ∧
          armed samplePending e.m_stragglerTimer = false) ∨
        (armed samplePending e.m_unsatisfyTimer = false ∧
          armed samplePending e.m_stragglerTimer = true)) ∧
      ∃ ev ∈ samplePending.events, ev.callback.entry = e.id ∧
        (e.m_unsatisfyTimer = some ev.id ∨ e.m_stragglerTimer = some ev.id) :=
  ⟨⟨sampleTrace.take 2, by decide⟩, by decide,
    every_entry_one_timer_armed samplePending ⟨sampleTrace.take 2, by decide⟩⟩

/-! ### The forwarder: the replica selection of choice type 2 -/

end Forwarder

/-! ### The producer: the freshness period of the Data it builds -/

namespace Producer

/-- C30: with the `Freshness` attribute at 0 the Data of `OnInterest` does carry a
freshness period, namely 0: for the must-be-fresh Interest `/x` the running default
producer answers with Data of freshness period 0, and for this period the dead nonce
list policy of the forwarder decides to record the nonce of the satisfied entry, which
it does not for Data without a freshness period. -/
theorem zero_freshness_is_a_period :
    (OnInterest sampleProducer 0 [] (Forwarder.freshInterest 77)).map
        (fun p => p.data.freshnessPeriod) = some 0 ∧
    (OnInterest sampleProducer 0 [] (Forwarder.freshInterest 77)).map
        (fun p => Forwarder.needDnl (Forwarder.sampleEnv 2) Forwarder.freshEntryPending true
          p.data.freshnessPeriod) = some true ∧
    Forwarder.needDnl (Forwarder.sampleEnv 2) Forwarder.freshEntryPending true (-1) = false := by
  decide

end Producer

/-! ### The Data packet: the head of the function string -/

namespace Data

/-- No occurrence is found at or after the end of the string. -/
theorem find_none_of_le (c : Char) : ∀ (s : List Char) (pos : Nat), s.length ≤ pos →
    find s c pos = none := by
  intro s
  induction s with
  | nil => intro pos _; cases pos <;> rfl
  | cons x xs ih =>
    intro pos h
    cases pos with
    | zero => simp at h
    | succ p =>
      have := ih p (by simpa using h)
      simp [find, this]

/-- An occurrence found is at an index of the string, at `pos` or later. -/
theorem find_lt (c : Char) : ∀ (s : List Char) (pos i : Nat), find s c pos = some i →
    pos ≤ i ∧ i < s.length := by
  intro s
  induction s with
  | nil => intro pos i h; cases pos <;> simp [find] at h
  | cons x xs ih =>
    intro pos i h
    cases pos with
    | zero =>
      simp only [find] at h
      split at h
      · simp at h; subst h; simp
      · cases hf : find xs c 0 with
        | none => simp [hf] at h
        | some j =>
          simp [hf] at h
          have := ih 0 j hf
          subst h
          simp
          omega
    | succ p =>
      simp only [find] at h
      cases hf : find xs c p with
      | none => simp [hf] at h
      | some j =>
        simp [hf] at h
        have := ih p j hf
        subst h
        simp
        omega

/-- The search from the start of a string without `c`, followed by `c`. -/
theorem find_append (c : Char) (t : List Char) : ∀ (s : List Char), c ∉ s →
    find (s ++ c :: t) c 0 = some s.length ∧ find s c 0 = none := by
  intro s
  induction s with
  | nil => intro _; simp [find]
  | cons x xs ih =>
    intro h
    have hx : x ≠ c := fun e => h (by simp [e])
    have hxs : c ∉ xs := fun e => h (List.mem_cons_of_mem _ e)
    obtain ⟨h1, h2⟩ := ih hxs
    simp [find, hx, h1, h2]

/-- The conversion to `int` keeps a value below `2 ^ 31`. -/
theorem toInt_of_lt (n : Nat) (h : n < 2 ^ 31) : toInt n = (n : Int) := by
  unfold toInt
  have h1 : n % 2 ^ 32 = n := Nat.mod_eq_of_lt (by omega)
  rw [h1, if_pos h]

/-- `npos` converts to `-1`. -/
theorem toInt_npos : toInt npos = -1 := by
  decide

/-- The conversion to `size_t` keeps a natural number below `2 ^ 64`. -/
theorem toSize_of_lt (n : Nat) (h : n < 2 ^ 64) : toSize (n : Int) = n := by
  unfold toSize
  have : ((n : Int) % 2 ^ 64) = (n : Int) := Int.emod_eq_of_lt (by omega) (by exact_mod_cast h)
  rw [this]
  simp

/-- The segments of a string without `c`, followed by `c` and a rest. -/
theorem splitOn_append (c : Char) (t : List Char) : ∀ (s : List Char), c ∉ s →
    splitOn c (s ++ c :: t) = s :: splitOn c t ∧ splitOn c s = [s] := by
  intro s
  induction s with
  | nil => intro _; simp [splitOn]
  | cons x xs ih =>
    intro h
    have hx : x ≠ c := fun e => h (by simp [e])
    have hxs : c ∉ xs := fun e => h (List.mem_cons_of_mem _ e)
    obtain ⟨h1, h2⟩ := ih hxs
    simp [splitOn, hx, h1, h2]

/-- The segments of `c/c1/.../cn`. -/
theorem splitOn_segments : ∀ (cs : List (List Char)), (∀ x ∈ cs, '/' ∉ x) →
    ∀ c : List Char, '/' ∉ c →
      splitOn '/' (c ++ cs.flatMap (fun c => '/' :: c)) = c :: cs := by
  intro cs
  induction cs with
  | nil =>
    intro _ c hc
    simpa using (splitOn_append '/' [] c hc).2
  | cons c2 r ih =>
    intro hwf c hc
    have h2 := ih (fun x hx => hwf x (List.mem_cons_of_mem _ hx)) c2
      (hwf c2 (List.mem_cons_self _ _))
    have : c ++ (c2 :: r).flatMap (fun c => '/' :: c) =
        c ++ '/' :: (c2 ++ r.flatMap (fun c => '/' :: c)) := by simp
    rw [this, (splitOn_append '/' _ c hc).1, h2]

/-- The segments of `/c1/.../cn`. -/
theorem splitOn_flatMap (c : List Char) (cs : List (List Char))
    (hwf : ∀ x ∈ c :: cs, '/' ∉ x) :
    splitOn '/' ((c :: cs).flatMap (fun c => '/' :: c)) = [] :: c :: cs := by
  have h := splitOn_segments cs (fun x hx => hwf x (List.mem_cons_of_mem _ hx)) c
    (hwf c (List.mem_cons_self _ _))
  have : (c :: cs).flatMap (fun c => '/' :: c) = '/' :: (c ++ cs.flatMap (fun c => '/' :: c)) := by
    simp
  rw [this]
  simp only [splitOn, if_true]
  rw [h]

/-- The name of `/c1/.../cn` has the components `c1, ..., cn`. -/
theorem nameOfUri_uriOf (cs : List (List Char)) (hwf : ∀ x ∈ cs, x ≠ [] ∧ '/' ∉ x) :
    nameOfUri (uriOf cs) = cs.map String.mk := by
  unfold nameOfUri uriOf
  cases cs with
  | nil => simp [splitOn]
  | cons c rest =>
    simp only [List.isEmpty_cons, Bool.false_eq_true, if_false]
    rw [splitOn_flatMap c rest (fun x hx => (hwf x hx).2)]
    congr 1
    rw [List.filter_cons_of_neg (by simp)]
    apply List.filter_eq_self.mpr
    intro x hx
    have := (hwf x hx).1
    cases x with
    | nil => exact absurd rfl this
    | cons a b => rfl

/-- Where the index of the second slash fits `int`: for the string `/c1/c2/.../cn` with
`n >= 1` and non-empty components without a slash, the first of them shorter than
`2 ^ 31 - 1` characters when `n > 1`, `Data::removeHeadFunction` returns the name
`/c2/.../cn` (`/` when `n = 1`) and leaves the argument string equal to it. -/
theorem removeHeadFunction_drops_head (c : List Char) (cs : List (List Char))
    (hwf : ∀ x ∈ c :: cs, x ≠ [] ∧ '/' ∉ x) (hlen : cs ≠ [] → c.length + 1 < 2 ^ 31) :
    removeHeadFunction (uriOf (c :: cs)) = some (cs.map String.mk, uriOf cs) := by
  have hc : '/' ∉ c := (hwf c (List.mem_cons_self _ _)).2
  have hcne : c ≠ [] := (hwf c (List.mem_cons_self _ _)).1
  have hwf' : ∀ x ∈ cs, x ≠ [] ∧ '/' ∉ x := fun x hx => hwf x (List.mem_cons_of_mem _ hx)
  have huri : uriOf (c :: cs) = '/' :: (c ++ cs.flatMap (fun c => '/' :: c)) := by
    simp [uriOf]
  have hclen : 0 < c.length := List.length_pos.mpr hcne
  rw [huri]
  cases cs with
  | nil =>
    have hfind : find ('/' :: (c ++ ([] : List (List Char)).flatMap (fun c => '/' :: c))) '/' 1 =
        none := by
      simp [find, (find_append '/' [] c hc).2]
    unfold removeHeadFunction
    simp only [hfind, Option.getD_none, toInt_npos, true_and]
    have hl : ('/' :: (c ++ ([] : List (List Char)).flatMap (fun c => '/' :: c))).length > 1 := by
      simp; omega
    rw [if_pos hl]
    have he : erase ('/' :: (c ++ ([] : List (List Char)).flatMap (fun c => '/' :: c))) 1
        (('/' :: (c ++ ([] : List (List Char)).flatMap (fun c => '/' :: c))).length - 1) =
        some ['/'] := by
      simp [erase]
      omega
    rw [he]
    simp [uriOf, nameOfUri, splitOn]
  | cons c2 r =>
    have hrest : (c2 :: r).flatMap (fun c => '/' :: c) =
        '/' :: (c2 ++ r.flatMap (fun c => '/' :: c)) := by simp
    have hfind : find ('/' :: (c ++ (c2 :: r).flatMap (fun c => '/' :: c))) '/' 1 =
        some (c.length + 1) := by
      rw [hrest]
      simp [find, (find_append '/' _ c hc).1]
    have hpos : c.length + 1 < 2 ^ 31 := hlen (by simp)
    unfold removeHeadFunction
    simp only [hfind, Option.getD_some, toInt_of_lt _ hpos]
    have h1 : ¬ (((c.length + 1 : Nat) : Int) = -1 ∧
        ('/' :: (c ++ (c2 :: r).flatMap (fun c => '/' :: c))).length > 1) := by
      intro h; omega
    have h2 : ((c.length + 1 : Nat) : Int) ≠ -1 := by omega
    rw [if_neg h1, if_pos h2, toSize_of_lt _ (by omega)]
    have he : erase ('/' :: (c ++ (c2 :: r).flatMap (fun c => '/' :: c))) 1 (c.length + 1) =
        some (uriOf (c2 :: r)) := by
      unfold erase
      rw [if_neg (by simp)]
      rw [hrest]
      have hd : ('/' :: (c ++ '/' :: (c2 ++ r.flatMap (fun c => '/' :: c)))).drop
          (1 + (c.length + 1)) = c2 ++ r.flatMap (fun c => '/' :: c) := by
        have heq : '/' :: (c ++ '/' :: (c2 ++ r.flatMap (fun c => '/' :: c))) =
            ('/' :: c ++ ['/']) ++ (c2 ++ r.flatMap (fun c => '/' :: c)) := by simp
        rw [heq]
        exact List.drop_left' (by simp; omega)
      rw [hd]
      simp [uriOf]
    rw [he]
    simp only [Option.map_some', Option.some.injEq, Prod.mk.injEq, and_true]
    exact nameOfUri_uriOf _ hwf'

/-- Witness for `removeHeadFunction_drops_head`: from `/F1a/F2` the head `F1a` is
removed. -/
theorem removeHeadFunction_drops_head_witness :
    (∀ x ∈ [['F', '1', 'a'], ['F', '2']], x ≠ [] ∧ '/' ∉ x) ∧
    (([['F', '2']] : List (List Char)) ≠ [] → ['F', '1', 'a'].length + 1 < 2 ^ 31) ∧
    removeHeadFunction ['/', 'F', '1', 'a', '/', 'F', '2'] = some (["F2"], ['/', 'F', '2']) ∧
    removeHeadFunction (uriOf [['F', '1', 'a'], ['F', '2']]) =
      some ([['F', '2']].map String.mk, uriOf [['F', '2']]) :=
  ⟨by decide, by decide, by decide,
    removeHeadFunction_drops_head ['F', '1', 'a'] [['F', '2']] (by decide) (by decide)⟩

/-- A head component of `2 ^ 31 - 1` characters: the index of the second slash is `2 ^ 31`,
`int pos` is negative and not `-1`, and `erase(1, pos)` removes the whole rest of the
string. -/
theorem removeHeadFunction_truncated (c : List Char) (cs : List (List Char))
    (hwf : ∀ x ∈ c :: cs, x ≠ [] ∧ '/' ∉ x) (hcs : cs ≠ []) (hc : c.length + 1 = 2 ^ 31)
    (hlen : (uriOf (c :: cs)).length < 2 ^ 63) :
    removeHeadFunction (uriOf (c :: cs)) = some ([], ['/']) := by
  have hcs0 : '/' ∉ c := (hwf c (List.mem_cons_self _ _)).2
  cases cs with
  | nil => exact absurd rfl hcs
  | cons c2 r =>
    have huri : uriOf (c :: c2 :: r) =
        '/' :: (c ++ '/' :: (c2 ++ r.flatMap (fun c => '/' :: c))) := by
      simp [uriOf]
    rw [huri] at hlen ⊢
    have hfind : find ('/' :: (c ++ '/' :: (c2 ++ r.flatMap (fun c => '/' :: c)))) '/' 1 =
        some (2 ^ 31) := by
      rw [← hc]
      simp [find, (find_append '/' _ c hcs0).1]
    have hint : toInt (2 ^ 31) = -(2 ^ 31) := by decide
    have hsize : toSize (-(2 ^ 31)) = 2 ^ 64 - 2 ^ 31 := by decide
    unfold removeHeadFunction
    simp only [hfind, Option.getD_some, hint]
    rw [if_neg (by intro h; exact absurd h.1 (by decide)), if_pos (by decide), hsize]
    unfold erase
    rw [if_neg (by simp)]
    rw [List.drop_of_length_le (by omega)]
    simp [nameOfUri, splitOn]

/-- The length of `/c/d`. -/
theorem uriOf_length_pair (c d : List Char) :
    (uriOf [c, d]).length = c.length + d.length + 2 := by
  simp [uriOf]
  omega

/-- C37: the string `/c1/b` whose first component is `2 ^ 31 - 1` letters `a` is of the
form `/c1/c2` with non-empty components without a slash, and `Data::removeHeadFunction`
returns the empty name and leaves `/` in the argument, not the name `/b` and the string
`/b`: the index of the second slash does not fit `int pos`. -/
theorem removeHeadFunction_long_head :
    (∀ x ∈ [List.replicate (2 ^ 31 - 1) 'a', ['b']], x ≠ [] ∧ '/' ∉ x) ∧
    removeHeadFunction (uriOf [List.replicate (2 ^ 31 - 1) 'a', ['b']]) = some ([], ['/']) ∧
    removeHeadFunction (uriOf [List.replicate (2 ^ 31 - 1) 'a', ['b']]) ≠
      some ([['b']].map String.mk, uriOf [['b']]) := by
  have hwf : ∀ x ∈ [List.replicate (2 ^ 31 - 1) 'a', ['b']], x ≠ [] ∧ '/' ∉ x := by
    intro x hx
    simp only [List.mem_cons, List.mem_singleton, List.not_mem_nil, or_false] at hx
    rcases hx with hx | hx
    · subst hx
      refine ⟨?_, ?_⟩
      · intro h
        have := congrArg List.length h
        rw [List.length_replicate] at this
        norm_num at this
      · intro h
        exact absurd (List.eq_of_mem_replicate h) (by decide)
    · subst hx
      exact ⟨by decide, by decide⟩
  have hres := removeHeadFunction_truncated (List.replicate (2 ^ 31 - 1) 'a') [['b']] hwf
    (by simp) (by rw [List.length_replicate]; norm_num) (by
      rw [uriOf_length_pair, List.length_replicate]
      norm_num)
  refine ⟨hwf, hres, ?_⟩
  rw [hres]
  decide

/-- C38: `Data::removeHeadFunction` returns a value for the string `s` if and only if `s`
has length greater than 1 or has a slash at an index of 1 or more; for `/` and for the empty
string neither branch applies and the end of the function is reached without a return. -/
theorem removeHeadFunction_returns_iff (s : List Char) :
    ((removeHeadFunction s).isSome = true ↔
      (s.length > 1 ∨ ∃ i, 1 ≤ i ∧ s[i]? = some '/')) ∧
    removeHeadFunction ['/'] = none ∧ removeHeadFunction [] = none := by
  refine ⟨?_, by decide, by decide⟩
  have hrhs : (s.length > 1 ∨ ∃ i, 1 ≤ i ∧ s[i]? = some '/') ↔ s.length > 1 := by
    constructor
    · rintro (h | ⟨i, hi, hs⟩)
      · exact h
      · have := (List.getElem?_eq_some_iff.mp hs).1
        omega
    · exact Or.inl
  rw [hrhs]
  by_cases hl : s.length > 1
  · have he : ∀ n, ∃ r, erase s 1 n = some r := by
      intro n
      unfold erase
      rw [if_neg (by omega)]
      exact ⟨_, rfl⟩
    simp only [hl, iff_true]
    unfold removeHeadFunction
    simp only [hl, and_true]
    split
    · obtain ⟨r, hr⟩ := he (s.length - 1)
      rw [hr]; rfl
    · rename_i hne
      obtain ⟨r, hr⟩ := he (toSize (toInt ((find s '/' 1).getD npos)))
      rw [hr]; rfl
  · have hf : find s '/' 1 = none := find_none_of_le '/' s 1 (by omega)
    simp only [hl, iff_false]
    unfold removeHeadFunction
    simp [hf, toInt_npos, hl]

/-! ### The Data packet: the wire format -/

/-- C39: for a signed Data `d` (signature information and signature value set) with a
service time of 0 or more, `wireEncode` writes the elements Name, FunctionName,
ServiceTime, MetaInfo, Content, SignatureInfo, SignatureValue in this order, leaving out
FunctionName when the function name is empty and ServiceTime when the service time is 0,
and `wireDecode` of this wire into a fresh Data gives the name, function name, service
time, meta-information, content and signature of `d`. -/
theorem wire_round_trip (d : Packet) (info value : List Nat)
    (hsig : d.m_signature = Signature.mk (some info) (some value))
    (hst : d.m_serviceTime ≥ 0) :
    wireEncode d false = some
      ([Block.mk .Name (.name d.m_name)] ++
        (if d.m_functionName = [] then [] else [Block.mk .FunctionName (.name d.m_functionName)]) ++
        (if d.m_serviceTime = 0 then []
          else [Block.mk .ServiceTime (.integer d.m_serviceTime.toNat)]) ++
        [Block.mk .MetaInfo (.metaInfo d.m_metaInfo), Block.mk .Content (.bytes d.m_content),
          Block.mk .SignatureInfo (.bytes info), Block.mk .SignatureValue (.bytes value)]) ∧
    (wireEncode d false).bind (wireDecode freshData) = some d := by
  obtain ⟨n, f, st, m, c, sig⟩ := d
  simp only at hsig hst
  subst hsig
  have hst' : ((st.toNat : Nat) : Int) = st := Int.toNat_of_nonneg hst
  by_cases hf : f = [] <;> by_cases hs : st = 0
  · subst hf; subst hs
    simp [wireEncode, prependBlock, wireDecode, Block.get, Block.find, Value.asName,
      Value.asInteger, Value.asMetaInfo, Value.asBytes, freshData]
  · subst hf
    simp [wireEncode, prependBlock, wireDecode, Block.get, Block.find, Value.asName,
      Value.asInteger, Value.asMetaInfo, Value.asBytes, freshData, hs, hst, hst']
  · subst hs
    simp [wireEncode, prependBlock, wireDecode, Block.get, Block.find, Value.asName,
      Value.asInteger, Value.asMetaInfo, Value.asBytes, freshData, hf]
  · simp [wireEncode, prependBlock, wireDecode, Block.get, Block.find, Value.asName,
      Value.asInteger, Value.asMetaInfo, Value.asBytes, freshData, hf, hs, hst, hst']

/-- Witness for `wire_round_trip`: the sample Data, with function name `/F1a` and service
time 5, is encoded in seven elements and decoded to itself. -/
theorem wire_round_trip_witness :
    samplePacket.m_signature = Signature.mk (some [255]) (some [0]) ∧
    samplePacket.m_serviceTime ≥ 0 ∧
    ((wireEncode samplePacket false).map (fun w => w.map (fun b => b.type))) =
      some [.Name, .FunctionName, .ServiceTime, .MetaInfo, .Content, .SignatureInfo,
        .SignatureValue] ∧
    (wireEncode samplePacket false = some
      ([Block.mk .Name (.name samplePacket.m_name)] ++
        (if samplePacket.m_functionName = [] then []
          else [Block.mk .FunctionName (.name samplePacket.m_functionName)]) ++
        (if samplePacket.m_serviceTime = 0 then []
          else [Block.mk .ServiceTime (.integer samplePacket.m_serviceTime.toNat)]) ++
        [Block.mk .MetaInfo (.metaInfo samplePacket.m_metaInfo),
          Block.mk .Content (.bytes samplePacket.m_content),
          Block.mk .SignatureInfo (.bytes [255]), Block.mk .SignatureValue (.bytes [0])]) ∧
      (wireEncode samplePacket false).bind (wireDecode freshData) = some samplePacket) :=
  ⟨rfl, by decide, by decide, wire_round_trip samplePacket [255] [0] rfl (by decide)⟩

end Data

